import Mathlib

/-!
# tspsom: the growing ring of neurons (`neuralNet.c`, `vector.c`) and its set library

A shallow embedding of the ring engine of `tspsom`, and of the list and set library that
comes with it (`list.c`, `set.c`).

* A `Neuron` (a pointer to a `struct NeuronData`) is an address, a natural number, `0` being
  `NULL`; the heap maps allocated addresses to `struct NeuronData` cells.
  Dereferencing an address that is not allocated, a failed `assert` and an exhausted loop
  budget all make an operation return `none`.
* `double` is modelled by a linearly ordered field `R`; the `libm` functions `sqrt`, `exp`
  and `log` are parameters (`Libm R`).
* `unsigned hits` is a 32-bit counter and `unsigned long learned` a 64-bit counter: their
  increments wrap. `size` counts allocated neurons and the loop counters range over it; they
  are natural numbers.
* `while` loops whose trip count is not fixed by a counter take a `fuel` argument.
* Rounding, infinities and NaN are not modelled. Division is that of the field, so a quotient
  by zero (`±∞` in C) has no counterpart: what is stated about the value of `NEURONMOVE`
  concerns `time ≠ 0`; statements for `time = 0` do not depend on that value.
  The underflow of `exp` to 0 in `double` is modelled by `libmUnderflow`; theorems that are
  to hold of the C functions assume of `exp` and `sqrt` only what holds of them in `double`
  (values in `[0, 1]` on negative arguments, monotonicity).
* The lists of `list.c` are modelled by the lists of their values (see there).
-/

namespace Tspsom

/-! ## Data model (`vector.h`, `neuralNet.h`, `sampleMap.h`) -/

/-- `Vector` of `vector.h`. -/
structure Vector (R : Type) where
  x : R
  y : R
deriving DecidableEq

/-- `struct NeuronData` of `neuralNet.h`. -/
structure NeuronData (R : Type) where
  p : Vector R
  hits : Nat
  next : Nat
  prev : Nat
deriving DecidableEq

/-- `NeuralNet` of `neuralNet.h`: passed and returned by value. -/
structure NeuralNet where
  size : Nat
  learned : Nat
  neurons : Nat
deriving DecidableEq

/-- `SampleMap` of `sampleMap.h`. -/
structure SampleMap (R : Type) where
  size : Nat
  items : Nat
  samples : List (Vector R)

/-- `PositionBounds` of `neuralNet.h`. -/
structure PositionBounds (R : Type) where
  topleft : Vector R
  bottomright : Vector R

/-- The functions of `math.h` that the ring engine calls. -/
structure Libm (R : Type) where
  sqrt : R → R
  exp : R → R
  log : R → R

/-- The neuron store: cell `i` of the list is the memory at address `i + 1`; `none` is memory
that is not allocated (never allocated, or freed). -/
structure Heap (R : Type) where
  cells : List (Option (NeuronData R))

/-- Range of `unsigned` (the type of `hits`). -/
def UINT_RANGE : Nat := 2 ^ 32

/-- Range of `unsigned long` (the type of `learned`). -/
def ULONG_RANGE : Nat := 2 ^ 64

/-! ## `list.c` and `set.c`

A `List` of `list.c` is a `NULL`-terminated chain of nodes holding `unsigned long` values; it
is modelled by the list of its values. `list_cons` allocates a node (`calloc` does not fail in
this model), the functions that overwrite `l->next` return the list with its tail replaced.
A `Set` is a `List`. A failed `assert` makes an operation return `none`; `int` results that
are `0` or `1` are `Bool`s. -/

/-- The macro `list_eqElement` of `list.h`. -/
def list_eqElement (x y : Nat) : Bool := x == y

/-- The macro `list_geElement` of `list.h`. -/
def list_geElement (x y : Nat) : Bool := decide (x ≥ y)

/-- `list_mkEmpty` of `list.c`. -/
def list_mkEmpty : List Nat := []

/-- `list_isEmpty` of `list.c`. -/
def list_isEmpty (l : List Nat) : Bool :=
  match l with
  | [] => true
  | _ :: _ => false

/-- `list_head` of `list.c`. -/
def list_head (l : List Nat) : Option Nat :=
  match l with
  | [] => none
  | x :: _ => some x

/-- `list_tail` of `list.c`. -/
def list_tail (l : List Nat) : Option (List Nat) :=
  match l with
  | [] => none
  | _ :: t => some t

/-- `list_removeHead` of `list.c`. -/
def list_removeHead (l : List Nat) : Option (List Nat) :=
  if list_isEmpty l then none else list_tail l

/-- `list_cons` of `list.c`. -/
def list_cons (e : Nat) (l : List Nat) : List Nat := e :: l

/-- `list_isIn` of `list.c`. -/
def list_isIn (e : Nat) : List Nat → Bool
  | [] => false
  | x :: t => if list_eqElement x e then true else list_isIn e t

/-- `list_insertElem` of `list.c`. -/
def list_insertElem (e : Nat) : List Nat → List Nat
  | [] => list_cons e []
  | x :: t =>
    if list_eqElement x e then x :: t
    else if list_geElement x e then list_cons e (x :: t)
    else x :: list_insertElem e t

/-- `list_removeElem` of `list.c`; `list_removeHead` of the non-empty list `x :: t` is `t`. -/
def list_removeElem (e : Nat) : List Nat → List Nat
  | [] => []
  | x :: t =>
    if list_geElement x e && !list_eqElement x e then x :: t
    else if list_eqElement x e then t
    else x :: list_removeElem e t

/-- `list_removeAllElems` of `list.c`. -/
def list_removeAllElems : List Nat → List Nat
  | [] => []
  | _ :: t => list_removeAllElems t

/-- `set_is_empty` of `set.c`. -/
def set_is_empty (s : List Nat) : Bool := list_isEmpty s

/-- `set_get_first` of `set.c`. -/
def set_get_first (s : List Nat) : Option Nat :=
  if set_is_empty s then none else list_head s

/-- `set_get_last` of `set.c`. -/
def set_get_last : List Nat → Option Nat
  | [] => none
  | x :: t => if set_is_empty t then set_get_first (x :: t) else set_get_last t

/-- `set_contains` of `set.c`. -/
def set_contains (s : List Nat) (e : Nat) : Bool := list_isIn e s

/-- `set_sum` of `set.c`; the sum is computed in `unsigned long`. -/
def set_sum : List Nat → Nat
  | [] => 0
  | x :: t => (x + set_sum t) % ULONG_RANGE

/-- `set_make_empty` of `set.c`. -/
def set_make_empty : List Nat := list_mkEmpty

/-- `set_insert` of `set.c`. -/
def set_insert (s : List Nat) (e : Nat) : Option (List Nat) :=
  let s := list_insertElem e s
  if set_contains s e then some s else none

/-- `set_remove` of `set.c`. -/
def set_remove (s : List Nat) (e : Nat) : Option (List Nat) :=
  let s := list_removeElem e s
  if !set_contains s e then some s else none

/-- `set_remove_all_elems` of `set.c`. -/
def set_remove_all_elems (s : List Nat) : Option (List Nat) :=
  let s := list_removeAllElems s
  if set_is_empty s then some s else none

/-- `set_is_subset` of `set.c`. -/
def set_is_subset : List Nat → List Nat → Option Bool
  | [], _ => some true
  | x :: t, b =>
    if set_contains b x then do
      let tb ← list_tail b
      set_is_subset t tb
    else some false

/-- `set_equals` of `set.c`. -/
def set_equals : List Nat → List Nat → Bool
  | [], [] => true
  | [], _ :: _ => false
  | _ :: _, [] => false
  | x :: ta, y :: tb => if list_eqElement x y then set_equals ta tb else false

/-- `set_copy` of `set.c`; `res` is the set that `*res` points to on entry. -/
def set_copy (res : List Nat) : List Nat → Option (List Nat)
  | [] => if set_is_empty res then (if set_equals res [] then some res else none) else none
  | x :: t =>
    if set_is_empty res then do
      let res ← set_copy res t
      let res := list_cons x res
      if set_equals res (x :: t) then some res else none
    else none

/-- `set_union` of `set.c`; `res` is the set that `*res` points to on entry. -/
def set_union (res : List Nat) (a b : List Nat) : Option (List Nat) :=
  if set_is_empty res then
    match a, b with
    | x :: ta, y :: tb =>
      if _h1 : (!list_geElement x y) = true then do
        let res ← set_union res ta (y :: tb)
        pure (list_cons x res)
      else if _h2 : list_eqElement x y = true then do
        let res ← set_union res ta tb
        pure (list_cons x res)
      else set_union res (y :: tb) (x :: ta)
    | [], b => set_copy res b
    | x :: ta, [] => set_copy res (x :: ta)
  else none
termination_by (a.length + b.length, if (a.head?.getD 0) > (b.head?.getD 0) then 1 else 0)
decreasing_by
  · apply Prod.Lex.left
    simp only [List.length_cons]
    omega
  · apply Prod.Lex.left
    simp only [List.length_cons]
    omega
  · have hxy : y < x := by
      simp only [list_geElement, list_eqElement, Bool.not_eq_true', decide_eq_false_iff_not,
        beq_iff_eq] at _h1 _h2
      omega
    have e : (y :: tb).length + (x :: ta).length = (x :: ta).length + (y :: tb).length :=
      Nat.add_comm _ _
    rw [e]
    apply Prod.Lex.right
    simp only [List.head?_cons, Option.getD_some]
    rw [if_neg (by omega), if_pos hxy]
    exact Nat.zero_lt_one

/-- `set_intersection` of `set.c`; `res` is the set that `*res` points to on entry. -/
def set_intersection (res : List Nat) (a b : List Nat) : Option (List Nat) :=
  if set_is_empty res then
    match a, b with
    | x :: ta, y :: tb =>
      if !list_geElement x y then set_intersection res ta (y :: tb)
      else if list_eqElement x y then do
        let res ← set_intersection res ta tb
        pure (list_cons x res)
      else set_intersection res (x :: ta) tb
    | [], _ => some res
    | _ :: _, [] => some res
  else none
termination_by a.length + b.length
decreasing_by
  all_goals simp only [List.length_cons]; omega

/-- `partition` of `set.c`; `res1` and `res2` are the sets that `*res1` and `*res2` point to
on entry, the result is what they point to on return. -/
def partition (res1 res2 : List Nat) : List Nat → Option (List Nat × List Nat)
  | [] => some (res1, res2)
  | x :: t =>
    if set_sum res1 < set_sum (x :: t) then do
      let res1 ← set_insert res1 x
      partition res1 res2 t
    else do
      let res2 ← set_copy res2 (x :: t)
      pure (res1, res2)

/-- `set_partition` of `set.c` (compiled with assertions, that is without `NDEBUG`). -/
def set_partition (res1 res2 : List Nat) (s : List Nat) : Option (List Nat × List Nat) := do
  let test1 := list_mkEmpty
  let test2 := list_mkEmpty
  if !set_is_empty res1 then none
  if !set_is_empty res2 then none
  let (res1, res2) ← partition res1 res2 s
  let test1 ← set_intersection test1 res1 res2
  let test2 ← set_union test2 res1 res2
  if !set_is_empty test1 then none
  if !set_equals test2 s then none
  let _ ← set_remove_all_elems test1
  let _ ← set_remove_all_elems test2
  pure (res1, res2)

section Defs

variable {R : Type} [LinearOrderedField R]

/-! ## The heap -/

/-- Read the cell `*a`. -/
def Heap.get? (h : Heap R) (a : Nat) : Option (NeuronData R) :=
  match a with
  | 0 => none
  | a + 1 => h.cells.getD a none

/-- The heap with the memory at address `a` replaced by `c`. -/
def Heap.put (h : Heap R) (a : Nat) (c : Option (NeuronData R)) : Heap R :=
  ⟨h.cells.set (a - 1) c⟩

/-- Overwrite the cell `*a` by `f (*a)`; fails when `a` is not allocated. -/
def Heap.modify (h : Heap R) (a : Nat) (f : NeuronData R → NeuronData R) :
    Option (Heap R) :=
  match h.get? a with
  | none => none
  | some d => some (h.put a (some (f d)))

/-- `malloc(sizeof(struct NeuronData))`: a new cell at an address that is not in use. -/
def Heap.malloc (h : Heap R) : Heap R × Nat :=
  (⟨h.cells ++ [some ⟨⟨0, 0⟩, 0, 0, 0⟩]⟩, h.cells.length + 1)

/-- `free(a)`; fails when `a` is not allocated. -/
def Heap.free (h : Heap R) (a : Nat) : Option (Heap R) :=
  match h.get? a with
  | none => none
  | some _ => some (h.put a none)

/-! ## `vector.c` -/

/-- `vectorMake` of `vector.c`. -/
def vectorMake (x y : R) : Vector R := ⟨x, y⟩

/-- `vectorAdd` of `vector.c`. -/
def vectorAdd (u v : Vector R) : Vector R := vectorMake (u.x + v.x) (u.y + v.y)

/-- `vectorSub` of `vector.c`. -/
def vectorSub (u v : Vector R) : Vector R := vectorMake (u.x - v.x) (u.y - v.y)

/-- `vectorScale` of `vector.c`. -/
def vectorScale (u : Vector R) (s : R) : Vector R := vectorMake (u.x * s) (u.y * s)

/-- The macro `vectorLength` of `vector.h`. -/
def vectorLength (m : Libm R) (u : Vector R) : R := m.sqrt (u.x * u.x + u.y * u.y)

/-! ## `neuralNet.c` -/

/-- `SPREAD` of `neuralNet.c`. -/
def SPREAD : Nat := 3

/-- `NEURON_REMOVE_DISTANCE` of `neuralNet.c`. -/
def NEURON_REMOVE_DISTANCE : Nat := 1

/-- The macro `NEURONMOVE(d, t)` of `neuralNet.c`. -/
def NEURONMOVE (m : Libm R) (d t : R) : R := m.exp (-((1 + d) / (2 * t)))

/-- The macro `neuralNetLearnAfter(n)` of `neuralNet.h`. -/
def neuralNetLearnAfter (n : Nat) : Nat := n

/-- The macro `neuralNetGrowThres(n)` of `neuralNet.h`. -/
def neuralNetGrowThres (m : Libm R) (n : Nat) : R := 1 / m.log (n : R)

/-- The `while` loop of `neuralNetInv`. -/
def neuralNetInvLoop (h : Heap R) (neuralNet : NeuralNet) :
    Nat → Bool → Nat → Option Bool
  | 0, _, _ => none
  | fuel + 1, valid, neuron =>
    if valid && neuron != neuralNet.neurons then do
      let d ← h.get? neuron
      let dn ← h.get? d.next
      let ok ←
        if dn.prev == neuron then do
          let dp ← h.get? d.prev
          pure (dp.next == neuron)
        else pure false
      neuralNetInvLoop h neuralNet fuel (valid && ok) d.next
    else some valid

/-- `neuralNetInv` of `neuralNet.c`. -/
def neuralNetInv (fuel : Nat) (h : Heap R) (neuralNet : NeuralNet) : Option Bool := do
  let d ← h.get? neuralNet.neurons
  neuralNetInvLoop h neuralNet fuel true d.next

/-- `neuronMake` of `neuralNet.c` (`malloc` does not fail in this model). -/
def neuronMake (h : Heap R) : Option (Heap R × Nat) := do
  let (h, res) := h.malloc
  let h ← h.modify res fun d => { d with hits := 0 }
  pure (h, res)

/-- `neuronInsert` of `neuralNet.c`. -/
def neuronInsert (h : Heap R) (neuron : Nat) : Option (Heap R × Nat) := do
  let (h, newNeuron) ← neuronMake h
  let h ← h.modify neuron fun d => { d with hits := 0 }
  let d ← h.get? neuron
  let dn ← h.get? d.next
  let h ← h.modify newNeuron fun c =>
    { c with p := vectorAdd d.p (vectorScale (vectorSub dn.p d.p) 0.5) }
  let h ← h.modify newNeuron fun c => { c with next := d.next }
  let h ← h.modify newNeuron fun c => { c with prev := neuron }
  let c ← h.get? newNeuron
  let h ← h.modify c.next fun e => { e with prev := newNeuron }
  let c ← h.get? newNeuron
  let h ← h.modify c.prev fun e => { e with next := newNeuron }
  pure (h, newNeuron)

/-- `neuronRemoveNext` of `neuralNet.c`. -/
def neuronRemoveNext (h : Heap R) (neuron : Nat) : Option (Heap R × Nat) := do
  let d ← h.get? neuron
  let tmp := d.next
  let dn ← h.get? d.next
  let h ← h.modify neuron fun c => { c with next := dn.next }
  let d ← h.get? neuron
  let h ← h.modify d.next fun c => { c with prev := neuron }
  let h ← h.free tmp
  pure (h, neuron)

/-- The `while` loop of `neuralNetGrow`. -/
def neuralNetGrowLoop (growThreshold : R) :
    Nat → Heap R → NeuralNet → Nat → Option (Heap R × NeuralNet)
  | 0, _, _, _ => none
  | fuel + 1, h, neuralNet, neuron =>
    if neuron != neuralNet.neurons then do
      let d ← h.get? neuron
      if growThreshold ≤ (d.hits : R) then do
        let (h, neuron) ← neuronInsert h neuron
        neuralNetGrowLoop growThreshold fuel h
          { neuralNet with size := neuralNet.size + 1 } neuron
      else
        neuralNetGrowLoop growThreshold fuel h neuralNet d.next
    else some (h, neuralNet)

/-- `neuralNetGrow` of `neuralNet.c`. -/
def neuralNetGrow (fuel : Nat) (h : Heap R) (neuralNet : NeuralNet) (growThreshold : R) :
    Option (Heap R × NeuralNet) := do
  let neuron := neuralNet.neurons
  let d ← h.get? neuron
  let (h, neuralNet, neuron) ←
    if growThreshold ≤ (d.hits : R) then do
      let (h, neuron) ← neuronInsert h neuron
      pure (h, { neuralNet with size := neuralNet.size + 1 }, neuron)
    else pure (h, neuralNet, neuron)
  let d ← h.get? neuron
  let (h, neuralNet) ← neuralNetGrowLoop growThreshold fuel h neuralNet d.next
  let neuralNet := { neuralNet with learned := 0 }
  let valid ← neuralNetInv fuel h neuralNet
  if valid then pure (h, neuralNet) else none

/-- The nearest-neuron `for` loop of `neuralNetTrain`; the first argument counts the
iterations that remain (`neuralNet.size - i`). -/
def neuralNetTrainNearestLoop (m : Libm R) (h : Heap R) (sample : Vector R) :
    Nat → Nat → Nat → R → Option (Nat × R)
  | 0, _, nearestNeuron, distance => some (nearestNeuron, distance)
  | n + 1, currentNeuron, nearestNeuron, distance => do
    let d ← h.get? currentNeuron
    let tmp := vectorLength m (vectorSub sample d.p)
    if tmp < distance then
      neuralNetTrainNearestLoop m h sample n d.next currentNeuron tmp
    else
      neuralNetTrainNearestLoop m h sample n d.next nearestNeuron distance

/-- Lines 281-294 of `neuralNetTrain`: the neuron nearest to `sample` and its distance. -/
def neuralNetTrainNearest (m : Libm R) (h : Heap R) (neuralNet : NeuralNet)
    (sample : Vector R) : Option (Nat × R) := do
  let d ← h.get? neuralNet.neurons
  let distance := vectorLength m (vectorSub d.p sample)
  neuralNetTrainNearestLoop m h sample neuralNet.size neuralNet.neurons neuralNet.neurons
    distance

/-- The loop `for (int i = 0; i <= SPREAD + 1; ++i) currentNeuron = currentNeuron->prev;`
of `neuralNetTrain`; the first argument counts the iterations that remain. -/
def neuralNetTrainBackLoop (h : Heap R) : Nat → Nat → Option Nat
  | 0, currentNeuron => some currentNeuron
  | n + 1, currentNeuron => do
    let d ← h.get? currentNeuron
    neuralNetTrainBackLoop h n d.prev

/-- The loop `for (int i = -SPREAD; i <= SPREAD; ++i)` of `neuralNetTrain`; the first
argument counts the iterations that remain (`SPREAD - i + 1`). -/
def neuralNetTrainMoveLoop (m : Libm R) (sample : Vector R) (time : R) :
    Nat → Int → Heap R → Nat → Option (Heap R × Nat)
  | 0, _, h, currentNeuron => some (h, currentNeuron)
  | n + 1, i, h, currentNeuron => do
    let d ← h.get? currentNeuron
    let currentNeuron := d.next
    let h ← h.modify currentNeuron fun c =>
      { c with p := vectorAdd c.p
                 (vectorScale (vectorSub sample c.p) (NEURONMOVE m |(i : R)| time)) }
    neuralNetTrainMoveLoop m sample time n (i + 1) h currentNeuron

/-- Lines 278-318 of `neuralNetTrain`: everything up to and including `++neuralNet.learned`.
`rnd` is the value returned by `random()`. -/
def neuralNetTrainLearn (m : Libm R) (rnd : Nat) (h : Heap R) (neuralNet : NeuralNet)
    (samples : SampleMap R) (time : R) : Option (Heap R × NeuralNet) := do
  let sample ← if samples.items = 0 then none else samples.samples[rnd % samples.items]?
  let (nearestNeuron, _) ← neuralNetTrainNearest m h neuralNet sample
  let h ← h.modify nearestNeuron fun d => { d with hits := (d.hits + 1) % UINT_RANGE }
  let currentNeuron ← neuralNetTrainBackLoop h (SPREAD + 1 + 1) nearestNeuron
  let (h, _) ← neuralNetTrainMoveLoop m sample time (SPREAD + SPREAD + 1) (-(SPREAD : Int)) h
    currentNeuron
  pure (h, { neuralNet with learned := (neuralNet.learned + 1) % ULONG_RANGE })

/-- `neuralNetTrain` of `neuralNet.c`. `rnd` is the value returned by `random()`. -/
def neuralNetTrain (m : Libm R) (fuel : Nat) (rnd : Nat) (h : Heap R) (neuralNet : NeuralNet)
    (samples : SampleMap R) (time : R) : Option (Heap R × NeuralNet) := do
  let (h, neuralNet) ← neuralNetTrainLearn m rnd h neuralNet samples time
  if (neuralNet.size : R) < m.log (samples.items : R) * (samples.items : R)
      ∧ neuralNetLearnAfter samples.items ≤ neuralNet.learned then
    neuralNetGrow fuel h neuralNet (neuralNetGrowThres m samples.items)
  else pure (h, neuralNet)

/-- The loop `while (neuralNet.size > 1 && vectorLength(...) <= NEURON_REMOVE_DISTANCE)` of
`neuralNetRemoveDoubleNeurons` (it occurs twice, with the same body). -/
def neuralNetRemoveDoubleNeuronsInner (m : Libm R) :
    Nat → Heap R → NeuralNet → Nat → Option (Heap R × NeuralNet × Nat)
  | 0, _, _, _ => none
  | fuel + 1, h, neuralNet, neuron =>
    if 1 < neuralNet.size then do
      let d ← h.get? neuron
      let dn ← h.get? d.next
      if vectorLength m (vectorSub d.p dn.p) ≤ (NEURON_REMOVE_DISTANCE : R) then do
        let (h, neuron) ← neuronRemoveNext h neuron
        neuralNetRemoveDoubleNeuronsInner m fuel h
          { neuralNet with neurons := neuron, size := neuralNet.size - 1 } neuron
      else some (h, neuralNet, neuron)
    else some (h, neuralNet, neuron)

/-- The loop `while (neuron != neuralNet.neurons)` of `neuralNetRemoveDoubleNeurons`. -/
def neuralNetRemoveDoubleNeuronsOuter (m : Libm R) :
    Nat → Heap R → NeuralNet → Nat → Option (Heap R × NeuralNet)
  | 0, _, _, _ => none
  | fuel + 1, h, neuralNet, neuron =>
    if neuron != neuralNet.neurons then do
      let (h, neuralNet, neuron) ← neuralNetRemoveDoubleNeuronsInner m fuel h neuralNet neuron
      let d ← h.get? neuron
      neuralNetRemoveDoubleNeuronsOuter m fuel h neuralNet d.next
    else some (h, neuralNet)

/-- `neuralNetRemoveDoubleNeurons` of `neuralNet.c`. -/
def neuralNetRemoveDoubleNeurons (m : Libm R) (fuel : Nat) (h : Heap R)
    (neuralNet : NeuralNet) : Option (Heap R × NeuralNet) := do
  let neuron := neuralNet.neurons
  let (h, neuralNet, neuron) ← neuralNetRemoveDoubleNeuronsInner m fuel h neuralNet neuron
  let d ← h.get? neuron
  let (h, neuralNet) ← neuralNetRemoveDoubleNeuronsOuter m fuel h neuralNet d.next
  let valid ← neuralNetInv fuel h neuralNet
  if valid then pure (h, neuralNet) else none

/-- `neuralNetMake` of `neuralNet.c`. -/
def neuralNetMake (h : Heap R) (bounds : PositionBounds R) : Option (Heap R × NeuralNet) := do
  let (h, neuron) ← neuronMake h
  let h ← h.modify neuron fun d =>
    { d with p := vectorAdd bounds.topleft
                (vectorScale (vectorSub bounds.bottomright bounds.topleft) 0.5) }
  let h ← h.modify neuron fun d => { d with next := neuron }
  let h ← h.modify neuron fun d => { d with prev := neuron }
  pure (h, ⟨1, 0, neuron⟩)

/-- The `for` loop of `neuralNetLength`. -/
def neuralNetLengthLoop (m : Libm R) (h : Heap R) (neuralNet : NeuralNet) :
    Nat → Nat → R → Option R
  | 0, _, _ => none
  | fuel + 1, neuron, res =>
    if neuron != neuralNet.neurons then do
      let d ← h.get? neuron
      let dn ← h.get? d.next
      neuralNetLengthLoop m h neuralNet fuel d.next
        (res + vectorLength m (vectorSub d.p dn.p))
    else some res

/-- `neuralNetLength` of `neuralNet.c`. -/
def neuralNetLength (m : Libm R) (fuel : Nat) (h : Heap R) (neuralNet : NeuralNet) :
    Option R := do
  let res : R := 0.0
  let d ← h.get? neuralNet.neurons
  let dn ← h.get? d.next
  let res := res + vectorLength m (vectorSub d.p dn.p)
  neuralNetLengthLoop m h neuralNet fuel d.next res

/-- The loop of `neuralNetGrow` with a record of what it does: `tested` lists the neurons
whose `hits` it has compared with `growThreshold`, `grown` those after which it has inserted
a neuron, both in the order of the events. -/
def neuralNetGrowLoopLog (growThreshold : R) :
    Nat → Heap R → NeuralNet → Nat → List Nat → List Nat →
      Option (Heap R × NeuralNet × List Nat × List Nat)
  | 0, _, _, _, _, _ => none
  | fuel + 1, h, neuralNet, neuron, tested, grown =>
    if neuron != neuralNet.neurons then do
      let d ← h.get? neuron
      if growThreshold ≤ (d.hits : R) then do
        let (h, newNeuron) ← neuronInsert h neuron
        neuralNetGrowLoopLog growThreshold fuel h
          { neuralNet with size := neuralNet.size + 1 } newNeuron (tested ++ [neuron])
          (grown ++ [neuron])
      else
        neuralNetGrowLoopLog growThreshold fuel h neuralNet d.next (tested ++ [neuron]) grown
    else some (h, neuralNet, tested, grown)

/-- `neuralNetGrow` of `neuralNet.c` with the record of `neuralNetGrowLoopLog`. -/
def neuralNetGrowLog (fuel : Nat) (h : Heap R) (neuralNet : NeuralNet) (growThreshold : R) :
    Option (Heap R × NeuralNet × List Nat × List Nat) := do
  let neuron := neuralNet.neurons
  let d ← h.get? neuron
  let (h, neuralNet, neuron, grown) ←
    if growThreshold ≤ (d.hits : R) then do
      let (h, newNeuron) ← neuronInsert h neuron
      pure (h, { neuralNet with size := neuralNet.size + 1 }, newNeuron, [neuron])
    else pure (h, neuralNet, neuron, [])
  let d ← h.get? neuron
  let (h, neuralNet, tested, grown) ←
    neuralNetGrowLoopLog growThreshold fuel h neuralNet d.next [neuralNet.neurons] grown
  let neuralNet := { neuralNet with learned := 0 }
  let valid ← neuralNetInv fuel h neuralNet
  if valid then pure (h, neuralNet, tested, grown) else none

/-- The time argument `(double) (c.maxLearn - time) / c.maxLearn` that `main` passes to
`neuralNetTrain` in the iteration `time` of its training loop (`main.c`, line 221); the
difference is computed in `unsigned`. -/
def mainTrainTime (maxLearn time : Nat) : R :=
  (((maxLearn + UINT_RANGE - time) % UINT_RANGE : Nat) : R) / (maxLearn : R)

end Defs

/-! ## The ring as a list of cells

The neurons of a ring, listed along `next`, with what each stores apart from its links. -/

/-- Address, position and activation count of one neuron of the ring. -/
structure Cell (R : Type) where
  addr : Nat
  p : Vector R
  hits : Nat

section SpecDefs

variable {R : Type} [LinearOrderedField R]

/-- Address of the first cell of `l`, or `a` when `l` is empty. -/
def headAddr : List (Cell R) → Nat → Nat
  | [], a => a
  | c :: _, _ => c.addr

/-- Address of the last cell of `l`, or `a` when `l` is empty. -/
def lastAddr : List (Cell R) → Nat → Nat
  | [], a => a
  | c :: l, _ => lastAddr l c.addr

/-- Address of the `i`-th cell of `l`, or `a` when there is none. -/
def addrAt (l : List (Cell R)) (i : Nat) (a : Nat) : Nat := (l[i]?.map Cell.addr).getD a

/-- The cells `l` are laid out in `h` as a doubly linked segment: the first has `prev = pa`,
the last has `next = na`, and neighbours point at each other. -/
def Seg (h : Heap R) : Nat → List (Cell R) → Nat → Prop
  | _, [], _ => True
  | pa, c :: l, na =>
    h.get? c.addr = some ⟨c.p, c.hits, headAddr l na, pa⟩ ∧ Seg h c.addr l na

/-- The cells `l` are laid out in `h` as a ring: a segment closed onto itself, on distinct
addresses. -/
def Repr (h : Heap R) (l : List (Cell R)) : Prop :=
  l ≠ [] ∧ (l.map Cell.addr).Nodup ∧ Seg h (lastAddr l 0) l (headAddr l 0)

/-- Cells of the list with address `a` are replaced by `g` of themselves. -/
def updAt (a : Nat) (g : Cell R → Cell R) (l : List (Cell R)) : List (Cell R) :=
  l.map fun c => if c.addr = a then g c else c

/-- Position of the first cell of `l`, or `q` when `l` is empty. -/
def headP : List (Cell R) → Vector R → Vector R
  | [], q => q
  | c :: _, _ => c.p

/-- Follow `next` from `a`, `k` times. -/
def nextN (h : Heap R) : Nat → Nat → Option Nat
  | 0, a => some a
  | k + 1, a => (h.get? a).bind fun d => nextN h k d.next

/-- The neuron at `n` satisfies `n->next->prev == n` and `n->prev->next == n`. -/
def linksOk (h : Heap R) (n : Nat) : Bool :=
  match h.get? n with
  | none => false
  | some d =>
    (match h.get? d.next with
      | none => false
      | some dn => dn.prev == n)
    && (match h.get? d.prev with
      | none => false
      | some dp => dp.next == n)

/-- A well-formed ring: `size ≥ 1`, following `next` from the entry `size` times returns to
the entry and not earlier, and every neuron on the way has symmetric links. -/
def WellFormed (h : Heap R) (neuralNet : NeuralNet) : Prop :=
  1 ≤ neuralNet.size
  ∧ nextN h neuralNet.size neuralNet.neurons = some neuralNet.neurons
  ∧ (∀ k < neuralNet.size, 0 < k → nextN h k neuralNet.neurons ≠ some neuralNet.neurons)
  ∧ (∀ k < neuralNet.size, (nextN h k neuralNet.neurons).map (linksOk h) = some true)

instance (h : Heap R) (neuralNet : NeuralNet) : Decidable (WellFormed h neuralNet) := by
  unfold WellFormed; infer_instance

/-- The `k`-th neuron of the ring, counted along `next` from the entry `e` (`0` if the walk
leaves the allocated memory). -/
def ringAddr (h : Heap R) (e : Nat) (k : Nat) : Nat := (nextN h k e).getD 0

/-- Position of the neuron at `a` (the origin if `a` is not allocated). -/
def posOf (h : Heap R) (a : Nat) : Vector R :=
  match h.get? a with
  | some d => d.p
  | none => ⟨0, 0⟩

/-- Hit count of the neuron at `a` (`0` if `a` is not allocated). -/
def hitsOf (h : Heap R) (a : Nat) : Nat :=
  match h.get? a with
  | some d => d.hits
  | none => 0

/-- The neurons of the ring, listed along `next` from the entry. -/
def ringAddrs (h : Heap R) (neuralNet : NeuralNet) : List Nat :=
  (List.range neuralNet.size).map (ringAddr h neuralNet.neurons)

/-- The neurons of the ring with their positions and hit counts, listed along `next` from
the entry. -/
def ringCells (h : Heap R) (neuralNet : NeuralNet) : List (Cell R) :=
  (ringAddrs h neuralNet).map fun a => ⟨a, posOf h a, hitsOf h a⟩

/-- What `neuralNetGrow` makes of a stretch `l` of the ring: after every neuron that has
`hits ≥ growThreshold` comes a new neuron halfway to the successor, and the hits of that
neuron are reset. `k` is the next free address and `q` the position of the neuron that
follows the stretch. -/
def growCells (growThreshold : R) : Nat → List (Cell R) → Vector R → List (Cell R)
  | _, [], _ => []
  | k, c :: l, q =>
    if growThreshold ≤ (c.hits : R) then
      ⟨c.addr, c.p, 0⟩
        :: ⟨k, vectorAdd c.p (vectorScale (vectorSub (headP l q) c.p) 0.5), 0⟩
        :: growCells growThreshold (k + 1) l q
    else c :: growCells growThreshold k l q

/-- Number of neurons of `l` with `hits ≥ growThreshold`. -/
def growCount (growThreshold : R) (l : List (Cell R)) : Nat :=
  l.countP fun c => decide (growThreshold ≤ (c.hits : R))

/-- Distance from `sample` to a position, as `neuralNetTrain` computes it inside its scan. -/
def sampleDist (m : Libm R) (sample : Vector R) (q : Vector R) : R :=
  vectorLength m (vectorSub sample q)

/-- The nearest-neuron scan over the cells `l`, the first of which has index `i`; `acc` is
the index of the nearest neuron so far and its distance. -/
def nearestFrom (m : Libm R) (sample : Vector R) : List (Cell R) → Nat → Nat × R → Nat × R
  | [], _, acc => acc
  | c :: l, i, acc =>
    nearestFrom m sample l (i + 1)
      (if sampleDist m sample c.p < acc.2 then (i, sampleDist m sample c.p) else acc)

/-- Index in `l` of the neuron that the scan of `neuralNetTrain` selects. -/
def nearestIdx (m : Libm R) (sample : Vector R) (l : List (Cell R)) : Nat :=
  (nearestFrom m sample l 0 (0, vectorLength m (vectorSub (headP l ⟨0, 0⟩) sample))).1

/-- Index reached from `i` by `k` steps along `prev` in a ring of `n` neurons. -/
def backIdx (n : Nat) : Nat → Nat → Nat
  | 0, i => i
  | k + 1, i => backIdx n k ((i + n - 1) % n)

/-- The position update of `neuralNetTrain` for loop counter `i`. -/
def movePos (m : Libm R) (sample : Vector R) (time : R) (i : Int) (q : Vector R) : Vector R :=
  vectorAdd q (vectorScale (vectorSub sample q) (NEURONMOVE m |(i : R)| time))

/-- A cell after the position update of `neuralNetTrain` for loop counter `i`. -/
def moveCell (m : Libm R) (sample : Vector R) (time : R) (i : Int) (c : Cell R) : Cell R :=
  ⟨c.addr, movePos m sample time i c.p, c.hits⟩

/-- The cells after `k` iterations of the update loop of `neuralNetTrain`, entered with loop
counter `i` and the current neuron at index `j`. -/
def moveCells (m : Libm R) (sample : Vector R) (time : R) :
    Nat → Int → Nat → List (Cell R) → List (Cell R)
  | 0, _, _, l => l
  | k + 1, i, j, l =>
    moveCells m sample time k (i + 1) ((j + 1) % l.length)
      (l.modify (moveCell m sample time i) ((j + 1) % l.length))

/-- A cell after `++hits`. -/
def hitCell (c : Cell R) : Cell R := ⟨c.addr, c.p, (c.hits + 1) % UINT_RANGE⟩

/-- The cells of the ring after the learning step of `neuralNetTrain` with the sample
`sample`. -/
@[irreducible]
def learnCells (m : Libm R) (sample : Vector R) (time : R) (l : List (Cell R)) :
    List (Cell R) :=
  moveCells m sample time (SPREAD + SPREAD + 1) (-(SPREAD : Int))
    (backIdx l.length (SPREAD + 1 + 1) (nearestIdx m sample l))
    (l.modify hitCell (nearestIdx m sample l))

/-- The removal test of `neuralNetRemoveDoubleNeurons` for a neuron `c` and its successor
`x`. -/
def near (m : Libm R) (c x : Cell R) : Bool :=
  decide (vectorLength m (vectorSub c.p x.p) ≤ (NEURON_REMOVE_DISTANCE : R))

/-- The walk of `neuralNetRemoveDoubleNeurons` around the ring. `seen` are the neurons from
the entry up to the current neuron (excluded), `todo` the current neuron and those after it
up to the entry. The successors of the current neuron that are near it are removed; if any
was removed the current neuron becomes the entry and the walk starts over from it. -/
def pruneWalk (m : Libm R) : List (Cell R) → List (Cell R) → List (Cell R)
  | seen, [] => seen
  | seen, x :: t =>
    if ((t ++ seen).dropWhile (near m x)).length = (t ++ seen).length then
      pruneWalk m (seen ++ [x]) t
    else pruneWalk m [x] ((t ++ seen).dropWhile (near m x))
termination_by seen todo => (seen.length + todo.length, todo.length)
decreasing_by
  · simp_wf
    apply Prod.Lex.right'
    · omega
    · omega
  · simp_wf
    rename_i hne
    have := (List.dropWhile_suffix (near m x) (l := t ++ seen)).length_le
    simp only [List.length_append] at this hne
    apply Prod.Lex.left
    omega

/-- The cells of the ring after `neuralNetRemoveDoubleNeurons`, listed from the new entry. -/
def pruneCells (m : Libm R) : List (Cell R) → List (Cell R)
  | [] => []
  | e :: rest => pruneWalk m [e] (rest.dropWhile (near m e))

/-- What `k` iterations of the update loop of `neuralNetTrain`, entered with loop counter
`i` and the current neuron at index `j` of a ring of `n` neurons, make of the cell at index
`x`. -/
def movedCell (m : Libm R) (sample : Vector R) (time : R) (n x : Nat) :
    Nat → Int → Nat → Cell R → Cell R
  | 0, _, _, c => c
  | k + 1, i, j, c =>
    movedCell m sample time n x k (i + 1) ((j + 1) % n)
      (if (j + 1) % n = x then moveCell m sample time i c else c)

/-! ## Concrete rings, used to instantiate the theorems -/

/-- A ring of three neurons at addresses `1 → 2 → 3 → 1`. -/
def ring3 : Heap ℚ :=
  ⟨[some ⟨⟨0, 0⟩, 1, 2, 3⟩, some ⟨⟨2, 0⟩, 0, 3, 1⟩, some ⟨⟨4, 4⟩, 2, 1, 2⟩]⟩

/-- The `NeuralNet` value for `ring3`, entered at address `1`. -/
def net3 : NeuralNet := ⟨3, 5, 1⟩

/-- Stand-ins for `sqrt`, `exp` and `log` on the rationals. -/
def libmQ : Libm ℚ := ⟨fun x => x, fun _ => 1 / 2, fun x => x - 1⟩

/-- A sample map with two samples. -/
def samples2 : SampleMap ℚ := ⟨2, 2, [⟨1, 0⟩, ⟨3, 3⟩]⟩

/-- Index, along `next` from the entry, of the neuron that `neuralNetTrain` selects for
`sample`. -/
def winnerIdx (m : Libm R) (sample : Vector R) (h : Heap R) (neuralNet : NeuralNet) : Nat :=
  nearestIdx m sample (ringCells h neuralNet)

/-- Index, along `next` from the entry, of the first neuron that the update loop of
`neuralNetTrain` moves. -/
def windowStart (m : Libm R) (sample : Vector R) (h : Heap R) (neuralNet : NeuralNet) : Nat :=
  (backIdx neuralNet.size (SPREAD + 1 + 1) (winnerIdx m sample h neuralNet) + 1)
    % neuralNet.size

/-- The cell of the `x`-th neuron of the ring after the learning step of `neuralNetTrain`. -/
def learnedCell (m : Libm R) (sample : Vector R) (time : R) (h : Heap R)
    (neuralNet : NeuralNet) (x : Nat) : Cell R :=
  movedCell m sample time neuralNet.size x (SPREAD + SPREAD + 1) (-(SPREAD : Int))
    (backIdx neuralNet.size (SPREAD + 1 + 1) (winnerIdx m sample h neuralNet))
    (if winnerIdx m sample h neuralNet = x then
      hitCell ⟨ringAddr h neuralNet.neurons x, posOf h (ringAddr h neuralNet.neurons x),
        hitsOf h (ringAddr h neuralNet.neurons x)⟩
    else ⟨ringAddr h neuralNet.neurons x, posOf h (ringAddr h neuralNet.neurons x),
      hitsOf h (ringAddr h neuralNet.neurons x)⟩)

/-- The growth condition of `neuralNetTrain`, on the values of `size` and `learned` on
entry (`learned + 1` is computed in `unsigned long`). -/
def growthCondition (m : Libm R) (neuralNet : NeuralNet) (items : Nat) : Prop :=
  (neuralNet.size : R) < m.log (items : R) * (items : R)
    ∧ items ≤ (neuralNet.learned + 1) % ULONG_RANGE

/-- A ring of eight neurons at addresses `1 → 2 → ⋯ → 8 → 1`, the neuron at address `k + 1`
at position `(k, 0)`. -/
def ring8 : Heap ℚ :=
  ⟨[some ⟨⟨0, 0⟩, 0, 2, 8⟩, some ⟨⟨1, 0⟩, 0, 3, 1⟩, some ⟨⟨2, 0⟩, 0, 4, 2⟩,
    some ⟨⟨3, 0⟩, 0, 5, 3⟩, some ⟨⟨4, 0⟩, 0, 6, 4⟩, some ⟨⟨5, 0⟩, 0, 7, 5⟩,
    some ⟨⟨6, 0⟩, 0, 8, 6⟩, some ⟨⟨7, 0⟩, 0, 1, 7⟩]⟩

/-- The `NeuralNet` value for `ring8`, entered at address `1`. -/
def net8 : NeuralNet := ⟨8, 0, 1⟩

/-- The squared Euclidean distance between `s` and `q`: the argument of `sqrt` in
`vectorLength (vectorSub s q)`. -/
def sqDist (s q : Vector R) : R := (s.x - q.x) * (s.x - q.x) + (s.y - q.y) * (s.y - q.y)

/-- A ring of nine neurons at addresses `1 → 2 → ⋯ → 9 → 1`, all located at the origin. -/
def ring9 (R : Type) [LinearOrderedField R] : Heap R :=
  ⟨[some ⟨⟨0, 0⟩, 0, 2, 9⟩, some ⟨⟨0, 0⟩, 0, 3, 1⟩, some ⟨⟨0, 0⟩, 0, 4, 2⟩,
    some ⟨⟨0, 0⟩, 0, 5, 3⟩, some ⟨⟨0, 0⟩, 0, 6, 4⟩, some ⟨⟨0, 0⟩, 0, 7, 5⟩,
    some ⟨⟨0, 0⟩, 0, 8, 6⟩, some ⟨⟨0, 0⟩, 0, 9, 7⟩, some ⟨⟨0, 0⟩, 0, 1, 8⟩]⟩

/-- The `NeuralNet` value for `ring9`, entered at address `1`. -/
def net9 : NeuralNet := ⟨9, 0, 1⟩

/-- A sample map with the single sample `(1, 0)`. -/
def samples1 (R : Type) [LinearOrderedField R] : SampleMap R := ⟨1, 1, [⟨1, 0⟩]⟩

/-- The successor `a->next` of the neuron at `a` (`0` if `a` is not allocated). -/
def nextOf (h : Heap R) (a : Nat) : Nat :=
  match h.get? a with
  | some d => d.next
  | none => 0

/-- The predecessor `a->prev` of the neuron at `a` (`0` if `a` is not allocated). -/
def prevOf (h : Heap R) (a : Nat) : Nat :=
  match h.get? a with
  | some d => d.prev
  | none => 0

/-- Distance between the neuron at `a` and its successor, as `neuralNetLength` and
`neuralNetRemoveDoubleNeurons` compute it. -/
def edgeLength (m : Libm R) (h : Heap R) (a : Nat) : R :=
  vectorLength m (vectorSub (posOf h a) (posOf h (nextOf h a)))

/-- The closed-tour perimeter: the sum over the neurons of the ring of the distance to the
successor. -/
def ringLength (m : Libm R) (h : Heap R) (neuralNet : NeuralNet) : R :=
  ((ringAddrs h neuralNet).map (edgeLength m h)).sum

/-- A ring of two neurons, at `(0, 0)` and `(0.5, 0)`, at addresses `1 → 2 → 1`. -/
def ring2 (R : Type) [LinearOrderedField R] : Heap R :=
  ⟨[some ⟨⟨0, 0⟩, 0, 2, 2⟩, some ⟨⟨0.5, 0⟩, 0, 1, 1⟩]⟩

/-- The `NeuralNet` value for `ring2`, entered at address `1`. -/
def net2 : NeuralNet := ⟨2, 0, 1⟩

/-- A ring of one neuron at the origin, at address `1`. -/
def ring1 : Heap ℚ := ⟨[some ⟨⟨0, 0⟩, 0, 1, 1⟩]⟩

/-- The `NeuralNet` value for `ring1`. -/
def net1 : NeuralNet := ⟨1, 0, 1⟩

/-- A sample map whose single sample `(2, 0)` is the position of the second neuron of
`ring3`. -/
def samples3 : SampleMap ℚ := ⟨1, 1, [⟨2, 0⟩]⟩

/-- A sample map without samples. -/
def samples0 : SampleMap ℚ := ⟨0, 0, []⟩

/-- The neuron at index `i` of the ring `l` is not within removal distance of its
successor. -/
def farAt (m : Libm R) (l : List (Cell R)) (i : Nat) : Prop :=
  ∀ c c', l[i]? = some c → l[(i + 1) % l.length]? = some c' → near m c c' = false

/-- A ring of three neurons at addresses `1 → 2 → 3 → 1` in which the third neuron lies
within removal distance of the entry, and no other neuron of its successor. -/
def ringE (R : Type) [LinearOrderedField R] : Heap R :=
  ⟨[some ⟨⟨0, 0⟩, 0, 2, 3⟩, some ⟨⟨5, 0⟩, 0, 3, 1⟩, some ⟨⟨0, 1⟩, 0, 1, 2⟩]⟩

/-- The `NeuralNet` value for `ringE`, entered at address `1`. -/
def netE : NeuralNet := ⟨3, 0, 1⟩

/-- The position `p` lies in the bounding box. -/
def inBox (bounds : PositionBounds R) (p : Vector R) : Prop :=
  bounds.topleft.x ≤ p.x ∧ p.x ≤ bounds.bottomright.x
    ∧ bounds.topleft.y ≤ p.y ∧ p.y ≤ bounds.bottomright.y

/-- The rings that a program obtains from `neuralNetMake bounds` by calls of
`neuralNetTrain` with a positive time and of `neuralNetRemoveDoubleNeurons`. -/
inductive Reachable (m : Libm R) (bounds : PositionBounds R) (samples : SampleMap R) :
    Heap R → NeuralNet → Prop
  | make (h₀ h : Heap R) (nn : NeuralNet) :
      neuralNetMake h₀ bounds = some (h, nn) → Reachable m bounds samples h nn
  | train (h h' : Heap R) (nn nn' : NeuralNet) (fuel rnd : Nat) (time : R) :
      Reachable m bounds samples h nn → 0 < time →
      neuralNetTrain m fuel rnd h nn samples time = some (h', nn') →
      Reachable m bounds samples h' nn'
  | prune (h h' : Heap R) (nn nn' : NeuralNet) (fuel : Nat) :
      Reachable m bounds samples h nn →
      neuralNetRemoveDoubleNeurons m fuel h nn = some (h', nn') →
      Reachable m bounds samples h' nn'

/-- Length of the path through the positions of `l` that ends at `q`. -/
def segLen (m : Libm R) : List (Cell R) → Vector R → R
  | [], _ => 0
  | c :: l, q => vectorLength m (vectorSub c.p (headP l q)) + segLen m l q

/-- Length of the closed tour through the positions of `l`. -/
def cycLen (m : Libm R) (l : List (Cell R)) : R := segLen m l (headP l ⟨0, 0⟩)

/-- A one-neuron ring whose neuron is its own `next` but has another neuron as `prev`. -/
def heapAskew1 : Heap ℚ := ⟨[some ⟨⟨0, 0⟩, 0, 1, 2⟩, some ⟨⟨1, 0⟩, 0, 2, 2⟩]⟩

/-- The `NeuralNet` value for `heapAskew1`, entered at address `1`. -/
def netAskew1 : NeuralNet := ⟨1, 0, 1⟩

/-- A ring `1 → 2 → 1` whose second neuron has as `prev` a third neuron, which is not on the
ring but has the second neuron as `next`. -/
def heapAskew2 : Heap ℚ :=
  ⟨[some ⟨⟨0, 0⟩, 0, 2, 2⟩, some ⟨⟨1, 0⟩, 0, 1, 3⟩, some ⟨⟨2, 0⟩, 0, 2, 3⟩]⟩

/-- The `NeuralNet` value for `heapAskew2`, entered at address `1`. -/
def netAskew2 : NeuralNet := ⟨2, 0, 1⟩

/-- A ring of three neurons at addresses `1 → 2 → 3 → 1`, with the positions and hits of
`ring3`, over any ordered field. -/
def ringH (R : Type) [LinearOrderedField R] : Heap R :=
  ⟨[some ⟨⟨0, 0⟩, 1, 2, 3⟩, some ⟨⟨2, 0⟩, 0, 3, 1⟩, some ⟨⟨4, 4⟩, 2, 1, 2⟩]⟩

/-- The `NeuralNet` value for `ringH`, entered at address `1`. -/
def netH : NeuralNet := ⟨3, 5, 1⟩

/-- The library `m` with an `exp` that underflows: it returns 0 for arguments below -746, as
the `exp` of the C library does in `double` (the least positive `double` is about
`exp (-744.4)`), and `m.exp` elsewhere. -/
def libmUnderflow (m : Libm R) : Libm R :=
  ⟨m.sqrt, fun y => if y < -746 then 0 else m.exp y, m.log⟩

/-- The heap with a single neuron, at `p` with `k` hits, which is its own `next` and
`prev`. -/
def heapOne (p : Vector ℚ) (k : Nat) : Heap ℚ := ⟨[some ⟨p, k, 1, 1⟩]⟩

/-- The position update with displacement factor 1/2: halfway from `p` to the sample `s`. -/
def halfway (s p : Vector ℚ) : Vector ℚ := vectorAdd p (vectorScale (vectorSub s p) (1 / 2))

/-- The heap with two neurons at `p` without hits, on the ring `1 → 2 → 1`. -/
def heapTwo (p : Vector ℚ) : Heap ℚ := ⟨[some ⟨p, 0, 2, 2⟩, some ⟨p, 0, 1, 1⟩]⟩

/-- The heap `heapTwo p` after the second neuron has been removed and freed. -/
def heapTwoPruned (p : Vector ℚ) : Heap ℚ := ⟨[some ⟨p, 0, 1, 1⟩, none]⟩

/-- The bounding box from `(0, 0)` to `(4, 4)`. -/
def boxQ : PositionBounds ℚ := ⟨⟨0, 0⟩, ⟨4, 4⟩⟩

end SpecDefs

/-! # Theorems -/

/-! ## Heap lemmas -/

section HeapLemmas

set_option linter.unusedSectionVars false

variable {R : Type} [LinearOrderedField R]

theorem Heap.get?_zero (h : Heap R) : h.get? 0 = none := rfl

theorem Heap.get?_succ (h : Heap R) (a : Nat) : h.get? (a + 1) = (h.cells[a]?).getD none := by
  simp [Heap.get?, List.getD_eq_getElem?_getD]

theorem Heap.pos_of_get? {h : Heap R} {a : Nat} {d : NeuronData R}
    (hd : h.get? a = some d) : 0 < a ∧ a ≤ h.cells.length := by
  cases a with
  | zero => simp [Heap.get?] at hd
  | succ a =>
    rw [Heap.get?_succ] at hd
    refine ⟨Nat.succ_pos a, ?_⟩
    by_contra hlt
    rw [List.getElem?_eq_none (by omega)] at hd
    simp at hd

theorem Heap.get?_eq_none_of_lt {h : Heap R} {a : Nat} (ha : h.cells.length < a) :
    h.get? a = none := by
  cases hg : h.get? a with
  | none => rfl
  | some d => have := (Heap.pos_of_get? hg).2; omega

theorem Heap.get?_put {h : Heap R} {a : Nat} (c : Option (NeuronData R))
    (ha : 0 < a) (hle : a ≤ h.cells.length) (b : Nat) :
    (h.put a c).get? b = if b = a then c else h.get? b := by
  cases b with
  | zero =>
    have : (0 : Nat) ≠ a := by omega
    simp [Heap.get?, this]
  | succ b =>
    rw [Heap.get?_succ, Heap.get?_succ]
    simp only [Heap.put, List.getElem?_set]
    by_cases hba : b + 1 = a
    · have h1 : a - 1 = b := by omega
      have h2 : b < h.cells.length := by omega
      simp [hba, h1, h2]
    · have h1 : a - 1 ≠ b := by omega
      simp [hba, h1]

theorem Heap.length_put (h : Heap R) (a : Nat) (c : Option (NeuronData R)) :
    (h.put a c).cells.length = h.cells.length := by
  simp [Heap.put]

theorem Heap.modify_eq {h : Heap R} {a : Nat} {d : NeuronData R}
    (hd : h.get? a = some d) (f : NeuronData R → NeuronData R) :
    h.modify a f = some (h.put a (some (f d))) := by
  simp [Heap.modify, hd]

theorem Heap.free_eq {h : Heap R} {a : Nat} {d : NeuronData R}
    (hd : h.get? a = some d) : h.free a = some (h.put a none) := by
  simp [Heap.free, hd]

theorem Heap.get?_put_of_get? {h : Heap R} {a : Nat} {d : NeuronData R}
    (hd : h.get? a = some d) (c : Option (NeuronData R)) (b : Nat) :
    (h.put a c).get? b = if b = a then c else h.get? b :=
  Heap.get?_put c (Heap.pos_of_get? hd).1 (Heap.pos_of_get? hd).2 b

theorem Heap.get?_malloc (h : Heap R) (b : Nat) :
    h.malloc.1.get? b
      = if b = h.cells.length + 1 then some ⟨⟨0, 0⟩, 0, 0, 0⟩ else h.get? b := by
  cases b with
  | zero => simp [Heap.get?]
  | succ b =>
    rw [Heap.get?_succ, Heap.get?_succ]
    simp only [Heap.malloc, List.getElem?_append]
    by_cases hb : b < h.cells.length
    · have : b + 1 ≠ h.cells.length + 1 := by omega
      simp [hb, this]
    · by_cases hb2 : b = h.cells.length
      · simp [hb2]
      · have h3 : b + 1 ≠ h.cells.length + 1 := by omega
        have h4 : h.cells.length ≤ b := by omega
        have h5 : 0 < b - h.cells.length := by omega
        simp only [hb, h3, if_false, List.getElem?_eq_none h4]
        obtain ⟨k, hk⟩ : ∃ k, b - h.cells.length = k + 1 := ⟨b - h.cells.length - 1, by omega⟩
        simp [hk]

theorem Heap.malloc_snd (h : Heap R) : h.malloc.2 = h.cells.length + 1 := rfl

theorem Heap.length_malloc (h : Heap R) : h.malloc.1.cells.length = h.cells.length + 1 := by
  simp [Heap.malloc]

theorem Heap.modify_spec {h : Heap R} {a : Nat} {d : NeuronData R}
    (hd : h.get? a = some d) (f : NeuronData R → NeuronData R) :
    ∃ h', h.modify a f = some h'
      ∧ (∀ b, h'.get? b = if b = a then some (f d) else h.get? b)
      ∧ h'.cells.length = h.cells.length :=
  ⟨_, Heap.modify_eq hd f, Heap.get?_put_of_get? hd _, Heap.length_put _ _ _⟩

theorem Heap.free_spec {h : Heap R} {a : Nat} {d : NeuronData R}
    (hd : h.get? a = some d) :
    ∃ h', h.free a = some h'
      ∧ (∀ b, h'.get? b = if b = a then none else h.get? b)
      ∧ h'.cells.length = h.cells.length :=
  ⟨_, Heap.free_eq hd, Heap.get?_put_of_get? hd _, Heap.length_put _ _ _⟩

theorem neuronMake_spec (h : Heap R) :
    ∃ h', neuronMake h = some (h', h.cells.length + 1)
      ∧ (∀ b, h'.get? b
            = if b = h.cells.length + 1 then some ⟨⟨0, 0⟩, 0, 0, 0⟩ else h.get? b)
      ∧ h'.cells.length = h.cells.length + 1 := by
  have h0 : h.malloc.1.get? (h.cells.length + 1) = some ⟨⟨0, 0⟩, 0, 0, 0⟩ := by
    rw [Heap.get?_malloc]; simp
  obtain ⟨h', e, g, len⟩ := Heap.modify_spec h0 fun d => { d with hits := 0 }
  refine ⟨h', ?_, ?_, ?_⟩
  · simp only [neuronMake]
    rw [show h.malloc = (h.malloc.1, h.cells.length + 1) from rfl]
    simp [e]
  · intro b
    rw [g, Heap.get?_malloc]
    split <;> rfl
  · rw [len, Heap.length_malloc]

end HeapLemmas

section RingRepr

set_option linter.unusedSectionVars false

variable {R : Type} [LinearOrderedField R]

theorem headAddr_append (l₁ l₂ : List (Cell R)) (a : Nat) :
    headAddr (l₁ ++ l₂) a = headAddr l₁ (headAddr l₂ a) := by
  cases l₁ <;> rfl

theorem lastAddr_append (l₁ l₂ : List (Cell R)) (a : Nat) :
    lastAddr (l₁ ++ l₂) a = lastAddr l₂ (lastAddr l₁ a) := by
  induction l₁ generalizing a with
  | nil => rfl
  | cons c l ih => simp [lastAddr, ih]

theorem headAddr_of_ne_nil {l : List (Cell R)} (hl : l ≠ []) (a b : Nat) :
    headAddr l a = headAddr l b := by
  cases l with
  | nil => exact absurd rfl hl
  | cons c l => rfl

theorem lastAddr_of_ne_nil {l : List (Cell R)} (hl : l ≠ []) (a b : Nat) :
    lastAddr l a = lastAddr l b := by
  cases l with
  | nil => exact absurd rfl hl
  | cons c l => rfl

theorem headAddr_eq_head {l : List (Cell R)} (hl : l ≠ []) (a : Nat) :
    headAddr l a = (l.head hl).addr := by
  cases l with
  | nil => exact absurd rfl hl
  | cons c l => rfl

theorem lastAddr_eq_getLast {l : List (Cell R)} (hl : l ≠ []) (a : Nat) :
    lastAddr l a = (l.getLast hl).addr := by
  induction l generalizing a with
  | nil => exact absurd rfl hl
  | cons c l ih =>
    cases l with
    | nil => rfl
    | cons c' l' =>
      rw [lastAddr, ih (by simp)]
      simp

theorem headAddr_eq_addrAt (l : List (Cell R)) (a : Nat) : headAddr l a = addrAt l 0 a := by
  cases l <;> simp [headAddr, addrAt]

theorem lastAddr_eq_addrAt {l : List (Cell R)} (hl : l ≠ []) (a : Nat) :
    lastAddr l a = addrAt l (l.length - 1) a := by
  induction l generalizing a with
  | nil => exact absurd rfl hl
  | cons c l ih =>
    rw [lastAddr]
    cases l with
    | nil => simp [addrAt, lastAddr]
    | cons c' l' =>
      rw [ih (by simp)]
      simp [addrAt]

theorem addrAt_of_lt {l : List (Cell R)} {i : Nat} (hi : i < l.length) (a : Nat) :
    addrAt l i a = l[i].addr := by
  simp [addrAt, List.getElem?_eq_getElem hi]

theorem headAddr_mem {l : List (Cell R)} (hl : l ≠ []) (a : Nat) :
    headAddr l a ∈ l.map Cell.addr := by
  cases l with
  | nil => exact absurd rfl hl
  | cons c l => simp [headAddr]

theorem lastAddr_mem {l : List (Cell R)} (hl : l ≠ []) (a : Nat) :
    lastAddr l a ∈ l.map Cell.addr := by
  induction l generalizing a with
  | nil => exact absurd rfl hl
  | cons c l ih =>
    cases l with
    | nil => simp [lastAddr]
    | cons c' l' =>
      have := ih (by simp) c.addr
      rw [lastAddr]
      exact List.mem_cons_of_mem _ this

theorem seg_append (h : Heap R) (l₁ l₂ : List (Cell R)) (pa na : Nat) :
    Seg h pa (l₁ ++ l₂) na
      ↔ Seg h pa l₁ (headAddr l₂ na) ∧ Seg h (lastAddr l₁ pa) l₂ na := by
  induction l₁ generalizing pa with
  | nil => simp [Seg, lastAddr]
  | cons c l ih =>
    rw [List.cons_append, Seg, Seg, lastAddr, ih, headAddr_append, and_assoc]

theorem seg_congr {h h' : Heap R} {l : List (Cell R)}
    (hh : ∀ a ∈ l.map Cell.addr, h'.get? a = h.get? a) (pa na : Nat) :
    Seg h' pa l na ↔ Seg h pa l na := by
  induction l generalizing pa with
  | nil => simp [Seg]
  | cons c l ih =>
    simp only [Seg]
    rw [hh c.addr (by simp), ih (fun a ha => hh a (List.mem_cons_of_mem _ ha))]

theorem seg_getElem {h : Heap R} {l : List (Cell R)} {pa na : Nat} (hs : Seg h pa l na)
    {i : Nat} (hi : i < l.length) :
    h.get? l[i].addr
      = some ⟨l[i].p, l[i].hits, addrAt l (i + 1) na, if i = 0 then pa else addrAt l (i - 1) pa⟩ := by
  induction l generalizing pa i with
  | nil => simp at hi
  | cons c l ih =>
    obtain ⟨hc, hrest⟩ := hs
    cases i with
    | zero => simpa [addrAt, headAddr_eq_addrAt] using hc
    | succ i =>
      have hi' : i < l.length := by simpa using hi
      have := ih hrest hi'
      simp only [List.getElem_cons_succ, this]
      cases i with
      | zero => simp [addrAt]
      | succ j =>
        have hj : j < l.length := by omega
        simp [addrAt, List.getElem?_eq_getElem hj]

theorem seg_of_getElem {h : Heap R} {l : List (Cell R)} {pa na : Nat}
    (hg : ∀ i (hi : i < l.length), h.get? l[i].addr
      = some ⟨l[i].p, l[i].hits, addrAt l (i + 1) na,
          if i = 0 then pa else addrAt l (i - 1) pa⟩) :
    Seg h pa l na := by
  induction l generalizing pa with
  | nil => trivial
  | cons c l ih =>
    refine ⟨?_, ih ?_⟩
    · simpa [addrAt, headAddr_eq_addrAt] using hg 0 (by simp)
    · intro i hi
      have := hg (i + 1) (by simpa using hi)
      simp only [List.getElem_cons_succ] at this
      rw [this]
      cases i with
      | zero => simp [addrAt]
      | succ j =>
        have hj : j < l.length := by omega
        simp [addrAt, List.getElem?_eq_getElem hj]

theorem Repr.rot {h : Heap R} (l₁ : List (Cell R)) {l₂ : List (Cell R)}
    (hr : Repr h (l₁ ++ l₂)) : Repr h (l₂ ++ l₁) := by
  by_cases h1 : l₁ = []
  · simpa [h1] using hr
  by_cases h2 : l₂ = []
  · simpa [h2] using hr
  obtain ⟨_, hnd, hseg⟩ := hr
  refine ⟨by simp [h1], ?_, ?_⟩
  · rw [List.map_append, List.nodup_append] at hnd ⊢
    exact ⟨hnd.2.1, hnd.1, hnd.2.2.symm⟩
  · rw [seg_append] at hseg ⊢
    rw [headAddr_append, lastAddr_append] at hseg ⊢
    simp only [headAddr_eq_head h1, headAddr_eq_head h2, lastAddr_eq_getLast h1,
      lastAddr_eq_getLast h2] at hseg ⊢
    exact ⟨hseg.2, hseg.1⟩

theorem half_eq : (0.5 : R) = 1 / 2 := by norm_num

/-- What `neuronInsert` does to the heap, link by link. -/
theorem neuronInsert_run {h : Heap R} {a : Nat} {d dn : NeuronData R}
    (hd : h.get? a = some d) (hn : h.get? d.next = some dn) :
    ∃ h', neuronInsert h a = some (h', h.cells.length + 1)
      ∧ h'.cells.length = h.cells.length + 1
      ∧ ∀ b, h'.get? b =
          if b = h.cells.length + 1 then
            some ⟨vectorAdd d.p (vectorScale (vectorSub dn.p d.p) 0.5), 0, d.next, a⟩
          else if b = a then
            some ⟨d.p, 0, h.cells.length + 1, if d.next = a then h.cells.length + 1 else d.prev⟩
          else if b = d.next then some { dn with prev := h.cells.length + 1 }
          else h.get? b := by
  have hane : a ≠ h.cells.length + 1 := by have := (Heap.pos_of_get? hd).2; omega
  have hnne : d.next ≠ h.cells.length + 1 := by have := (Heap.pos_of_get? hn).2; omega
  obtain ⟨h1, e1, g1, l1⟩ := neuronMake_spec h
  have a1 : h1.get? a = some d := by rw [g1]; simp [hane, hd]
  obtain ⟨h2, e2, g2, l2⟩ := Heap.modify_spec a1 fun d => { d with hits := 0 }
  have a2 : h2.get? a = some { d with hits := 0 } := by rw [g2]; simp
  have n2 : ∃ dn2, h2.get? d.next = some dn2 ∧ dn2.p = dn.p
      ∧ dn2 = if d.next = a then { d with hits := 0 } else dn := by
    by_cases hs : d.next = a
    · refine ⟨{ d with hits := 0 }, ?_, ?_, by simp [hs]⟩
      · exact (congrArg h2.get? hs).trans a2
      · rw [hs, hd] at hn; cases hn; rfl
    · refine ⟨dn, ?_, rfl, by simp [hs]⟩
      rw [g2, g1]; simp [hs, hnne, hn]
  obtain ⟨dn2, n2, hp2, hdn2⟩ := n2
  have w2 : h2.get? (h.cells.length + 1) = some ⟨⟨0, 0⟩, 0, 0, 0⟩ := by
    rw [g2, g1]; simp [Ne.symm hane]
  obtain ⟨h3, e3, g3, l3⟩ := Heap.modify_spec w2 fun c =>
    { c with p := vectorAdd d.p (vectorScale (vectorSub dn2.p d.p) 0.5) }
  have w3 := g3 (h.cells.length + 1)
  simp only [if_true] at w3
  obtain ⟨h4, e4, g4, l4⟩ := Heap.modify_spec w3 fun c => { c with next := d.next }
  have w4 := g4 (h.cells.length + 1)
  simp only [if_true] at w4
  obtain ⟨h5, e5, g5, l5⟩ := Heap.modify_spec w4 fun c => { c with prev := a }
  have w5 := g5 (h.cells.length + 1)
  simp only [if_true] at w5
  have n5 : h5.get? d.next = some dn2 := by rw [g5, g4, g3]; simp [hnne, n2]
  obtain ⟨h6, e6, g6, l6⟩ := Heap.modify_spec n5 fun e => { e with prev := h.cells.length + 1 }
  have w6 : h6.get? (h.cells.length + 1)
      = some ⟨vectorAdd d.p (vectorScale (vectorSub dn2.p d.p) 0.5), 0, d.next, a⟩ := by
    rw [g6, if_neg (Ne.symm hnne)]; exact w5
  have a6 : h6.get? a = some (if d.next = a then { dn2 with prev := h.cells.length + 1 }
      else { d with hits := 0 }) := by
    rw [g6]
    by_cases hs : d.next = a
    · simp [hs]
    · rw [if_neg (Ne.symm hs), g5, g4, g3]; simp [hane, hs, a2]
  obtain ⟨h7, e7, g7, l7⟩ := Heap.modify_spec a6 fun e => { e with next := h.cells.length + 1 }
  refine ⟨h7, ?_, by omega, ?_⟩
  · simp [neuronInsert, e1, e2, a2, n2, e3, e4, e5, w5, e6, w6, e7]
  · intro b
    rw [g7]
    by_cases hb1 : b = h.cells.length + 1
    · subst hb1
      rw [if_neg (Ne.symm hane), w6, hp2]; simp
    · by_cases hb2 : b = a
      · subst hb2
        by_cases hs : d.next = b
        · simp [hs, hb1, hdn2]
        · simp [hs, hb1]
      · rw [if_neg hb2, if_neg hb1, if_neg hb2, g6]
        by_cases hb3 : b = d.next
        · have hs : ¬ d.next = a := fun e => hb2 (hb3.trans e)
          simp [hb3, hdn2, hs]
        · rw [if_neg hb3, if_neg hb3, g5, g4, g3, g2, g1]
          simp [hb1, hb2]

/-- What `neuronRemoveNext` does to the heap, link by link (on a ring of at least two
neurons). -/
theorem neuronRemoveNext_run {h : Heap R} {a : Nat} {d dn dnn : NeuronData R}
    (hd : h.get? a = some d) (hn : h.get? d.next = some dn) (hnn : h.get? dn.next = some dnn)
    (h1 : d.next ≠ a) (h2 : dn.next ≠ d.next) :
    ∃ h', neuronRemoveNext h a = some (h', a)
      ∧ h'.cells.length = h.cells.length
      ∧ ∀ b, h'.get? b =
          if b = d.next then none
          else if b = a then some ⟨d.p, d.hits, dn.next, if dn.next = a then a else d.prev⟩
          else if b = dn.next then some { dnn with prev := a }
          else h.get? b := by
  obtain ⟨k1, e1, g1, l1⟩ := Heap.modify_spec hd fun c => { c with next := dn.next }
  have a1 := g1 a
  simp only [if_true] at a1
  have n1 : k1.get? dn.next
      = some (if dn.next = a then { d with next := dn.next } else dnn) := by
    rw [g1]
    by_cases hs : dn.next = a
    · simp [hs]
    · simp [hs, hnn]
  obtain ⟨k2, e2, g2, l2⟩ := Heap.modify_spec n1 fun c => { c with prev := a }
  have t2 : k2.get? d.next = some dn := by
    rw [g2, if_neg (Ne.symm h2), g1, if_neg h1, hn]
  obtain ⟨k3, e3, g3, l3⟩ := Heap.free_spec t2
  refine ⟨k3, ?_, by omega, ?_⟩
  · simp [neuronRemoveNext, hd, hn, e1, a1, e2, e3]
  · intro b
    rw [g3]
    by_cases hb1 : b = d.next
    · simp [hb1]
    · rw [if_neg hb1, if_neg hb1, g2]
      by_cases hb2 : b = a
      · subst hb2
        by_cases hs : dn.next = b
        · simp [hs]
        · simp [hs, Ne.symm hs, a1]
      · rw [if_neg hb2]
        by_cases hb3 : b = dn.next
        · have hs : ¬ dn.next = a := fun e => hb2 (hb3.trans e)
          simp [hb3, hs]
        · rw [if_neg hb3, if_neg hb3, g1, if_neg hb2]

theorem seg_alloc {h : Heap R} {l : List (Cell R)} {pa na : Nat} (hs : Seg h pa l na)
    {a : Nat} (ha : a ∈ l.map Cell.addr) : ∃ d, h.get? a = some d := by
  induction l generalizing pa with
  | nil => simp at ha
  | cons c l ih =>
    obtain ⟨hc, hrest⟩ := hs
    simp only [List.map_cons, List.mem_cons] at ha
    rcases ha with rfl | ha
    · exact ⟨_, hc⟩
    · exact ih hrest ha

theorem Repr.alloc {h : Heap R} {l : List (Cell R)} (hr : Repr h l)
    {a : Nat} (ha : a ∈ l.map Cell.addr) : ∃ d, h.get? a = some d :=
  seg_alloc hr.2.2 ha

theorem Repr.le_length {h : Heap R} {l : List (Cell R)} (hr : Repr h l)
    {a : Nat} (ha : a ∈ l.map Cell.addr) : a ≤ h.cells.length := by
  obtain ⟨d, hd⟩ := hr.alloc ha
  exact (Heap.pos_of_get? hd).2

theorem updAt_addr {a : Nat} {g : Cell R → Cell R} (hg : ∀ c, (g c).addr = c.addr)
    (l : List (Cell R)) : (updAt a g l).map Cell.addr = l.map Cell.addr := by
  simp only [updAt, List.map_map]
  apply List.map_congr_left
  intro c _
  by_cases hc : c.addr = a <;> simp [hc, hg]

theorem headAddr_updAt {a : Nat} {g : Cell R → Cell R} (hg : ∀ c, (g c).addr = c.addr)
    (l : List (Cell R)) (b : Nat) : headAddr (updAt a g l) b = headAddr l b := by
  cases l with
  | nil => rfl
  | cons c l =>
    by_cases hc : c.addr = a <;> simp [updAt, headAddr, hc, hg]

theorem lastAddr_updAt {a : Nat} {g : Cell R → Cell R} (hg : ∀ c, (g c).addr = c.addr)
    (l : List (Cell R)) (b : Nat) : lastAddr (updAt a g l) b = lastAddr l b := by
  induction l generalizing b with
  | nil => rfl
  | cons c l ih =>
    have : lastAddr (updAt a g (c :: l)) b
        = lastAddr (updAt a g l) (if c.addr = a then g c else c).addr := rfl
    rw [this, ih, lastAddr]
    by_cases hc : c.addr = a <;> simp [hc, hg]

theorem seg_updAt {h h' : Heap R} {l : List (Cell R)} {pa na a : Nat}
    {f : NeuronData R → NeuronData R} {g : Cell R → Cell R}
    (hfg : ∀ c nx pv, f ⟨c.p, c.hits, nx, pv⟩ = ⟨(g c).p, (g c).hits, nx, pv⟩)
    (hg : ∀ c, (g c).addr = c.addr)
    (hh : ∀ b, h'.get? b = if b = a then (h.get? a).map f else h.get? b)
    (hs : Seg h pa l na) : Seg h' pa (updAt a g l) na := by
  induction l generalizing pa with
  | nil => trivial
  | cons c l ih =>
    obtain ⟨hc, hrest⟩ := hs
    have hrec := ih hrest
    show Seg h' pa ((if c.addr = a then g c else c) :: updAt a g l) na
    by_cases hca : c.addr = a
    · rw [if_pos hca]
      refine ⟨?_, ?_⟩
      · rw [hg, headAddr_updAt hg, hh, if_pos hca, ← hca, hc]
        simp [hfg]
      · rw [hg]; exact hrec
    · rw [if_neg hca]
      refine ⟨?_, hrec⟩
      rw [headAddr_updAt hg, hh, if_neg hca, hc]

/-- Writing the position or the hit count of a neuron of the ring keeps the ring. -/
theorem Repr.modify {h : Heap R} {l : List (Cell R)} (hr : Repr h l) {a : Nat}
    (ha : a ∈ l.map Cell.addr) (f : NeuronData R → NeuronData R) (g : Cell R → Cell R)
    (hfg : ∀ c nx pv, f ⟨c.p, c.hits, nx, pv⟩ = ⟨(g c).p, (g c).hits, nx, pv⟩)
    (hg : ∀ c, (g c).addr = c.addr) :
    ∃ h', h.modify a f = some h' ∧ Repr h' (updAt a g l)
      ∧ h'.cells.length = h.cells.length := by
  obtain ⟨d, hd⟩ := hr.alloc ha
  obtain ⟨h', e, gg, len⟩ := Heap.modify_spec hd f
  refine ⟨h', e, ⟨?_, ?_, ?_⟩, len⟩
  · have := hr.1
    intro hnil
    apply this
    have h2 := congrArg List.length hnil
    simp only [updAt, List.length_map, List.length_nil] at h2
    exact List.length_eq_zero.mp h2
  · rw [updAt_addr hg]; exact hr.2.1
  · rw [headAddr_updAt hg, lastAddr_updAt hg]
    refine seg_updAt hfg hg ?_ hr.2.2
    intro b
    rw [gg, hd]; rfl

/-- `neuronInsert` on the first neuron of a ring: its hits are reset and a new neuron, at the
midpoint towards the successor, follows it. -/
theorem neuronInsert_repr {h : Heap R} {c : Cell R} {rest : List (Cell R)}
    (hr : Repr h (c :: rest)) :
    ∃ h', neuronInsert h c.addr = some (h', h.cells.length + 1)
      ∧ h'.cells.length = h.cells.length + 1
      ∧ Repr h' (⟨c.addr, c.p, 0⟩
          :: ⟨h.cells.length + 1,
              vectorAdd c.p (vectorScale (vectorSub (headP rest c.p) c.p) 0.5), 0⟩
          :: rest) := by
  have hcl : c.addr ≤ h.cells.length := hr.le_length (by simp)
  obtain ⟨hne, hnd, hseg⟩ := hr
  cases rest with
  | nil =>
    simp only [Seg, headAddr, lastAddr, and_true] at hseg
    obtain ⟨h', e, len, g⟩ := neuronInsert_run hseg hseg
    refine ⟨h', e, len, by simp, ?_, ?_⟩
    · simp; omega
    · simp only [Seg, headAddr, lastAddr, headP, and_true]
      refine ⟨?_, ?_⟩
      · rw [g]; simp; omega
      · rw [g]; simp
  | cons c2 rest =>
    simp only [Seg, headAddr, lastAddr] at hseg
    obtain ⟨hc, hc2, hrest⟩ := hseg
    obtain ⟨h', e, len, g⟩ := neuronInsert_run hc hc2
    simp only at g
    have hc2l : c2.addr ≤ h.cells.length := (Heap.pos_of_get? hc2).2
    simp only [List.map_cons, List.nodup_cons, List.mem_cons, not_or] at hnd
    obtain ⟨⟨hcc2, hcr⟩, hc2r, hndr⟩ := hnd
    have hfresh : ∀ a ∈ rest.map Cell.addr, a ≠ h.cells.length + 1 := by
      intro a ha
      obtain ⟨d, hd⟩ := seg_alloc hrest ha
      have := (Heap.pos_of_get? hd).2
      omega
    refine ⟨h', e, len, by simp, ?_, ?_⟩
    · simp only [List.map_cons, List.nodup_cons, List.mem_cons, not_or]
      refine ⟨⟨by omega, hcc2, hcr⟩, ⟨by omega, fun hm => hfresh _ hm rfl⟩, hc2r, hndr⟩
    · simp only [Seg, headAddr, lastAddr, headP]
      refine ⟨?_, ?_, ?_, ?_⟩
      · rw [g]
        have h1 : c.addr ≠ h.cells.length + 1 := by omega
        simp [h1, Ne.symm hcc2]
      · rw [g]; simp
      · rw [g]
        have h1 : c2.addr ≠ h.cells.length + 1 := by omega
        simp [h1, Ne.symm hcc2]
      · refine (seg_congr ?_ _ _).mpr hrest
        intro a ha
        have h1 := hfresh a ha
        have h2 : a ≠ c.addr := fun e => hcr (e ▸ ha)
        have h3 : a ≠ c2.addr := fun e => hc2r (e ▸ ha)
        rw [g]; simp [h1, h2, h3]

/-- `neuronRemoveNext` on the first neuron of a ring of at least two: the second neuron
leaves the ring. -/
theorem neuronRemoveNext_repr {h : Heap R} {c c2 : Cell R} {rest : List (Cell R)}
    (hr : Repr h (c :: c2 :: rest)) :
    ∃ h', neuronRemoveNext h c.addr = some (h', c.addr)
      ∧ h'.cells.length = h.cells.length
      ∧ Repr h' (c :: rest) := by
  obtain ⟨hne, hnd, hseg⟩ := hr
  simp only [List.map_cons, List.nodup_cons, List.mem_cons, not_or] at hnd
  obtain ⟨⟨hcc2, hcr⟩, hc2r, hndr⟩ := hnd
  simp only [Seg, headAddr, lastAddr] at hseg
  obtain ⟨hc, hc2, hrest⟩ := hseg
  cases rest with
  | nil =>
    simp only [headAddr, lastAddr] at hc hc2
    obtain ⟨h', e, len, g⟩ := neuronRemoveNext_run hc hc2 hc (Ne.symm hcc2) hcc2
    simp only at g
    refine ⟨h', e, len, by simp, by simp, ?_⟩
    simp only [Seg, headAddr, lastAddr, and_true]
    rw [g]; simp [hcc2]
  | cons c3 rest =>
    simp only [Seg, headAddr, lastAddr] at hc hc2 hrest
    obtain ⟨hc3, hrest⟩ := hrest
    simp only [List.map_cons, List.mem_cons, not_or, List.nodup_cons] at hcr hc2r hndr
    obtain ⟨hcc3, hcr⟩ := hcr
    obtain ⟨hc2c3, hc2r⟩ := hc2r
    obtain ⟨hc3r, hndr⟩ := hndr
    obtain ⟨h', e, len, g⟩ := neuronRemoveNext_run hc hc2 hc3 (Ne.symm hcc2) (Ne.symm hc2c3)
    simp only at g
    refine ⟨h', e, len, by simp, ?_, ?_⟩
    · simp only [List.map_cons, List.nodup_cons, List.mem_cons, not_or]
      exact ⟨⟨hcc3, hcr⟩, hc3r, hndr⟩
    · simp only [Seg, headAddr, lastAddr]
      refine ⟨?_, ?_, ?_⟩
      · rw [g]; simp [hcc2, Ne.symm hcc3]
      · rw [g]; simp [Ne.symm hc2c3, Ne.symm hcc3]
      · refine (seg_congr ?_ _ _).mpr hrest
        intro a ha
        have h1 : a ≠ c.addr := fun e => hcr (e ▸ ha)
        have h2 : a ≠ c2.addr := fun e => hc2r (e ▸ ha)
        have h3 : a ≠ c3.addr := fun e => hc3r (e ▸ ha)
        rw [g]; simp [h1, h2, h3]

theorem succ_mod {i n : Nat} (hi : i < n) : (i + 1) % n = if i + 1 = n then 0 else i + 1 := by
  by_cases h : i + 1 = n
  · rw [if_pos h, h, Nat.mod_self]
  · rw [if_neg h, Nat.mod_eq_of_lt (by omega)]

theorem pred_mod {i n : Nat} (hi : i < n) :
    (i + n - 1) % n = if i = 0 then n - 1 else i - 1 := by
  by_cases h : i = 0
  · subst h
    rw [if_pos rfl, Nat.zero_add, Nat.mod_eq_of_lt (by omega)]
  · rw [if_neg h, show i + n - 1 = (i - 1) + n by omega, Nat.add_mod_right,
      Nat.mod_eq_of_lt (by omega)]

theorem succ_pred_mod {i n : Nat} (hi : i < n) : ((i + n - 1) % n + 1) % n = i := by
  have h1 : (i + n - 1) % n < n := Nat.mod_lt _ (by omega)
  rw [succ_mod h1, pred_mod hi]
  by_cases h : i = 0
  · subst h; simp; omega
  · rw [if_neg h, if_neg (by omega)]; omega

theorem pred_succ_mod {i n : Nat} (hi : i < n) : ((i + 1) % n + n - 1) % n = i := by
  have h1 : (i + 1) % n < n := Nat.mod_lt _ (by omega)
  rw [pred_mod h1, succ_mod hi]
  by_cases h : i + 1 = n
  · rw [if_pos h, if_pos rfl]; omega
  · rw [if_neg h, if_neg (by omega)]; omega

/-- The cell of the `i`-th neuron of a ring: its successor and predecessor are its
neighbours in the list, cyclically. -/
theorem Repr.get {h : Heap R} {l : List (Cell R)} (hr : Repr h l) {i : Nat}
    (hi : i < l.length) :
    h.get? l[i].addr
      = some ⟨l[i].p, l[i].hits, addrAt l ((i + 1) % l.length) 0,
          addrAt l ((i + l.length - 1) % l.length) 0⟩ := by
  rw [seg_getElem hr.2.2 hi, succ_mod hi, pred_mod hi]
  congr 2
  · by_cases h1 : i + 1 = l.length
    · rw [if_pos h1, h1, headAddr_eq_addrAt]
      simp [addrAt]
    · rw [if_neg h1, addrAt_of_lt (by omega : i + 1 < l.length),
        addrAt_of_lt (by omega : i + 1 < l.length)]
  · by_cases h0 : i = 0
    · rw [if_pos h0, if_pos h0, lastAddr_eq_addrAt hr.1]
    · rw [if_neg h0, if_neg h0, addrAt_of_lt (by omega : i - 1 < l.length),
        addrAt_of_lt (by omega : i - 1 < l.length)]

theorem repr_of_index {h : Heap R} {l : List (Cell R)} (hne : l ≠ [])
    (hnd : (l.map Cell.addr).Nodup)
    (hg : ∀ i (hi : i < l.length), h.get? l[i].addr
      = some ⟨l[i].p, l[i].hits, addrAt l ((i + 1) % l.length) 0,
          addrAt l ((i + l.length - 1) % l.length) 0⟩) : Repr h l := by
  refine ⟨hne, hnd, seg_of_getElem ?_⟩
  intro i hi
  rw [hg i hi, succ_mod hi, pred_mod hi]
  congr 2
  · by_cases h1 : i + 1 = l.length
    · rw [if_pos h1, h1, headAddr_eq_addrAt]
      simp [addrAt]
    · rw [if_neg h1, addrAt_of_lt (by omega : i + 1 < l.length),
        addrAt_of_lt (by omega : i + 1 < l.length)]
  · by_cases h0 : i = 0
    · rw [if_pos h0, if_pos h0, lastAddr_eq_addrAt hne]
    · rw [if_neg h0, if_neg h0, addrAt_of_lt (by omega : i - 1 < l.length),
        addrAt_of_lt (by omega : i - 1 < l.length)]

theorem Repr.length_pos {h : Heap R} {l : List (Cell R)} (hr : Repr h l) : 0 < l.length :=
  List.length_pos.mpr hr.1

theorem Repr.get_addrAt {h : Heap R} {l : List (Cell R)} (hr : Repr h l) {i : Nat}
    (hi : i < l.length) :
    h.get? (addrAt l i 0)
      = some ⟨l[i].p, l[i].hits, addrAt l ((i + 1) % l.length) 0,
          addrAt l ((i + l.length - 1) % l.length) 0⟩ := by
  rw [addrAt_of_lt hi]; exact hr.get hi

theorem Repr.addrAt_inj {h : Heap R} {l : List (Cell R)} (hr : Repr h l) {i j : Nat}
    (hi : i < l.length) (hj : j < l.length) (e : addrAt l i 0 = addrAt l j 0) : i = j := by
  rw [addrAt_of_lt hi, addrAt_of_lt hj] at e
  have hi' : i < (l.map Cell.addr).length := by simpa using hi
  have hj' : j < (l.map Cell.addr).length := by simpa using hj
  have h1 : (l.map Cell.addr)[i] = (l.map Cell.addr)[j] := by simpa using e
  exact (List.Nodup.getElem_inj_iff hr.2.1).mp h1

/-! ## Well-formed rings are the rings laid out as a list -/

theorem nextN_add (h : Heap R) (j k a : Nat) :
    nextN h (j + k) a = (nextN h j a).bind (nextN h k) := by
  induction j generalizing a with
  | zero => simp [nextN]
  | succ j ih =>
    rw [Nat.add_right_comm, nextN, nextN]
    cases h.get? a with
    | none => rfl
    | some d => simp [ih]

theorem nextN_succ (h : Heap R) (k a : Nat) :
    nextN h (k + 1) a = (nextN h k a).bind fun b => (h.get? b).map NeuronData.next := by
  rw [nextN_add]
  congr 1
  funext b
  simp only [nextN]
  cases h.get? b <;> rfl

theorem Repr.nextN {h : Heap R} {l : List (Cell R)} (hr : Repr h l) (k : Nat) {i : Nat}
    (hi : i < l.length) :
    Tspsom.nextN h k (addrAt l i 0) = some (addrAt l ((i + k) % l.length) 0) := by
  induction k generalizing i with
  | zero => simp [Tspsom.nextN, Nat.mod_eq_of_lt hi]
  | succ k ih =>
    rw [Tspsom.nextN, hr.get_addrAt hi]
    simp only [Option.some_bind]
    rw [ih (Nat.mod_lt _ hr.length_pos)]
    congr 2
    rw [Nat.mod_add_mod]
    congr 1
    omega

theorem Repr.linksOk {h : Heap R} {l : List (Cell R)} (hr : Repr h l) {i : Nat}
    (hi : i < l.length) : Tspsom.linksOk h (addrAt l i 0) = true := by
  have hn := hr.length_pos
  unfold Tspsom.linksOk
  rw [hr.get_addrAt hi]
  simp only
  rw [hr.get_addrAt (Nat.mod_lt _ hn), hr.get_addrAt (Nat.mod_lt _ hn)]
  simp only [pred_succ_mod hi, succ_pred_mod hi]
  simp

theorem Repr.wellFormed {h : Heap R} {l : List (Cell R)} (hr : Repr h l) (nn : NeuralNet)
    (he : nn.neurons = headAddr l 0) (hs : nn.size = l.length) : WellFormed h nn := by
  have hn := hr.length_pos
  have he' : nn.neurons = addrAt l 0 0 := by rw [he, headAddr_eq_addrAt]
  refine ⟨by omega, ?_, ?_, ?_⟩
  · rw [he', hs, hr.nextN _ hn]; simp
  · intro k hk hk0
    rw [he', hr.nextN _ hn, Nat.zero_add, Nat.mod_eq_of_lt (by omega)]
    intro e
    have := hr.addrAt_inj (by omega) hn (Option.some.inj e)
    omega
  · intro k hk
    rw [he', hr.nextN _ hn, Nat.zero_add, Nat.mod_eq_of_lt (by omega)]
    simp [hr.linksOk (by omega : k < l.length)]

theorem ringCells_length (h : Heap R) (nn : NeuralNet) : (ringCells h nn).length = nn.size := by
  simp [ringCells, ringAddrs]

theorem ringCells_getElem (h : Heap R) (nn : NeuralNet) {i : Nat}
    (hi : i < (ringCells h nn).length) :
    (ringCells h nn)[i] = ⟨ringAddr h nn.neurons i, posOf h (ringAddr h nn.neurons i),
      hitsOf h (ringAddr h nn.neurons i)⟩ := by
  simp [ringCells, ringAddrs]

theorem addrAt_ringCells (h : Heap R) (nn : NeuralNet) {i : Nat} (hi : i < nn.size) :
    addrAt (ringCells h nn) i 0 = ringAddr h nn.neurons i := by
  rw [addrAt_of_lt (by rw [ringCells_length]; exact hi), ringCells_getElem]

theorem WellFormed.nextN_eq {h : Heap R} {nn : NeuralNet} (hw : WellFormed h nn) {k : Nat}
    (hk : k ≤ nn.size) : nextN h k nn.neurons = some (ringAddr h nn.neurons k) := by
  have h1 := hw.2.1
  rw [show nn.size = k + (nn.size - k) by omega, nextN_add] at h1
  unfold ringAddr
  cases hx : nextN h k nn.neurons with
  | none => rw [hx] at h1; simp at h1
  | some b => rfl

theorem WellFormed.ringAddr_zero {h : Heap R} {nn : NeuralNet} :
    ringAddr h nn.neurons 0 = nn.neurons := rfl

theorem WellFormed.ringAddr_size {h : Heap R} {nn : NeuralNet} (hw : WellFormed h nn) :
    ringAddr h nn.neurons nn.size = nn.neurons := by
  have := hw.nextN_eq (Nat.le_refl _)
  rw [hw.2.1] at this
  exact (Option.some.inj this).symm

theorem WellFormed.ringAddr_mod {h : Heap R} {nn : NeuralNet} (hw : WellFormed h nn) {k : Nat}
    (hk : k ≤ nn.size) : ringAddr h nn.neurons (k % nn.size) = ringAddr h nn.neurons k := by
  by_cases hkn : k = nn.size
  · rw [hkn, Nat.mod_self, hw.ringAddr_size]; rfl
  · rw [Nat.mod_eq_of_lt (by omega)]

theorem WellFormed.cell {h : Heap R} {nn : NeuralNet} (hw : WellFormed h nn) {k : Nat}
    (hk : k < nn.size) :
    ∃ d dn, h.get? (ringAddr h nn.neurons k) = some d
      ∧ d.next = ringAddr h nn.neurons (k + 1)
      ∧ h.get? d.next = some dn ∧ dn.prev = ringAddr h nn.neurons k := by
  have h1 := hw.2.2.2 k hk
  rw [hw.nextN_eq (Nat.le_of_lt hk)] at h1
  simp only [Option.map_some', Option.some.injEq] at h1
  unfold linksOk at h1
  cases hd : h.get? (ringAddr h nn.neurons k) with
  | none => rw [hd] at h1; simp at h1
  | some d =>
    rw [hd] at h1
    simp only [Bool.and_eq_true] at h1
    cases hdn : h.get? d.next with
    | none => rw [hdn] at h1; simp at h1
    | some dn =>
      rw [hdn] at h1
      refine ⟨d, dn, rfl, ?_, hdn, by simpa using h1.1⟩
      have h2 := hw.nextN_eq (Nat.succ_le_of_lt hk)
      rw [nextN_succ, hw.nextN_eq (Nat.le_of_lt hk)] at h2
      simp only [Option.some_bind, hd, Option.map_some', Option.some.injEq] at h2
      exact h2

theorem WellFormed.ringAddr_inj {h : Heap R} {nn : NeuralNet} (hw : WellFormed h nn)
    {i j : Nat} (hij : i < j) (hj : j < nn.size)
    (e : ringAddr h nn.neurons i = ringAddr h nn.neurons j) : False := by
  have h1 := hw.2.1
  rw [show nn.size = j + (nn.size - j) by omega, nextN_add, hw.nextN_eq (Nat.le_of_lt hj),
    ← e] at h1
  have h2 : nextN h (i + (nn.size - j)) nn.neurons = some nn.neurons := by
    rw [nextN_add, hw.nextN_eq (by omega : i ≤ nn.size)]
    exact h1
  exact hw.2.2.1 (i + (nn.size - j)) (by omega) (by omega) h2

/-- A well-formed ring is laid out as the list of its cells. -/
theorem WellFormed.repr {h : Heap R} {nn : NeuralNet} (hw : WellFormed h nn) :
    Repr h (ringCells h nn) := by
  have hn : 0 < nn.size := hw.1
  have hlen := ringCells_length h nn
  apply repr_of_index
  · intro e
    rw [e] at hlen
    simp at hlen
    omega
  · have : (ringCells h nn).map Cell.addr = ringAddrs h nn := by
      simp [ringCells, Function.comp_def]
    rw [this, ringAddrs]
    refine (List.nodup_map_iff_inj_on (List.nodup_range _)).mpr ?_
    intro i hi j hj e
    rw [List.mem_range] at hi hj
    rcases Nat.lt_trichotomy i j with hlt | heq | hgt
    · exact (hw.ringAddr_inj hlt hj e).elim
    · exact heq
    · exact (hw.ringAddr_inj hgt hi e.symm).elim
  · intro i hi
    rw [hlen] at hi ⊢
    obtain ⟨d, dn, hd, hnext, hdn, hprev⟩ := hw.cell hi
    have hj : (i + nn.size - 1) % nn.size < nn.size := Nat.mod_lt _ hn
    obtain ⟨d', dn', hd', hnext', hdn', hprev'⟩ := hw.cell hj
    rw [ringCells_getElem]
    simp only [posOf, hitsOf, hd]
    rw [addrAt_ringCells h nn (Nat.mod_lt _ hn), addrAt_ringCells h nn hj,
      hw.ringAddr_mod (by omega : i + 1 ≤ nn.size), ← hnext]
    have h3 : ringAddr h nn.neurons ((i + nn.size - 1) % nn.size + 1)
        = ringAddr h nn.neurons i := by
      rw [← hw.ringAddr_mod (by omega), succ_pred_mod hi]
    rw [h3] at hnext'
    rw [hnext', hd] at hdn'
    cases hdn'
    rw [← hprev']

theorem WellFormed.headAddr_ringCells {h : Heap R} {nn : NeuralNet} (hw : WellFormed h nn) :
    headAddr (ringCells h nn) 0 = nn.neurons := by
  rw [headAddr_eq_addrAt, addrAt_ringCells h nn hw.1]; rfl

/-- The list that lays out a ring is the list of its cells. -/
theorem Repr.ringCells_eq {h : Heap R} {l : List (Cell R)} (hr : Repr h l) (nn : NeuralNet)
    (he : nn.neurons = headAddr l 0) (hs : nn.size = l.length) : ringCells h nn = l := by
  have hn := hr.length_pos
  apply List.ext_getElem
  · rw [ringCells_length, hs]
  · intro i h1 h2
    rw [ringCells_getElem]
    have ha : ringAddr h nn.neurons i = l[i].addr := by
      unfold ringAddr
      rw [he, headAddr_eq_addrAt, hr.nextN _ hn, Nat.zero_add, Nat.mod_eq_of_lt h2,
        addrAt_of_lt h2]
      rfl
    rw [ha]
    simp only [posOf, hitsOf, hr.get h2]

theorem Repr.posOf {h : Heap R} {l : List (Cell R)} (hr : Repr h l) {i : Nat}
    (hi : i < l.length) : Tspsom.posOf h l[i].addr = l[i].p := by
  simp only [Tspsom.posOf, hr.get hi]

theorem Repr.hitsOf {h : Heap R} {l : List (Cell R)} (hr : Repr h l) {i : Nat}
    (hi : i < l.length) : Tspsom.hitsOf h l[i].addr = l[i].hits := by
  simp only [Tspsom.hitsOf, hr.get hi]

/-! ## `neuralNetInv` accepts every ring -/

theorem neuralNetInvLoop_repr {h : Heap R} {l : List (Cell R)} (hr : Repr h l)
    (nn : NeuralNet) (he : nn.neurons = headAddr l 0) (k : Nat) :
    ∀ i, 1 ≤ i → i + k = l.length → ∀ fuel, k + 1 ≤ fuel →
      neuralNetInvLoop h nn fuel true (addrAt l (i % l.length) 0) = some true := by
  have hn := hr.length_pos
  have he' : nn.neurons = addrAt l 0 0 := by rw [he, headAddr_eq_addrAt]
  induction k with
  | zero =>
    intro i _ hi fuel hf
    obtain ⟨f, rfl⟩ : ∃ f, fuel = f + 1 := ⟨fuel - 1, by omega⟩
    have : i = l.length := by omega
    rw [this, Nat.mod_self, neuralNetInvLoop, he']
    simp
  | succ k ih =>
    intro i hi1 hi fuel hf
    obtain ⟨f, rfl⟩ : ∃ f, fuel = f + 1 := ⟨fuel - 1, by omega⟩
    have hil : i < l.length := by omega
    have hne : addrAt l i 0 ≠ nn.neurons := by
      rw [he']
      intro e
      have := hr.addrAt_inj hil hn e
      omega
    rw [Nat.mod_eq_of_lt hil, neuralNetInvLoop]
    simp only [Bool.true_and, bne_iff_ne, ne_eq, hne, not_false_eq_true, if_true]
    rw [hr.get_addrAt hil]
    simp only [Option.bind_eq_bind, Option.some_bind]
    rw [hr.get_addrAt (Nat.mod_lt _ hn), hr.get_addrAt (Nat.mod_lt _ hn)]
    simp only [Option.some_bind, pred_succ_mod hil, succ_pred_mod hil, beq_self_eq_true,
      if_true, Option.pure_def, Bool.and_self]
    exact ih (i + 1) (by omega) (by omega) f (by omega)

theorem neuralNetInv_repr {h : Heap R} {l : List (Cell R)} (hr : Repr h l)
    (nn : NeuralNet) (he : nn.neurons = headAddr l 0) (fuel : Nat)
    (hf : l.length + 1 ≤ fuel) : neuralNetInv fuel h nn = some true := by
  have hn := hr.length_pos
  have he' : nn.neurons = addrAt l 0 0 := by rw [he, headAddr_eq_addrAt]
  unfold neuralNetInv
  rw [he', hr.get_addrAt hn]
  simp only [Option.bind_eq_bind, Option.some_bind]
  by_cases h1 : l.length = 1
  · have := neuralNetInvLoop_repr hr nn he 0 l.length (by omega) (by omega) fuel (by omega)
    have e : (0 + 1) % l.length = l.length % l.length := by rw [h1]
    rw [e]
    exact this
  · have := neuralNetInvLoop_repr hr nn he (l.length - 1) 1 (Nat.le_refl _) (by omega) fuel
      (by omega)
    rw [Nat.zero_add]
    exact this

/-! ## `neuralNetGrow` -/

theorem headP_append (l₁ l₂ : List (Cell R)) (q : Vector R) :
    headP (l₁ ++ l₂) q = headP l₁ (headP l₂ q) := by
  cases l₁ <;> rfl

theorem headP_of_ne_nil {l : List (Cell R)} (hl : l ≠ []) (q q' : Vector R) :
    headP l q = headP l q' := by
  cases l with
  | nil => exact absurd rfl hl
  | cons c l => rfl

theorem Repr.head_cell {h : Heap R} {c : Cell R} {t : List (Cell R)} (hr : Repr h (c :: t)) :
    h.get? c.addr = some ⟨c.p, c.hits, headAddr t c.addr, lastAddr t c.addr⟩ :=
  hr.2.2.1

theorem growCount_cons (thr : R) (c : Cell R) (l : List (Cell R)) :
    growCount thr (c :: l) = growCount thr l + if thr ≤ (c.hits : R) then 1 else 0 := by
  unfold growCount
  rw [List.countP_cons]
  by_cases hc : thr ≤ (c.hits : R) <;> simp [hc]

theorem neuralNetGrowLoop_repr (thr : R) (hthr : 0 < thr) (rest : List (Cell R)) :
    ∀ (done : List (Cell R)) (h : Heap R) (nn : NeuralNet), done ≠ [] →
      nn.neurons = headAddr done 0 → Repr h (rest ++ done) →
      ∀ fuel, 2 * rest.length + 1 ≤ fuel →
      ∃ h', neuralNetGrowLoop thr fuel h nn (headAddr rest nn.neurons)
          = some (h', { nn with size := nn.size + growCount thr rest })
        ∧ Repr h' (growCells thr (h.cells.length + 1) rest (headP done ⟨0, 0⟩) ++ done)
        ∧ h'.cells.length = h.cells.length + growCount thr rest := by
  induction rest with
  | nil =>
    intro done h nn _ _ hr fuel hf
    obtain ⟨f, rfl⟩ : ∃ f, fuel = f + 1 := ⟨fuel - 1, by omega⟩
    refine ⟨h, ?_, by simpa [growCells] using hr, by simp [growCount]⟩
    simp [neuralNetGrowLoop, headAddr, growCount]
  | cons c rest ih =>
    intro done h nn hdone he hr0 fuel hf
    obtain ⟨f, rfl⟩ : ∃ f, fuel = f + 1 := ⟨fuel - 1, by omega⟩
    have hr : Repr h (c :: (rest ++ done)) := hr0
    have hnd := hr.2.1
    have hce : c.addr ≠ nn.neurons := by
      rw [he]
      intro e
      have hm := headAddr_mem hdone 0
      rw [← e] at hm
      simp only [List.cons_append, List.map_cons, List.nodup_cons, List.map_append,
        List.mem_append, not_or] at hnd
      exact hnd.1.2 hm
    have hcell := hr.head_cell
    rw [headAddr_append, headAddr_of_ne_nil hdone c.addr 0, ← he] at hcell
    have hh : headAddr (c :: rest) nn.neurons = c.addr := rfl
    rw [hh, neuralNetGrowLoop]
    simp only [bne_iff_ne, ne_eq, hce, not_false_eq_true, if_true,
      Option.bind_eq_bind, hcell, Option.some_bind]
    by_cases hhit : thr ≤ (c.hits : R)
    · obtain ⟨h1, e1, len1, hr1⟩ := neuronInsert_repr hr
      rw [headP_append, headP_of_ne_nil hdone c.p ⟨0, 0⟩] at hr1
      obtain ⟨f', rfl⟩ : ∃ f', f = f' + 1 := ⟨f - 1, by simp at hf; omega⟩
      have hnew : h.cells.length + 1 ≠ nn.neurons := by
        intro e
        have hm := headAddr_mem hdone 0
        rw [← he, ← e] at hm
        have := hr.le_length (show h.cells.length + 1 ∈ (c :: rest ++ done).map Cell.addr by
          simp only [List.cons_append, List.map_cons, List.map_append, List.mem_cons,
            List.mem_append]
          exact Or.inr (Or.inr hm))
        omega
      have hr1' : Repr h1 (⟨h.cells.length + 1,
          vectorAdd c.p (vectorScale (vectorSub (headP rest (headP done ⟨0, 0⟩)) c.p) 0.5), 0⟩
          :: ((rest ++ done) ++ [⟨c.addr, c.p, 0⟩])) := by
        have := Repr.rot ([(⟨c.addr, c.p, 0⟩ : Cell R)]) (by simpa using hr1)
        simpa using this
      have hnewcell := hr1'.head_cell
      rw [headAddr_append, headAddr_append, headAddr_of_ne_nil hdone _ 0, ← he] at hnewcell
      have hr2 : Repr h1 (rest ++ (done ++ [⟨c.addr, c.p, 0⟩, ⟨h.cells.length + 1,
          vectorAdd c.p (vectorScale (vectorSub (headP rest (headP done ⟨0, 0⟩)) c.p) 0.5),
          0⟩])) := by
        have := Repr.rot ([(⟨c.addr, c.p, 0⟩ : Cell R), ⟨h.cells.length + 1,
          vectorAdd c.p (vectorScale (vectorSub (headP rest (headP done ⟨0, 0⟩)) c.p) 0.5),
          0⟩]) (by simpa using hr1)
        simpa using this
      obtain ⟨h', e', hr', len'⟩ := ih _ h1 { nn with size := nn.size + 1 } (by simp)
        (by simp only [headAddr_append]; rw [← headAddr_of_ne_nil hdone 0, ← he]) hr2 f'
        (by simp at hf; omega)
      refine ⟨h', ?_, ?_, ?_⟩
      · simp only [hhit, if_true, e1, Option.some_bind]
        rw [neuralNetGrowLoop]
        have h0 : ¬ thr ≤ ((0 : Nat) : R) := by simp [not_le.mpr hthr]
        simp only [bne_iff_ne, ne_eq, hnew, not_false_eq_true, if_true, Option.bind_eq_bind,
          hnewcell, Option.some_bind, h0, if_false]
        rw [e', growCount_cons, if_pos hhit]
        simp only [Option.some.injEq, Prod.mk.injEq, true_and]
        congr 1
        omega
      · rw [headP_append, headP_of_ne_nil hdone _ ⟨0, 0⟩, len1] at hr'
        have := Repr.rot (growCells thr (h.cells.length + 1 + 1) rest (headP done ⟨0, 0⟩)
          ++ done) (by simpa using hr')
        simpa [growCells, hhit] using this
      · rw [len', len1, growCount_cons, if_pos hhit]; omega
    · have hr2 : Repr h (rest ++ (done ++ [c])) := by
        have := Repr.rot ([c]) (by simpa using hr)
        simpa using this
      obtain ⟨h', e', hr', len'⟩ := ih _ h nn (by simp)
        (by simp only [headAddr_append]; rw [← headAddr_of_ne_nil hdone 0, ← he]) hr2 f
        (by simp at hf; omega)
      refine ⟨h', ?_, ?_, ?_⟩
      · simp only [hhit, if_false]
        rw [e', growCount_cons, if_neg hhit]
        rfl
      · rw [headP_append, headP_of_ne_nil hdone _ ⟨0, 0⟩] at hr'
        have := Repr.rot (growCells thr (h.cells.length + 1) rest (headP done ⟨0, 0⟩)
          ++ done) (by simpa using hr')
        simpa [growCells, hhit] using this
      · rw [len', growCount_cons, if_neg hhit]; rfl

theorem growCells_length (thr : R) (k : Nat) (l : List (Cell R)) (q : Vector R) :
    (growCells thr k l q).length = l.length + growCount thr l := by
  induction l generalizing k with
  | nil => simp [growCells, growCount]
  | cons c l ih =>
    rw [growCount_cons]
    by_cases hc : thr ≤ (c.hits : R)
    · simp only [growCells, hc, if_true, List.length_cons, ih]; omega
    · simp only [growCells, hc, if_false, List.length_cons, ih]; omega

theorem growCount_le (thr : R) (l : List (Cell R)) : growCount thr l ≤ l.length :=
  List.countP_le_length _

theorem headAddr_growCells (thr : R) (k : Nat) (l : List (Cell R)) (q : Vector R) (a : Nat) :
    headAddr (growCells thr k l q) a = headAddr l a := by
  cases l with
  | nil => rfl
  | cons c l =>
    by_cases hc : thr ≤ (c.hits : R) <;> simp [growCells, hc, headAddr]

/-- `neuralNetGrow` on a ring laid out as `e :: rest` with entry `e`. -/
theorem neuralNetGrow_repr (thr : R) (hthr : 0 < thr) {h : Heap R} {e : Cell R}
    {rest : List (Cell R)} (hr : Repr h (e :: rest)) (nn : NeuralNet)
    (he : nn.neurons = e.addr) (hs : nn.size = rest.length + 1) (fuel : Nat)
    (hf : 2 * nn.size + 1 ≤ fuel) :
    ∃ h', neuralNetGrow fuel h nn thr
        = some (h', ⟨nn.size + growCount thr (e :: rest), 0, nn.neurons⟩)
      ∧ Repr h' (growCells thr (h.cells.length + 1) (e :: rest) e.p)
      ∧ h'.cells.length = h.cells.length + growCount thr (e :: rest) := by
  have hcell := hr.head_cell
  unfold neuralNetGrow
  simp only [he, Option.bind_eq_bind, hcell, Option.some_bind]
  by_cases hhit : thr ≤ (e.hits : R)
  · obtain ⟨h1, e1, len1, hr1⟩ := neuronInsert_repr hr
    have hr1' : Repr h1 (⟨h.cells.length + 1,
        vectorAdd e.p (vectorScale (vectorSub (headP rest e.p) e.p) 0.5), 0⟩
        :: (rest ++ [⟨e.addr, e.p, 0⟩])) := by
      have := Repr.rot ([(⟨e.addr, e.p, 0⟩ : Cell R)]) (by simpa using hr1)
      simpa using this
    have hnewcell := hr1'.head_cell
    rw [headAddr_append] at hnewcell
    have hr2 : Repr h1 (rest ++ [⟨e.addr, e.p, 0⟩, ⟨h.cells.length + 1,
        vectorAdd e.p (vectorScale (vectorSub (headP rest e.p) e.p) 0.5), 0⟩]) := by
      have := Repr.rot ([(⟨e.addr, e.p, 0⟩ : Cell R), ⟨h.cells.length + 1,
        vectorAdd e.p (vectorScale (vectorSub (headP rest e.p) e.p) 0.5), 0⟩])
        (by simpa using hr1)
      simpa using this
    obtain ⟨h', e', hr', len'⟩ := neuralNetGrowLoop_repr thr hthr rest _ h1
      { nn with size := nn.size + 1 } (by simp) (by simp [headAddr, he]) hr2 fuel (by omega)
    have hfin : Repr h' (growCells thr (h.cells.length + 1) (e :: rest) e.p) := by
      rw [len1] at hr'
      have := Repr.rot (growCells thr (h.cells.length + 1 + 1) rest e.p) (by
        simpa [headP] using hr')
      simpa [growCells, hhit] using this
    have hinv := neuralNetInv_repr hfin
      ⟨nn.size + growCount thr (e :: rest), 0, nn.neurons⟩
      (by rw [headAddr_growCells]; simpa [headAddr] using he) fuel (by
        rw [growCells_length]
        have := growCount_le thr (e :: rest)
        simp only [List.length_cons] at this ⊢
        omega)
    refine ⟨h', ?_, hfin, ?_⟩
    · simp only [hhit, if_true, e1, Option.some_bind, Option.pure_def, hnewcell]
      simp only [he] at e'
      have hh : headAddr rest (headAddr [(⟨e.addr, e.p, 0⟩ : Cell R)] (h.cells.length + 1))
          = headAddr rest e.addr := rfl
      rw [hh, e']
      simp only [Option.some_bind]
      have hsz : nn.size + 1 + growCount thr rest = nn.size + growCount thr (e :: rest) := by
        rw [growCount_cons, if_pos hhit]; omega
      rw [he] at hinv
      rw [hsz, hinv]
      simp [he]
    · rw [len', len1, growCount_cons, if_pos hhit]; omega
  · have hr2 : Repr h (rest ++ [e]) := by
      have := Repr.rot ([e]) (by simpa using hr)
      simpa using this
    obtain ⟨h', e', hr', len'⟩ := neuralNetGrowLoop_repr thr hthr rest _ h nn (by simp)
      (by simp [headAddr, he]) hr2 fuel (by omega)
    have hfin : Repr h' (growCells thr (h.cells.length + 1) (e :: rest) e.p) := by
      have := Repr.rot (growCells thr (h.cells.length + 1) rest e.p) (by
        simpa [headP] using hr')
      simpa [growCells, hhit] using this
    have hinv := neuralNetInv_repr hfin
      ⟨nn.size + growCount thr (e :: rest), 0, nn.neurons⟩
      (by rw [headAddr_growCells]; simpa [headAddr] using he) fuel (by
        rw [growCells_length]
        have := growCount_le thr (e :: rest)
        simp only [List.length_cons] at this ⊢
        omega)
    refine ⟨h', ?_, hfin, ?_⟩
    · simp only [hhit, if_false, Option.pure_def, Option.some_bind, hcell]
      simp only [he] at e'
      rw [e']
      simp only [Option.some_bind]
      have hsz : nn.size + growCount thr rest = nn.size + growCount thr (e :: rest) := by
        rw [growCount_cons, if_neg hhit]; omega
      rw [he] at hinv
      rw [hsz, hinv]
      simp [he]
    · rw [len', growCount_cons, if_neg hhit]; omega

/-! ## The learning step of `neuralNetTrain` -/

theorem updAt_eq_modify {l : List (Cell R)} (hnd : (l.map Cell.addr).Nodup) {i : Nat}
    (hi : i < l.length) (g : Cell R → Cell R) :
    updAt l[i].addr g l = l.modify g i := by
  apply List.ext_getElem
  · simp [updAt, List.length_modify]
  · intro y h1 h2
    have hy : y < l.length := by simpa [updAt] using h1
    rw [List.getElem_modify]
    simp only [updAt, List.getElem_map]
    have hi' : i < (l.map Cell.addr).length := by simpa using hi
    have hy' : y < (l.map Cell.addr).length := by simpa using hy
    have key : l[y].addr = l[i].addr ↔ i = y := by
      have := @List.Nodup.getElem_inj_iff _ _ hnd y hy' i hi'
      simp only [List.getElem_map] at this
      rw [this]
      exact eq_comm
    by_cases hiy : i = y
    · rw [if_pos (key.mpr hiy), if_pos hiy]
    · rw [if_neg (fun e => hiy (key.mp e)), if_neg hiy]

/-- Writing position or hits of the `i`-th neuron of a ring, in terms of the cell list. -/
theorem Repr.modify_idx {h : Heap R} {l : List (Cell R)} (hr : Repr h l) {i : Nat}
    (hi : i < l.length) (f : NeuronData R → NeuronData R) (g : Cell R → Cell R)
    (hfg : ∀ c nx pv, f ⟨c.p, c.hits, nx, pv⟩ = ⟨(g c).p, (g c).hits, nx, pv⟩)
    (hg : ∀ c, (g c).addr = c.addr) :
    ∃ h', h.modify (addrAt l i 0) f = some h' ∧ Repr h' (l.modify g i)
      ∧ h'.cells.length = h.cells.length := by
  rw [addrAt_of_lt hi, ← updAt_eq_modify hr.2.1 hi g]
  exact hr.modify (List.mem_map.mpr ⟨l[i], List.getElem_mem _, rfl⟩) f g hfg hg

theorem addrAt_modify {g : Cell R → Cell R} (hg : ∀ c, (g c).addr = c.addr)
    (l : List (Cell R)) (i j a : Nat) : addrAt (l.modify g i) j a = addrAt l j a := by
  unfold addrAt
  rw [List.getElem?_modify]
  cases l[j]? with
  | none => rfl
  | some c =>
    by_cases hij : i = j <;> simp [hij, hg]

theorem headAddr_modify {g : Cell R → Cell R} (hg : ∀ c, (g c).addr = c.addr)
    (l : List (Cell R)) (i a : Nat) : headAddr (l.modify g i) a = headAddr l a := by
  rw [headAddr_eq_addrAt, headAddr_eq_addrAt, addrAt_modify hg]

theorem nearestLoop_repr (m : Libm R) (sample : Vector R) {h : Heap R} {l : List (Cell R)}
    (hr : Repr h l) (k : Nat) :
    ∀ i, i + k = l.length → ∀ (w : Nat) (dist : R),
      neuralNetTrainNearestLoop m h sample k (addrAt l (i % l.length) 0) (addrAt l w 0) dist
        = some (addrAt l (nearestFrom m sample (l.drop i) i (w, dist)).1 0,
            (nearestFrom m sample (l.drop i) i (w, dist)).2) := by
  have hn := hr.length_pos
  induction k with
  | zero =>
    intro i hi w dist
    have : i = l.length := by omega
    simp [this, neuralNetTrainNearestLoop, nearestFrom]
  | succ k ih =>
    intro i hi w dist
    have hil : i < l.length := by omega
    rw [Nat.mod_eq_of_lt hil, neuralNetTrainNearestLoop, hr.get_addrAt hil,
      List.drop_eq_getElem_cons hil, nearestFrom]
    simp only [Option.bind_eq_bind, Option.some_bind]
    have e1 : (i + 1) % l.length = (i + 1) % l.length := rfl
    by_cases hlt : vectorLength m (vectorSub sample l[i].p) < dist
    · have hlt' : sampleDist m sample l[i].p < dist := hlt
      rw [if_pos hlt, if_pos hlt']
      have := ih (i + 1) (by omega) i (vectorLength m (vectorSub sample l[i].p))
      rw [addrAt_of_lt hil] at this ⊢
      exact this
    · have hlt' : ¬ sampleDist m sample l[i].p < dist := hlt
      rw [if_neg hlt, if_neg hlt']
      exact ih (i + 1) (by omega) w dist

theorem neuralNetTrainNearest_repr (m : Libm R) (sample : Vector R) {h : Heap R}
    {l : List (Cell R)} (hr : Repr h l) (nn : NeuralNet) (he : nn.neurons = headAddr l 0)
    (hs : nn.size = l.length) :
    neuralNetTrainNearest m h nn sample
      = some (addrAt l (nearestIdx m sample l) 0,
          (nearestFrom m sample l 0
            (0, vectorLength m (vectorSub (headP l ⟨0, 0⟩) sample))).2) := by
  have hn := hr.length_pos
  have he' : nn.neurons = addrAt l 0 0 := by rw [he, headAddr_eq_addrAt]
  unfold neuralNetTrainNearest
  rw [he', hr.get_addrAt hn]
  simp only [Option.bind_eq_bind, Option.some_bind]
  have h0 := nearestLoop_repr m sample hr l.length 0 (by omega) 0
    (vectorLength m (vectorSub l[0].p sample))
  rw [Nat.zero_mod, List.drop_zero] at h0
  rw [hs, h0]
  have hp : headP l ⟨0, 0⟩ = l[0].p := by
    cases l with
    | nil => simp at hn
    | cons c t => rfl
  rw [nearestIdx, hp]

theorem backIdx_lt {n : Nat} (hn : 0 < n) (k i : Nat) (hi : i < n) : backIdx n k i < n := by
  induction k generalizing i with
  | zero => exact hi
  | succ k ih => exact ih _ (Nat.mod_lt _ hn)

theorem backLoop_repr {h : Heap R} {l : List (Cell R)} (hr : Repr h l) (k : Nat) :
    ∀ i, i < l.length →
      neuralNetTrainBackLoop h k (addrAt l i 0) = some (addrAt l (backIdx l.length k i) 0) := by
  have hn := hr.length_pos
  induction k with
  | zero => intro i _; rfl
  | succ k ih =>
    intro i hi
    rw [neuralNetTrainBackLoop, hr.get_addrAt hi]
    simp only [Option.bind_eq_bind, Option.some_bind]
    rw [ih _ (Nat.mod_lt _ hn)]
    rfl

theorem moveCells_length (m : Libm R) (sample : Vector R) (time : R) (k : Nat) :
    ∀ (i : Int) (j : Nat) (l : List (Cell R)),
      (moveCells m sample time k i j l).length = l.length := by
  induction k with
  | zero => intro _ _ _; rfl
  | succ k ih =>
    intro i j l
    rw [moveCells, ih, List.length_modify]

theorem moveLoop_repr (m : Libm R) (sample : Vector R) (time : R) (k : Nat) :
    ∀ (i : Int) (j : Nat) (h : Heap R) (l : List (Cell R)), Repr h l → j < l.length →
      ∃ h' a, neuralNetTrainMoveLoop m sample time k i h (addrAt l j 0) = some (h', a)
        ∧ Repr h' (moveCells m sample time k i j l)
        ∧ h'.cells.length = h.cells.length := by
  induction k with
  | zero =>
    intro i j h l hr _
    exact ⟨h, _, rfl, hr, rfl⟩
  | succ k ih =>
    intro i j h l hr hj
    have hn := hr.length_pos
    have hj' : (j + 1) % l.length < l.length := Nat.mod_lt _ hn
    obtain ⟨h1, e1, hr1, len1⟩ := hr.modify_idx hj'
      (fun c => { c with
        p := vectorAdd c.p (vectorScale (vectorSub sample c.p) (NEURONMOVE m |(i : R)| time)) })
      (moveCell m sample time i) (fun _ _ _ => rfl) (fun _ => rfl)
    obtain ⟨h', a, e', hr', len'⟩ := ih (i + 1) ((j + 1) % l.length) h1 _ hr1
      (by rw [List.length_modify]; exact hj')
    refine ⟨h', a, ?_, ?_, by omega⟩
    · rw [neuralNetTrainMoveLoop, hr.get_addrAt hj]
      simp only [Option.bind_eq_bind, Option.some_bind, e1]
      rw [addrAt_modify (g := moveCell m sample time i) (fun _ => rfl)] at e'
      exact e'
    · rw [moveCells]
      exact hr'

theorem vectorLength_sub_comm (m : Libm R) (u v : Vector R) :
    vectorLength m (vectorSub u v) = vectorLength m (vectorSub v u) := by
  simp only [vectorLength, vectorSub, vectorMake]
  congr 1
  ring

theorem nearestFrom_spec (m : Libm R) (sample : Vector R) (l : List (Cell R)) :
    ∀ (i : Nat) (acc : Nat × R),
      (nearestFrom m sample l i acc = acc ∧ ∀ c ∈ l, acc.2 ≤ sampleDist m sample c.p)
      ∨ ∃ j, ∃ hj : j < l.length,
          nearestFrom m sample l i acc = (i + j, sampleDist m sample l[j].p)
          ∧ sampleDist m sample l[j].p < acc.2
          ∧ (∀ j' (hj' : j' < l.length), j' < j →
              sampleDist m sample l[j].p < sampleDist m sample l[j'].p)
          ∧ (∀ j' (hj' : j' < l.length),
              sampleDist m sample l[j].p ≤ sampleDist m sample l[j'].p) := by
  induction l with
  | nil => intro i acc; left; exact ⟨rfl, by simp⟩
  | cons c l ih =>
    intro i acc
    rw [nearestFrom]
    by_cases hlt : sampleDist m sample c.p < acc.2
    · rw [if_pos hlt]
      rcases ih (i + 1) (i, sampleDist m sample c.p) with ⟨e, hall⟩ | ⟨j, hj, e, h1, h2, h3⟩
      · right
        refine ⟨0, by simp, ?_, by simpa using hlt, ?_, ?_⟩
        · simpa using e
        · intro j' _ hj'; omega
        · intro j' hj'
          cases j' with
          | zero => simp
          | succ j'' =>
            simp only [List.getElem_cons_succ, List.getElem_cons_zero]
            exact hall _ (List.getElem_mem _)
      · right
        refine ⟨j + 1, by simpa using hj, ?_, ?_, ?_, ?_⟩
        · rw [e]; simp only [List.getElem_cons_succ]; congr 1; omega
        · simp only [List.getElem_cons_succ]; exact lt_trans h1 hlt
        · intro j' hj' hlt'
          cases j' with
          | zero => simpa using h1
          | succ j'' =>
            simp only [List.getElem_cons_succ]
            exact h2 j'' (by simpa using hj') (by omega)
        · intro j' hj'
          cases j' with
          | zero => simpa using le_of_lt h1
          | succ j'' =>
            simp only [List.getElem_cons_succ]
            exact h3 j'' (by simpa using hj')
    · rw [if_neg hlt]
      rcases ih (i + 1) acc with ⟨e, hall⟩ | ⟨j, hj, e, h1, h2, h3⟩
      · left
        refine ⟨e, ?_⟩
        intro c' hc'
        rcases List.mem_cons.mp hc' with rfl | hm
        · exact not_lt.mp hlt
        · exact hall _ hm
      · right
        refine ⟨j + 1, by simpa using hj, ?_, ?_, ?_, ?_⟩
        · rw [e]; simp only [List.getElem_cons_succ]; congr 1; omega
        · simpa using h1
        · intro j' hj' hlt'
          cases j' with
          | zero => simpa using lt_of_lt_of_le h1 (not_lt.mp hlt)
          | succ j'' =>
            simp only [List.getElem_cons_succ]
            exact h2 j'' (by simpa using hj') (by omega)
        · intro j' hj'
          cases j' with
          | zero => simpa using le_of_lt (lt_of_lt_of_le h1 (not_lt.mp hlt))
          | succ j'' =>
            simp only [List.getElem_cons_succ]
            exact h3 j'' (by simpa using hj')

/-- The scan selects the first neuron, in list order, at minimal distance from the sample. -/
theorem nearestIdx_spec (m : Libm R) (sample : Vector R) {l : List (Cell R)} (hl : l ≠ []) :
    ∃ hw : nearestIdx m sample l < l.length,
      (nearestFrom m sample l 0 (0, vectorLength m (vectorSub (headP l ⟨0, 0⟩) sample))).2
          = sampleDist m sample l[nearestIdx m sample l].p
      ∧ (∀ j (hj : j < l.length),
          sampleDist m sample l[nearestIdx m sample l].p ≤ sampleDist m sample l[j].p)
      ∧ (∀ j (hj : j < l.length), j < nearestIdx m sample l →
          sampleDist m sample l[nearestIdx m sample l].p < sampleDist m sample l[j].p) := by
  cases l with
  | nil => exact absurd rfl hl
  | cons c t =>
    have hd : vectorLength m (vectorSub (headP (c :: t) ⟨0, 0⟩) sample)
        = sampleDist m sample c.p := vectorLength_sub_comm m _ _
    unfold nearestIdx
    rw [hd]
    rcases nearestFrom_spec m sample (c :: t) 0 (0, sampleDist m sample c.p) with
      ⟨e, hall⟩ | ⟨j, hj, e, h1, h2, h3⟩
    · rw [e]
      refine ⟨by simp, by simp, ?_, ?_⟩
      · intro j hj
        exact hall _ (List.getElem_mem _)
      · intro j _ hj0
        simp at hj0
    · rw [e]
      simp only [Nat.zero_add]
      exact ⟨hj, trivial, h3, h2⟩

theorem nearestIdx_lt (m : Libm R) (sample : Vector R) {l : List (Cell R)} (hl : l ≠ []) :
    nearestIdx m sample l < l.length :=
  (nearestIdx_spec m sample hl).1

/-- The learning step of `neuralNetTrain` on a ring laid out as `l`. -/
theorem neuralNetTrainLearn_repr (m : Libm R) {h : Heap R} {l : List (Cell R)}
    (hr : Repr h l) (nn : NeuralNet) (he : nn.neurons = headAddr l 0)
    (hs : nn.size = l.length) (samples : SampleMap R) (rnd : Nat) (sample : Vector R)
    (hitems : samples.items ≠ 0)
    (hsample : samples.samples[rnd % samples.items]? = some sample) (time : R) :
    ∃ h', neuralNetTrainLearn m rnd h nn samples time
        = some (h', { nn with learned := (nn.learned + 1) % ULONG_RANGE })
      ∧ Repr h' (learnCells m sample time l)
      ∧ h'.cells.length = h.cells.length := by
  have hw := nearestIdx_lt m sample hr.1
  obtain ⟨h1, e1, hr1, len1⟩ := hr.modify_idx hw
    (fun d => { d with hits := (d.hits + 1) % UINT_RANGE }) hitCell (fun _ _ _ => rfl)
    (fun _ => rfl)
  have hw1 : nearestIdx m sample l < (l.modify hitCell (nearestIdx m sample l)).length := by
    rw [List.length_modify]; exact hw
  have hb := backLoop_repr hr1 (SPREAD + 1 + 1) _ hw1
  rw [addrAt_modify (g := hitCell) (fun _ => rfl), List.length_modify] at hb
  have hbl : backIdx l.length (SPREAD + 1 + 1) (nearestIdx m sample l)
      < (l.modify hitCell (nearestIdx m sample l)).length := by
    rw [List.length_modify]
    exact backIdx_lt hr.length_pos _ _ hw
  obtain ⟨h', a, e', hr', len'⟩ := moveLoop_repr m sample time (SPREAD + SPREAD + 1)
    (-(SPREAD : Int)) _ h1 _ hr1 hbl
  have hr'' : Repr h' (learnCells m sample time l) := by
    rw [learnCells]; exact hr'
  refine ⟨h', ?_, hr'', by omega⟩
  unfold neuralNetTrainLearn
  simp only [hitems, if_false, hsample, Option.bind_eq_bind, Option.some_bind,
    neuralNetTrainNearest_repr m sample hr nn he hs, e1, hb, e', Option.pure_def]

theorem map_addr_modify {g : Cell R → Cell R} (hg : ∀ c, (g c).addr = c.addr)
    (l : List (Cell R)) (i : Nat) : (l.modify g i).map Cell.addr = l.map Cell.addr := by
  apply List.ext_getElem
  · simp [List.length_modify]
  · intro y h1 h2
    simp only [List.getElem_map, List.getElem_modify]
    by_cases hiy : i = y <;> simp [hiy, hg]

theorem map_addr_moveCells (m : Libm R) (sample : Vector R) (time : R) (k : Nat) :
    ∀ (i : Int) (j : Nat) (l : List (Cell R)),
      (moveCells m sample time k i j l).map Cell.addr = l.map Cell.addr := by
  induction k with
  | zero => intro _ _ _; rfl
  | succ k ih =>
    intro i j l
    rw [moveCells, ih, map_addr_modify (g := moveCell m sample time i) (fun _ => rfl)]

theorem map_addr_learnCells (m : Libm R) (sample : Vector R) (time : R) (l : List (Cell R)) :
    (learnCells m sample time l).map Cell.addr = l.map Cell.addr := by
  rw [learnCells, map_addr_moveCells, map_addr_modify (g := hitCell) (fun _ => rfl)]

theorem learnCells_length (m : Libm R) (sample : Vector R) (time : R) (l : List (Cell R)) :
    (learnCells m sample time l).length = l.length := by
  have := congrArg List.length (map_addr_learnCells m sample time l)
  simpa using this

theorem headAddr_eq_of_map {l l' : List (Cell R)} (e : l'.map Cell.addr = l.map Cell.addr)
    (a : Nat) : headAddr l' a = headAddr l a := by
  cases l with
  | nil =>
    cases l' with
    | nil => rfl
    | cons c t => simp at e
  | cons c t =>
    cases l' with
    | nil => simp at e
    | cons c' t' =>
      simp only [List.map_cons, List.cons.injEq] at e
      exact e.1

/-- `neuralNetGrow` on a ring laid out as `l`. -/
theorem neuralNetGrow_repr_list (thr : R) (hthr : 0 < thr) {h : Heap R} {l : List (Cell R)}
    (hr : Repr h l) (nn : NeuralNet) (he : nn.neurons = headAddr l 0)
    (hs : nn.size = l.length) (fuel : Nat) (hf : 2 * nn.size + 1 ≤ fuel) :
    ∃ h', neuralNetGrow fuel h nn thr = some (h', ⟨nn.size + growCount thr l, 0, nn.neurons⟩)
      ∧ Repr h' (growCells thr (h.cells.length + 1) l (headP l ⟨0, 0⟩))
      ∧ h'.cells.length = h.cells.length + growCount thr l := by
  cases l with
  | nil => exact absurd rfl hr.1
  | cons e rest =>
    exact neuralNetGrow_repr thr hthr hr nn he (by simpa using hs) fuel hf

theorem growThres_pos (m : Libm R) (size n : Nat)
    (hc : (size : R) < m.log (n : R) * (n : R)) : 0 < neuralNetGrowThres m n := by
  unfold neuralNetGrowThres
  have h0 : (0 : R) ≤ (size : R) := Nat.cast_nonneg _
  have h1 : (0 : R) < m.log (n : R) * (n : R) := lt_of_le_of_lt h0 hc
  have hn : (0 : R) ≤ (n : R) := Nat.cast_nonneg _
  have hlog : 0 < m.log (n : R) := by
    by_contra hneg
    have := mul_nonpos_of_nonpos_of_nonneg (not_lt.mp hneg) hn
    exact absurd h1 (not_lt.mpr this)
  exact one_div_pos.mpr hlog

/-- `neuralNetTrain` on a ring laid out as `l`: the learning step, followed by growth when
the growth condition holds. -/
theorem neuralNetTrain_repr (m : Libm R) {h : Heap R} {l : List (Cell R)}
    (hr : Repr h l) (nn : NeuralNet) (he : nn.neurons = headAddr l 0)
    (hs : nn.size = l.length) (samples : SampleMap R) (rnd : Nat) (sample : Vector R)
    (hitems : samples.items ≠ 0)
    (hsample : samples.samples[rnd % samples.items]? = some sample) (time : R)
    (fuel : Nat) (hf : 2 * nn.size + 1 ≤ fuel) :
    ∃ h', neuralNetTrain m fuel rnd h nn samples time
        = some (h',
            if (nn.size : R) < m.log (samples.items : R) * (samples.items : R)
                ∧ samples.items ≤ (nn.learned + 1) % ULONG_RANGE then
              ⟨nn.size + growCount (neuralNetGrowThres m samples.items)
                (learnCells m sample time l), 0, nn.neurons⟩
            else ⟨nn.size, (nn.learned + 1) % ULONG_RANGE, nn.neurons⟩)
      ∧ Repr h'
          (if (nn.size : R) < m.log (samples.items : R) * (samples.items : R)
              ∧ samples.items ≤ (nn.learned + 1) % ULONG_RANGE then
            growCells (neuralNetGrowThres m samples.items) (h.cells.length + 1)
              (learnCells m sample time l) (headP (learnCells m sample time l) ⟨0, 0⟩)
          else learnCells m sample time l) := by
  obtain ⟨h1, e1, hr1, len1⟩ := neuralNetTrainLearn_repr m hr nn he hs samples rnd sample
    hitems hsample time
  unfold neuralNetTrain
  simp only [Option.bind_eq_bind, e1, Option.some_bind, neuralNetLearnAfter]
  by_cases hc : (nn.size : R) < m.log (samples.items : R) * (samples.items : R)
      ∧ samples.items ≤ (nn.learned + 1) % ULONG_RANGE
  · rw [if_pos hc, if_pos hc, if_pos hc]
    obtain ⟨h', e', hr', _⟩ := neuralNetGrow_repr_list (neuralNetGrowThres m samples.items)
      (growThres_pos m _ _ hc.1) hr1 { nn with learned := (nn.learned + 1) % ULONG_RANGE }
      (by rw [headAddr_eq_of_map (map_addr_learnCells m sample time l)]; exact he)
      (by rw [learnCells_length]; exact hs) fuel hf
    rw [len1] at hr'
    exact ⟨h', e', hr'⟩
  · rw [if_neg hc, if_neg hc, if_neg hc]
    exact ⟨h1, rfl, hr1⟩

/-! ## `neuralNetRemoveDoubleNeurons` -/

theorem pruneInner_repr (m : Libm R) (c : Cell R) (rest : List (Cell R)) :
    ∀ (h : Heap R) (nn : NeuralNet), Repr h (c :: rest) → nn.size = rest.length + 1 →
      ∀ fuel, rest.length + 1 ≤ fuel →
      ∃ h', neuralNetRemoveDoubleNeuronsInner m fuel h nn c.addr
          = some (h',
              if (rest.dropWhile (near m c)).length = rest.length then nn
              else ⟨(rest.dropWhile (near m c)).length + 1, nn.learned, c.addr⟩,
              c.addr)
        ∧ Repr h' (c :: rest.dropWhile (near m c))
        ∧ h'.cells.length = h.cells.length := by
  induction rest with
  | nil =>
    intro h nn hr hs fuel hf
    obtain ⟨f, rfl⟩ : ∃ f, fuel = f + 1 := ⟨fuel - 1, by omega⟩
    refine ⟨h, ?_, by simpa using hr, rfl⟩
    simp [neuralNetRemoveDoubleNeuronsInner, hs]
  | cons x t ih =>
    intro h nn hr hs fuel hf
    obtain ⟨f, rfl⟩ : ∃ f, fuel = f + 1 := ⟨fuel - 1, by omega⟩
    have hcell := hr.head_cell
    have hr' : Repr h (x :: (t ++ [c])) := by
      have := Repr.rot ([c]) (by simpa using hr)
      simpa using this
    have hxcell := hr'.head_cell
    have hsz : 1 < nn.size := by simp at hs; omega
    rw [neuralNetRemoveDoubleNeuronsInner]
    simp only [hsz, if_true, Option.bind_eq_bind, hcell, Option.some_bind]
    have hh : headAddr (x :: t) c.addr = x.addr := rfl
    simp only [hh, hxcell, Option.some_bind]
    by_cases hnear : vectorLength m (vectorSub c.p x.p) ≤ (NEURON_REMOVE_DISTANCE : R)
    · have hnear' : near m c x = true := by simp [near, hnear]
      obtain ⟨h1, e1, len1, hr1⟩ := neuronRemoveNext_repr hr
      obtain ⟨h', e', hr'', len'⟩ := ih h1 ⟨nn.size - 1, nn.learned, c.addr⟩ hr1
        (by simp at hs ⊢; omega) f (by simp at hf; omega)
      have hle := (List.dropWhile_suffix (near m c) (l := t)).length_le
      refine ⟨h', ?_, ?_, by omega⟩
      · simp only [hnear, if_true, e1, Option.some_bind]
        rw [e']
        simp only [List.dropWhile_cons, hnear', if_true, List.length_cons]
        have hne : ¬ (List.dropWhile (near m c) t).length = t.length + 1 := by omega
        rw [if_neg hne]
        by_cases heq : (List.dropWhile (near m c) t).length = t.length
        · rw [if_pos heq, heq]
          simp at hs
          simp [hs]
        · rw [if_neg heq]
      · simpa [List.dropWhile_cons, hnear'] using hr''
    · have hnear' : near m c x = false := by simp [near, hnear]
      refine ⟨h, ?_, ?_, rfl⟩
      · simp [hnear, List.dropWhile_cons, hnear']
      · simpa [List.dropWhile_cons, hnear'] using hr

theorem pruneOuter_repr (m : Libm R) (F : Nat) :
    ∀ (seen todo : List (Cell R)) (h : Heap R) (nn : NeuralNet), seen ≠ [] →
      Repr h (seen ++ todo) → nn.neurons = headAddr seen 0 →
      nn.size = seen.length + todo.length →
      (seen.length + todo.length) * (seen.length + todo.length) + todo.length + 1 ≤ F →
      ∃ h', neuralNetRemoveDoubleNeuronsOuter m F h nn (headAddr todo nn.neurons)
          = some (h', ⟨(pruneWalk m seen todo).length, nn.learned,
              headAddr (pruneWalk m seen todo) 0⟩)
        ∧ Repr h' (pruneWalk m seen todo)
        ∧ h'.cells.length = h.cells.length := by
  induction F with
  | zero => intro seen todo h nn _ _ _ _ hF; omega
  | succ F ih =>
    intro seen todo h nn hseen hr he hs hF
    cases todo with
    | nil =>
      refine ⟨h, ?_, ?_, rfl⟩
      · have hh : headAddr ([] : List (Cell R)) nn.neurons = nn.neurons := rfl
        rw [hh, neuralNetRemoveDoubleNeuronsOuter, pruneWalk]
        simp only [bne_self_eq_false, Bool.false_eq_true, if_false]
        simp only [List.length_nil, Nat.add_zero] at hs
        rw [← hs, ← he]
      · rw [pruneWalk]; simpa using hr
    | cons x t =>
      have hnd := hr.2.1
      have hxe : x.addr ≠ nn.neurons := by
        rw [he]
        intro e
        have hm := headAddr_mem hseen 0
        rw [← e] at hm
        simp only [List.map_append, List.map_cons, List.nodup_append, List.nodup_cons] at hnd
        exact hnd.2.2 hm (List.mem_cons_self _ _)
      have hrx : Repr h (x :: (t ++ seen)) := by
        have := Repr.rot (seen) hr
        simpa using this
      obtain ⟨h1, e1, hr1, len1⟩ := pruneInner_repr m x (t ++ seen) h nn hrx
        (by simp at hs ⊢; omega) F (by
          simp only [List.length_append, List.length_cons] at hF ⊢
          have : seen.length + (t.length + 1)
              ≤ (seen.length + (t.length + 1)) * (seen.length + (t.length + 1)) :=
            Nat.le_mul_self _
          omega)
      have hcell := hr1.head_cell
      have hh : headAddr (x :: t) nn.neurons = x.addr := rfl
      rw [hh, neuralNetRemoveDoubleNeuronsOuter, pruneWalk]
      simp only [bne_iff_ne, ne_eq, hxe, not_false_eq_true, if_true, Option.bind_eq_bind, e1,
        Option.some_bind, hcell]
      by_cases heq : ((t ++ seen).dropWhile (near m x)).length = (t ++ seen).length
      · have hdw : (t ++ seen).dropWhile (near m x) = t ++ seen :=
          (List.dropWhile_suffix _).eq_of_length heq
        rw [if_pos heq, if_pos heq]
        rw [hdw] at hr1 ⊢
        have hr2 : Repr h1 ((seen ++ [x]) ++ t) := by
          have := Repr.rot ([x] ++ t) (by simpa using hr1)
          simpa using this
        obtain ⟨h', e', hr', len'⟩ := ih (seen ++ [x]) t h1 nn (by simp) hr2
          (by rw [headAddr_append, ← headAddr_of_ne_nil hseen 0]; exact he)
          (by simp at hs ⊢; omega)
          (by simp only [List.length_append, List.length_cons, List.length_nil] at hF ⊢
              have e : seen.length + (0 + 1) + t.length = seen.length + (t.length + 1) := by
                omega
              rw [e]; omega)
        refine ⟨h', ?_, hr', by omega⟩
        rw [headAddr_append, headAddr_of_ne_nil hseen x.addr 0, ← he]
        exact e'
      · rw [if_neg heq, if_neg heq]
        have hle := (List.dropWhile_suffix (near m x) (l := t ++ seen)).length_le
        obtain ⟨h', e', hr', len'⟩ := ih [x] ((t ++ seen).dropWhile (near m x)) h1
          ⟨((t ++ seen).dropWhile (near m x)).length + 1, nn.learned, x.addr⟩ (by simp)
          (by simpa using hr1) rfl (by simp; omega)
          (by
            simp only [List.length_append, List.length_cons, List.length_nil] at hF hle heq ⊢
            have h2 : 0 + 1 + (List.dropWhile (near m x) (t ++ seen)).length
                ≤ seen.length + t.length := by omega
            have h3 := Nat.mul_le_mul h2 h2
            have h4 : (seen.length + t.length) * (seen.length + t.length)
                + 2 * (seen.length + t.length) + 1
                = (seen.length + (t.length + 1)) * (seen.length + (t.length + 1)) := by ring
            omega)
        exact ⟨h', e', hr', by omega⟩

theorem pruneWalk_ne_nil (m : Libm R) (seen todo : List (Cell R)) (hs : seen ≠ []) :
    pruneWalk m seen todo ≠ [] := by
  induction seen, todo using pruneWalk.induct m with
  | case1 seen => rw [pruneWalk]; exact hs
  | case2 seen x t heq ih =>
    rw [pruneWalk, if_pos heq]
    exact ih (by simp)
  | case3 seen x t hne ih =>
    rw [pruneWalk, if_neg hne]
    exact ih (by simp)

theorem pruneWalk_length_le (m : Libm R) (seen todo : List (Cell R)) :
    (pruneWalk m seen todo).length ≤ seen.length + todo.length := by
  induction seen, todo using pruneWalk.induct m with
  | case1 seen => rw [pruneWalk]; simp
  | case2 seen x t heq ih =>
    rw [pruneWalk, if_pos heq]
    simp only [List.length_append, List.length_cons, List.length_nil] at ih ⊢
    omega
  | case3 seen x t hne ih =>
    rw [pruneWalk, if_neg hne]
    have := (List.dropWhile_suffix (near m x) (l := t ++ seen)).length_le
    simp only [List.length_append, List.length_cons, List.length_nil] at ih this ⊢
    omega

/-- `neuralNetRemoveDoubleNeurons` on a ring laid out as `l`. -/
theorem neuralNetRemoveDoubleNeurons_repr (m : Libm R) {h : Heap R} {l : List (Cell R)}
    (hr : Repr h l) (nn : NeuralNet) (he : nn.neurons = headAddr l 0)
    (hs : nn.size = l.length) (fuel : Nat) (hf : nn.size * nn.size + nn.size + 1 ≤ fuel) :
    ∃ h', neuralNetRemoveDoubleNeurons m fuel h nn
        = some (h', ⟨(pruneCells m l).length, nn.learned, headAddr (pruneCells m l) 0⟩)
      ∧ Repr h' (pruneCells m l)
      ∧ h'.cells.length = h.cells.length := by
  cases l with
  | nil => exact absurd rfl hr.1
  | cons e rest =>
    simp only [List.length_cons] at hs
    have hsq : rest.length + 1 ≤ nn.size * nn.size := by
      rw [← hs]; exact Nat.le_mul_self _
    obtain ⟨h1, e1, hr1, len1⟩ := pruneInner_repr m e rest h nn hr hs fuel (by omega)
    have hle := (List.dropWhile_suffix (near m e) (l := rest)).length_le
    have hcell := hr1.head_cell
    have key : ∃ nn1 : NeuralNet, nn1 = (if (rest.dropWhile (near m e)).length = rest.length
        then nn else ⟨(rest.dropWhile (near m e)).length + 1, nn.learned, e.addr⟩)
        ∧ nn1.neurons = e.addr ∧ nn1.learned = nn.learned
        ∧ nn1.size = (rest.dropWhile (near m e)).length + 1 := by
      refine ⟨_, rfl, ?_, ?_, ?_⟩
      · split
        · exact he
        · rfl
      · split <;> rfl
      · split
        · rename_i heq; rw [heq]; exact hs
        · rfl
    obtain ⟨nn1, hnn1, hn1, hl1, hs1⟩ := key
    rw [← hnn1] at e1
    obtain ⟨h2, e2, hr2, len2⟩ := pruneOuter_repr m fuel [e] (rest.dropWhile (near m e)) h1
      nn1 (by simp) (by simpa using hr1) (by simpa [headAddr] using hn1)
      (by simp [hs1]; omega)
      (by
        simp only [List.length_cons, List.length_nil]
        have h2 : 0 + 1 + (List.dropWhile (near m e) rest).length ≤ nn.size := by omega
        have h3 := Nat.mul_le_mul h2 h2
        omega)
    have hlen : (pruneWalk m [e] (rest.dropWhile (near m e))).length + 1 ≤ fuel := by
      have := pruneWalk_length_le m [e] (rest.dropWhile (near m e))
      simp only [List.length_cons, List.length_nil] at this
      omega
    have hinv := neuralNetInv_repr hr2
      ⟨(pruneWalk m [e] (rest.dropWhile (near m e))).length, nn.learned,
        headAddr (pruneWalk m [e] (rest.dropWhile (near m e))) 0⟩ rfl fuel hlen
    refine ⟨h2, ?_, hr2, by omega⟩
    have he' : nn.neurons = e.addr := he
    unfold neuralNetRemoveDoubleNeurons
    simp only [he', Option.bind_eq_bind] at e1 ⊢
    rw [e1]
    simp only [Option.some_bind, hcell]
    rw [hn1] at e2
    rw [e2]
    simp only [Option.some_bind, hl1, hinv, pruneCells]
    simp

/-! ## The learning step, neuron by neuron -/

theorem moveCells_getElem? (m : Libm R) (sample : Vector R) (time : R) (k : Nat) :
    ∀ (i : Int) (j : Nat) (l : List (Cell R)) (x : Nat),
      (moveCells m sample time k i j l)[x]?
        = l[x]?.map (movedCell m sample time l.length x k i j) := by
  induction k with
  | zero => intro i j l x; simp [moveCells, movedCell]
  | succ k ih =>
    intro i j l x
    rw [moveCells, ih, List.length_modify, List.getElem?_modify]
    cases l[x]? with
    | none => rfl
    | some c => simp [movedCell]

theorem learnCells_getElem? (m : Libm R) (sample : Vector R) (time : R) (l : List (Cell R))
    (x : Nat) :
    (learnCells m sample time l)[x]?
      = l[x]?.map fun c =>
          movedCell m sample time l.length x (SPREAD + SPREAD + 1) (-(SPREAD : Int))
            (backIdx l.length (SPREAD + 1 + 1) (nearestIdx m sample l))
            (if nearestIdx m sample l = x then hitCell c else c) := by
  rw [learnCells, moveCells_getElem?, List.length_modify, List.getElem?_modify]
  cases l[x]? with
  | none => rfl
  | some c => simp

theorem movedCell_addr (m : Libm R) (sample : Vector R) (time : R) (n x k : Nat) :
    ∀ (i : Int) (j : Nat) (c : Cell R),
      (movedCell m sample time n x k i j c).addr = c.addr := by
  induction k with
  | zero => intro _ _ _; rfl
  | succ k ih =>
    intro i j c
    rw [movedCell, ih]
    split <;> rfl

theorem movedCell_hits (m : Libm R) (sample : Vector R) (time : R) (n x k : Nat) :
    ∀ (i : Int) (j : Nat) (c : Cell R),
      (movedCell m sample time n x k i j c).hits = c.hits := by
  induction k with
  | zero => intro _ _ _; rfl
  | succ k ih =>
    intro i j c
    rw [movedCell, ih]
    split <;> rfl

theorem step_mod (j t n : Nat) : ((j + 1) % n + 1 + t) % n = (j + 1 + (t + 1)) % n := by
  rw [show (j + 1) % n + 1 + t = (j + 1) % n + (1 + t) by omega, Nat.mod_add_mod]
  congr 1
  omega

/-- A neuron that the update loop does not visit is not changed. -/
theorem movedCell_of_not_visited (m : Libm R) (sample : Vector R) (time : R) (n x k : Nat) :
    ∀ (i : Int) (j : Nat) (c : Cell R), (∀ t, t < k → (j + 1 + t) % n ≠ x) →
      movedCell m sample time n x k i j c = c := by
  induction k with
  | zero => intro _ _ _ _; rfl
  | succ k ih =>
    intro i j c hv
    have h0 : (j + 1) % n ≠ x := by simpa using hv 0 (Nat.succ_pos _)
    rw [movedCell, if_neg h0]
    apply ih
    intro t ht
    rw [step_mod]
    exact hv (t + 1) (by omega)

/-- A neuron that the update loop visits once, at its iteration `t₀`, is moved once, with
loop counter `i + t₀`. -/
theorem movedCell_of_visited_once (m : Libm R) (sample : Vector R) (time : R)
    (n x k : Nat) :
    ∀ (i : Int) (j : Nat) (c : Cell R) (t₀ : Nat), t₀ < k → (j + 1 + t₀) % n = x →
      (∀ t, t < k → t ≠ t₀ → (j + 1 + t) % n ≠ x) →
      movedCell m sample time n x k i j c = moveCell m sample time (i + t₀) c := by
  induction k with
  | zero => intro _ _ _ t₀ h0; omega
  | succ k ih =>
    intro i j c t₀ ht₀ hx hv
    rw [movedCell]
    cases t₀ with
    | zero =>
      rw [if_pos (by simpa using hx)]
      rw [movedCell_of_not_visited]
      · simp
      · intro t ht
        rw [step_mod]
        exact hv (t + 1) (by omega) (by omega)
    | succ t₁ =>
      have h0 : (j + 1) % n ≠ x := by simpa using hv 0 (Nat.succ_pos _) (by omega)
      rw [if_neg h0]
      rw [ih (i + 1) ((j + 1) % n) c t₁ (by omega) (by rw [step_mod]; exact hx)]
      · congr 1
        push_cast
        ring
      · intro t ht hne
        rw [step_mod]
        exact hv (t + 1) (by omega) (by omega)

theorem backIdx_add {n : Nat} (k : Nat) : ∀ i, i < n → (backIdx n k i + k) % n = i := by
  induction k with
  | zero => intro i hi; simpa [backIdx] using Nat.mod_eq_of_lt hi
  | succ k ih =>
    intro i hi
    have hn : 0 < n := by omega
    rw [backIdx, show backIdx n k ((i + n - 1) % n) + (k + 1)
      = (backIdx n k ((i + n - 1) % n) + k) + 1 by omega, ← Nat.mod_add_mod,
      ih _ (Nat.mod_lt _ hn)]
    exact succ_pred_mod hi

theorem mod_add_inj {n b t t' : Nat} (ht : t < n) (ht' : t' < n)
    (e : (b + t) % n = (b + t') % n) : t = t' := by
  have h1 : (b + t) ≡ (b + t') [MOD n] := e
  have h2 : t ≡ t' [MOD n] := Nat.ModEq.add_left_cancel' b h1
  have h3 : t % n = t' % n := h2
  rwa [Nat.mod_eq_of_lt ht, Nat.mod_eq_of_lt ht'] at h3

theorem Repr.ringAddrs_eq {h : Heap R} {l : List (Cell R)} (hr : Repr h l) (nn : NeuralNet)
    (he : nn.neurons = headAddr l 0) (hs : nn.size = l.length) :
    ringAddrs h nn = l.map Cell.addr := by
  have := congrArg (List.map Cell.addr) (hr.ringCells_eq nn he hs)
  rw [← this]
  simp [ringCells, Function.comp_def]

theorem Repr.wellFormed_nodup {h : Heap R} {l : List (Cell R)} (hr : Repr h l)
    (nn : NeuralNet) (he : nn.neurons = headAddr l 0) (hs : nn.size = l.length) :
    WellFormed h nn ∧ 1 ≤ nn.size ∧ (ringAddrs h nn).Nodup := by
  refine ⟨hr.wellFormed nn he hs, ?_, ?_⟩
  · have := hr.length_pos; omega
  · rw [hr.ringAddrs_eq nn he hs]; exact hr.2.1

/-! ## `neuralNetGrow`, neuron by neuron -/

/-- Position of the `i`-th cell of `l`, or `q` when there is none. -/
theorem headP_eq_getElem? (l : List (Cell R)) (q : Vector R) :
    headP l q = (l[0]?.map Cell.p).getD q := by
  cases l <;> simp [headP]

theorem addrAt_cons_succ (c : Cell R) (l : List (Cell R)) (i a : Nat) :
    addrAt (c :: l) (i + 1) a = addrAt l i a := by
  simp [addrAt]

/-- In a segment produced by `growCells`, every old neuron keeps its position; one that
reached the threshold has its hits reset and is followed by a new neuron (at an address from
`k` on) halfway to its old successor, which comes right after the new one; any other neuron
keeps its hits and its successor. -/
theorem seg_growCells (thr : R) {h' : Heap R} (l : List (Cell R)) :
    ∀ (k pa na : Nat) (q : Vector R), Seg h' pa (growCells thr k l q) na →
      ∀ i c, l[i]? = some c →
        ∃ d, h'.get? c.addr = some d ∧ d.p = c.p
          ∧ (thr ≤ (c.hits : R) →
              d.hits = 0 ∧ k ≤ d.next ∧ d.next < k + growCount thr l
              ∧ ∃ dn, h'.get? d.next = some dn
                ∧ dn.p = vectorAdd c.p
                    (vectorScale (vectorSub ((l[i + 1]?.map Cell.p).getD q) c.p) 0.5)
                ∧ dn.hits = 0 ∧ dn.next = addrAt l (i + 1) na ∧ dn.prev = c.addr)
          ∧ (¬ thr ≤ (c.hits : R) → d.hits = c.hits ∧ d.next = addrAt l (i + 1) na) := by
  induction l with
  | nil => intro k pa na q _ i c hc; simp at hc
  | cons c0 l ih =>
    intro k pa na q hs i c hc
    by_cases hhit : thr ≤ (c0.hits : R)
    · rw [growCells, if_pos hhit] at hs
      obtain ⟨h1, h2, h3⟩ := hs
      rw [headAddr_growCells] at h2
      cases i with
      | zero =>
        simp only [List.getElem?_cons_zero, Option.some.injEq] at hc
        subst hc
        refine ⟨_, h1, rfl, ?_, fun hn => absurd hhit hn⟩
        intro _
        refine ⟨rfl, Nat.le_refl _, ?_, _, h2, ?_, rfl, ?_, rfl⟩
        · rw [growCount_cons, if_pos hhit]
          show k < k + (growCount thr l + 1)
          omega
        · rw [headP_eq_getElem?]; simp
        · rw [addrAt_cons_succ, headAddr_eq_addrAt]
      | succ i =>
        simp only [List.getElem?_cons_succ] at hc
        obtain ⟨d, hd, hp, hA, hB⟩ := ih (k + 1) k na q h3 i c hc
        refine ⟨d, hd, hp, ?_, ?_⟩
        · intro hh
          obtain ⟨a1, a2, a3, dn, a4, a5, a6, a7, a8⟩ := hA hh
          refine ⟨a1, by omega, ?_, dn, a4, ?_, a6, ?_, a8⟩
          · rw [growCount_cons, if_pos hhit]; omega
          · rw [a5]; simp
          · rw [a7, addrAt_cons_succ]
        · intro hh
          obtain ⟨a1, a2⟩ := hB hh
          exact ⟨a1, by rw [a2, addrAt_cons_succ]⟩
    · rw [growCells, if_neg hhit] at hs
      obtain ⟨h1, h3⟩ := hs
      rw [headAddr_growCells] at h1
      cases i with
      | zero =>
        simp only [List.getElem?_cons_zero, Option.some.injEq] at hc
        subst hc
        refine ⟨_, h1, rfl, fun hn => absurd hn hhit, fun _ => ⟨rfl, ?_⟩⟩
        rw [addrAt_cons_succ, headAddr_eq_addrAt]
      | succ i =>
        simp only [List.getElem?_cons_succ] at hc
        obtain ⟨d, hd, hp, hA, hB⟩ := ih k c0.addr na q h3 i c hc
        refine ⟨d, hd, hp, ?_, ?_⟩
        · intro hh
          obtain ⟨a1, a2, a3, dn, a4, a5, a6, a7, a8⟩ := hA hh
          refine ⟨a1, a2, ?_, dn, a4, ?_, a6, ?_, a8⟩
          · rw [growCount_cons, if_neg hhit]; omega
          · rw [a5]; simp
          · rw [a7, addrAt_cons_succ]
        · intro hh
          obtain ⟨a1, a2⟩ := hB hh
          exact ⟨a1, by rw [a2, addrAt_cons_succ]⟩

theorem addrAt_succ_ring {l : List (Cell R)} {i : Nat} (hi : i < l.length) :
    addrAt l (i + 1) (headAddr l 0) = addrAt l ((i + 1) % l.length) 0 := by
  rw [succ_mod hi]
  by_cases h1 : i + 1 = l.length
  · rw [if_pos h1, h1, headAddr_eq_addrAt]
    simp [addrAt]
  · rw [if_neg h1, addrAt_of_lt (by omega : i + 1 < l.length),
      addrAt_of_lt (by omega : i + 1 < l.length)]

theorem posAt_succ_ring {l : List (Cell R)} {i : Nat} (hi : i < l.length) :
    (l[i + 1]?.map Cell.p).getD (headP l ⟨0, 0⟩)
      = (l[(i + 1) % l.length]?.map Cell.p).getD ⟨0, 0⟩ := by
  rw [succ_mod hi]
  by_cases h1 : i + 1 = l.length
  · rw [if_pos h1, h1, headP_eq_getElem?]
    simp
  · rw [if_neg h1]
    have : i + 1 < l.length := by omega
    simp [List.getElem?_eq_getElem this]

theorem growCount_ringCells (thr : R) (h : Heap R) (nn : NeuralNet) :
    growCount thr (ringCells h nn)
      = (ringAddrs h nn).countP fun a => decide (thr ≤ (hitsOf h a : R)) := by
  unfold growCount ringCells
  rw [List.countP_map]
  rfl

theorem posOf_ringAddr {h : Heap R} {nn : NeuralNet} {x : Nat} (hx : x < nn.size) :
    ((ringCells h nn)[x]?.map Cell.p).getD ⟨0, 0⟩ = posOf h (ringAddr h nn.neurons x) := by
  have hx' : x < (ringCells h nn).length := by rw [ringCells_length]; exact hx
  rw [List.getElem?_eq_getElem hx', ringCells_getElem]
  rfl

/-- `neuralNetGrow` on a well-formed ring, neuron by neuron. -/
theorem neuralNetGrow_cells (thr : R) (hthr : 0 < thr) (h : Heap R) (nn : NeuralNet)
    (hw : WellFormed h nn) (fuel : Nat) (hf : 2 * nn.size + 1 ≤ fuel) :
    ∃ h' nn', neuralNetGrow fuel h nn thr = some (h', nn')
      ∧ WellFormed h' nn'
      ∧ nn' = ⟨nn.size + growCount thr (ringCells h nn), 0, nn.neurons⟩
      ∧ ringCells h' nn'
          = growCells thr (h.cells.length + 1) (ringCells h nn)
              (headP (ringCells h nn) ⟨0, 0⟩)
      ∧ ∀ x, x < nn.size →
          ∃ d, h'.get? (ringAddr h nn.neurons x) = some d
            ∧ d.p = posOf h (ringAddr h nn.neurons x)
            ∧ (thr ≤ (hitsOf h (ringAddr h nn.neurons x) : R) →
                d.hits = 0 ∧ h.get? d.next = none
                ∧ ∃ dn, h'.get? d.next = some dn
                  ∧ dn.p = vectorAdd (posOf h (ringAddr h nn.neurons x))
                      (vectorScale
                        (vectorSub (posOf h (ringAddr h nn.neurons ((x + 1) % nn.size)))
                          (posOf h (ringAddr h nn.neurons x))) 0.5)
                  ∧ dn.hits = 0 ∧ dn.next = ringAddr h nn.neurons ((x + 1) % nn.size)
                  ∧ dn.prev = ringAddr h nn.neurons x)
            ∧ (¬ thr ≤ (hitsOf h (ringAddr h nn.neurons x) : R) →
                d.hits = hitsOf h (ringAddr h nn.neurons x)
                ∧ d.next = ringAddr h nn.neurons ((x + 1) % nn.size)) := by
  have hr := hw.repr
  have he : nn.neurons = headAddr (ringCells h nn) 0 := hw.headAddr_ringCells.symm
  have hlen := ringCells_length h nn
  obtain ⟨h', e', hr', _⟩ := neuralNetGrow_repr_list thr hthr hr nn he hlen.symm fuel hf
  have he' : nn.neurons = headAddr (growCells thr (h.cells.length + 1) (ringCells h nn)
      (headP (ringCells h nn) ⟨0, 0⟩)) 0 := by
    rw [headAddr_growCells]; exact he
  have hs' : nn.size + growCount thr (ringCells h nn)
      = (growCells thr (h.cells.length + 1) (ringCells h nn)
          (headP (ringCells h nn) ⟨0, 0⟩)).length := by
    rw [growCells_length, hlen]
  refine ⟨h', _, e', hr'.wellFormed _ he' hs', rfl, hr'.ringCells_eq _ he' hs', ?_⟩
  intro x hx
  have hx' : x < (ringCells h nn).length := by rw [hlen]; exact hx
  have hseg := hr'.2.2
  rw [headAddr_growCells] at hseg
  obtain ⟨d, hd, hp, hA, hB⟩ := seg_growCells thr _ _ _ _ _ hseg x _
    (List.getElem?_eq_getElem hx')
  rw [ringCells_getElem] at hd hp hA hB
  simp only at hd hp hA hB
  rw [addrAt_succ_ring hx', hlen, addrAt_ringCells h nn (Nat.mod_lt _ (by omega))] at hA hB
  refine ⟨d, hd, hp, ?_, hB⟩
  intro hh
  obtain ⟨a1, a2, _, dn, a4, a5, a6, a7, a8⟩ := hA hh
  refine ⟨a1, Heap.get?_eq_none_of_lt (by omega), dn, a4, ?_, a6, a7, a8⟩
  rw [a5, posAt_succ_ring hx', hlen, posOf_ringAddr (Nat.mod_lt _ (by omega))]

/-! ## `neuralNetTrain`, neuron by neuron -/

theorem learnCells_ringCells_getElem? (m : Libm R) (sample : Vector R) (time : R)
    (h : Heap R) (nn : NeuralNet) {x : Nat} (hx : x < nn.size) :
    (learnCells m sample time (ringCells h nn))[x]?
      = some (learnedCell m sample time h nn x) := by
  have hx' : x < (ringCells h nn).length := by rw [ringCells_length]; exact hx
  rw [learnCells_getElem?, List.getElem?_eq_getElem hx', ringCells_getElem,
    ringCells_length]
  rfl

theorem learnedCell_addr (m : Libm R) (sample : Vector R) (time : R) (h : Heap R)
    (nn : NeuralNet) (x : Nat) :
    (learnedCell m sample time h nn x).addr = ringAddr h nn.neurons x := by
  unfold learnedCell
  rw [movedCell_addr]
  split <;> rfl

theorem learnedCell_hits (m : Libm R) (sample : Vector R) (time : R) (h : Heap R)
    (nn : NeuralNet) (x : Nat) :
    (learnedCell m sample time h nn x).hits
      = if winnerIdx m sample h nn = x then
          (hitsOf h (ringAddr h nn.neurons x) + 1) % UINT_RANGE
        else hitsOf h (ringAddr h nn.neurons x) := by
  unfold learnedCell
  rw [movedCell_hits]
  split <;> rfl

theorem winnerIdx_lt (m : Libm R) (sample : Vector R) {h : Heap R} {nn : NeuralNet}
    (hw : WellFormed h nn) : winnerIdx m sample h nn < nn.size := by
  have := nearestIdx_lt m sample hw.repr.1
  rwa [ringCells_length] at this

theorem neuralNetTrainNearest_winner (m : Libm R) (sample : Vector R) {h : Heap R}
    {nn : NeuralNet} (hw : WellFormed h nn) :
    (neuralNetTrainNearest m h nn sample).map Prod.fst
      = some (ringAddr h nn.neurons (winnerIdx m sample h nn)) := by
  rw [neuralNetTrainNearest_repr m sample hw.repr nn hw.headAddr_ringCells.symm
    (ringCells_length h nn).symm]
  simp only [Option.map_some', Option.some.injEq]
  exact addrAt_ringCells h nn (winnerIdx_lt m sample hw)

/-- `neuralNetTrain` is its learning step, followed by `neuralNetGrow` exactly when the
growth condition holds. -/
theorem neuralNetTrain_eq (m : Libm R) (fuel rnd : Nat) (h : Heap R) (nn : NeuralNet)
    (samples : SampleMap R) (time : R) (h1 : Heap R) (nn1 : NeuralNet)
    (e1 : neuralNetTrainLearn m rnd h nn samples time = some (h1, nn1))
    (hs : nn1.size = nn.size) (hl : nn1.learned = (nn.learned + 1) % ULONG_RANGE) :
    (growthCondition m nn samples.items →
      neuralNetTrain m fuel rnd h nn samples time
        = neuralNetGrow fuel h1 nn1 (neuralNetGrowThres m samples.items))
    ∧ (¬ growthCondition m nn samples.items →
      neuralNetTrain m fuel rnd h nn samples time = some (h1, nn1)) := by
  unfold neuralNetTrain growthCondition
  simp only [Option.bind_eq_bind, e1, Option.some_bind, neuralNetLearnAfter, hs, hl]
  constructor
  · intro hc; rw [if_pos hc]
  · intro hc; rw [if_neg hc]; rfl

/-- `neuralNetTrain` on a well-formed ring, neuron by neuron. -/
theorem neuralNetTrain_cells (m : Libm R) (h : Heap R) (nn : NeuralNet)
    (samples : SampleMap R) (rnd : Nat) (sample : Vector R) (time : R) (fuel : Nat)
    (hw : WellFormed h nn) (hitems : samples.items ≠ 0)
    (hsample : samples.samples[rnd % samples.items]? = some sample)
    (hf : 2 * nn.size + 1 ≤ fuel) :
    ∃ h' nn', neuralNetTrain m fuel rnd h nn samples time = some (h', nn')
      ∧ WellFormed h' nn' ∧ nn'.neurons = nn.neurons
      ∧ (growthCondition m nn samples.items → nn'.learned = 0)
      ∧ (¬ growthCondition m nn samples.items →
          nn'.learned = (nn.learned + 1) % ULONG_RANGE ∧ nn'.size = nn.size)
      ∧ ∀ x, x < nn.size →
          ∃ d, h'.get? (ringAddr h nn.neurons x) = some d
            ∧ d.p = (learnedCell m sample time h nn x).p
            ∧ (¬ growthCondition m nn samples.items →
                d.hits = (learnedCell m sample time h nn x).hits
                ∧ d.next = ringAddr h nn.neurons ((x + 1) % nn.size)
                ∧ d.prev = ringAddr h nn.neurons ((x + nn.size - 1) % nn.size)) := by
  have hr := hw.repr
  have he : nn.neurons = headAddr (ringCells h nn) 0 := hw.headAddr_ringCells.symm
  have hlen := ringCells_length h nn
  have hn : 0 < nn.size := hw.1
  obtain ⟨h', e', hr'⟩ := neuralNetTrain_repr m hr nn he hlen.symm samples rnd sample hitems
    hsample time fuel hf
  have hmap := map_addr_learnCells m sample time (ringCells h nn)
  have hl1 := learnCells_length m sample time (ringCells h nn)
  by_cases hc : growthCondition m nn samples.items
  · have hc' : (nn.size : R) < m.log (samples.items : R) * (samples.items : R)
        ∧ samples.items ≤ (nn.learned + 1) % ULONG_RANGE := hc
    rw [if_pos hc'] at e' hr'
    refine ⟨h', _, e', hr'.wellFormed _ ?_ ?_, rfl, fun _ => rfl, fun hn => absurd hc hn, ?_⟩
    · rw [headAddr_growCells, headAddr_eq_of_map hmap]; exact he
    · rw [growCells_length, hl1, hlen]
    · intro x hx
      have hseg := hr'.2.2
      obtain ⟨d, hd, hp, _, _⟩ := seg_growCells (neuralNetGrowThres m samples.items)
        (learnCells m sample time (ringCells h nn)) (h.cells.length + 1) _ _
        (headP (learnCells m sample time (ringCells h nn)) ⟨0, 0⟩) hseg x
        (learnedCell m sample time h nn x)
        (learnCells_ringCells_getElem? m sample time h nn hx)
      rw [learnedCell_addr] at hd
      exact ⟨d, hd, hp, fun hn => absurd hc hn⟩
  · have hc' : ¬ ((nn.size : R) < m.log (samples.items : R) * (samples.items : R)
        ∧ samples.items ≤ (nn.learned + 1) % ULONG_RANGE) := hc
    rw [if_neg hc'] at e' hr'
    refine ⟨h', _, e', hr'.wellFormed _ ?_ ?_, rfl, fun hp => absurd hp hc,
      fun _ => ⟨rfl, rfl⟩, ?_⟩
    · rw [headAddr_eq_of_map hmap]; exact he
    · rw [hl1, hlen]
    · intro x hx
      have hx' : x < (learnCells m sample time (ringCells h nn)).length := by
        rw [hl1, hlen]; exact hx
      have hcell := learnCells_ringCells_getElem? m sample time h nn hx
      rw [List.getElem?_eq_getElem hx', Option.some.injEq] at hcell
      have hget := hr'.get hx'
      have haddr : ∀ y, y < nn.size →
          addrAt (learnCells m sample time (ringCells h nn)) y 0 = ringAddr h nn.neurons y := by
        intro y hy
        have hy' : y < (learnCells m sample time (ringCells h nn)).length := by
          rw [hl1, hlen]; exact hy
        have hy2 := learnCells_ringCells_getElem? m sample time h nn hy
        rw [List.getElem?_eq_getElem hy', Option.some.injEq] at hy2
        rw [addrAt_of_lt hy', hy2, learnedCell_addr]
      rw [hl1, hlen, haddr _ (Nat.mod_lt _ hn), haddr _ (Nat.mod_lt _ hn), hcell,
        learnedCell_addr] at hget
      exact ⟨_, hget, rfl, fun _ => ⟨rfl, rfl, rfl⟩⟩

theorem window_idx (m : Libm R) (sample : Vector R) (h : Heap R) (nn : NeuralNet) (t : Nat) :
    (backIdx nn.size (SPREAD + 1 + 1) (winnerIdx m sample h nn) + 1 + t) % nn.size
      = (windowStart m sample h nn + t) % nn.size := by
  unfold windowStart
  rw [Nat.mod_add_mod]

/-- The winner is the fifth neuron of the update window. -/
theorem window_winner (m : Libm R) (sample : Vector R) {h : Heap R} {nn : NeuralNet}
    (hw : WellFormed h nn) :
    (windowStart m sample h nn + 4) % nn.size = winnerIdx m sample h nn := by
  rw [← window_idx]
  exact backIdx_add (SPREAD + 1 + 1) _ (winnerIdx_lt m sample hw)

theorem windowStart_lt (m : Libm R) (sample : Vector R) {h : Heap R} {nn : NeuralNet}
    (hw : WellFormed h nn) : windowStart m sample h nn < nn.size :=
  Nat.mod_lt _ hw.1

theorem movedCell_p_congr (m : Libm R) (sample : Vector R) (time : R) (n x k : Nat) :
    ∀ (i : Int) (j : Nat) (c c' : Cell R), c.p = c'.p →
      (movedCell m sample time n x k i j c).p = (movedCell m sample time n x k i j c').p := by
  induction k with
  | zero => intro _ _ _ _ e; exact e
  | succ k ih =>
    intro i j c c' e
    rw [movedCell, movedCell]
    apply ih
    split
    · simp only [moveCell, e]
    · exact e

/-- The position of the `x`-th neuron after the learning step: that of the update loop run
on its old position. -/
theorem learnedCell_p (m : Libm R) (sample : Vector R) (time : R) (h : Heap R)
    (nn : NeuralNet) (x : Nat) :
    (learnedCell m sample time h nn x).p
      = (movedCell m sample time nn.size x (SPREAD + SPREAD + 1) (-(SPREAD : Int))
          (backIdx nn.size (SPREAD + 1 + 1) (winnerIdx m sample h nn))
          ⟨ringAddr h nn.neurons x, posOf h (ringAddr h nn.neurons x),
            hitsOf h (ringAddr h nn.neurons x)⟩).p := by
  unfold learnedCell
  apply movedCell_p_congr
  split <;> rfl

theorem learnedCell_p_of_not_visited (m : Libm R) (sample : Vector R) (time : R) (h : Heap R)
    (nn : NeuralNet) (x : Nat)
    (hv : ∀ t, t < 7 → (windowStart m sample h nn + t) % nn.size ≠ x) :
    (learnedCell m sample time h nn x).p = posOf h (ringAddr h nn.neurons x) := by
  rw [learnedCell_p, movedCell_of_not_visited]
  intro t ht
  rw [window_idx]
  exact hv t ht

theorem learnedCell_p_of_visited_once (m : Libm R) (sample : Vector R) (time : R)
    (h : Heap R) (nn : NeuralNet) (h7 : 7 ≤ nn.size) (t₀ : Nat) (ht₀ : t₀ < 7) :
    (learnedCell m sample time h nn ((windowStart m sample h nn + t₀) % nn.size)).p
      = movePos m sample time (-(SPREAD : Int) + t₀)
          (posOf h (ringAddr h nn.neurons ((windowStart m sample h nn + t₀) % nn.size))) := by
  rw [learnedCell_p, movedCell_of_visited_once m sample time nn.size _ (SPREAD + SPREAD + 1)
    _ _ _ t₀ (show t₀ < SPREAD + SPREAD + 1 from ht₀) (window_idx m sample h nn t₀)]
  · rfl
  · intro t ht hne e
    have hS : SPREAD = 3 := rfl
    rw [window_idx] at e
    exact hne (mod_add_inj (by omega) (by omega) e)

theorem movePos_eq (m : Libm R) (sample : Vector R) (time : R) (t : Nat) (q : Vector R) :
    movePos m sample time (-(SPREAD : Int) + t) q
      = vectorAdd q (vectorScale (vectorSub sample q)
          (m.exp (-((1 + |(t : R) - 3|) / (2 * time))))) := by
  have hcast : (((-(SPREAD : Int) + (t : Int)) : Int) : R) = (t : R) - 3 := by
    unfold SPREAD
    push_cast
    ring
  unfold movePos NEURONMOVE
  rw [hcast]

theorem countP_mem_le {l W : List Nat} (hl : l.Nodup) :
    l.countP (fun x => decide (x ∈ W)) ≤ W.length := by
  rw [List.countP_eq_length_filter]
  apply List.Subperm.length_le
  apply List.subperm_of_subset (hl.filter _)
  intro x hx
  simpa using (List.mem_filter.mp hx).2

/-! ## The learning step moves neurons towards the sample -/

theorem vectorLength_sub (m : Libm R) (s q : Vector R) :
    vectorLength m (vectorSub s q) = m.sqrt (sqDist s q) := rfl

theorem sqDist_nonneg (s q : Vector R) : 0 ≤ sqDist s q :=
  add_nonneg (mul_self_nonneg _) (mul_self_nonneg _)

theorem sqDist_pos_of_ne {s q : Vector R} (hne : q ≠ s) : 0 < sqDist s q := by
  rcases lt_or_eq_of_le (sqDist_nonneg s q) with hlt | heq
  · exact hlt
  · exfalso
    apply hne
    have h1 : (s.x - q.x) * (s.x - q.x) = 0 := by
      have := mul_self_nonneg (s.x - q.x)
      have := mul_self_nonneg (s.y - q.y)
      unfold sqDist at heq
      linarith
    have h2 : (s.y - q.y) * (s.y - q.y) = 0 := by
      unfold sqDist at heq
      linarith
    have hx : s.x - q.x = 0 := mul_self_eq_zero.mp h1
    have hy : s.y - q.y = 0 := mul_self_eq_zero.mp h2
    cases s
    cases q
    simp only at hx hy
    congr 1 <;> linarith

theorem sqDist_movePos (m : Libm R) (s : Vector R) (time : R) (i : Int) (q : Vector R) :
    sqDist s (movePos m s time i q)
      = (1 - NEURONMOVE m |(i : R)| time) * (1 - NEURONMOVE m |(i : R)| time) * sqDist s q := by
  simp only [sqDist, movePos, vectorAdd, vectorScale, vectorSub, vectorMake]
  ring

theorem NEURONMOVE_bounds (m : Libm R) {time : R} (htime : 0 < time)
    (hexp : ∀ y, y < 0 → 0 < m.exp y ∧ m.exp y < 1) (d : R) (hd : 0 ≤ d) :
    0 < NEURONMOVE m d time ∧ NEURONMOVE m d time < 1 := by
  apply hexp
  have : 0 < (1 + d) / (2 * time) := div_pos (by linarith) (by linarith)
  linarith

theorem sqDist_movePos_le (m : Libm R) (s : Vector R) {time : R} (htime : 0 < time)
    (hexp : ∀ y, y < 0 → 0 < m.exp y ∧ m.exp y < 1) (i : Int) (q : Vector R) :
    sqDist s (movePos m s time i q) ≤ sqDist s q
    ∧ (0 < sqDist s q → sqDist s (movePos m s time i q) < sqDist s q) := by
  obtain ⟨h0, h1⟩ := NEURONMOVE_bounds m htime hexp |(i : R)| (abs_nonneg _)
  rw [sqDist_movePos]
  have hf : (1 - NEURONMOVE m |(i : R)| time) * (1 - NEURONMOVE m |(i : R)| time) < 1 := by
    nlinarith
  have hnn := sqDist_nonneg s q
  constructor
  · nlinarith
  · intro hpos
    nlinarith

theorem sqDist_movedCell (m : Libm R) (s : Vector R) {time : R} (htime : 0 < time)
    (hexp : ∀ y, y < 0 → 0 < m.exp y ∧ m.exp y < 1) (n x k : Nat) :
    ∀ (i : Int) (j : Nat) (c : Cell R),
      sqDist s (movedCell m s time n x k i j c).p ≤ sqDist s c.p
      ∧ ((∃ t, t < k ∧ (j + 1 + t) % n = x) → 0 < sqDist s c.p →
          sqDist s (movedCell m s time n x k i j c).p < sqDist s c.p) := by
  induction k with
  | zero =>
    intro i j c
    refine ⟨le_refl _, ?_⟩
    rintro ⟨t, ht, _⟩
    omega
  | succ k ih =>
    intro i j c
    rw [movedCell]
    by_cases hx : (j + 1) % n = x
    · rw [if_pos hx]
      obtain ⟨ih1, _⟩ := ih (i + 1) ((j + 1) % n) (moveCell m s time i c)
      obtain ⟨hm1, hm2⟩ := sqDist_movePos_le m s htime hexp i c.p
      exact ⟨le_trans ih1 hm1, fun _ hpos => lt_of_le_of_lt ih1 (hm2 hpos)⟩
    · rw [if_neg hx]
      obtain ⟨ih1, ih2⟩ := ih (i + 1) ((j + 1) % n) c
      refine ⟨ih1, ?_⟩
      rintro ⟨t, ht, hv⟩ hpos
      apply ih2 _ hpos
      cases t with
      | zero => exact absurd (by simpa using hv) hx
      | succ t' => exact ⟨t', by omega, by rw [step_mod]; exact hv⟩

theorem sqrt_le_of_le (m : Libm R) (hsqrt : ∀ a b, 0 ≤ a → a < b → m.sqrt a < m.sqrt b)
    {a b : R} (ha : 0 ≤ a) (hab : a ≤ b) : m.sqrt a ≤ m.sqrt b := by
  rcases lt_or_eq_of_le hab with hlt | heq
  · exact le_of_lt (hsqrt a b ha hlt)
  · rw [heq]

/-! ## Where the update window lies -/

theorem window_shift (m : Libm R) (sample : Vector R) {h : Heap R} {nn : NeuralNet}
    (hw : WellFormed h nn) (b : Nat) :
    (winnerIdx m sample h nn + b) % nn.size
      = (windowStart m sample h nn + (4 + b)) % nn.size := by
  rw [← window_winner m sample hw, Nat.mod_add_mod]
  congr 1
  omega

/-- On a ring of at least 8 neurons the update window of `neuralNetTrain` runs from the
neuron 4 steps before the winner to the neuron 2 steps after it: the winner is moved with
`|i| = 1`, its predecessor with `i = 0`, the neuron 4 steps before it with `|i| = 3`, and the
neuron 3 steps after it is not moved. -/
theorem window_off_centre (m : Libm R) (h : Heap R) (nn : NeuralNet) (samples : SampleMap R)
    (rnd : Nat) (sample : Vector R) (time : R) (fuel : Nat)
    (hw : WellFormed h nn) (h8 : 8 ≤ nn.size) (hitems : samples.items ≠ 0)
    (hsample : samples.samples[rnd % samples.items]? = some sample)
    (hf : 2 * nn.size + 1 ≤ fuel) :
    ∃ h' nn', neuralNetTrain m fuel rnd h nn samples time = some (h', nn')
      ∧ posOf h' (ringAddr h nn.neurons (winnerIdx m sample h nn))
          = vectorAdd (posOf h (ringAddr h nn.neurons (winnerIdx m sample h nn)))
              (vectorScale
                (vectorSub sample (posOf h (ringAddr h nn.neurons (winnerIdx m sample h nn))))
                (m.exp (-((1 + 1) / (2 * time)))))
      ∧ posOf h' (ringAddr h nn.neurons
            ((winnerIdx m sample h nn + (nn.size - 1)) % nn.size))
          = vectorAdd (posOf h (ringAddr h nn.neurons
              ((winnerIdx m sample h nn + (nn.size - 1)) % nn.size)))
              (vectorScale
                (vectorSub sample (posOf h (ringAddr h nn.neurons
                  ((winnerIdx m sample h nn + (nn.size - 1)) % nn.size))))
                (m.exp (-((1 + 0) / (2 * time)))))
      ∧ posOf h' (ringAddr h nn.neurons
            ((winnerIdx m sample h nn + (nn.size - 4)) % nn.size))
          = vectorAdd (posOf h (ringAddr h nn.neurons
              ((winnerIdx m sample h nn + (nn.size - 4)) % nn.size)))
              (vectorScale
                (vectorSub sample (posOf h (ringAddr h nn.neurons
                  ((winnerIdx m sample h nn + (nn.size - 4)) % nn.size))))
                (m.exp (-((1 + 3) / (2 * time)))))
      ∧ posOf h' (ringAddr h nn.neurons ((winnerIdx m sample h nn + 3) % nn.size))
          = posOf h (ringAddr h nn.neurons ((winnerIdx m sample h nn + 3) % nn.size)) := by
  obtain ⟨h', nn', e, _, _, _, _, hcells⟩ := neuralNetTrain_cells m h nn samples rnd sample
    time fuel hw hitems hsample hf
  have hn : 0 < nn.size := hw.1
  have hpos : ∀ x, x < nn.size →
      posOf h' (ringAddr h nn.neurons x) = (learnedCell m sample time h nn x).p := by
    intro x hx
    obtain ⟨d, hd, hp, _⟩ := hcells x hx
    simp only [posOf, hd, hp]
  have hvis : ∀ t, t < 7 →
      posOf h' (ringAddr h nn.neurons ((windowStart m sample h nn + t) % nn.size))
        = vectorAdd
            (posOf h (ringAddr h nn.neurons ((windowStart m sample h nn + t) % nn.size)))
            (vectorScale (vectorSub sample
              (posOf h (ringAddr h nn.neurons ((windowStart m sample h nn + t) % nn.size))))
              (m.exp (-((1 + |(t : R) - 3|) / (2 * time))))) := by
    intro t ht
    rw [hpos _ (Nat.mod_lt _ hn),
      learnedCell_p_of_visited_once m sample time h nn (by omega) t ht, movePos_eq]
  have e0 : winnerIdx m sample h nn = (windowStart m sample h nn + 4) % nn.size :=
    (window_winner m sample hw).symm
  have e1 : (winnerIdx m sample h nn + (nn.size - 1)) % nn.size
      = (windowStart m sample h nn + 3) % nn.size := by
    rw [window_shift m sample hw,
      show windowStart m sample h nn + (4 + (nn.size - 1))
        = windowStart m sample h nn + 3 + nn.size by omega, Nat.add_mod_right]
  have e2 : (winnerIdx m sample h nn + (nn.size - 4)) % nn.size
      = (windowStart m sample h nn + 0) % nn.size := by
    rw [window_shift m sample hw,
      show windowStart m sample h nn + (4 + (nn.size - 4))
        = windowStart m sample h nn + 0 + nn.size by omega, Nat.add_mod_right]
  have e3 : (winnerIdx m sample h nn + 3) % nn.size
      = (windowStart m sample h nn + 7) % nn.size := window_shift m sample hw 3
  refine ⟨h', nn', e, ?_, ?_, ?_, ?_⟩
  · have := hvis 4 (by omega)
    rw [← e0] at this
    rw [this]
    norm_num
  · have := hvis 3 (by omega)
    rw [← e1] at this
    rw [this]
    norm_num
  · have := hvis 0 (by omega)
    rw [← e2] at this
    rw [this]
    norm_num
  · rw [e3, hpos _ (Nat.mod_lt _ hn)]
    apply learnedCell_p_of_not_visited
    intro t ht e'
    have := mod_add_inj (by omega : t < nn.size) (by omega : 7 < nn.size) e'
    omega

/-! ## `neuralNetLength` and `neuralNetMake` -/

theorem zeroLit_eq : (0.0 : R) = 0 := by norm_num

/-- The edge length at a neuron of a well-formed ring, from the cells the code reads. -/
theorem edgeLength_eq (m : Libm R) {h : Heap R} {a : Nat} {d dn : NeuronData R}
    (hd : h.get? a = some d) (hn : h.get? d.next = some dn) :
    edgeLength m h a = vectorLength m (vectorSub d.p dn.p) := by
  simp [edgeLength, posOf, nextOf, hd, hn]

theorem neuralNetLengthLoop_wf (m : Libm R) {h : Heap R} {nn : NeuralNet}
    (hw : WellFormed h nn) (k : Nat) :
    ∀ i, 1 ≤ i → i + k = nn.size → ∀ fuel, k + 1 ≤ fuel → ∀ res : R,
      neuralNetLengthLoop m h nn fuel (ringAddr h nn.neurons i) res
        = some (res + ((List.range' i k).map
            fun j => edgeLength m h (ringAddr h nn.neurons j)).sum) := by
  induction k with
  | zero =>
    intro i _ hi fuel hf res
    obtain ⟨f, rfl⟩ : ∃ f, fuel = f + 1 := ⟨fuel - 1, by omega⟩
    have e : ringAddr h nn.neurons i = nn.neurons := by
      have : i = nn.size := by omega
      rw [this]; exact hw.ringAddr_size
    simp [neuralNetLengthLoop, e]
  | succ k ih =>
    intro i h1 hi fuel hf res
    obtain ⟨f, rfl⟩ : ∃ f, fuel = f + 1 := ⟨fuel - 1, by omega⟩
    have hne : ringAddr h nn.neurons i ≠ nn.neurons := by
      intro e
      exact hw.ringAddr_inj (i := 0) (j := i) (by omega) (by omega) e.symm
    obtain ⟨d, dn, hd, hnx, hn, _⟩ := hw.cell (k := i) (by omega)
    have hloop := ih (i + 1) (by omega) (by omega) f (by omega)
      (res + vectorLength m (vectorSub d.p dn.p))
    rw [neuralNetLengthLoop]
    simp only [bne_iff_ne, ne_eq, hne, not_false_eq_true, if_true, hd, hn, Option.bind_eq_bind,
      Option.some_bind]
    rw [hnx, hloop, List.range'_succ, List.map_cons, List.sum_cons, edgeLength_eq m hd hn,
      add_assoc]

/-- `neuralNetLength` returns, and its result is the perimeter of the ring. -/
theorem neuralNetLength_wf (m : Libm R) {h : Heap R} {nn : NeuralNet}
    (hw : WellFormed h nn) (fuel : Nat) (hf : nn.size ≤ fuel) :
    neuralNetLength m fuel h nn = some (ringLength m h nn) := by
  obtain ⟨d, dn, hd, hnx, hn, _⟩ := hw.cell (k := 0) hw.1
  have hd' : h.get? nn.neurons = some d := hd
  have hloop := neuralNetLengthLoop_wf m hw (nn.size - 1) 1 le_rfl (by have := hw.1; omega)
    fuel (by have := hw.1; omega) ((0.0 : R) + vectorLength m (vectorSub d.p dn.p))
  simp only [neuralNetLength, hd', hn, Option.bind_eq_bind, Option.some_bind]
  rw [hnx, hloop, ringLength, ringAddrs, List.map_map]
  obtain ⟨n, hn1⟩ : ∃ n, nn.size = n + 1 := ⟨nn.size - 1, by have := hw.1; omega⟩
  rw [hn1, List.range_eq_range', List.range'_succ, List.map_cons, List.sum_cons]
  simp only [Nat.add_sub_cancel, Function.comp, zeroLit_eq, zero_add]
  rw [← edgeLength_eq m hd hn]
  rfl
/-- What `neuralNetMake` does to the heap. -/
theorem neuralNetMake_run (h : Heap R) (bounds : PositionBounds R) :
    ∃ h', neuralNetMake h bounds = some (h', ⟨1, 0, h.cells.length + 1⟩)
      ∧ h'.cells.length = h.cells.length + 1
      ∧ ∀ b, h'.get? b =
          if b = h.cells.length + 1 then
            some ⟨vectorAdd bounds.topleft
                (vectorScale (vectorSub bounds.bottomright bounds.topleft) 0.5), 0,
              h.cells.length + 1, h.cells.length + 1⟩
          else h.get? b := by
  obtain ⟨h1, e1, g1, l1⟩ := neuronMake_spec h
  have w1 := g1 (h.cells.length + 1)
  simp only [if_true] at w1
  obtain ⟨h2, e2, g2, l2⟩ := Heap.modify_spec w1 fun d =>
    { d with p := vectorAdd bounds.topleft
                (vectorScale (vectorSub bounds.bottomright bounds.topleft) 0.5) }
  have w2 := g2 (h.cells.length + 1)
  simp only [if_true] at w2
  obtain ⟨h3, e3, g3, l3⟩ := Heap.modify_spec w2 fun d => { d with next := h.cells.length + 1 }
  have w3 := g3 (h.cells.length + 1)
  simp only [if_true] at w3
  obtain ⟨h4, e4, g4, l4⟩ := Heap.modify_spec w3 fun d => { d with prev := h.cells.length + 1 }
  refine ⟨h4, ?_, by omega, ?_⟩
  · simp [neuralNetMake, e1, e2, e3, e4]
  · intro b
    rw [g4]
    by_cases hb : b = h.cells.length + 1
    · simp [hb]
    · rw [if_neg hb, if_neg hb, g3, if_neg hb, g2, if_neg hb, g1, if_neg hb]

/-- The ring that `neuralNetMake` returns is laid out as the list of its single neuron. -/
theorem neuralNetMake_repr (h : Heap R) (bounds : PositionBounds R) :
    ∃ h', neuralNetMake h bounds = some (h', ⟨1, 0, h.cells.length + 1⟩)
      ∧ Repr h' [⟨h.cells.length + 1, vectorAdd bounds.topleft
          (vectorScale (vectorSub bounds.bottomright bounds.topleft) 0.5), 0⟩] := by
  obtain ⟨h', e, _, g⟩ := neuralNetMake_run h bounds
  refine ⟨h', e, by simp, by simp, ?_⟩
  simp [Seg, lastAddr, headAddr, g]

theorem edgeLength_nonneg (m : Libm R) (hsqrt : ∀ a, 0 ≤ a → 0 ≤ m.sqrt a) (h : Heap R)
    (a : Nat) : 0 ≤ edgeLength m h a :=
  hsqrt _ (add_nonneg (mul_self_nonneg _) (mul_self_nonneg _))

theorem ringLength_nonneg (m : Libm R) (hsqrt : ∀ a, 0 ≤ a → 0 ≤ m.sqrt a) (h : Heap R)
    (nn : NeuralNet) : 0 ≤ ringLength m h nn := by
  apply List.sum_nonneg
  intro x hx
  obtain ⟨a, _, rfl⟩ := List.mem_map.mp hx
  exact edgeLength_nonneg m hsqrt h a

/-- In a well-formed ring the successor of the `k`-th neuron is the `(k+1)`-th. -/
theorem WellFormed.nextOf_ringAddr {h : Heap R} {nn : NeuralNet} (hw : WellFormed h nn)
    {k : Nat} (hk : k < nn.size) :
    nextOf h (ringAddr h nn.neurons k) = ringAddr h nn.neurons (k + 1) := by
  obtain ⟨d, dn, hd, hnx, _, _⟩ := hw.cell hk
  simp [nextOf, hd, hnx]

theorem ringLength_one (m : Libm R) (hsqrt0 : m.sqrt 0 = 0) {h : Heap R} {nn : NeuralNet}
    (hw : WellFormed h nn) (h1 : nn.size = 1) : ringLength m h nn = 0 := by
  have hn : nextOf h nn.neurons = nn.neurons := by
    have := hw.nextOf_ringAddr (k := 0) hw.1
    rw [WellFormed.ringAddr_zero] at this
    rw [this, show 0 + 1 = nn.size by omega]
    exact hw.ringAddr_size
  have e : ringAddrs h nn = [nn.neurons] := by
    simp [ringAddrs, h1, List.range_succ, ringAddr, nextN]
  simp [ringLength, e, edgeLength, hn, vectorLength, vectorSub, vectorMake, hsqrt0]

theorem ringLength_two (m : Libm R) {h : Heap R} {nn : NeuralNet}
    (hw : WellFormed h nn) (h2 : nn.size = 2) :
    ringLength m h nn = 2 * edgeLength m h nn.neurons := by
  have hn0 : nextOf h nn.neurons = ringAddr h nn.neurons 1 := by
    have := hw.nextOf_ringAddr (k := 0) hw.1
    rwa [WellFormed.ringAddr_zero] at this
  have hn1 : nextOf h (ringAddr h nn.neurons 1) = nn.neurons := by
    have := hw.nextOf_ringAddr (k := 1) (by omega)
    rw [this, show 1 + 1 = nn.size by omega]
    exact hw.ringAddr_size
  have e : ringAddrs h nn = [nn.neurons, ringAddr h nn.neurons 1] := by
    rw [ringAddrs, h2]
    rfl
  rw [ringLength, e]
  simp only [List.map_cons, List.map_nil, List.sum_cons, List.sum_nil, add_zero, edgeLength,
    hn0, hn1]
  rw [vectorLength_sub_comm m (posOf h (ringAddr h nn.neurons 1))]
  ring


/-! ## `neuronInsert` and `neuronRemoveNext` anywhere in the ring -/

/-- A list split at an index. -/
theorem split_at_index {α : Type} (l : List α) {x : Nat} (hx : x < l.length) :
    l = l.take x ++ l[x] :: l.drop (x + 1) := by
  rw [← List.drop_eq_getElem_cons hx, List.take_append_drop]

theorem take_succ_split {α : Type} (l₁ l₂ : List α) (c : α) (x : Nat) (hx : l₁.length = x) :
    (l₁ ++ c :: l₂).take (x + 1) = l₁ ++ [c] := by
  subst hx
  induction l₁ with
  | nil => simp
  | cons a t ih => simp [ih]

theorem drop_succ_split {α : Type} (l₁ l₂ : List α) (c : α) (x : Nat) (hx : l₁.length = x) :
    (l₁ ++ c :: l₂).drop (x + 1) = l₂ := by
  subst hx
  induction l₁ with
  | nil => simp
  | cons a t ih => simp

/-- The ring after `neuronInsert` at the neuron `c`, wherever `c` is in the ring. -/
theorem neuronInsert_repr_mid {h : Heap R} {c : Cell R} {l₁ l₂ : List (Cell R)}
    (hr : Repr h (l₁ ++ c :: l₂)) :
    ∃ h', neuronInsert h c.addr = some (h', h.cells.length + 1)
      ∧ h'.cells.length = h.cells.length + 1
      ∧ Repr h' (l₁ ++ ⟨c.addr, c.p, 0⟩
          :: ⟨h.cells.length + 1,
              vectorAdd c.p (vectorScale (vectorSub (headP (l₂ ++ l₁) c.p) c.p) 0.5), 0⟩
          :: l₂) := by
  have hr1 : Repr h (c :: (l₂ ++ l₁)) := Repr.rot l₁ hr
  obtain ⟨h', e, hl, hr'⟩ := neuronInsert_repr hr1
  refine ⟨h', e, hl, ?_⟩
  have := @Repr.rot R _ h' (⟨c.addr, c.p, 0⟩
          :: ⟨h.cells.length + 1,
              vectorAdd c.p (vectorScale (vectorSub (headP (l₂ ++ l₁) c.p) c.p) 0.5), 0⟩
          :: l₂) l₁ (by simpa using hr')
  simpa using this

/-- The ring after `neuronInsert` at the neuron `c`: well-formed, with the new neuron right
after `c`. -/
theorem neuronInsert_repr_ring {h : Heap R} {c : Cell R} {l₁ l₂ : List (Cell R)}
    (hr : Repr h (l₁ ++ c :: l₂)) (nn : NeuralNet)
    (he : nn.neurons = headAddr (l₁ ++ c :: l₂) 0) (hs : nn.size = (l₁ ++ c :: l₂).length) :
    ∃ h', neuronInsert h c.addr = some (h', h.cells.length + 1)
      ∧ WellFormed h' ⟨nn.size + 1, nn.learned, nn.neurons⟩
      ∧ ringAddrs h' ⟨nn.size + 1, nn.learned, nn.neurons⟩
          = l₁.map Cell.addr ++ c.addr :: (h.cells.length + 1) :: l₂.map Cell.addr := by
  obtain ⟨h', e, _, hr'⟩ := neuronInsert_repr_mid hr
  have he' : nn.neurons = headAddr (l₁ ++ (⟨c.addr, c.p, 0⟩ : Cell R)
      :: (⟨h.cells.length + 1,
          vectorAdd c.p (vectorScale (vectorSub (headP (l₂ ++ l₁) c.p) c.p) 0.5), 0⟩ : Cell R)
      :: l₂) 0 := by
    cases l₁ with
    | nil => exact he
    | cons a t => exact he
  have hsz : nn.size + 1 = (l₁ ++ (⟨c.addr, c.p, 0⟩ : Cell R)
      :: (⟨h.cells.length + 1,
          vectorAdd c.p (vectorScale (vectorSub (headP (l₂ ++ l₁) c.p) c.p) 0.5), 0⟩ : Cell R)
      :: l₂).length := by
    rw [hs]; simp only [List.length_append, List.length_cons]; omega
  refine ⟨h', e, hr'.wellFormed ⟨nn.size + 1, nn.learned, nn.neurons⟩ he' hsz, ?_⟩
  rw [hr'.ringAddrs_eq ⟨nn.size + 1, nn.learned, nn.neurons⟩ he' hsz]
  simp

/-- Insertion after the `x`-th neuron of a well-formed ring: the resulting heap, link by
link, and the resulting ring. -/
theorem neuronInsert_wf {h : Heap R} {nn : NeuralNet} (hw : WellFormed h nn) {x : Nat}
    (hx : x < nn.size) :
    ∃ h' d dn, h.get? (ringAddr h nn.neurons x) = some d
      ∧ d.next = ringAddr h nn.neurons ((x + 1) % nn.size)
      ∧ h.get? d.next = some dn
      ∧ neuronInsert h (ringAddr h nn.neurons x) = some (h', h.cells.length + 1)
      ∧ (∀ b, h'.get? b =
          if b = h.cells.length + 1 then
            some ⟨vectorAdd d.p (vectorScale (vectorSub dn.p d.p) 0.5), 0, d.next,
              ringAddr h nn.neurons x⟩
          else if b = ringAddr h nn.neurons x then
            some ⟨d.p, 0, h.cells.length + 1,
              if d.next = ringAddr h nn.neurons x then h.cells.length + 1 else d.prev⟩
          else if b = d.next then some { dn with prev := h.cells.length + 1 }
          else h.get? b)
      ∧ WellFormed h' ⟨nn.size + 1, nn.learned, nn.neurons⟩
      ∧ ringAddrs h' ⟨nn.size + 1, nn.learned, nn.neurons⟩
          = (ringAddrs h nn).take (x + 1) ++ (h.cells.length + 1) :: (ringAddrs h nn).drop (x + 1)
      := by
  obtain ⟨d, dn, hd, hnx, hn, _⟩ := hw.cell hx
  obtain ⟨h', e, _, g⟩ := neuronInsert_run hd hn
  have hlen := ringCells_length h nn
  have hx' : x < (ringCells h nn).length := by rw [hlen]; exact hx
  have hsplit := split_at_index (ringCells h nn) hx'
  have hc : (ringCells h nn)[x].addr = ringAddr h nn.neurons x := by
    rw [ringCells_getElem]
  have hr : Repr h ((ringCells h nn).take x ++ (ringCells h nn)[x]
      :: (ringCells h nn).drop (x + 1)) := by
    rw [← hsplit]; exact hw.repr
  obtain ⟨h'', e', hw', hra'⟩ := neuronInsert_repr_ring hr nn
    (by rw [← hsplit]; exact hw.headAddr_ringCells.symm) (by rw [← hsplit]; exact hlen.symm)
  rw [hc] at e' hra'
  have : h'' = h' := by rw [e] at e'; cases e'; rfl
  subst this
  have htk : ((ringCells h nn).take x).length = x := by
    rw [List.length_take]; omega
  refine ⟨h'', d, dn, hd, ?_, hn, e, g, hw', ?_⟩
  · rw [hnx]; exact (hw.ringAddr_mod (by omega)).symm
  · rw [hra', hw.repr.ringAddrs_eq nn hw.headAddr_ringCells.symm hlen.symm]
    conv_rhs => rw [hsplit]
    rw [List.map_append, List.map_cons,
      take_succ_split _ _ _ x (by rw [List.length_map]; exact htk),
      drop_succ_split _ _ _ x (by rw [List.length_map]; exact htk), hc]
    simp

/-- In a well-formed ring of at least two neurons no neuron is its own successor. -/
theorem WellFormed.ringAddr_succ_ne {h : Heap R} {nn : NeuralNet} (hw : WellFormed h nn)
    (h2 : 2 ≤ nn.size) {k : Nat} (hk : k < nn.size) :
    ringAddr h nn.neurons (k + 1) ≠ ringAddr h nn.neurons k := by
  intro e
  by_cases hk1 : k + 1 < nn.size
  · exact hw.ringAddr_inj (Nat.lt_succ_self k) hk1 e.symm
  · have hks : k + 1 = nn.size := by omega
    rw [hks, hw.ringAddr_size] at e
    exact hw.ringAddr_inj (i := 0) (j := k) (by omega) hk e

/-- The ring after `neuronRemoveNext` at the neuron `c`, read from `c`. -/
theorem neuronRemoveNext_repr_ring {h : Heap R} {c c2 : Cell R} {rest : List (Cell R)}
    (hr : Repr h (c :: c2 :: rest)) (learned : Nat) :
    ∃ h', neuronRemoveNext h c.addr = some (h', c.addr)
      ∧ WellFormed h' ⟨rest.length + 1, learned, c.addr⟩
      ∧ ringAddrs h' ⟨rest.length + 1, learned, c.addr⟩ = c.addr :: rest.map Cell.addr := by
  obtain ⟨h', e, _, hr'⟩ := neuronRemoveNext_repr hr
  refine ⟨h', e, hr'.wellFormed ⟨rest.length + 1, learned, c.addr⟩ rfl rfl, ?_⟩
  rw [hr'.ringAddrs_eq ⟨rest.length + 1, learned, c.addr⟩ rfl rfl]
  rfl

/-- Removal after the `x`-th neuron of a well-formed ring of at least two neurons: the
resulting heap, link by link, and the resulting ring. -/
theorem neuronRemoveNext_wf {h : Heap R} {nn : NeuralNet} (hw : WellFormed h nn)
    (h2 : 2 ≤ nn.size) {x : Nat} (hx : x < nn.size) :
    ∃ h' d dn dnn, h.get? (ringAddr h nn.neurons x) = some d
      ∧ h.get? d.next = some dn ∧ h.get? dn.next = some dnn
      ∧ d.next ≠ ringAddr h nn.neurons x ∧ dn.next ≠ d.next
      ∧ neuronRemoveNext h (ringAddr h nn.neurons x) = some (h', ringAddr h nn.neurons x)
      ∧ (∀ b, h'.get? b =
          if b = d.next then none
          else if b = ringAddr h nn.neurons x then
            some ⟨d.p, d.hits, dn.next,
              if dn.next = ringAddr h nn.neurons x then ringAddr h nn.neurons x else d.prev⟩
          else if b = dn.next then some { dnn with prev := ringAddr h nn.neurons x }
          else h.get? b)
      ∧ WellFormed h' ⟨nn.size - 1, nn.learned, ringAddr h nn.neurons x⟩
      ∧ ringAddrs h' ⟨nn.size - 1, nn.learned, ringAddr h nn.neurons x⟩
          = ((ringAddrs h nn).rotate x).eraseIdx 1 := by
  obtain ⟨d, dn, hd, hnx, hn, _⟩ := hw.cell hx
  have hk' : (x + 1) % nn.size < nn.size := Nat.mod_lt _ (by omega)
  obtain ⟨d', dnn, hd', hnx', hn', _⟩ := hw.cell hk'
  have hdn : d' = dn := by
    rw [hw.ringAddr_mod (by omega), ← hnx, hn] at hd'
    cases hd'; rfl
  subst hdn
  have hne1 : d.next ≠ ringAddr h nn.neurons x := by
    rw [hnx]; exact hw.ringAddr_succ_ne h2 hx
  have hne2 : d'.next ≠ d.next := by
    rw [hnx', hnx, ← hw.ringAddr_mod (k := x + 1) (by omega)]
    exact hw.ringAddr_succ_ne h2 hk'
  obtain ⟨h', e, _, g⟩ := neuronRemoveNext_run hd hn hn' hne1 hne2
  have hlen := ringCells_length h nn
  have hx' : x < (ringCells h nn).length := by rw [hlen]; exact hx
  have hr : Repr h ((ringCells h nn).rotate x) := by
    rw [List.rotate_eq_drop_append_take (by omega)]
    apply Repr.rot ((ringCells h nn).take x)
    rw [List.take_append_drop]
    exact hw.repr
  obtain ⟨c, c2, rest, hrot⟩ : ∃ c c2 rest, (ringCells h nn).rotate x = c :: c2 :: rest := by
    have hl : ((ringCells h nn).rotate x).length = nn.size := by
      rw [List.length_rotate, hlen]
    match hm : (ringCells h nn).rotate x, hl with
    | [], hl => simp at hl; omega
    | [_], hl => simp at hl; omega
    | c :: c2 :: rest, _ => exact ⟨c, c2, rest, rfl⟩
  have hc : c.addr = ringAddr h nn.neurons x := by
    have h0 : ((ringCells h nn).rotate x)[0]? = some c := by rw [hrot]; rfl
    rw [List.getElem?_rotate (by omega), Nat.zero_add, Nat.mod_eq_of_lt hx',
      List.getElem?_eq_getElem hx', ringCells_getElem] at h0
    cases h0; rfl
  have hrl : rest.length + 1 = nn.size - 1 := by
    have := congrArg List.length hrot
    rw [List.length_rotate, hlen] at this
    simp at this; omega
  rw [hrot] at hr
  obtain ⟨h'', e', hw', hra⟩ := neuronRemoveNext_repr_ring hr nn.learned
  rw [hc] at e' hw' hra
  rw [hrl] at hw' hra
  have : h'' = h' := by rw [e] at e'; cases e'; rfl
  subst this
  refine ⟨h'', d, d', dnn, hd, hn, hn', hne1, hne2, e, g, hw', ?_⟩
  rw [hra, hw.repr.ringAddrs_eq nn hw.headAddr_ringCells.symm hlen.symm, ← List.map_rotate, hrot]
  simp [hc]

/-! ## Neurons at the sample, and the learning step on the heap -/

/-- The position update leaves a neuron that lies at the sample where it is. -/
theorem movePos_self (m : Libm R) (sample : Vector R) (time : R) (i : Int) :
    movePos m sample time i sample = sample := by
  simp [movePos, vectorAdd, vectorScale, vectorSub, vectorMake]

theorem movedCell_p_at_sample (m : Libm R) (sample : Vector R) (time : R) (n x k : Nat) :
    ∀ (i : Int) (j : Nat) (c : Cell R), c.p = sample →
      (movedCell m sample time n x k i j c).p = sample := by
  induction k with
  | zero => intro i j c hc; exact hc
  | succ k ih =>
    intro i j c hc
    rw [movedCell]
    apply ih
    split
    · simp only [moveCell, hc, movePos_self]
    · exact hc

/-- The learning step on a well-formed ring: it returns, and increments the hits of the
winning neuron. -/
theorem neuralNetTrainLearn_wf (m : Libm R) {h : Heap R} {nn : NeuralNet}
    (hw : WellFormed h nn) (samples : SampleMap R) (rnd : Nat) (sample : Vector R)
    (hitems : samples.items ≠ 0)
    (hsample : samples.samples[rnd % samples.items]? = some sample) (time : R) :
    ∃ h1, neuralNetTrainLearn m rnd h nn samples time
        = some (h1, { nn with learned := (nn.learned + 1) % ULONG_RANGE })
      ∧ hitsOf h1 (ringAddr h nn.neurons (winnerIdx m sample h nn))
          = (hitsOf h (ringAddr h nn.neurons (winnerIdx m sample h nn)) + 1) % UINT_RANGE := by
  obtain ⟨h1, e1, hr1, _⟩ := neuralNetTrainLearn_repr m hw.repr nn
    hw.headAddr_ringCells.symm (ringCells_length h nn).symm samples rnd sample hitems hsample
    time
  refine ⟨h1, e1, ?_⟩
  have hwlt := winnerIdx_lt m sample hw
  have hg := learnCells_ringCells_getElem? m sample time h nn hwlt
  obtain ⟨hlt, hc⟩ := List.getElem?_eq_some.mp hg
  have hh := hr1.hitsOf hlt
  rw [hc, learnedCell_addr, learnedCell_hits, if_pos rfl] at hh
  exact hh

/-- On `ring3` the neuron nearest to `(2, 0)` is the second one, which lies there. -/
theorem ring3_winner_at_sample :
    (neuralNetTrainNearest libmQ ring3 net3 ⟨2, 0⟩).map Prod.fst = some 2 := by
  simp [neuralNetTrainNearest, neuralNetTrainNearestLoop, Heap.get?, ring3, net3, libmQ,
    vectorLength, vectorSub, vectorMake]
  norm_num

/-- On `ring3` the neuron nearest to `(3, 3)` is the third one. -/
theorem ring3_winner :
    (neuralNetTrainNearest libmQ ring3 net3 ⟨3, 3⟩).map Prod.fst = some 3 := by
  simp [neuralNetTrainNearest, neuralNetTrainNearestLoop, Heap.get?, ring3, net3, libmQ,
    vectorLength, vectorSub, vectorMake]
  norm_num

/-! ## What pruning leaves -/

theorem dropWhile_head_false {α : Type} (p : α → Bool) (l : List α) (y : α) (d : List α)
    (e : l.dropWhile p = y :: d) : p y = false := by
  have hne : l.dropWhile p ≠ [] := by rw [e]; simp
  have := List.head_dropWhile_not p l hne
  simp only [e, List.head_cons] at this
  simpa using this

theorem dropWhile_same_length {α : Type} (p : α → Bool) (l : List α)
    (e : (l.dropWhile p).length = l.length) : l.dropWhile p = l :=
  (List.dropWhile_suffix p).eq_of_length e

theorem succ_of_last_seen (seen : List (Cell R)) (x : Cell R) (t : List (Cell R))
    (hs : seen ≠ []) :
    (seen ++ x :: t)[(seen.length + 1) % (seen ++ x :: t).length]? = (t ++ seen)[0]? := by
  cases t with
  | nil =>
    have : (seen.length + 1) % (seen ++ [x]).length = 0 := by simp
    rw [this]
    cases seen with
    | nil => exact absurd rfl hs
    | cons a s => simp
  | cons y t =>
    have : (seen.length + 1) % (seen ++ x :: y :: t).length = seen.length + 1 := by
      apply Nat.mod_eq_of_lt; simp
    rw [this, List.getElem?_append_right (by omega)]
    simp

/-- The walk ends with every neuron far from its successor, or with a single neuron. -/
theorem pruneWalk_far (m : Libm R) (seen todo : List (Cell R)) (hs : seen ≠ [])
    (hinv : (seen ++ todo).length = 1 ∨ ∀ i, i < seen.length → farAt m (seen ++ todo) i) :
    (pruneWalk m seen todo).length = 1
      ∨ ∀ i, i < (pruneWalk m seen todo).length → farAt m (pruneWalk m seen todo) i := by
  induction seen, todo using pruneWalk.induct m with
  | case1 seen =>
    rw [pruneWalk]
    simpa using hinv
  | case2 seen x t heq ih =>
    rw [pruneWalk, if_pos heq]
    apply ih (by simp)
    right
    have hL : seen ++ [x] ++ t = seen ++ x :: t := by simp
    have hlen : 0 < seen.length := List.length_pos.mpr hs
    rw [hL]
    intro i hi
    rcases hinv with h1 | hall
    · simp at h1; omega
    · by_cases hlt : i < seen.length
      · exact hall i hlt
      · have hi' : i = seen.length := by simp at hi; omega
        subst hi'
        intro c c' hc hc'
        rw [succ_of_last_seen seen x t hs] at hc'
        rw [List.getElem?_append_right (le_refl _)] at hc
        simp at hc
        subst hc
        have hd := dropWhile_same_length _ _ heq
        cases hts : t ++ seen with
        | nil => simp at hts; exact absurd hts.2 hs
        | cons y r =>
          rw [hts] at hd hc'
          simp at hc'
          subst hc'
          exact dropWhile_head_false _ _ _ _ hd
  | case3 seen x t hne ih =>
    rw [pruneWalk, if_neg hne]
    apply ih (by simp)
    cases hd : (t ++ seen).dropWhile (near m x) with
    | nil => left; simp
    | cons y r =>
      right
      intro i hi c c' hc hc'
      have hi0 : i = 0 := by simpa using hi
      subst hi0
      simp at hc hc'
      subst hc
      subst hc'
      exact dropWhile_head_false _ _ _ _ hd

theorem pruneCells_far (m : Libm R) (l : List (Cell R)) (hl : l ≠ []) :
    (pruneCells m l).length = 1
      ∨ ∀ i, i < (pruneCells m l).length → farAt m (pruneCells m l) i := by
  cases l with
  | nil => exact absurd rfl hl
  | cons e rest =>
    rw [pruneCells]
    apply pruneWalk_far m _ _ (by simp)
    cases hd : rest.dropWhile (near m e) with
    | nil => left; simp
    | cons y r =>
      right
      intro i hi c c' hc hc'
      have hi0 : i = 0 := by simpa using hi
      subst hi0
      simp at hc hc'
      subst hc
      subst hc'
      exact dropWhile_head_false _ _ _ _ hd

/-- A rotation of a sublist is a sublist of a rotation. -/
theorem rotated_sublist {α : Type} {A B r : List α} (hs : A.Sublist B) (hr : r ~r A) :
    ∃ r', r' ~r B ∧ r.Sublist r' := by
  obtain ⟨n, hn⟩ := hr.symm
  rw [List.rotate_eq_drop_append_take_mod] at hn
  have hA : A = A.take (n % A.length) ++ A.drop (n % A.length) :=
    (List.take_append_drop _ _).symm
  rw [hA] at hs
  obtain ⟨b1, b2, hB, h1, h2⟩ := List.append_sublist_iff.mp hs
  refine ⟨b2 ++ b1, ?_, ?_⟩
  · rw [hB]; exact List.isRotated_append
  · rw [← hn]; exact h2.append h1

/-- The walk keeps a sublist of a rotation of the ring. -/
theorem pruneWalk_cyc (m : Libm R) (seen todo : List (Cell R)) :
    ∃ r, r ~r (seen ++ todo) ∧ (pruneWalk m seen todo).Sublist r := by
  induction seen, todo using pruneWalk.induct m with
  | case1 seen =>
    rw [pruneWalk]
    exact ⟨seen, by rw [List.append_nil], List.Sublist.refl _⟩
  | case2 seen x t heq ih =>
    rw [pruneWalk, if_pos heq]
    simpa using ih
  | case3 seen x t hne ih =>
    rw [pruneWalk, if_neg hne]
    obtain ⟨r, hr, hsub⟩ := ih
    have hs : ([x] ++ (t ++ seen).dropWhile (near m x)).Sublist ([x] ++ (t ++ seen)) :=
      (List.Sublist.refl [x]).append (List.dropWhile_sublist _)
    obtain ⟨r', hr', hsub'⟩ := rotated_sublist hs hr
    refine ⟨r', hr'.trans ?_, hsub.trans hsub'⟩
    have : [x] ++ (t ++ seen) = (x :: t) ++ seen := by simp
    rw [this]
    exact List.isRotated_append

theorem pruneCells_cyc (m : Libm R) (l : List (Cell R)) :
    ∃ r, r ~r l ∧ (pruneCells m l).Sublist r := by
  cases l with
  | nil => exact ⟨[], List.IsRotated.refl _, by simp [pruneCells]⟩
  | cons e rest =>
    rw [pruneCells]
    obtain ⟨r, hr, hsub⟩ := pruneWalk_cyc m [e] (rest.dropWhile (near m e))
    have hs : ([e] ++ rest.dropWhile (near m e)).Sublist ([e] ++ rest) :=
      (List.Sublist.refl [e]).append (List.dropWhile_sublist _)
    obtain ⟨r', hr', hsub'⟩ := rotated_sublist hs hr
    exact ⟨r', hr', hsub.trans hsub'⟩

/-- Counting the elements of a duplicate-free list that a duplicate-free part of it
misses. -/
theorem length_add_countP_not_mem {A A' : List Nat} (hA : A.Nodup) (hA' : A'.Nodup)
    (hsub : ∀ a, a ∈ A' → a ∈ A) :
    A'.length + A.countP (fun a => decide (a ∉ A')) = A.length := by
  have hp : (A.filter fun a => decide (a ∈ A')).Perm A' := by
    apply (List.perm_ext_iff_of_nodup (hA.filter _) hA').mpr
    intro a
    simp only [List.mem_filter, decide_eq_true_eq]
    exact ⟨fun h => h.2, fun h => ⟨hsub a h, h⟩⟩
  have h1 := List.length_eq_countP_add_countP (p := fun a => decide (a ∈ A')) A
  rw [List.countP_eq_length_filter, hp.length_eq] at h1
  rw [h1]
  congr 2
  funext a
  simp

/-- A neuron that is far from its successor in the list is far from it in the heap. -/
theorem far_of_repr (m : Libm R) {h : Heap R} {l : List (Cell R)} (hr : Repr h l) {i : Nat}
    (hi : i < l.length) (hfar : farAt m l i) :
    (NEURON_REMOVE_DISTANCE : R) < edgeLength m h (addrAt l i 0) := by
  have hj : (i + 1) % l.length < l.length := Nat.mod_lt _ (by omega)
  have hd := hr.get_addrAt hi
  have hn := hr.get_addrAt hj
  rw [edgeLength_eq m hd hn]
  have := hfar l[i] l[(i + 1) % l.length] (List.getElem?_eq_getElem hi)
    (List.getElem?_eq_getElem hj)
  simpa [near] using this

/-- The ring after pruning: every neuron is far from its successor, unless a single neuron
is left. -/
theorem neuralNetRemoveDoubleNeurons_far (m : Libm R) (h : Heap R) (nn : NeuralNet)
    (fuel : Nat) (hw : WellFormed h nn) (hf : nn.size * nn.size + nn.size + 1 ≤ fuel) :
    ∃ h' nn', neuralNetRemoveDoubleNeurons m fuel h nn = some (h', nn')
      ∧ WellFormed h' nn'
      ∧ (nn'.size = 1
        ∨ ∀ a, a ∈ ringAddrs h' nn' → (NEURON_REMOVE_DISTANCE : R) < edgeLength m h' a) := by
  obtain ⟨h', e, hr', _⟩ := neuralNetRemoveDoubleNeurons_repr m hw.repr nn
    hw.headAddr_ringCells.symm (ringCells_length h nn).symm fuel hf
  have hfar := pruneCells_far m (ringCells h nn) hw.repr.1
  generalize pruneCells m (ringCells h nn) = l' at e hr' hfar
  refine ⟨h', _, e, hr'.wellFormed _ rfl rfl, ?_⟩
  rcases hfar with h1 | hall
  · exact Or.inl h1
  · right
    intro a ha
    rw [hr'.ringAddrs_eq _ rfl rfl] at ha
    obtain ⟨c, hc, rfl⟩ := List.mem_map.mp ha
    obtain ⟨i, hi, rfl⟩ := List.getElem_of_mem hc
    have := far_of_repr m hr' hi (hall i hi)
    rwa [addrAt_of_lt hi] at this

/-- The ring after pruning is a sublist of a rotation of the ring before. -/
theorem neuralNetRemoveDoubleNeurons_cyc (m : Libm R) (h : Heap R) (nn : NeuralNet)
    (fuel : Nat) (hw : WellFormed h nn) (hf : nn.size * nn.size + nn.size + 1 ≤ fuel) :
    ∃ h' nn', neuralNetRemoveDoubleNeurons m fuel h nn = some (h', nn')
      ∧ WellFormed h' nn' ∧ (ringAddrs h' nn').Nodup
      ∧ nn'.neurons ∈ ringAddrs h' nn'
      ∧ ∃ r, List.IsRotated r (ringCells h nn) ∧ (ringCells h' nn').Sublist r := by
  obtain ⟨h', e, hr', _⟩ := neuralNetRemoveDoubleNeurons_repr m hw.repr nn
    hw.headAddr_ringCells.symm (ringCells_length h nn).symm fuel hf
  have hcyc := pruneCells_cyc m (ringCells h nn)
  generalize pruneCells m (ringCells h nn) = l' at e hr' hcyc
  have hwn := hr'.wellFormed_nodup ⟨l'.length, nn.learned, headAddr l' 0⟩ rfl rfl
  refine ⟨h', _, e, hwn.1, hwn.2.2, ?_, ?_⟩
  · rw [hr'.ringAddrs_eq _ rfl rfl]
    exact headAddr_mem hr'.1 0
  · rw [hr'.ringCells_eq _ rfl rfl]
    exact hcyc

/-- Pruning the ring of two neurons at `(0, 0)` and `(0.5, 0)` leaves one neuron. -/
theorem prune_ring2 :
    ∃ h' nn', neuralNetRemoveDoubleNeurons (⟨Real.sqrt, Real.exp, Real.log⟩ : Libm ℝ) 7
        (ring2 ℝ) net2 = some (h', nn') ∧ nn'.size = 1 := by
  have hw : WellFormed (ring2 ℝ) net2 := by decide
  have hcells : ringCells (ring2 ℝ) net2 = [⟨1, ⟨0, 0⟩, 0⟩, ⟨2, ⟨0.5, 0⟩, 0⟩] := rfl
  obtain ⟨h', e, _, _⟩ := neuralNetRemoveDoubleNeurons_repr
    (⟨Real.sqrt, Real.exp, Real.log⟩ : Libm ℝ) hw.repr net2 hw.headAddr_ringCells.symm
    (ringCells_length _ _).symm 7 (by decide)
  have hnear : near (⟨Real.sqrt, Real.exp, Real.log⟩ : Libm ℝ) (⟨1, ⟨0, 0⟩, 0⟩ : Cell ℝ)
      ⟨2, ⟨0.5, 0⟩, 0⟩ = true := by
    simp only [near, vectorLength, vectorSub, vectorMake, NEURON_REMOVE_DISTANCE,
      decide_eq_true_eq]
    rw [Nat.cast_one, Real.sqrt_le_one]
    norm_num
  have hp : pruneCells (⟨Real.sqrt, Real.exp, Real.log⟩ : Libm ℝ) (ringCells (ring2 ℝ) net2)
      = [⟨1, ⟨0, 0⟩, 0⟩] := by
    rw [hcells, pruneCells, List.dropWhile_cons, if_pos hnear, List.dropWhile_nil, pruneWalk]
  rw [hp] at e
  exact ⟨h', _, e, rfl⟩

/-! ## `neuralNetGrow`: more fuel, thresholds that are not positive, and the counters -/

/-- More fuel does not change a result of the loop of `neuralNetInv`. -/
theorem neuralNetInvLoop_mono (h : Heap R) (nn : NeuralNet) (f : Nat) :
    ∀ (valid : Bool) (neuron : Nat) (r : Bool),
      neuralNetInvLoop h nn f valid neuron = some r →
      ∀ f', f ≤ f' → neuralNetInvLoop h nn f' valid neuron = some r := by
  induction f with
  | zero => intro valid neuron r hr; simp [neuralNetInvLoop] at hr
  | succ f ih =>
    intro valid neuron r hr f' hf'
    obtain ⟨f'', rfl⟩ : ∃ f'', f' = f'' + 1 := ⟨f' - 1, by omega⟩
    rw [neuralNetInvLoop] at hr ⊢
    split
    · rename_i hc
      rw [if_pos hc] at hr
      cases hd : h.get? neuron with
      | none => simp [hd] at hr
      | some d =>
        cases hn : h.get? d.next with
        | none => simp [hd, hn] at hr
        | some dn =>
          by_cases hp : dn.prev = neuron
          · cases hdp : h.get? d.prev with
            | none => simp [hd, hn, hp, hdp] at hr
            | some dp =>
              simp only [hd, hn, hp, hdp, Option.bind_eq_bind, Option.some_bind, beq_self_eq_true,
                if_true, Option.pure_def] at hr ⊢
              exact ih _ _ _ hr f'' (by omega)
          · simp only [hd, hn, hp, Option.bind_eq_bind, Option.some_bind, beq_iff_eq,
              if_false, Option.pure_def] at hr ⊢
            exact ih _ _ _ hr f'' (by omega)
    · rename_i hc
      rw [if_neg hc] at hr
      exact hr

theorem neuralNetInv_mono {h : Heap R} {nn : NeuralNet} {f f' : Nat} {r : Bool}
    (hr : neuralNetInv f h nn = some r) (hf : f ≤ f') : neuralNetInv f' h nn = some r := by
  unfold neuralNetInv at hr ⊢
  cases hd : h.get? nn.neurons with
  | none => simp [hd] at hr
  | some d =>
    simp only [hd, Option.bind_eq_bind, Option.some_bind] at hr ⊢
    exact neuralNetInvLoop_mono h nn f _ _ _ hr f' hf

/-- More fuel does not change a result of the loop of `neuralNetGrow`. -/
theorem neuralNetGrowLoop_mono (thr : R) (f : Nat) :
    ∀ (h : Heap R) (nn : NeuralNet) (neuron : Nat) (r : Heap R × NeuralNet),
      neuralNetGrowLoop thr f h nn neuron = some r →
      ∀ f', f ≤ f' → neuralNetGrowLoop thr f' h nn neuron = some r := by
  induction f with
  | zero => intro h nn neuron r hr; simp [neuralNetGrowLoop] at hr
  | succ f ih =>
    intro h nn neuron r hr f' hf'
    obtain ⟨f'', rfl⟩ : ∃ f'', f' = f'' + 1 := ⟨f' - 1, by omega⟩
    rw [neuralNetGrowLoop] at hr ⊢
    split
    · rename_i hc
      rw [if_pos hc] at hr
      cases hd : h.get? neuron with
      | none => simp [hd] at hr
      | some d =>
        simp only [hd, Option.bind_eq_bind, Option.some_bind] at hr ⊢
        split
        · rename_i hhit
          rw [if_pos hhit] at hr
          cases hi : neuronInsert h neuron with
          | none => simp [hi] at hr
          | some q =>
            simp only [hi, Option.some_bind] at hr ⊢
            exact ih _ _ _ _ hr f'' (by omega)
        · rename_i hhit
          rw [if_neg hhit] at hr
          exact ih _ _ _ _ hr f'' (by omega)
    · rename_i hc
      rw [if_neg hc] at hr
      exact hr

/-- More fuel does not change a result of `neuralNetGrow`. -/
theorem neuralNetGrow_mono {thr : R} {h : Heap R} {nn : NeuralNet} {f f' : Nat}
    {r : Heap R × NeuralNet} (hr : neuralNetGrow f h nn thr = some r) (hf : f ≤ f') :
    neuralNetGrow f' h nn thr = some r := by
  unfold neuralNetGrow at hr ⊢
  cases hd : h.get? nn.neurons with
  | none => simp [hd] at hr
  | some d =>
    simp only [hd, Option.bind_eq_bind, Option.some_bind] at hr ⊢
    have key : ∀ (h2 : Heap R) (nn2 : NeuralNet) (a2 : Nat),
        ((h2.get? a2).bind fun d2 =>
          (neuralNetGrowLoop thr f h2 nn2 d2.next).bind fun q =>
            (neuralNetInv f q.1 { q.2 with learned := 0 }).bind fun valid =>
              if valid = true then some (q.1, { q.2 with learned := 0 }) else none) = some r →
        ((h2.get? a2).bind fun d2 =>
          (neuralNetGrowLoop thr f' h2 nn2 d2.next).bind fun q =>
            (neuralNetInv f' q.1 { q.2 with learned := 0 }).bind fun valid =>
              if valid = true then some (q.1, { q.2 with learned := 0 }) else none) = some r := by
      intro h2 nn2 a2 hk
      cases hd2 : h2.get? a2 with
      | none => simp [hd2] at hk
      | some d2 =>
        cases hl : neuralNetGrowLoop thr f h2 nn2 d2.next with
        | none => simp [hd2, hl] at hk
        | some q3 =>
          cases hv : neuralNetInv f q3.1 { q3.2 with learned := 0 } with
          | none => simp [hd2, hl, hv] at hk
          | some v =>
            simp only [hd2, hl, hv, Option.some_bind] at hk
            simp only [hd2, neuralNetGrowLoop_mono thr f _ _ _ _ hl f' hf,
              neuralNetInv_mono hv hf, Option.some_bind]
            exact hk
    by_cases hhit : thr ≤ (d.hits : R)
    · cases hi : neuronInsert h nn.neurons with
      | none => simp [hhit, hi] at hr
      | some q =>
        simp only [hhit, if_true, hi, Option.some_bind, Option.pure_def] at hr ⊢
        exact key _ _ _ hr
    · simp only [hhit, if_false, Option.some_bind, Option.pure_def] at hr ⊢
      exact key _ _ _ hr

/-- With a threshold that is not positive the loop of `neuralNetGrow` never ends once it
stands on a neuron other than the entry: the neuron it inserts qualifies again. -/
theorem neuralNetGrowLoop_diverges (thr : R) (hthr : thr ≤ 0) (fuel : Nat) :
    ∀ (h : Heap R) (c : Cell R) (rest : List (Cell R)) (nn : NeuralNet),
      Repr h (c :: rest) → nn.neurons ∈ rest.map Cell.addr →
      neuralNetGrowLoop thr fuel h nn c.addr = none := by
  induction fuel with
  | zero => intro h c rest nn _ _; rfl
  | succ f ih =>
    intro h c rest nn hr he
    have hce : c.addr ≠ nn.neurons := by
      intro e
      have hnd := hr.2.1
      rw [List.map_cons, List.nodup_cons] at hnd
      exact hnd.1 (e ▸ he)
    have hcell := hr.head_cell
    have hhit : thr ≤ (c.hits : R) := le_trans hthr (Nat.cast_nonneg _)
    obtain ⟨h1, e1, _, hr1⟩ := neuronInsert_repr hr
    have hr2 : Repr h1 (⟨h.cells.length + 1,
        vectorAdd c.p (vectorScale (vectorSub (headP rest c.p) c.p) 0.5), 0⟩
        :: (rest ++ [⟨c.addr, c.p, 0⟩])) := by
      have := Repr.rot ([(⟨c.addr, c.p, 0⟩ : Cell R)]) (by simpa using hr1)
      simpa using this
    have hrec := ih h1 _ _ { nn with size := nn.size + 1 } hr2
      (by simp only [List.map_append, List.mem_append]; exact Or.inl he)
    rw [neuralNetGrowLoop]
    simp only [bne_iff_ne, ne_eq, hce, not_false_eq_true, if_true, Option.bind_eq_bind, hcell,
      Option.some_bind, hhit, e1]
    exact hrec

/-- With a threshold that is not positive `neuralNetGrow` does not return on a ring of at
least two neurons. -/
theorem neuralNetGrow_diverges (thr : R) (hthr : thr ≤ 0) {h : Heap R} {e c : Cell R}
    {rest : List (Cell R)} (hr : Repr h (e :: c :: rest)) (nn : NeuralNet)
    (he : nn.neurons = e.addr) (fuel : Nat) : neuralNetGrow fuel h nn thr = none := by
  have hcell := hr.head_cell
  have hhit : thr ≤ (e.hits : R) := le_trans hthr (Nat.cast_nonneg _)
  obtain ⟨h1, e1, _, hr1⟩ := neuronInsert_repr hr
  have hr1' : Repr h1 (⟨h.cells.length + 1,
      vectorAdd e.p (vectorScale (vectorSub (headP (c :: rest) e.p) e.p) 0.5), 0⟩
      :: (c :: rest ++ [⟨e.addr, e.p, 0⟩])) := by
    have := Repr.rot ([(⟨e.addr, e.p, 0⟩ : Cell R)]) (by simpa using hr1)
    simpa using this
  have hnewcell := hr1'.head_cell
  have hr2 : Repr h1 (c :: (rest ++ [⟨e.addr, e.p, 0⟩, ⟨h.cells.length + 1,
      vectorAdd e.p (vectorScale (vectorSub (headP (c :: rest) e.p) e.p) 0.5), 0⟩])) := by
    have := Repr.rot ([(⟨e.addr, e.p, 0⟩ : Cell R), ⟨h.cells.length + 1,
      vectorAdd e.p (vectorScale (vectorSub (headP (c :: rest) e.p) e.p) 0.5), 0⟩])
      (by simpa using hr1)
    simpa using this
  have hloop := neuralNetGrowLoop_diverges thr hthr fuel h1 c _
    { nn with size := nn.size + 1 } hr2 (by simp [he])
  unfold neuralNetGrow
  simp only [he, Option.bind_eq_bind, hcell, Option.some_bind, hhit, if_true, e1,
    Option.pure_def, hnewcell]
  have hh : headAddr (c :: rest ++ [(⟨e.addr, e.p, 0⟩ : Cell R)]) (h.cells.length + 1)
      = c.addr := rfl
  rw [hh]
  simp only [he] at hloop
  rw [hloop]
  rfl

/-- On a ring of one neuron that has reached the threshold, `neuralNetGrow` returns the ring
of that neuron and a new one, whatever the threshold. -/
theorem neuralNetGrow_single (thr : R) {h : Heap R} {e : Cell R} (hr : Repr h [e])
    (hhit : thr ≤ (e.hits : R)) (nn : NeuralNet) (he : nn.neurons = e.addr) (fuel : Nat)
    (hf : 3 ≤ fuel) :
    ∃ h', neuralNetGrow fuel h nn thr = some (h', ⟨nn.size + 1, 0, nn.neurons⟩)
      ∧ Repr h' [⟨e.addr, e.p, 0⟩, ⟨h.cells.length + 1,
          vectorAdd e.p (vectorScale (vectorSub e.p e.p) 0.5), 0⟩] := by
  have hcell := hr.head_cell
  obtain ⟨h1, e1, _, hr1⟩ := neuronInsert_repr hr
  have hr1' : Repr h1 [⟨h.cells.length + 1,
      vectorAdd e.p (vectorScale (vectorSub e.p e.p) 0.5), 0⟩, ⟨e.addr, e.p, 0⟩] :=
    Repr.rot ([(⟨e.addr, e.p, 0⟩ : Cell R)]) hr1
  have hnewcell := hr1'.head_cell
  have hinv := neuralNetInv_repr hr1 ⟨nn.size + 1, 0, e.addr⟩ rfl fuel (by simpa using hf)
  obtain ⟨f, rfl⟩ : ∃ f, fuel = f + 1 := ⟨fuel - 1, by omega⟩
  refine ⟨h1, ?_, hr1⟩
  unfold neuralNetGrow
  simp only [he, Option.bind_eq_bind, hcell, Option.some_bind, hhit, if_true, e1,
    Option.pure_def, hnewcell]
  have hh : headAddr [(⟨e.addr, e.p, 0⟩ : Cell R)] (h.cells.length + 1) = e.addr := rfl
  rw [hh, neuralNetGrowLoop]
  simp only [bne_self_eq_false, Bool.false_eq_true, if_false, Option.some_bind, hinv, if_true]

theorem Repr.hitsOf_mem {h : Heap R} {l : List (Cell R)} (hr : Repr h l) {c : Cell R}
    (hc : c ∈ l) : Tspsom.hitsOf h c.addr = c.hits := by
  obtain ⟨i, hi, rfl⟩ := List.getElem_of_mem hc
  exact hr.hitsOf hi

/-- What `neuralNetGrow` makes of a neuron of the ring. -/
theorem mem_growCells_of_mem (thr : R) (l : List (Cell R)) :
    ∀ (k : Nat) (q : Vector R) (c : Cell R), c ∈ l →
      (if thr ≤ (c.hits : R) then (⟨c.addr, c.p, 0⟩ : Cell R) else c) ∈ growCells thr k l q := by
  induction l with
  | nil => intro k q c hc; simp at hc
  | cons a t ih =>
    intro k q c hc
    rw [growCells]
    rcases List.mem_cons.mp hc with rfl | hc'
    · by_cases hh : thr ≤ (c.hits : R)
      · simp [hh]
      · simp [hh]
    · by_cases hh : thr ≤ (a.hits : R)
      · rw [if_pos hh]
        exact List.mem_cons_of_mem _ (List.mem_cons_of_mem _ (ih _ _ _ hc'))
      · rw [if_neg hh]
        exact List.mem_cons_of_mem _ (ih _ _ _ hc')

/-- A neuron of the ring after `neuralNetGrow` has no hits or is an unchanged old neuron. -/
theorem hits_of_mem_growCells (thr : R) (l : List (Cell R)) :
    ∀ (k : Nat) (q : Vector R) (c : Cell R), c ∈ growCells thr k l q → c.hits = 0 ∨ c ∈ l := by
  induction l with
  | nil => intro k q c hc; simp [growCells] at hc
  | cons a t ih =>
    intro k q c hc
    rw [growCells] at hc
    by_cases hh : thr ≤ (a.hits : R)
    · rw [if_pos hh] at hc
      rcases List.mem_cons.mp hc with rfl | hc
      · exact Or.inl rfl
      · rcases List.mem_cons.mp hc with rfl | hc
        · exact Or.inl rfl
        · exact (ih _ _ _ hc).imp id (List.mem_cons_of_mem _)
    · rw [if_neg hh] at hc
      rcases List.mem_cons.mp hc with rfl | hc
      · exact Or.inr (List.mem_cons_self _ _)
      · exact (ih _ _ _ hc).imp id (List.mem_cons_of_mem _)

/-- `neuralNetGrow` returns when the threshold is positive or the ring has one neuron. -/
theorem neuralNetGrow_total (thr : R) {h : Heap R} {nn : NeuralNet} (hw : WellFormed h nn)
    (hc : 0 < thr ∨ nn.size = 1) (fuel : Nat) (hf : 2 * nn.size + 1 ≤ fuel) :
    ∃ h' nn', neuralNetGrow fuel h nn thr = some (h', nn') ∧ nn'.learned = 0
      ∧ Repr h' (ringCells h' nn')
      ∧ ringCells h' nn' = growCells thr (h.cells.length + 1) (ringCells h nn)
          (headP (ringCells h nn) ⟨0, 0⟩) := by
  have hr := hw.repr
  have he := hw.headAddr_ringCells.symm
  have hs := (ringCells_length h nn).symm
  by_cases hthr : 0 < thr
  · obtain ⟨h', e, hr', _⟩ := neuralNetGrow_repr_list thr hthr hr nn he hs fuel hf
    have hce := hr'.ringCells_eq ⟨nn.size + growCount thr (ringCells h nn), 0, nn.neurons⟩
      (by rw [headAddr_growCells]; exact he) (by rw [growCells_length, ← hs])
    refine ⟨h', _, e, rfl, ?_, hce⟩
    rw [hce]; exact hr'
  · have h1 : nn.size = 1 := hc.resolve_left hthr
    obtain ⟨e, hl⟩ : ∃ e, ringCells h nn = [e] := by
      match hm : ringCells h nn, hs with
      | [e], _ => exact ⟨e, rfl⟩
      | [], hs => simp at hs; omega
      | _ :: _ :: _, hs => simp at hs; omega
    rw [hl] at hr he
    have hhit : thr ≤ (e.hits : R) := le_trans (not_lt.mp hthr) (Nat.cast_nonneg _)
    obtain ⟨h', e', hr'⟩ := neuralNetGrow_single thr hr hhit nn he fuel (by omega)
    have hg : growCells thr (h.cells.length + 1) [e] (headP [e] ⟨0, 0⟩)
        = [⟨e.addr, e.p, 0⟩, ⟨h.cells.length + 1,
          vectorAdd e.p (vectorScale (vectorSub e.p e.p) 0.5), 0⟩] := by
      simp [growCells, hhit, headP]
    have hce := hr'.ringCells_eq ⟨nn.size + 1, 0, nn.neurons⟩ he (by rw [h1]; rfl)
    refine ⟨h', _, e', rfl, ?_, ?_⟩
    · rw [hce]; exact hr'
    · rw [hce, hl, hg]

theorem map_addr_ringCells (h : Heap R) (nn : NeuralNet) :
    (ringCells h nn).map Cell.addr = ringAddrs h nn := by
  simp [ringCells, Function.comp_def]

theorem mem_ringCells_of_mem {h : Heap R} {nn : NeuralNet} {a : Nat} (ha : a ∈ ringAddrs h nn) :
    (⟨a, posOf h a, hitsOf h a⟩ : Cell R) ∈ ringCells h nn :=
  List.mem_map.mpr ⟨a, ha, rfl⟩

theorem mem_ringAddrs_of_mem {h : Heap R} {nn : NeuralNet} {c : Cell R}
    (hc : c ∈ ringCells h nn) : c.addr ∈ ringAddrs h nn := by
  rw [← map_addr_ringCells]
  exact List.mem_map_of_mem _ hc

/-- The counters after `neuralNetGrow`, whenever it returns. -/
theorem neuralNetGrow_counters (thr : R) {h : Heap R} {nn : NeuralNet} (hw : WellFormed h nn)
    (fuel : Nat) (h' : Heap R) (nn' : NeuralNet)
    (hret : neuralNetGrow fuel h nn thr = some (h', nn')) :
    nn'.learned = 0
      ∧ (∀ a, a ∈ ringAddrs h nn →
          a ∈ ringAddrs h' nn'
          ∧ hitsOf h' a = if thr ≤ (hitsOf h a : R) then 0 else hitsOf h a)
      ∧ (∀ a, a ∈ ringAddrs h' nn' → a ∉ ringAddrs h nn → hitsOf h' a = 0) := by
  have hr := hw.repr
  have hs := (ringCells_length h nn).symm
  have hc : 0 < thr ∨ nn.size = 1 := by
    by_contra hcon
    rw [not_or] at hcon
    obtain ⟨e, c, rest, hl⟩ : ∃ e c rest, ringCells h nn = e :: c :: rest := by
      have h1 := hw.1
      match hm : ringCells h nn, hs with
      | e :: c :: rest, _ => exact ⟨e, c, rest, rfl⟩
      | [], hs => simp at hs; omega
      | [_], hs => simp at hs; omega
    have he := hw.headAddr_ringCells.symm
    rw [hl] at hr he
    rw [neuralNetGrow_diverges thr (not_lt.mp hcon.1) hr nn he fuel] at hret
    cases hret
  obtain ⟨h'', nn'', e, hlearn, hr', hcells⟩ := neuralNetGrow_total thr hw hc
    (max fuel (2 * nn.size + 1)) (le_max_right _ _)
  rw [neuralNetGrow_mono hret (le_max_left _ _)] at e
  cases e
  refine ⟨hlearn, ?_, ?_⟩
  · intro a ha
    have hg := mem_growCells_of_mem thr _ (h.cells.length + 1)
      (headP (ringCells h nn) ⟨0, 0⟩) _ (mem_ringCells_of_mem ha)
    rw [← hcells] at hg
    have hh := hr'.hitsOf_mem hg
    have hm := mem_ringAddrs_of_mem hg
    by_cases hhit : thr ≤ (hitsOf h a : R)
    · simp only [hhit, if_true] at hg hh hm ⊢
      exact ⟨hm, hh⟩
    · simp only [hhit, if_false] at hg hh hm ⊢
      exact ⟨hm, hh⟩
  · intro a ha hna
    have hg := mem_ringCells_of_mem ha
    rw [hcells] at hg
    rcases hits_of_mem_growCells thr _ _ _ _ hg with h0 | hold
    · exact h0
    · exact absurd (mem_ringAddrs_of_mem hold) hna

/-- Pruning `ringE`: the walk removes the entry when it stands on the third neuron, which
becomes the entry, and ends after one more round. -/
theorem prune_ringE :
    ∃ h', neuralNetRemoveDoubleNeurons (⟨Real.sqrt, Real.exp, Real.log⟩ : Libm ℝ) 13
        (ringE ℝ) netE = some (h', ⟨2, 0, 3⟩)
      ∧ ringAddrs h' ⟨2, 0, 3⟩ = [3, 2] := by
  have hw : WellFormed (ringE ℝ) netE := by decide
  have hcells : ringCells (ringE ℝ) netE
      = [⟨1, ⟨0, 0⟩, 0⟩, ⟨2, ⟨5, 0⟩, 0⟩, ⟨3, ⟨0, 1⟩, 0⟩] := rfl
  obtain ⟨h', e, hr', _⟩ := neuralNetRemoveDoubleNeurons_repr
    (⟨Real.sqrt, Real.exp, Real.log⟩ : Libm ℝ) hw.repr netE hw.headAddr_ringCells.symm
    (ringCells_length _ _).symm 13 (by decide)
  have n12 : near (⟨Real.sqrt, Real.exp, Real.log⟩ : Libm ℝ) (⟨1, ⟨0, 0⟩, 0⟩ : Cell ℝ)
      ⟨2, ⟨5, 0⟩, 0⟩ = false := by
    simp only [near, vectorLength, vectorSub, vectorMake, NEURON_REMOVE_DISTANCE,
      decide_eq_false_iff_not, Nat.cast_one, Real.sqrt_le_one]
    norm_num
  have n23 : near (⟨Real.sqrt, Real.exp, Real.log⟩ : Libm ℝ) (⟨2, ⟨5, 0⟩, 0⟩ : Cell ℝ)
      ⟨3, ⟨0, 1⟩, 0⟩ = false := by
    simp only [near, vectorLength, vectorSub, vectorMake, NEURON_REMOVE_DISTANCE,
      decide_eq_false_iff_not, Nat.cast_one, Real.sqrt_le_one]
    norm_num
  have n31 : near (⟨Real.sqrt, Real.exp, Real.log⟩ : Libm ℝ) (⟨3, ⟨0, 1⟩, 0⟩ : Cell ℝ)
      ⟨1, ⟨0, 0⟩, 0⟩ = true := by
    simp only [near, vectorLength, vectorSub, vectorMake, NEURON_REMOVE_DISTANCE,
      decide_eq_true_eq, Nat.cast_one, Real.sqrt_le_one]
    norm_num
  have n32 : near (⟨Real.sqrt, Real.exp, Real.log⟩ : Libm ℝ) (⟨3, ⟨0, 1⟩, 0⟩ : Cell ℝ)
      ⟨2, ⟨5, 0⟩, 0⟩ = false := by
    simp only [near, vectorLength, vectorSub, vectorMake, NEURON_REMOVE_DISTANCE,
      decide_eq_false_iff_not, Nat.cast_one, Real.sqrt_le_one]
    norm_num
  have hp : pruneCells (⟨Real.sqrt, Real.exp, Real.log⟩ : Libm ℝ) (ringCells (ringE ℝ) netE)
      = [⟨3, ⟨0, 1⟩, 0⟩, ⟨2, ⟨5, 0⟩, 0⟩] := by
    rw [hcells, pruneCells]
    simp only [List.dropWhile_cons, n12, Bool.false_eq_true, if_false]
    rw [pruneWalk]
    simp only [List.cons_append, List.nil_append, List.dropWhile_cons, n23, Bool.false_eq_true,
      if_false, if_true]
    rw [pruneWalk]
    simp only [List.cons_append, List.nil_append, List.dropWhile_cons, n31, n32, if_true,
      Bool.false_eq_true, if_false, List.length_cons, List.length_nil]
    rw [if_neg (by decide), pruneWalk]
    simp only [List.cons_append, List.nil_append, List.dropWhile_cons, n23, Bool.false_eq_true,
      if_false, if_true]
    rw [pruneWalk]
  rw [hp] at e hr'
  exact ⟨h', e, hr'.ringAddrs_eq ⟨2, 0, 3⟩ rfl rfl⟩

/-! ## The update loop on a ring of one neuron -/

/-- On a ring of one neuron every iteration of the update loop moves that neuron: after `k`
iterations its distance to the sample has been multiplied by the `k` factors
`1 - NEURONMOVE`. -/
theorem movedCell_single (m : Libm R) (sample : Vector R) (time : R) (k : Nat) :
    ∀ (u j : Nat) (c : Cell R),
      (movedCell m sample time 1 0 k (-(SPREAD : Int) + u) j c).p
        = ⟨sample.x + (c.p.x - sample.x)
              * ((List.range k).map fun a =>
                  1 - m.exp (-((1 + |((u + a : Nat) : R) - 3|) / (2 * time)))).prod,
           sample.y + (c.p.y - sample.y)
              * ((List.range k).map fun a =>
                  1 - m.exp (-((1 + |((u + a : Nat) : R) - 3|) / (2 * time)))).prod⟩ := by
  induction k with
  | zero =>
    intro u j c
    simp [movedCell]
  | succ k ih =>
    intro u j c
    have hi : (-(SPREAD : Int) + (u : Int)) + 1 = -(SPREAD : Int) + ((u + 1 : Nat) : Int) := by
      omega
    rw [movedCell, Nat.mod_one, if_pos rfl, hi, ih (u + 1) 0]
    have hp : (moveCell m sample time (-(SPREAD : Int) + u) c).p
        = movePos m sample time (-(SPREAD : Int) + u) c.p := rfl
    rw [hp, movePos_eq, List.range_succ_eq_map, List.map_cons, List.prod_cons, List.map_map]
    have hf : ((fun a => 1 - m.exp (-((1 + |((u + a : Nat) : R) - 3|) / (2 * time))))
        ∘ Nat.succ) = fun a => 1 - m.exp (-((1 + |((u + 1 + a : Nat) : R) - 3|) / (2 * time))) := by
      funext a
      simp only [Function.comp, Nat.succ_eq_add_one]
      rw [show u + (a + 1) = u + 1 + a by omega]
    rw [hf]
    simp only [vectorAdd, vectorScale, vectorSub, vectorMake, Nat.add_zero]
    congr 1 <;> ring

/-- On a ring of one neuron the update loop applies the position update for
`i = -3, …, 3` to that neuron, one after the other. -/
theorem movedCell_single_steps (m : Libm R) (sample : Vector R) (time : R) (j : Nat)
    (c : Cell R) :
    (movedCell m sample time 1 0 (SPREAD + SPREAD + 1) (-(SPREAD : Int)) j c).p
      = movePos m sample time 3 (movePos m sample time 2 (movePos m sample time 1
          (movePos m sample time 0 (movePos m sample time (-1) (movePos m sample time (-2)
            (movePos m sample time (-3) c.p)))))) := by
  simp [movedCell, SPREAD, moveCell, Nat.mod_one]

/-! ## The perimeter as a sum over the list of cells -/

theorem segLen_cons (m : Libm R) (c : Cell R) (l : List (Cell R)) (q : Vector R) :
    segLen m (c :: l) q = vectorLength m (vectorSub c.p (headP l q)) + segLen m l q := rfl

theorem headP_cons (c : Cell R) (l : List (Cell R)) (q : Vector R) :
    headP (c :: l) q = c.p := rfl

theorem segLen_append (m : Libm R) (l₁ l₂ : List (Cell R)) (q : Vector R) :
    segLen m (l₁ ++ l₂) q = segLen m l₁ (headP l₂ q) + segLen m l₂ q := by
  induction l₁ with
  | nil => simp [segLen]
  | cons c t ih =>
    have hh : headP (t ++ l₂) q = headP t (headP l₂ q) := by
      cases t <;> rfl
    rw [List.cons_append, segLen_cons, segLen_cons, ih, hh]
    ring

/-- Along a segment the distances to the successors add up to `segLen`. -/
theorem seg_edge_sum (m : Libm R) (h : Heap R) (na : Nat) (q : Vector R)
    (hq : Tspsom.posOf h na = q) :
    ∀ (l : List (Cell R)) (pa : Nat), Seg h pa l na →
      ((l.map Cell.addr).map (edgeLength m h)).sum = segLen m l q := by
  intro l
  induction l with
  | nil => intro pa _; simp [segLen]
  | cons c t ih =>
    intro pa hs
    obtain ⟨hc, ht⟩ := hs
    have hp : posOf h c.addr = c.p := by simp only [posOf, hc]
    have hn : nextOf h c.addr = headAddr t na := by simp only [nextOf, hc]
    have hhd : posOf h (headAddr t na) = headP t q := by
      cases t with
      | nil => exact hq
      | cons c' t' =>
        have := ht.1
        simp only [headAddr, headP, posOf, this]
    simp only [List.map_cons, List.sum_cons, segLen, ih c.addr ht]
    rw [edgeLength, hp, hn, hhd]

/-- The perimeter of a ring is the length of the closed tour through its list of cells. -/
theorem Repr.ringLength_eq (m : Libm R) {h : Heap R} {l : List (Cell R)} (hr : Repr h l)
    (nn : NeuralNet) (he : nn.neurons = headAddr l 0) (hs : nn.size = l.length) :
    ringLength m h nn = cycLen m l := by
  rw [ringLength, hr.ringAddrs_eq nn he hs, cycLen]
  apply seg_edge_sum m h _ _ _ l _ hr.2.2
  cases l with
  | nil => exact absurd rfl hr.1
  | cons c t =>
    have := hr.2.2.1
    simp only [headAddr, headP, Tspsom.posOf, this]

theorem WellFormed.ringLength_cycLen (m : Libm R) {h : Heap R} {nn : NeuralNet}
    (hw : WellFormed h nn) : ringLength m h nn = cycLen m (ringCells h nn) :=
  hw.repr.ringLength_eq m nn hw.headAddr_ringCells.symm (ringCells_length h nn).symm

theorem headP_growCells (thr : R) (k : Nat) (l : List (Cell R)) (q : Vector R) :
    headP (growCells thr k l q) q = headP l q := by
  cases l with
  | nil => rfl
  | cons c t =>
    rw [growCells]
    split <;> rfl

/-- The two halves of an edge that is split at its midpoint have the length of the edge,
when `sqrt (a / 4) = sqrt a / 2`. -/
theorem midpoint_split (m : Libm R) (hhalf : ∀ a : R, 0 ≤ a → m.sqrt (a / 4) = m.sqrt a / 2)
    (p s : Vector R) :
    vectorLength m (vectorSub p (vectorAdd p (vectorScale (vectorSub s p) 0.5)))
      + vectorLength m (vectorSub (vectorAdd p (vectorScale (vectorSub s p) 0.5)) s)
      = vectorLength m (vectorSub p s) := by
  have h5 : (0.5 : R) = 1 / 2 := by norm_num
  have h0 : 0 ≤ (p.x - s.x) * (p.x - s.x) + (p.y - s.y) * (p.y - s.y) :=
    add_nonneg (mul_self_nonneg _) (mul_self_nonneg _)
  simp only [vectorLength, vectorSub, vectorAdd, vectorScale, vectorMake, h5]
  have e1 : (p.x - (p.x + (s.x - p.x) * (1 / 2))) * (p.x - (p.x + (s.x - p.x) * (1 / 2)))
      + (p.y - (p.y + (s.y - p.y) * (1 / 2))) * (p.y - (p.y + (s.y - p.y) * (1 / 2)))
      = ((p.x - s.x) * (p.x - s.x) + (p.y - s.y) * (p.y - s.y)) / 4 := by ring
  have e2 : (p.x + (s.x - p.x) * (1 / 2) - s.x) * (p.x + (s.x - p.x) * (1 / 2) - s.x)
      + (p.y + (s.y - p.y) * (1 / 2) - s.y) * (p.y + (s.y - p.y) * (1 / 2) - s.y)
      = ((p.x - s.x) * (p.x - s.x) + (p.y - s.y) * (p.y - s.y)) / 4 := by ring
  rw [e1, e2, hhalf _ h0]
  ring

/-- Growth leaves the length of the tour through a stretch of the ring as it is. -/
theorem segLen_growCells (m : Libm R)
    (hhalf : ∀ a : R, 0 ≤ a → m.sqrt (a / 4) = m.sqrt a / 2) (thr : R) (l : List (Cell R)) :
    ∀ (k : Nat) (q : Vector R), segLen m (growCells thr k l q) q = segLen m l q := by
  induction l with
  | nil => intro k q; rfl
  | cons c t ih =>
    intro k q
    rw [growCells]
    split
    · rw [segLen_cons, segLen_cons, segLen_cons, headP_cons, ih (k + 1) q, headP_growCells,
        ← add_assoc, midpoint_split m hhalf]
    · rw [segLen_cons, segLen_cons, ih k q, headP_growCells]

theorem cycLen_growCells (m : Libm R)
    (hhalf : ∀ a : R, 0 ≤ a → m.sqrt (a / 4) = m.sqrt a / 2) (thr : R) (k : Nat)
    (l : List (Cell R)) :
    cycLen m (growCells thr k l (headP l ⟨0, 0⟩)) = cycLen m l := by
  cases l with
  | nil => rfl
  | cons c t =>
    have hh : headP (growCells thr k (c :: t) (headP (c :: t) ⟨0, 0⟩)) ⟨0, 0⟩ = c.p := by
      rw [growCells]
      split <;> rfl
    rw [cycLen, hh, cycLen]
    exact segLen_growCells m hhalf thr (c :: t) k c.p

/-- Rotating the list of cells does not change the length of the closed tour. -/
theorem cycLen_rotated (m : Libm R) {l r : List (Cell R)} (hr : r ~r l) :
    cycLen m r = cycLen m l := by
  obtain ⟨n, rfl⟩ := hr
  have key : ∀ l₁ l₂ : List (Cell R), cycLen m (l₁ ++ l₂) = cycLen m (l₂ ++ l₁) := by
    intro l₁ l₂
    cases l₁ with
    | nil => simp
    | cons a s =>
      cases l₂ with
      | nil => simp
      | cons b u =>
        show segLen m ((a :: s) ++ (b :: u)) a.p = segLen m ((b :: u) ++ (a :: s)) b.p
        rw [segLen_append, segLen_append, headP_cons, headP_cons]
        ring
  rw [List.rotate_eq_drop_append_take_mod, key, List.take_append_drop]

/-- Leaving out positions does not lengthen a path, when distances obey the triangle
inequality. -/
theorem path_sublist (m : Libm R)
    (htri : ∀ a b c : Vector R, vectorLength m (vectorSub a c)
      ≤ vectorLength m (vectorSub a b) + vectorLength m (vectorSub b c))
    {l' l : List (Cell R)} (hs : l'.Sublist l) :
    ∀ a q : Vector R,
      vectorLength m (vectorSub a (headP l' q)) + segLen m l' q
        ≤ vectorLength m (vectorSub a (headP l q)) + segLen m l q := by
  induction hs with
  | slnil => intro a q; exact le_refl _
  | @cons l₁ l₂ x _ ih =>
    intro a q
    refine (ih a q).trans ?_
    rw [segLen_cons, headP_cons]
    have := htri a x.p (headP l₂ q)
    linarith
  | cons₂ x _ ih =>
    intro a q
    rw [segLen_cons, segLen_cons, headP_cons, headP_cons]
    have := ih x.p q
    linarith

/-- A non-empty part of a rotation of a list of cells has a closed tour that is not longer
than that of the list. -/
theorem cycLen_sublist_rotated (m : Libm R)
    (htri : ∀ a b c : Vector R, vectorLength m (vectorSub a c)
      ≤ vectorLength m (vectorSub a b) + vectorLength m (vectorSub b c))
    {l' r l : List (Cell R)} (hr : r ~r l) (hs : l'.Sublist r) (hne : l' ≠ []) :
    cycLen m l' ≤ cycLen m l := by
  cases l' with
  | nil => exact absurd rfl hne
  | cons x t =>
    obtain ⟨r₁, r₂, e, hx, ht⟩ := List.cons_sublist_iff.mp hs
    obtain ⟨s, s', e'⟩ := List.append_of_mem hx
    have hrot : (x :: (s' ++ r₂ ++ s)) ~r l := by
      refine List.IsRotated.trans ?_ hr
      rw [e, e']
      have : s ++ x :: s' ++ r₂ = s ++ (x :: (s' ++ r₂)) := by simp
      rw [this]
      have h2 : x :: (s' ++ r₂ ++ s) = (x :: (s' ++ r₂)) ++ s := by simp
      rw [h2]
      exact List.isRotated_append
    rw [← cycLen_rotated m hrot]
    have hsub : t.Sublist (s' ++ r₂ ++ s) :=
      (ht.trans (List.sublist_append_right s' r₂)).trans (List.sublist_append_left _ s)
    have := path_sublist m htri hsub x.p x.p
    rw [cycLen, cycLen, segLen_cons, segLen_cons, headP_cons, headP_cons]
    exact this

/-! ## Distances with the real square root -/

theorem real_sqrt_quarter (a : ℝ) (_h : 0 ≤ a) : Real.sqrt (a / 4) = Real.sqrt a / 2 := by
  rw [Real.sqrt_div' a (by norm_num : (0 : ℝ) ≤ 4)]
  have : Real.sqrt 4 = 2 := by
    rw [show (4 : ℝ) = 2 ^ 2 by norm_num]
    exact Real.sqrt_sq (by norm_num)
  rw [this]

/-- The triangle inequality for `vectorLength` with the real square root. -/
theorem real_triangle (a b c : Vector ℝ) :
    vectorLength (⟨Real.sqrt, Real.exp, Real.log⟩ : Libm ℝ) (vectorSub a c)
      ≤ vectorLength (⟨Real.sqrt, Real.exp, Real.log⟩ : Libm ℝ) (vectorSub a b)
        + vectorLength (⟨Real.sqrt, Real.exp, Real.log⟩ : Libm ℝ) (vectorSub b c) := by
  have key : ∀ u : Vector ℝ,
      vectorLength (⟨Real.sqrt, Real.exp, Real.log⟩ : Libm ℝ) u
        = Complex.abs ⟨u.x, u.y⟩ := by
    intro u
    rw [Complex.abs_apply, Complex.normSq_mk]
    rfl
  rw [key, key, key]
  have e : (⟨(vectorSub a c).x, (vectorSub a c).y⟩ : ℂ)
      = ⟨(vectorSub a b).x, (vectorSub a b).y⟩ + ⟨(vectorSub b c).x, (vectorSub b c).y⟩ := by
    apply Complex.ext <;> simp [vectorSub, vectorMake]
  rw [e]
  exact Complex.abs.add_le _ _

/-- With the real square root, `neuralNetGrow` with a positive threshold returns a
well-formed ring of the same perimeter. -/
theorem ringLength_grow (h : Heap ℝ) (nn : NeuralNet) (thr : ℝ) (fuel : Nat)
    (hw : WellFormed h nn) (hthr : 0 < thr) (hf : 2 * nn.size + 1 ≤ fuel) :
    ∃ h' nn', neuralNetGrow fuel h nn thr = some (h', nn') ∧ WellFormed h' nn'
      ∧ nn'.size ≤ fuel
      ∧ ringLength (⟨Real.sqrt, Real.exp, Real.log⟩ : Libm ℝ) h' nn'
        = ringLength (⟨Real.sqrt, Real.exp, Real.log⟩ : Libm ℝ) h nn := by
  have hs := (ringCells_length h nn).symm
  obtain ⟨h', e, hr', _⟩ := neuralNetGrow_repr_list thr hthr hw.repr nn
    hw.headAddr_ringCells.symm hs fuel hf
  have he' : nn.neurons = headAddr (growCells thr (h.cells.length + 1) (ringCells h nn)
      (headP (ringCells h nn) ⟨0, 0⟩)) 0 := by
    rw [headAddr_growCells]; exact hw.headAddr_ringCells.symm
  have hs' : nn.size + growCount thr (ringCells h nn)
      = (growCells thr (h.cells.length + 1) (ringCells h nn)
          (headP (ringCells h nn) ⟨0, 0⟩)).length := by
    rw [growCells_length, ← hs]
  have hle := growCount_le thr (ringCells h nn)
  rw [ringCells_length] at hle
  refine ⟨h', _, e, hr'.wellFormed ⟨_, 0, nn.neurons⟩ he' hs', ?_, ?_⟩
  · show nn.size + growCount thr (ringCells h nn) ≤ fuel
    omega
  · rw [hr'.ringLength_eq _ ⟨_, 0, nn.neurons⟩ he' hs',
      cycLen_growCells _ (fun a ha => real_sqrt_quarter a ha), hw.ringLength_cycLen]

/-- With the real square root, `neuralNetRemoveDoubleNeurons` returns a well-formed ring
whose perimeter is not greater. -/
theorem ringLength_prune (h : Heap ℝ) (nn : NeuralNet) (fuel : Nat)
    (hw : WellFormed h nn) (hf : nn.size * nn.size + nn.size + 1 ≤ fuel) :
    ∃ h' nn', neuralNetRemoveDoubleNeurons (⟨Real.sqrt, Real.exp, Real.log⟩ : Libm ℝ) fuel
        h nn = some (h', nn') ∧ WellFormed h' nn' ∧ nn'.size ≤ nn.size
      ∧ ringLength (⟨Real.sqrt, Real.exp, Real.log⟩ : Libm ℝ) h' nn'
        ≤ ringLength (⟨Real.sqrt, Real.exp, Real.log⟩ : Libm ℝ) h nn := by
  have hs := (ringCells_length h nn).symm
  obtain ⟨h', e, hr', _⟩ := neuralNetRemoveDoubleNeurons_repr
    (⟨Real.sqrt, Real.exp, Real.log⟩ : Libm ℝ) hw.repr nn hw.headAddr_ringCells.symm hs fuel hf
  obtain ⟨r, hrot, hsub⟩ := pruneCells_cyc (⟨Real.sqrt, Real.exp, Real.log⟩ : Libm ℝ)
    (ringCells h nn)
  have hlen : (pruneCells (⟨Real.sqrt, Real.exp, Real.log⟩ : Libm ℝ)
      (ringCells h nn)).length ≤ nn.size := by
    have := hsub.length_le
    rw [hrot.perm.length_eq, ringCells_length] at this
    exact this
  refine ⟨h', _, e, hr'.wellFormed _ rfl rfl, hlen, ?_⟩
  rw [hr'.ringLength_eq _ _ rfl rfl, hw.ringLength_cycLen]
  exact cycLen_sublist_rotated _ real_triangle hrot hsub hr'.1

/-! ## Pruning a pruned ring -/

/-- The walk of `neuralNetRemoveDoubleNeurons` removes nothing when every neuron that it
still has to visit is far from its successor. -/
theorem pruneWalk_fix (m : Libm R) (todo : List (Cell R)) :
    ∀ seen : List (Cell R), seen ≠ [] →
      (∀ i, seen.length ≤ i → i < (seen ++ todo).length → farAt m (seen ++ todo) i) →
      pruneWalk m seen todo = seen ++ todo := by
  induction todo with
  | nil => intro seen _ _; rw [pruneWalk]; simp
  | cons x t ih =>
    intro seen hs hfar
    have hL : seen ++ [x] ++ t = seen ++ x :: t := by simp
    have hne : t ++ seen ≠ [] := by simp [hs]
    obtain ⟨y, d, hy⟩ := List.exists_cons_of_ne_nil hne
    have hx : (seen ++ x :: t)[seen.length]? = some x := by
      rw [List.getElem?_append_right (le_refl _), Nat.sub_self]; simp
    have hy' : (seen ++ x :: t)[(seen.length + 1) % (seen ++ x :: t).length]? = some y := by
      rw [succ_of_last_seen seen x t hs, hy]; simp
    have hn : near m x y = false := hfar seen.length (le_refl _) (by simp) x y hx hy'
    have hd : (t ++ seen).dropWhile (near m x) = t ++ seen := by
      rw [hy, List.dropWhile_cons, hn]; rfl
    rw [pruneWalk, if_pos (by rw [hd]), ih (seen ++ [x]) (by simp), hL]
    intro i hi hlt
    rw [hL] at hlt ⊢
    apply hfar i _ hlt
    simp at hi
    omega

/-- Pruning changes nothing on a ring of one neuron and on a ring in which every neuron is
far from its successor. -/
theorem pruneCells_fix (m : Libm R) (l : List (Cell R)) (hl : l ≠ [])
    (hfar : l.length = 1 ∨ ∀ i, i < l.length → farAt m l i) : pruneCells m l = l := by
  cases l with
  | nil => exact absurd rfl hl
  | cons e rest =>
    rw [pruneCells]
    cases rest with
    | nil => rw [List.dropWhile_nil, pruneWalk]
    | cons y d =>
      have hall : ∀ i, i < (e :: y :: d).length → farAt m (e :: y :: d) i := by
        rcases hfar with h1 | h2
        · simp at h1
        · exact h2
      have h1 : (1 : Nat) % (e :: y :: d).length = 1 := by
        apply Nat.mod_eq_of_lt; simp
      have hn : near m e y = false :=
        hall 0 (by simp) e y (by simp) (by rw [Nat.zero_add, h1]; simp)
      rw [List.dropWhile_cons, hn]
      exact pruneWalk_fix m (y :: d) [e] (by simp) (fun i _ hlt => hall i hlt)

/-- Pruning twice: the second call of `neuralNetRemoveDoubleNeurons` returns the
`NeuralNet` value it was given and leaves the layout of the ring as it is. -/
theorem neuralNetRemoveDoubleNeurons_twice (m : Libm R) {h : Heap R} {nn : NeuralNet}
    (hw : WellFormed h nn) (fuel : Nat) (hf : nn.size * nn.size + nn.size + 1 ≤ fuel) :
    ∃ h' nn' h'' l', neuralNetRemoveDoubleNeurons m fuel h nn = some (h', nn')
      ∧ neuralNetRemoveDoubleNeurons m fuel h' nn' = some (h'', nn')
      ∧ Repr h' l' ∧ Repr h'' l' ∧ nn'.neurons = headAddr l' 0 ∧ nn'.size = l'.length := by
  have hs := (ringCells_length h nn).symm
  obtain ⟨h', e, hr', _⟩ := neuralNetRemoveDoubleNeurons_repr m hw.repr nn
    hw.headAddr_ringCells.symm hs fuel hf
  obtain ⟨r, hrot, hsub⟩ := pruneCells_cyc m (ringCells h nn)
  have hlen : (pruneCells m (ringCells h nn)).length ≤ nn.size := by
    have := hsub.length_le
    rw [hrot.perm.length_eq, ringCells_length] at this
    exact this
  have hfix := pruneCells_fix m _ hr'.1 (pruneCells_far m (ringCells h nn) hw.repr.1)
  have hf' : (pruneCells m (ringCells h nn)).length * (pruneCells m (ringCells h nn)).length
      + (pruneCells m (ringCells h nn)).length + 1 ≤ fuel := by
    have := Nat.mul_le_mul hlen hlen
    omega
  obtain ⟨h'', e', hr'', _⟩ := neuralNetRemoveDoubleNeurons_repr m hr'
    ⟨(pruneCells m (ringCells h nn)).length, nn.learned,
      headAddr (pruneCells m (ringCells h nn)) 0⟩ rfl rfl fuel hf'
  rw [hfix] at e' hr''
  exact ⟨h', _, h'', _, e, e', hr', hr'', rfl, rfl⟩

/-! ## Results do not depend on the fuel -/

/-- More fuel does not change a result of `neuralNetTrain`. -/
theorem neuralNetTrain_mono {m : Libm R} {rnd : Nat} {h : Heap R} {nn : NeuralNet}
    {samples : SampleMap R} {time : R} {f f' : Nat} {r : Heap R × NeuralNet}
    (hr : neuralNetTrain m f rnd h nn samples time = some r) (hf : f ≤ f') :
    neuralNetTrain m f' rnd h nn samples time = some r := by
  unfold neuralNetTrain at hr ⊢
  cases hl : neuralNetTrainLearn m rnd h nn samples time with
  | none => simp [hl] at hr
  | some q =>
    simp only [hl, Option.bind_eq_bind, Option.some_bind] at hr ⊢
    split
    · rename_i hc
      rw [if_pos hc] at hr
      exact neuralNetGrow_mono hr hf
    · rename_i hc
      rw [if_neg hc] at hr
      exact hr

/-- More fuel does not change a result of the removal loop. -/
theorem neuralNetRemoveDoubleNeuronsInner_mono (m : Libm R) (f : Nat) :
    ∀ (h : Heap R) (nn : NeuralNet) (neuron : Nat) (r : Heap R × NeuralNet × Nat),
      neuralNetRemoveDoubleNeuronsInner m f h nn neuron = some r →
      ∀ f', f ≤ f' → neuralNetRemoveDoubleNeuronsInner m f' h nn neuron = some r := by
  induction f with
  | zero => intro h nn neuron r hr; simp [neuralNetRemoveDoubleNeuronsInner] at hr
  | succ f ih =>
    intro h nn neuron r hr f' hf'
    obtain ⟨f'', rfl⟩ : ∃ f'', f' = f'' + 1 := ⟨f' - 1, by omega⟩
    rw [neuralNetRemoveDoubleNeuronsInner] at hr ⊢
    split
    · rename_i hc
      rw [if_pos hc] at hr
      cases hd : h.get? neuron with
      | none => simp [hd] at hr
      | some d =>
        cases hn : h.get? d.next with
        | none => simp [hd, hn] at hr
        | some dn =>
          simp only [hd, hn, Option.bind_eq_bind, Option.some_bind] at hr ⊢
          split
          · rename_i hnear
            rw [if_pos hnear] at hr
            cases hrem : neuronRemoveNext h neuron with
            | none => simp [hrem] at hr
            | some q =>
              simp only [hrem, Option.some_bind] at hr ⊢
              exact ih _ _ _ _ hr f'' (by omega)
          · rename_i hnear
            rw [if_neg hnear] at hr
            exact hr
    · rename_i hc
      rw [if_neg hc] at hr
      exact hr

/-- More fuel does not change a result of the walk of `neuralNetRemoveDoubleNeurons`. -/
theorem neuralNetRemoveDoubleNeuronsOuter_mono (m : Libm R) (f : Nat) :
    ∀ (h : Heap R) (nn : NeuralNet) (neuron : Nat) (r : Heap R × NeuralNet),
      neuralNetRemoveDoubleNeuronsOuter m f h nn neuron = some r →
      ∀ f', f ≤ f' → neuralNetRemoveDoubleNeuronsOuter m f' h nn neuron = some r := by
  induction f with
  | zero => intro h nn neuron r hr; simp [neuralNetRemoveDoubleNeuronsOuter] at hr
  | succ f ih =>
    intro h nn neuron r hr f' hf'
    obtain ⟨f'', rfl⟩ : ∃ f'', f' = f'' + 1 := ⟨f' - 1, by omega⟩
    rw [neuralNetRemoveDoubleNeuronsOuter] at hr ⊢
    split
    · rename_i hc
      rw [if_pos hc] at hr
      cases hi : neuralNetRemoveDoubleNeuronsInner m f h nn neuron with
      | none => simp [hi] at hr
      | some q =>
        cases hd : q.1.get? q.2.2 with
        | none => simp [hi, hd] at hr
        | some d =>
          simp only [hi, hd, Option.bind_eq_bind, Option.some_bind] at hr
          simp only [neuralNetRemoveDoubleNeuronsInner_mono m f _ _ _ _ hi f'' (by omega), hd,
            Option.bind_eq_bind, Option.some_bind]
          exact ih _ _ _ _ hr f'' (by omega)
    · rename_i hc
      rw [if_neg hc] at hr
      exact hr

/-- More fuel does not change a result of `neuralNetRemoveDoubleNeurons`. -/
theorem neuralNetRemoveDoubleNeurons_mono {m : Libm R} {h : Heap R} {nn : NeuralNet}
    {f f' : Nat} {r : Heap R × NeuralNet}
    (hr : neuralNetRemoveDoubleNeurons m f h nn = some r) (hf : f ≤ f') :
    neuralNetRemoveDoubleNeurons m f' h nn = some r := by
  unfold neuralNetRemoveDoubleNeurons at hr ⊢
  cases hi : neuralNetRemoveDoubleNeuronsInner m f h nn nn.neurons with
  | none => simp [hi] at hr
  | some q =>
    cases hd : q.1.get? q.2.2 with
    | none => simp [hi, hd] at hr
    | some d =>
      cases ho : neuralNetRemoveDoubleNeuronsOuter m f q.1 q.2.1 d.next with
      | none => simp [hi, hd, ho] at hr
      | some q' =>
        cases hv : neuralNetInv f q'.1 q'.2 with
        | none => simp [hi, hd, ho, hv] at hr
        | some v =>
          simp only [hi, hd, ho, hv, Option.bind_eq_bind, Option.some_bind] at hr
          simp only [neuralNetRemoveDoubleNeuronsInner_mono m f _ _ _ _ hi f' hf, hd,
            neuralNetRemoveDoubleNeuronsOuter_mono m f _ _ _ _ ho f' hf,
            neuralNetInv_mono hv hf, Option.bind_eq_bind, Option.some_bind]
          exact hr

/-! ## Positions stay in the bounding box -/

/-- A point between two points of the box lies in the box. -/
theorem inBox_between (b : PositionBounds R) {p s : Vector R} {f : R} (hf0 : 0 ≤ f)
    (hf1 : f ≤ 1) (hp : inBox b p) (hs : inBox b s) :
    inBox b (vectorAdd p (vectorScale (vectorSub s p) f)) := by
  obtain ⟨p1, p2, p3, p4⟩ := hp
  obtain ⟨s1, s2, s3, s4⟩ := hs
  have e : ∀ u v : R, u + (v - u) * f = (1 - f) * u + f * v := by intro u v; ring
  have lo : ∀ c u v : R, c ≤ u → c ≤ v → c ≤ (1 - f) * u + f * v := by
    intro c u v hu hv
    have h1 := mul_le_mul_of_nonneg_left hu (sub_nonneg.mpr hf1)
    have h2 := mul_le_mul_of_nonneg_left hv hf0
    linarith
  have hi : ∀ c u v : R, u ≤ c → v ≤ c → (1 - f) * u + f * v ≤ c := by
    intro c u v hu hv
    have h1 := mul_le_mul_of_nonneg_left hu (sub_nonneg.mpr hf1)
    have h2 := mul_le_mul_of_nonneg_left hv hf0
    linarith
  simp only [inBox, vectorAdd, vectorScale, vectorSub, vectorMake, e]
  exact ⟨lo _ _ _ p1 s1, hi _ _ _ p2 s2, lo _ _ _ p3 s3, hi _ _ _ p4 s4⟩

/-- The displacement factor lies between 0 and 1 when `exp` does so on negative
arguments. -/
theorem NEURONMOVE_unit (m : Libm R) {time : R} (htime : 0 < time)
    (hexp : ∀ y, y < 0 → 0 ≤ m.exp y ∧ m.exp y ≤ 1) (d : R) (hd : 0 ≤ d) :
    0 ≤ NEURONMOVE m d time ∧ NEURONMOVE m d time ≤ 1 := by
  apply hexp
  have : 0 < (1 + d) / (2 * time) := div_pos (by linarith) (by linarith)
  linarith

theorem inBox_movePos (m : Libm R) (b : PositionBounds R) {time : R} (htime : 0 < time)
    (hexp : ∀ y, y < 0 → 0 ≤ m.exp y ∧ m.exp y ≤ 1) {s : Vector R} (hs : inBox b s)
    (i : Int) {q : Vector R} (hq : inBox b q) : inBox b (movePos m s time i q) := by
  obtain ⟨h0, h1⟩ := NEURONMOVE_unit m htime hexp |(i : R)| (abs_nonneg _)
  exact inBox_between b h0 h1 hq hs

theorem inBox_movedCell (m : Libm R) (b : PositionBounds R) {time : R} (htime : 0 < time)
    (hexp : ∀ y, y < 0 → 0 ≤ m.exp y ∧ m.exp y ≤ 1) {s : Vector R} (hs : inBox b s)
    (n x k : Nat) :
    ∀ (i : Int) (j : Nat) (c : Cell R), inBox b c.p →
      inBox b (movedCell m s time n x k i j c).p := by
  induction k with
  | zero => intro _ _ c hc; exact hc
  | succ k ih =>
    intro i j c hc
    rw [movedCell]
    apply ih
    split
    · exact inBox_movePos m b htime hexp hs i hc
    · exact hc

/-- The learning step keeps the neurons in the box. -/
theorem inBox_learnCells (m : Libm R) (b : PositionBounds R) {time : R} (htime : 0 < time)
    (hexp : ∀ y, y < 0 → 0 ≤ m.exp y ∧ m.exp y ≤ 1) {s : Vector R} (hs : inBox b s)
    {l : List (Cell R)} (hl : ∀ c, c ∈ l → inBox b c.p) :
    ∀ c, c ∈ learnCells m s time l → inBox b c.p := by
  intro c hc
  obtain ⟨x, hx⟩ := List.getElem?_of_mem hc
  rw [learnCells_getElem?] at hx
  cases hlx : l[x]? with
  | none => simp [hlx] at hx
  | some c₀ =>
    simp only [hlx, Option.map_some', Option.some.injEq] at hx
    rw [← hx]
    apply inBox_movedCell m b htime hexp hs
    have := hl c₀ (List.getElem?_mem hlx)
    split
    · exact this
    · exact this

/-- Growth keeps the neurons in the box. -/
theorem inBox_growCells (b : PositionBounds R) (thr : R) (l : List (Cell R)) :
    ∀ (k : Nat) (q : Vector R), inBox b q → (∀ c, c ∈ l → inBox b c.p) →
      ∀ c, c ∈ growCells thr k l q → inBox b c.p := by
  induction l with
  | nil => intro k q _ _ c hc; simp [growCells] at hc
  | cons a t ih =>
    intro k q hq hl c hc
    have ha := hl a (List.mem_cons_self _ _)
    have ht : ∀ c, c ∈ t → inBox b c.p := fun c hc => hl c (List.mem_cons_of_mem _ hc)
    have hh : inBox b (headP t q) := by
      cases t with
      | nil => exact hq
      | cons a' t' => exact hl a' (by simp)
    rw [growCells] at hc
    split at hc
    · rcases List.mem_cons.mp hc with rfl | hc
      · exact ha
      · rcases List.mem_cons.mp hc with rfl | hc
        · exact inBox_between b (by norm_num) (by norm_num) ha hh
        · exact ih _ q hq ht c hc
    · rcases List.mem_cons.mp hc with rfl | hc
      · exact ha
      · exact ih _ q hq ht c hc

theorem inBox_headP (b : PositionBounds R) {l : List (Cell R)}
    (hl : ∀ c, c ∈ l → inBox b c.p) (hne : l ≠ []) (q : Vector R) : inBox b (headP l q) := by
  cases l with
  | nil => exact absurd rfl hne
  | cons a t => exact hl a (List.mem_cons_self _ _)

/-- Every neuron of a ring that is reachable from `neuralNetMake bounds` lies in the box,
and the ring is well-formed. -/
theorem reachable_inBox (m : Libm R) (b : PositionBounds R) (samples : SampleMap R)
    (hexp : ∀ y, y < 0 → 0 ≤ m.exp y ∧ m.exp y ≤ 1)
    (hx : b.topleft.x ≤ b.bottomright.x) (hy : b.topleft.y ≤ b.bottomright.y)
    (hsamples : ∀ s, s ∈ samples.samples → inBox b s) {h : Heap R} {nn : NeuralNet}
    (hreach : Reachable m b samples h nn) :
    WellFormed h nn ∧ ∀ c, c ∈ ringCells h nn → inBox b c.p := by
  induction hreach with
  | make h₀ h nn e =>
    obtain ⟨h', e', hr'⟩ := neuralNetMake_repr h₀ b
    rw [e] at e'
    obtain ⟨rfl, rfl⟩ := Prod.mk.inj (Option.some.inj e')
    refine ⟨hr'.wellFormed _ rfl rfl, ?_⟩
    rw [hr'.ringCells_eq _ rfl rfl]
    intro c hc
    rw [List.mem_singleton] at hc
    subst hc
    exact inBox_between b (by norm_num) (by norm_num) ⟨le_refl _, hx, le_refl _, hy⟩
      ⟨hx, le_refl _, hy, le_refl _⟩
  | train h h' nn nn' fuel rnd time _ htime e ih =>
    obtain ⟨hw, hbox⟩ := ih
    have hitems : samples.items ≠ 0 := by
      intro h0
      simp [neuralNetTrain, neuralNetTrainLearn, h0] at e
    obtain ⟨sample, hsample⟩ : ∃ sample, samples.samples[rnd % samples.items]? = some sample := by
      cases hs : samples.samples[rnd % samples.items]? with
      | none => simp [neuralNetTrain, neuralNetTrainLearn, hitems, hs] at e
      | some s => exact ⟨s, rfl⟩
    have hsb : inBox b sample := hsamples sample (List.getElem?_mem hsample)
    obtain ⟨h₂, e₂, hr₂⟩ := neuralNetTrain_repr m hw.repr nn hw.headAddr_ringCells.symm
      (ringCells_length h nn).symm samples rnd sample hitems hsample time
      (max fuel (2 * nn.size + 1)) (le_max_right _ _)
    rw [neuralNetTrain_mono e (le_max_left _ _)] at e₂
    have hlearn := inBox_learnCells m b htime hexp hsb hbox
    have hmap := map_addr_learnCells m sample time (ringCells h nn)
    have hl1 := learnCells_length m sample time (ringCells h nn)
    have hlen := ringCells_length h nn
    have he := hw.headAddr_ringCells
    by_cases hc : (nn.size : R) < m.log (samples.items : R) * (samples.items : R)
        ∧ samples.items ≤ (nn.learned + 1) % ULONG_RANGE
    · rw [if_pos hc] at e₂ hr₂
      obtain ⟨rfl, rfl⟩ := Prod.mk.inj (Option.some.inj e₂)
      have he' : nn.neurons = headAddr (growCells (neuralNetGrowThres m samples.items)
          (h.cells.length + 1) (learnCells m sample time (ringCells h nn))
          (headP (learnCells m sample time (ringCells h nn)) ⟨0, 0⟩)) 0 := by
        rw [headAddr_growCells, headAddr_eq_of_map hmap]; exact he.symm
      have hs' : nn.size + growCount (neuralNetGrowThres m samples.items)
            (learnCells m sample time (ringCells h nn))
          = (growCells (neuralNetGrowThres m samples.items)
              (h.cells.length + 1) (learnCells m sample time (ringCells h nn))
              (headP (learnCells m sample time (ringCells h nn)) ⟨0, 0⟩)).length := by
        rw [growCells_length, hl1, hlen]
      refine ⟨hr₂.wellFormed ⟨_, 0, nn.neurons⟩ he' hs', ?_⟩
      rw [hr₂.ringCells_eq ⟨_, 0, nn.neurons⟩ he' hs']
      apply inBox_growCells b _ _ _ _ _ hlearn
      apply inBox_headP b hlearn
      intro h0
      have := congrArg List.length h0
      rw [hl1, hlen] at this
      have := hw.1
      simp at *
      omega
    · rw [if_neg hc] at e₂ hr₂
      obtain ⟨rfl, rfl⟩ := Prod.mk.inj (Option.some.inj e₂)
      have he' : nn.neurons = headAddr (learnCells m sample time (ringCells h nn)) 0 := by
        rw [headAddr_eq_of_map hmap]; exact he.symm
      have hs' : nn.size = (learnCells m sample time (ringCells h nn)).length := by
        rw [hl1, hlen]
      refine ⟨hr₂.wellFormed ⟨nn.size, _, nn.neurons⟩ he' hs', ?_⟩
      rw [hr₂.ringCells_eq ⟨nn.size, (nn.learned + 1) % ULONG_RANGE, nn.neurons⟩ he' hs']
      exact hlearn
  | prune h h' nn nn' fuel _ e ih =>
    obtain ⟨hw, hbox⟩ := ih
    obtain ⟨h₂, e₂, hr₂, _⟩ := neuralNetRemoveDoubleNeurons_repr m hw.repr nn
      hw.headAddr_ringCells.symm (ringCells_length h nn).symm
      (max fuel (nn.size * nn.size + nn.size + 1)) (le_max_right _ _)
    rw [neuralNetRemoveDoubleNeurons_mono e (le_max_left _ _)] at e₂
    obtain ⟨rfl, rfl⟩ := Prod.mk.inj (Option.some.inj e₂)
    refine ⟨hr₂.wellFormed _ rfl rfl, ?_⟩
    rw [hr₂.ringCells_eq _ rfl rfl]
    obtain ⟨r, hrot, hsub⟩ := pruneCells_cyc m (ringCells h nn)
    intro c hc
    exact hbox c (hrot.perm.subset (hsub.subset hc))

/-! ## The record of `neuralNetGrow` -/

/-- Without its record `neuralNetGrowLoopLog` is `neuralNetGrowLoop`. -/
theorem neuralNetGrowLoopLog_erase (thr : R) (f : Nat) :
    ∀ (h : Heap R) (nn : NeuralNet) (neuron : Nat) (T G : List Nat),
      (neuralNetGrowLoopLog thr f h nn neuron T G).map (fun r => (r.1, r.2.1))
        = neuralNetGrowLoop thr f h nn neuron := by
  induction f with
  | zero => intro h nn neuron T G; rfl
  | succ f ih =>
    intro h nn neuron T G
    rw [neuralNetGrowLoopLog, neuralNetGrowLoop]
    split
    · cases hd : h.get? neuron with
      | none => rfl
      | some d =>
        simp only [Option.bind_eq_bind, Option.some_bind]
        split
        · cases hi : neuronInsert h neuron with
          | none => rfl
          | some q =>
            simp only [Option.some_bind]
            exact ih _ _ _ _ _
        · exact ih _ _ _ _ _
    · rfl

/-- Without its record `neuralNetGrowLog` is `neuralNetGrow`. -/
theorem neuralNetGrowLog_erase (f : Nat) (h : Heap R) (nn : NeuralNet) (thr : R) :
    (neuralNetGrowLog f h nn thr).map (fun r => (r.1, r.2.1)) = neuralNetGrow f h nn thr := by
  unfold neuralNetGrowLog neuralNetGrow
  have key : ∀ (h2 : Heap R) (nn2 : NeuralNet) (a2 : Nat) (G : List Nat),
      ((h2.get? a2).bind fun d2 =>
        (neuralNetGrowLoopLog thr f h2 nn2 d2.next [nn2.neurons] G).bind fun q =>
          (neuralNetInv f q.1 { q.2.1 with learned := 0 }).bind fun valid =>
            if valid = true then some (q.1, { q.2.1 with learned := 0 }, q.2.2.1, q.2.2.2)
            else none).map (fun r => (r.1, r.2.1))
      = ((h2.get? a2).bind fun d2 =>
        (neuralNetGrowLoop thr f h2 nn2 d2.next).bind fun q =>
          (neuralNetInv f q.1 { q.2 with learned := 0 }).bind fun valid =>
            if valid = true then some (q.1, { q.2 with learned := 0 }) else none) := by
    intro h2 nn2 a2 G
    cases hd2 : h2.get? a2 with
    | none => rfl
    | some d2 =>
      simp only [Option.some_bind]
      rw [← neuralNetGrowLoopLog_erase thr f h2 nn2 d2.next [nn2.neurons] G]
      cases hl : neuralNetGrowLoopLog thr f h2 nn2 d2.next [nn2.neurons] G with
      | none => rfl
      | some q =>
        simp only [Option.some_bind, Option.map_some']
        cases hv : neuralNetInv f q.1 { q.2.1 with learned := 0 } with
        | none => rfl
        | some v => cases v <;> rfl
  cases hd : h.get? nn.neurons with
  | none => simp [hd]
  | some d =>
    simp only [hd, Option.bind_eq_bind, Option.some_bind]
    by_cases hhit : thr ≤ (d.hits : R)
    · cases hi : neuronInsert h nn.neurons with
      | none => simp [hhit, hi]
      | some q =>
        simp only [hhit, if_true, hi, Option.some_bind, Option.pure_def]
        exact key _ _ _ _
    · simp only [hhit, if_false, Option.some_bind, Option.pure_def]
      exact key _ _ _ _

/-- The record of the loop of `neuralNetGrow` on the stretch `rest` of the ring: it tests
the neurons of the stretch and the neurons it inserts, in the order of the ring that it
builds, and inserts after the neurons of `rest` that have reached the threshold. -/
theorem neuralNetGrowLoopLog_repr (thr : R) (hthr : 0 < thr) (rest : List (Cell R)) :
    ∀ (done : List (Cell R)) (h : Heap R) (nn : NeuralNet) (T G : List Nat), done ≠ [] →
      nn.neurons = headAddr done 0 → Repr h (rest ++ done) →
      ∀ fuel (r : Heap R × NeuralNet × List Nat × List Nat),
      neuralNetGrowLoopLog thr fuel h nn (headAddr rest nn.neurons) T G = some r →
      r.2.2.1 = T ++ (growCells thr (h.cells.length + 1) rest (headP done ⟨0, 0⟩)).map Cell.addr
      ∧ r.2.2.2 = G ++ (rest.filter fun c => decide (thr ≤ (c.hits : R))).map Cell.addr := by
  induction rest with
  | nil =>
    intro done h nn T G _ _ _ fuel r hr
    cases fuel with
    | zero => simp [neuralNetGrowLoopLog] at hr
    | succ f =>
      simp only [neuralNetGrowLoopLog, headAddr, bne_self_eq_false, Bool.false_eq_true,
        if_false, Option.some.injEq] at hr
      subst hr
      simp [growCells]
  | cons c rest ih =>
    intro done h nn T G hdone he hr0 fuel r hrun
    cases fuel with
    | zero => simp [neuralNetGrowLoopLog] at hrun
    | succ f =>
    have hr : Repr h (c :: (rest ++ done)) := hr0
    have hnd := hr.2.1
    have hce : c.addr ≠ nn.neurons := by
      rw [he]
      intro e
      have hm := headAddr_mem hdone 0
      rw [← e] at hm
      simp only [List.cons_append, List.map_cons, List.nodup_cons, List.map_append,
        List.mem_append, not_or] at hnd
      exact hnd.1.2 hm
    have hcell := hr.head_cell
    rw [headAddr_append, headAddr_of_ne_nil hdone c.addr 0, ← he] at hcell
    have hh : headAddr (c :: rest) nn.neurons = c.addr := rfl
    rw [hh, neuralNetGrowLoopLog] at hrun
    simp only [bne_iff_ne, ne_eq, hce, not_false_eq_true, if_true,
      Option.bind_eq_bind, hcell, Option.some_bind] at hrun
    by_cases hhit : thr ≤ (c.hits : R)
    · obtain ⟨h1, e1, len1, hr1⟩ := neuronInsert_repr hr
      rw [headP_append, headP_of_ne_nil hdone c.p ⟨0, 0⟩] at hr1
      have hnew : h.cells.length + 1 ≠ nn.neurons := by
        intro e
        have hm := headAddr_mem hdone 0
        rw [← he, ← e] at hm
        have := hr.le_length (show h.cells.length + 1 ∈ (c :: rest ++ done).map Cell.addr by
          simp only [List.cons_append, List.map_cons, List.map_append, List.mem_cons,
            List.mem_append]
          exact Or.inr (Or.inr hm))
        omega
      have hr1' : Repr h1 (⟨h.cells.length + 1,
          vectorAdd c.p (vectorScale (vectorSub (headP rest (headP done ⟨0, 0⟩)) c.p) 0.5), 0⟩
          :: ((rest ++ done) ++ [⟨c.addr, c.p, 0⟩])) := by
        have := Repr.rot ([(⟨c.addr, c.p, 0⟩ : Cell R)]) (by simpa using hr1)
        simpa using this
      have hnewcell := hr1'.head_cell
      rw [headAddr_append, headAddr_append, headAddr_of_ne_nil hdone _ 0, ← he] at hnewcell
      have hr2 : Repr h1 (rest ++ (done ++ [⟨c.addr, c.p, 0⟩, ⟨h.cells.length + 1,
          vectorAdd c.p (vectorScale (vectorSub (headP rest (headP done ⟨0, 0⟩)) c.p) 0.5),
          0⟩])) := by
        have := Repr.rot ([(⟨c.addr, c.p, 0⟩ : Cell R), ⟨h.cells.length + 1,
          vectorAdd c.p (vectorScale (vectorSub (headP rest (headP done ⟨0, 0⟩)) c.p) 0.5),
          0⟩]) (by simpa using hr1)
        simpa using this
      simp only [hhit, if_true, e1, Option.some_bind] at hrun
      cases f with
      | zero => simp [neuralNetGrowLoopLog] at hrun
      | succ f' =>
        rw [neuralNetGrowLoopLog] at hrun
        have h0 : ¬ thr ≤ ((0 : Nat) : R) := by simp [not_le.mpr hthr]
        simp only [bne_iff_ne, ne_eq, hnew, not_false_eq_true, if_true, Option.bind_eq_bind,
          hnewcell, Option.some_bind, h0, if_false] at hrun
        obtain ⟨hT, hG⟩ := ih _ h1 { nn with size := nn.size + 1 } _ _ (by simp)
          (by simp only [headAddr_append]; rw [← headAddr_of_ne_nil hdone 0, ← he]) hr2 f' r
          hrun
        rw [headP_append, headP_of_ne_nil hdone _ ⟨0, 0⟩, len1] at hT
        constructor
        · rw [hT]; simp [growCells, hhit]
        · rw [hG]; simp [List.filter_cons, hhit]
    · have hr2 : Repr h (rest ++ (done ++ [c])) := by
        have := Repr.rot ([c]) (by simpa using hr)
        simpa using this
      simp only [hhit, if_false] at hrun
      obtain ⟨hT, hG⟩ := ih _ h nn _ _ (by simp)
        (by simp only [headAddr_append]; rw [← headAddr_of_ne_nil hdone 0, ← he]) hr2 f r hrun
      rw [headP_append, headP_of_ne_nil hdone _ ⟨0, 0⟩] at hT
      constructor
      · rw [hT]; simp [growCells, hhit]
      · rw [hG]; simp [List.filter_cons, hhit]

/-- The record of `neuralNetGrow` on the ring `e :: rest`: it tests the entry, then the
neurons of `rest` and the neurons it inserts among them, and inserts after the neurons of
the ring that have reached the threshold. -/
theorem neuralNetGrowLog_repr (thr : R) (hthr : 0 < thr) {h : Heap R} {e : Cell R}
    {rest : List (Cell R)} (hr : Repr h (e :: rest)) (nn : NeuralNet)
    (he : nn.neurons = e.addr) (fuel : Nat) (r : Heap R × NeuralNet × List Nat × List Nat)
    (hrun : neuralNetGrowLog fuel h nn thr = some r) :
    r.2.2.1 = e.addr :: (growCells thr
        (h.cells.length + 1 + if thr ≤ (e.hits : R) then 1 else 0) rest e.p).map Cell.addr
    ∧ r.2.2.2 = ((e :: rest).filter fun c => decide (thr ≤ (c.hits : R))).map Cell.addr := by
  have hcell := hr.head_cell
  have key : ∀ (h2 : Heap R) (nn2 : NeuralNet) (a2 : Nat) (G : List Nat) (d2 : NeuronData R)
      (done : List (Cell R)), h2.get? a2 = some d2 → d2.next = headAddr rest nn2.neurons →
      done ≠ [] → nn2.neurons = headAddr done 0 → Repr h2 (rest ++ done) →
      ((h2.get? a2).bind fun d2 =>
        (neuralNetGrowLoopLog thr fuel h2 nn2 d2.next [nn2.neurons] G).bind fun q =>
          (neuralNetInv fuel q.1 { q.2.1 with learned := 0 }).bind fun valid =>
            if valid = true then some (q.1, { q.2.1 with learned := 0 }, q.2.2.1, q.2.2.2)
            else none) = some r →
      r.2.2.1 = [nn2.neurons]
          ++ (growCells thr (h2.cells.length + 1) rest (headP done ⟨0, 0⟩)).map Cell.addr
      ∧ r.2.2.2 = G ++ (rest.filter fun c => decide (thr ≤ (c.hits : R))).map Cell.addr := by
    intro h2 nn2 a2 G d2 done hd2 hnx hdone he2 hr2 hk
    simp only [hd2, Option.some_bind, hnx] at hk
    cases hl : neuralNetGrowLoopLog thr fuel h2 nn2 (headAddr rest nn2.neurons) [nn2.neurons] G with
    | none => simp [hl] at hk
    | some q =>
      have hq := neuralNetGrowLoopLog_repr thr hthr rest done h2 nn2 _ _ hdone he2 hr2 fuel q hl
      cases hv : neuralNetInv fuel q.1 { q.2.1 with learned := 0 } with
      | none => simp [hl, hv] at hk
      | some v =>
        cases v with
        | false => simp [hl, hv] at hk
        | true =>
          simp only [hl, hv, Option.some_bind, if_true, Option.some.injEq] at hk
          subst hk
          exact hq
  unfold neuralNetGrowLog at hrun
  simp only [he, Option.bind_eq_bind, hcell, Option.some_bind] at hrun
  by_cases hhit : thr ≤ (e.hits : R)
  · obtain ⟨h1, e1, len1, hr1⟩ := neuronInsert_repr hr
    have hr1' : Repr h1 (⟨h.cells.length + 1,
        vectorAdd e.p (vectorScale (vectorSub (headP rest e.p) e.p) 0.5), 0⟩
        :: (rest ++ [⟨e.addr, e.p, 0⟩])) := by
      have := Repr.rot ([(⟨e.addr, e.p, 0⟩ : Cell R)]) (by simpa using hr1)
      simpa using this
    have hnewcell := hr1'.head_cell
    rw [headAddr_append] at hnewcell
    have hr2 : Repr h1 (rest ++ [⟨e.addr, e.p, 0⟩, ⟨h.cells.length + 1,
        vectorAdd e.p (vectorScale (vectorSub (headP rest e.p) e.p) 0.5), 0⟩]) := by
      have := Repr.rot ([(⟨e.addr, e.p, 0⟩ : Cell R), ⟨h.cells.length + 1,
        vectorAdd e.p (vectorScale (vectorSub (headP rest e.p) e.p) 0.5), 0⟩])
        (by simpa using hr1)
      simpa using this
    simp only [hhit, if_true, e1, Option.some_bind, Option.pure_def] at hrun
    obtain ⟨hT, hG⟩ := key h1 { nn with size := nn.size + 1 } _ _ _ _ hnewcell
      (by simp [headAddr, he]) (by simp) (by simp [headAddr, he]) hr2 (by
        simpa only [he] using hrun)
    rw [len1] at hT
    constructor
    · rw [hT]; simp [hhit, he, headP]
    · rw [hG]; simp [List.filter_cons, hhit, he]
  · have hr2 : Repr h (rest ++ [e]) := by
      have := Repr.rot ([e]) (by simpa using hr)
      simpa using this
    simp only [hhit, if_false, Option.some_bind, Option.pure_def] at hrun
    obtain ⟨hT, hG⟩ := key h nn _ _ _ [e] hcell (by rw [he]) (by simp)
      (by simp [headAddr, he]) hr2 (by simpa only [he] using hrun)
    constructor
    · rw [hT]; simp [hhit, he, headP]
    · rw [hG]; simp [List.filter_cons, hhit]

/-- `neuralNetGrow` with a positive threshold on a well-formed ring, with its record: every
neuron of the ring is tested once, no neuron is tested twice, and the neurons after which a
neuron is inserted are the neurons of the ring that have reached the threshold, each
once. -/
theorem neuralNetGrowLog_wf (thr : R) (hthr : 0 < thr) {h : Heap R} {nn : NeuralNet}
    (hw : WellFormed h nn) (fuel : Nat) (hf : 2 * nn.size + 1 ≤ fuel) :
    ∃ h' nn' tested grown,
      neuralNetGrowLog fuel h nn thr = some (h', nn', tested, grown)
      ∧ neuralNetGrow fuel h nn thr = some (h', nn')
      ∧ tested.Nodup ∧ (∀ a, a ∈ ringAddrs h nn → a ∈ tested)
      ∧ grown.Nodup
      ∧ ∀ a, a ∈ grown ↔ a ∈ ringAddrs h nn ∧ thr ≤ (hitsOf h a : R) := by
  have hr := hw.repr
  have hra := hr.ringAddrs_eq nn hw.headAddr_ringCells.symm (ringCells_length h nn).symm
  have he := hw.headAddr_ringCells.symm
  have hs := (ringCells_length h nn).symm
  obtain ⟨e, rest, hl⟩ := List.exists_cons_of_ne_nil hr.1
  rw [hl] at hr hra he hs
  have he' : nn.neurons = e.addr := he
  obtain ⟨h', eg, hr', _⟩ := neuralNetGrow_repr thr hthr hr nn he' (by simpa using hs) fuel hf
  have her := neuralNetGrowLog_erase fuel h nn thr
  rw [eg] at her
  cases hlog : neuralNetGrowLog fuel h nn thr with
  | none => simp [hlog] at her
  | some r =>
    obtain ⟨hT, hG⟩ := neuralNetGrowLog_repr thr hthr hr nn he' fuel r hlog
    simp only [hlog, Option.map_some', Option.some.injEq, Prod.mk.injEq] at her
    obtain ⟨h1, h2⟩ := her
    obtain ⟨rh, rn, rT, rG⟩ := r
    simp only at h1 h2 hT hG
    subst h1 h2 hT hG
    have hnd' := hr'.2.1
    refine ⟨_, _, _, _, rfl, eg, ?_, ?_, ?_, ?_⟩
    · by_cases hhit : thr ≤ (e.hits : R)
      · simp only [growCells, hhit, if_true, List.map_cons] at hnd' ⊢
        exact hnd'.sublist ((List.sublist_cons_self _ _).cons₂ _)
      · simp only [growCells, hhit, if_false, List.map_cons, Nat.add_zero] at hnd' ⊢
        exact hnd'
    · intro a ha
      rw [hra] at ha
      rcases List.mem_cons.mp ha with rfl | ha
      · exact List.mem_cons_self _ _
      · obtain ⟨c, hc, rfl⟩ := List.mem_map.mp ha
        apply List.mem_cons_of_mem
        have := mem_growCells_of_mem thr rest
          (h.cells.length + 1 + if thr ≤ (e.hits : R) then 1 else 0) e.p c hc
        have h3 := List.mem_map_of_mem Cell.addr this
        have h4 : (if thr ≤ (c.hits : R) then (⟨c.addr, c.p, 0⟩ : Cell R) else c).addr
            = c.addr := by split <;> rfl
        rwa [h4] at h3
    · exact hr.2.1.sublist ((List.filter_sublist _).map _)
    · intro a
      rw [hra]
      constructor
      · intro ha
        obtain ⟨c, hc, rfl⟩ := List.mem_map.mp ha
        obtain ⟨hc1, hc2⟩ := List.mem_filter.mp hc
        refine ⟨List.mem_map_of_mem _ hc1, ?_⟩
        rw [hr.hitsOf_mem hc1]
        simpa using hc2
      · rintro ⟨ha, hhit⟩
        obtain ⟨c, hc, rfl⟩ := List.mem_map.mp ha
        rw [hr.hitsOf_mem hc] at hhit
        exact List.mem_map_of_mem _ (List.mem_filter.mpr ⟨hc, by simpa using hhit⟩)

/-! ## The learning step with a displacement factor in `[0, 1]` -/

theorem sqDist_movePos_le_unit (m : Libm R) (s : Vector R) {time : R} (htime : 0 < time)
    (hexp : ∀ y, y < 0 → 0 ≤ m.exp y ∧ m.exp y ≤ 1) (i : Int) (q : Vector R) :
    sqDist s (movePos m s time i q) ≤ sqDist s q := by
  obtain ⟨h0, h1⟩ := NEURONMOVE_unit m htime hexp |(i : R)| (abs_nonneg _)
  rw [sqDist_movePos]
  have hf : (1 - NEURONMOVE m |(i : R)| time) * (1 - NEURONMOVE m |(i : R)| time) ≤ 1 := by
    nlinarith
  have hnn := sqDist_nonneg s q
  nlinarith

theorem sqDist_movedCell_le (m : Libm R) (s : Vector R) {time : R} (htime : 0 < time)
    (hexp : ∀ y, y < 0 → 0 ≤ m.exp y ∧ m.exp y ≤ 1) (n x k : Nat) :
    ∀ (i : Int) (j : Nat) (c : Cell R),
      sqDist s (movedCell m s time n x k i j c).p ≤ sqDist s c.p := by
  induction k with
  | zero => intro i j c; exact le_refl _
  | succ k ih =>
    intro i j c
    rw [movedCell]
    split
    · exact le_trans (ih _ _ _) (sqDist_movePos_le_unit m s htime hexp i c.p)
    · exact ih _ _ _

/-- With a displacement factor that is 0 the update loop leaves every position as it is. -/
theorem movedCell_p_of_zero (m : Libm R) (s : Vector R) (time : R)
    (hz : ∀ i : Int, NEURONMOVE m |(i : R)| time = 0) (n x k : Nat) :
    ∀ (i : Int) (j : Nat) (c : Cell R), (movedCell m s time n x k i j c).p = c.p := by
  induction k with
  | zero => intro i j c; rfl
  | succ k ih =>
    intro i j c
    rw [movedCell, ih]
    split
    · simp only [moveCell, movePos, hz, vectorAdd, vectorScale, vectorSub, vectorMake,
        mul_zero, add_zero]
    · rfl

/-- Below `t = 1/2000` the displacement factor computed with an `exp` that underflows is
0. -/
theorem NEURONMOVE_underflow (m : Libm R) {d t : R} (hd : 0 ≤ d) (ht : 0 < t)
    (ht' : t ≤ 1 / 2000) : NEURONMOVE (libmUnderflow m) d t = 0 := by
  have h1 : (1000 : R) ≤ (1 + d) / (2 * t) := by
    rw [le_div_iff₀ (by linarith)]
    nlinarith
  simp only [NEURONMOVE, libmUnderflow]
  rw [if_pos (by linarith)]

/-! ## A run in the box from `(0, 0)` to `(4, 4)` -/

theorem nearest_heapOne (p s : Vector ℚ) (k size learned : Nat) (hsize : size = 1) :
    ∃ d, neuralNetTrainNearest libmQ (heapOne p k) ⟨size, learned, 1⟩ s = some (1, d) := by
  subst hsize
  simp only [neuralNetTrainNearest, neuralNetTrainNearestLoop, heapOne, Heap.get?,
    List.getD_cons_zero, Option.bind_eq_bind, Option.some_bind]
  split
  · exact ⟨_, rfl⟩
  · exact ⟨_, rfl⟩

theorem backLoop_heapOne (p : Vector ℚ) (k n : Nat) :
    neuralNetTrainBackLoop (heapOne p k) n 1 = some 1 := by
  induction n with
  | zero => rfl
  | succ n ih =>
    rw [neuralNetTrainBackLoop]
    simp only [heapOne, Heap.get?, List.getD_cons_zero, Option.bind_eq_bind, Option.some_bind]
    exact ih

theorem moveLoop_heapOne (s : Vector ℚ) (time : ℚ) (k n : Nat) :
    ∀ (i : Int) (p : Vector ℚ),
      neuralNetTrainMoveLoop libmQ s time n i (heapOne p k) 1
        = some (heapOne ((halfway s)^[n] p) k, 1) := by
  induction n with
  | zero => intro i p; rfl
  | succ n ih =>
    intro i p
    rw [neuralNetTrainMoveLoop]
    have hm : (heapOne p k).modify 1 (fun c =>
        { c with p := vectorAdd c.p
                   (vectorScale (vectorSub s c.p) (NEURONMOVE libmQ |(i : ℚ)| time)) })
        = some (heapOne (halfway s p) k) := by
      simp [heapOne, Heap.modify, Heap.get?, Heap.put, halfway, NEURONMOVE, libmQ]
    simp only [heapOne, Heap.get?, List.getD_cons_zero, Option.bind_eq_bind, Option.some_bind]
    have hm' := hm
    simp only [heapOne] at hm'
    rw [hm']
    simp only [Option.some_bind]
    exact ih (i + 1) (halfway s p)

/-- The learning step on a ring of one neuron, with displacement factor 1/2: the neuron is
moved 7 times halfway to the sample and its hits are incremented. -/
theorem learn_heapOne (p s : Vector ℚ) (k learned rnd : Nat) (samples : SampleMap ℚ)
    (time : ℚ) (hitems : samples.items ≠ 0)
    (hsample : samples.samples[rnd % samples.items]? = some s) :
    neuralNetTrainLearn libmQ rnd (heapOne p k) ⟨1, learned, 1⟩ samples time
      = some (heapOne ((halfway s)^[7] p) ((k + 1) % UINT_RANGE),
          ⟨1, (learned + 1) % ULONG_RANGE, 1⟩) := by
  obtain ⟨d, hd⟩ := nearest_heapOne p s k 1 learned rfl
  have hm : (heapOne p k).modify 1 (fun d => { d with hits := (d.hits + 1) % UINT_RANGE })
      = some (heapOne p ((k + 1) % UINT_RANGE)) := by
    simp [heapOne, Heap.modify, Heap.get?, Heap.put]
  unfold neuralNetTrainLearn
  simp only [hitems, if_false, hsample, Option.bind_eq_bind, Option.some_bind, hd, hm,
    backLoop_heapOne, moveLoop_heapOne, Option.pure_def]
  rfl

/-- `neuralNetTrain` on a ring of one neuron when the growth condition does not hold. -/
theorem train_heapOne (p s : Vector ℚ) (k rnd fuel : Nat) (time : ℚ)
    (hsample : samples2.samples[rnd % samples2.items]? = some s) :
    neuralNetTrain libmQ fuel rnd (heapOne p k) ⟨1, 0, 1⟩ samples2 time
      = some (heapOne ((halfway s)^[7] p) ((k + 1) % UINT_RANGE), ⟨1, 1, 1⟩) := by
  unfold neuralNetTrain
  rw [learn_heapOne p s k 0 rnd samples2 time (by decide) hsample]
  simp only [Option.bind_eq_bind, Option.some_bind]
  rw [if_neg]
  · rfl
  · intro hc
    have := hc.2
    revert this
    decide

theorem insert_heapOne (p : Vector ℚ) (k : Nat) :
    neuronInsert (heapOne p k) 1 = some (heapTwo p, 2) := by
  have hp : vectorAdd p (vectorScale (vectorSub p p) 0.5) = p := by
    cases p
    simp [vectorAdd, vectorScale, vectorSub, vectorMake]
  simp [neuronInsert, neuronMake, Heap.malloc, Heap.modify, Heap.get?, Heap.put, heapOne,
    heapTwo, hp]

/-- `neuralNetGrow` with threshold 1 on a ring of one neuron with 2 hits: a second neuron is
inserted at the same position. -/
theorem grow_heapOne (p : Vector ℚ) (learned fuel : Nat) :
    neuralNetGrow (fuel + 2) (heapOne p 2) ⟨1, learned, 1⟩ (1 : ℚ)
      = some (heapTwo p, ⟨2, 0, 1⟩) := by
  have hl : neuralNetGrowLoop (1 : ℚ) (fuel + 2) (heapTwo p) ⟨2, learned, 1⟩ 1
      = some (heapTwo p, ⟨2, learned, 1⟩) := by
    rw [neuralNetGrowLoop]
    simp
  have hi : neuralNetInv (fuel + 2) (heapTwo p) ⟨2, 0, 1⟩ = some true := by
    rw [neuralNetInv]
    simp only [heapTwo, Heap.get?, List.getD_cons_zero, Option.bind_eq_bind, Option.some_bind]
    rw [neuralNetInvLoop]
    simp only [Heap.get?, List.getD_cons_zero, List.getD_cons_succ, Option.bind_eq_bind,
      Option.some_bind, Bool.true_and, bne_iff_ne, ne_eq, OfNat.ofNat_ne_one, not_false_eq_true,
      decide_True, if_true, beq_self_eq_true, Option.pure_def]
    rw [neuralNetInvLoop]
    simp
  unfold neuralNetGrow
  have hg : (heapOne p 2).get? 1 = some ⟨p, 2, 1, 1⟩ := rfl
  have hg2 : (heapTwo p).get? 2 = some ⟨p, 0, 1, 1⟩ := rfl
  simp only [hg, Option.bind_eq_bind, Option.some_bind]
  rw [if_pos (by norm_num)]
  simp only [insert_heapOne, Option.some_bind, Option.pure_def, hg2, hl, hi, if_true]

/-- `neuralNetTrain` on a ring of one neuron when the growth condition holds: after the
learning step the neuron has 2 hits, which is above the threshold `1 / log 2 = 1`, and a
second neuron is inserted. -/
theorem train_grow_heapOne (p s : Vector ℚ) (rnd fuel : Nat) (time : ℚ)
    (hsample : samples2.samples[rnd % samples2.items]? = some s) :
    neuralNetTrain libmQ (fuel + 2) rnd (heapOne p 1) ⟨1, 1, 1⟩ samples2 time
      = some (heapTwo ((halfway s)^[7] p), ⟨2, 0, 1⟩) := by
  unfold neuralNetTrain
  rw [learn_heapOne p s 1 1 rnd samples2 time (by decide) hsample]
  simp only [Option.bind_eq_bind, Option.some_bind]
  have h2 : (1 + 1) % UINT_RANGE = 2 := by decide
  have hthr : neuralNetGrowThres libmQ samples2.items = 1 := by
    norm_num [neuralNetGrowThres, libmQ, samples2]
  rw [if_pos, h2, hthr]
  · exact grow_heapOne _ _ fuel
  · constructor
    · norm_num [libmQ, samples2]
    · decide

theorem removeNext_heapTwo (p : Vector ℚ) :
    neuronRemoveNext (heapTwo p) 1 = some (heapTwoPruned p, 1) := by
  simp [neuronRemoveNext, Heap.get?, Heap.modify, Heap.put, Heap.free, heapTwo, heapTwoPruned]

/-- `neuralNetRemoveDoubleNeurons` on the two neurons of `heapTwo p`, which lie at the same
position: the second one is removed. -/
theorem prune_heapTwo (p : Vector ℚ) (learned fuel : Nat) :
    neuralNetRemoveDoubleNeurons libmQ (fuel + 2) (heapTwo p) ⟨2, learned, 1⟩
      = some (heapTwoPruned p, ⟨1, learned, 1⟩) := by
  have hin : neuralNetRemoveDoubleNeuronsInner libmQ (fuel + 2) (heapTwo p) ⟨2, learned, 1⟩ 1
      = some (heapTwoPruned p, ⟨1, learned, 1⟩, 1) := by
    rw [neuralNetRemoveDoubleNeuronsInner]
    simp [Heap.get?, heapTwo, libmQ, vectorLength, vectorSub, vectorMake,
      NEURON_REMOVE_DISTANCE]
    have := removeNext_heapTwo p
    simp only [heapTwo] at this
    rw [this]
    simp only [Option.some_bind]
    rw [neuralNetRemoveDoubleNeuronsInner]
    simp
  have ho : neuralNetRemoveDoubleNeuronsOuter libmQ (fuel + 2) (heapTwoPruned p)
      ⟨1, learned, 1⟩ 1 = some (heapTwoPruned p, ⟨1, learned, 1⟩) := by
    rw [neuralNetRemoveDoubleNeuronsOuter]
    simp
  have hi : neuralNetInv (fuel + 2) (heapTwoPruned p) ⟨1, learned, 1⟩ = some true := by
    rw [neuralNetInv]
    simp only [heapTwoPruned, Heap.get?, List.getD_cons_zero, Option.bind_eq_bind,
      Option.some_bind]
    rw [neuralNetInvLoop]
    simp
  have hg : (heapTwoPruned p).get? 1 = some ⟨p, 0, 1, 1⟩ := rfl
  rw [neuralNetRemoveDoubleNeurons]
  simp only [hin, Option.bind_eq_bind, Option.some_bind, hg, ho, hi, if_true, Option.pure_def]

theorem make_boxQ :
    neuralNetMake (⟨[]⟩ : Heap ℚ) boxQ = some (heapOne ⟨2, 2⟩ 0, ⟨1, 0, 1⟩) := by
  simp [neuralNetMake, neuronMake, Heap.malloc, Heap.modify, Heap.get?, Heap.put, vectorAdd,
    vectorScale, vectorSub, vectorMake, boxQ, heapOne]
  norm_num

theorem halfway_seven (s p : Vector ℚ) :
    (halfway s)^[7] p = ⟨s.x + (p.x - s.x) / 128, s.y + (p.y - s.y) / 128⟩ := by
  simp only [Function.iterate_succ, Function.iterate_zero, Function.comp, id, halfway,
    vectorAdd, vectorScale, vectorSub, vectorMake]
  congr 1 <;> ring

end RingRepr

/-! ## `list.c` and `set.c`: sorted lists as sets -/

section SetLemmas

theorem list_isIn_iff (e : Nat) (l : List Nat) : list_isIn e l = true ↔ e ∈ l := by
  induction l with
  | nil => simp [list_isIn]
  | cons x t ih =>
    rw [list_isIn]
    by_cases h : x = e
    · simp [list_eqElement, h]
    · simp [list_eqElement, h, ih, Ne.symm h]

theorem set_contains_iff (s : List Nat) (e : Nat) : set_contains s e = true ↔ e ∈ s :=
  list_isIn_iff e s

theorem mem_list_insertElem (e x : Nat) (l : List Nat) :
    x ∈ list_insertElem e l ↔ x = e ∨ x ∈ l := by
  induction l with
  | nil => simp [list_insertElem, list_cons]
  | cons y t ih =>
    rw [list_insertElem]
    by_cases h1 : y = e
    · subst h1
      simp [list_eqElement]
    · by_cases h2 : y ≥ e
      · simp [list_eqElement, list_geElement, h1, h2, list_cons]
      · simp only [list_eqElement, list_geElement, beq_iff_eq, h1, if_false, h2, decide_False,
          Bool.false_eq_true, List.mem_cons, ih]
        tauto

theorem sorted_list_insertElem (e : Nat) (l : List Nat) (hl : l.Sorted (· < ·)) :
    (list_insertElem e l).Sorted (· < ·) := by
  induction l with
  | nil => simp [list_insertElem, list_cons]
  | cons y t ih =>
    rw [list_insertElem]
    by_cases h1 : y = e
    · simp only [list_eqElement, h1, beq_self_eq_true, if_true]
      exact h1 ▸ hl
    · by_cases h2 : y ≥ e
      · simp only [list_eqElement, list_geElement, beq_iff_eq, h1, if_false, h2, decide_True,
          if_true, list_cons]
        refine List.sorted_cons.mpr ⟨?_, hl⟩
        intro b hb
        rcases List.mem_cons.mp hb with rfl | hb'
        · omega
        · have := List.rel_of_sorted_cons hl b hb'
          omega
      · simp only [list_eqElement, list_geElement, beq_iff_eq, h1, if_false, h2, decide_False,
          Bool.false_eq_true]
        refine List.sorted_cons.mpr ⟨?_, ih hl.of_cons⟩
        intro b hb
        rcases (mem_list_insertElem e b t).mp hb with rfl | hb'
        · omega
        · exact List.rel_of_sorted_cons hl b hb'

theorem list_insertElem_of_mem (e : Nat) (l : List Nat) (hl : l.Sorted (· < ·)) (he : e ∈ l) :
    list_insertElem e l = l := by
  induction l with
  | nil => simp at he
  | cons y t ih =>
    rw [list_insertElem]
    by_cases h1 : y = e
    · simp [list_eqElement, h1]
    · have het : e ∈ t := by
        rcases List.mem_cons.mp he with rfl | h
        · exact absurd rfl h1
        · exact h
      have hlt : y < e := List.rel_of_sorted_cons hl e het
      have h2 : ¬ y ≥ e := by omega
      simp only [list_eqElement, list_geElement, beq_iff_eq, h1, if_false, h2, decide_False,
        Bool.false_eq_true, ih hl.of_cons het]

theorem list_insertElem_append (e : Nat) (l : List Nat) (hl : ∀ x, x ∈ l → x < e) :
    list_insertElem e l = l ++ [e] := by
  induction l with
  | nil => rfl
  | cons y t ih =>
    have hy := hl y (List.mem_cons_self _ _)
    rw [list_insertElem]
    have h1 : ¬ y = e := by omega
    have h2 : ¬ y ≥ e := by omega
    simp only [list_eqElement, list_geElement, beq_iff_eq, h1, if_false, h2, decide_False,
      Bool.false_eq_true, ih fun x hx => hl x (List.mem_cons_of_mem _ hx), List.cons_append]

theorem mem_list_removeElem (e x : Nat) (l : List Nat) (hl : l.Sorted (· < ·)) :
    x ∈ list_removeElem e l ↔ x ∈ l ∧ x ≠ e := by
  induction l with
  | nil => simp [list_removeElem]
  | cons y t ih =>
    rw [list_removeElem]
    have hrel := List.rel_of_sorted_cons hl
    by_cases h1 : y = e
    · subst h1
      simp only [list_geElement, list_eqElement, ge_iff_le, le_refl, decide_True,
        beq_self_eq_true, Bool.not_true, Bool.and_false, Bool.false_eq_true, if_false, if_true,
        List.mem_cons]
      constructor
      · intro hx; exact ⟨Or.inr hx, by have := hrel x hx; omega⟩
      · rintro ⟨h | h, hne⟩
        · exact absurd h hne
        · exact h
    · have hb1 : list_eqElement y e = false := by simp [list_eqElement, h1]
      by_cases h2 : y ≥ e
      · have hgt : e < y := by omega
        have hb2 : list_geElement y e = true := by simp [list_geElement, h2]
        simp only [hb1, hb2, Bool.not_false, Bool.and_self, if_true, List.mem_cons]
        constructor
        · rintro (h | h)
          · exact ⟨Or.inl h, by omega⟩
          · exact ⟨Or.inr h, by have := hrel x h; omega⟩
        · exact fun h => h.1
      · have hb2 : list_geElement y e = false := by simp [list_geElement, h2]
        simp only [hb1, hb2, Bool.false_and, Bool.false_eq_true, if_false, List.mem_cons,
          ih hl.of_cons]
        constructor
        · rintro (h | h)
          · exact ⟨Or.inl h, by omega⟩
          · exact ⟨Or.inr h.1, h.2⟩
        · rintro ⟨h | h, hne⟩
          · exact Or.inl h
          · exact Or.inr ⟨h, hne⟩

theorem sorted_list_removeElem (e : Nat) (l : List Nat) (hl : l.Sorted (· < ·)) :
    (list_removeElem e l).Sorted (· < ·) := by
  induction l with
  | nil => simp [list_removeElem]
  | cons y t ih =>
    rw [list_removeElem]
    split
    · exact hl
    · split
      · exact hl.of_cons
      · refine List.sorted_cons.mpr ⟨?_, ih hl.of_cons⟩
        intro b hb
        exact List.rel_of_sorted_cons hl b ((mem_list_removeElem e b t hl.of_cons).mp hb).1

theorem set_equals_iff (a b : List Nat) : set_equals a b = true ↔ a = b := by
  induction a generalizing b with
  | nil => cases b <;> simp [set_equals]
  | cons x ta ih =>
    cases b with
    | nil => simp [set_equals]
    | cons y tb =>
      rw [set_equals]
      by_cases h : x = y
      · simp [list_eqElement, h, ih]
      · simp [list_eqElement, h]

theorem set_copy_eq (s : List Nat) : set_copy [] s = some s := by
  induction s with
  | nil => rfl
  | cons x t ih =>
    rw [set_copy]
    simp [set_is_empty, list_isEmpty, ih, list_cons, (set_equals_iff _ _).mpr rfl]

/-- Strictly ascending lists with the same elements are equal. -/
theorem sorted_ext {a b : List Nat} (ha : a.Sorted (· < ·)) (hb : b.Sorted (· < ·))
    (h : ∀ x, x ∈ a ↔ x ∈ b) : a = b :=
  List.eq_of_perm_of_sorted ((List.perm_ext_iff_of_nodup ha.nodup hb.nodup).mpr h) ha hb

/-- `set_union` on an empty result set returns the sorted union. -/
theorem set_union_spec (a b : List Nat) (ha : a.Sorted (· < ·)) (hb : b.Sorted (· < ·)) :
    ∃ r, set_union [] a b = some r ∧ r.Sorted (· < ·) ∧ ∀ x, x ∈ r ↔ x ∈ a ∨ x ∈ b := by
  generalize hn : a.length + b.length = n
  induction n using Nat.strong_induction_on generalizing a b with
  | _ n ihn =>
    cases a with
    | nil =>
      refine ⟨b, ?_, hb, by simp⟩
      rw [set_union]
      simp [set_is_empty, list_isEmpty, set_copy_eq]
    | cons x ta =>
      cases b with
      | nil =>
        refine ⟨x :: ta, ?_, ha, by simp⟩
        rw [set_union]
        simp [set_is_empty, list_isEmpty, set_copy_eq]
      | cons y tb =>
        have hax := List.rel_of_sorted_cons ha
        have hby := List.rel_of_sorted_cons hb
        have key : ∀ (x y : Nat) (ta tb : List Nat), (x :: ta).Sorted (· < ·) →
            (y :: tb).Sorted (· < ·) → (x :: ta).length + (y :: tb).length = n → x ≤ y →
            ∃ r, set_union [] (x :: ta) (y :: tb) = some r ∧ r.Sorted (· < ·)
              ∧ ∀ z, z ∈ r ↔ z ∈ x :: ta ∨ z ∈ y :: tb := by
          intro x y ta tb ha hb hn hxy
          have hax := List.rel_of_sorted_cons ha
          have hby := List.rel_of_sorted_cons hb
          rcases Nat.lt_or_eq_of_le hxy with hlt | heq
          · obtain ⟨r, hr, hs, hm⟩ := ihn (ta.length + (y :: tb).length)
              (by simp only [List.length_cons] at hn ⊢; omega) ta (y :: tb) ha.of_cons hb rfl
            refine ⟨x :: r, ?_, ?_, ?_⟩
            · rw [set_union]
              have hg : list_geElement x y = false := by simp [list_geElement]; omega
              simp [set_is_empty, list_isEmpty, hg, hr, list_cons]
            · refine List.sorted_cons.mpr ⟨?_, hs⟩
              intro z hz
              rcases (hm z).mp hz with h | h
              · exact hax z h
              · rcases List.mem_cons.mp h with rfl | h'
                · exact hlt
                · have := hby z h'; omega
            · intro z
              simp only [List.mem_cons, hm]
              tauto
          · subst heq
            obtain ⟨r, hr, hs, hm⟩ := ihn (ta.length + tb.length)
              (by simp only [List.length_cons] at hn ⊢; omega) ta tb ha.of_cons hb.of_cons rfl
            refine ⟨x :: r, ?_, ?_, ?_⟩
            · rw [set_union]
              have hg : list_geElement x x = true := by simp [list_geElement]
              have he : list_eqElement x x = true := by simp [list_eqElement]
              simp [set_is_empty, list_isEmpty, hg, he, hr, list_cons]
            · refine List.sorted_cons.mpr ⟨?_, hs⟩
              intro z hz
              rcases (hm z).mp hz with h | h
              · exact hax z h
              · exact hby z h
            · intro z
              simp only [List.mem_cons, hm]
              tauto
        by_cases hxy : x ≤ y
        · exact key x y ta tb ha hb hn hxy
        · obtain ⟨r, hr, hs, hm⟩ := key y x tb ta hb ha (by rw [← hn]; exact Nat.add_comm _ _)
            (by omega)
          refine ⟨r, ?_, hs, fun z => by rw [hm]; tauto⟩
          rw [set_union]
          have hg : list_geElement x y = true := by simp [list_geElement]; omega
          have he : list_eqElement x y = false := by simp [list_eqElement]; omega
          simp [set_is_empty, list_isEmpty, hg, he, hr]

/-- `set_intersection` on an empty result set returns the sorted intersection. -/
theorem set_intersection_spec (a b : List Nat) (ha : a.Sorted (· < ·))
    (hb : b.Sorted (· < ·)) :
    ∃ r, set_intersection [] a b = some r ∧ r.Sorted (· < ·)
      ∧ ∀ x, x ∈ r ↔ x ∈ a ∧ x ∈ b := by
  generalize hn : a.length + b.length = n
  induction n using Nat.strong_induction_on generalizing a b with
  | _ n ihn =>
    cases a with
    | nil =>
      refine ⟨[], ?_, List.sorted_nil, by simp⟩
      rw [set_intersection]
      simp [set_is_empty, list_isEmpty]
    | cons x ta =>
      cases b with
      | nil =>
        refine ⟨[], ?_, List.sorted_nil, by simp⟩
        rw [set_intersection]
        simp [set_is_empty, list_isEmpty]
      | cons y tb =>
        have hax := List.rel_of_sorted_cons ha
        have hby := List.rel_of_sorted_cons hb
        rcases Nat.lt_trichotomy x y with hlt | heq | hgt
        · obtain ⟨r, hr, hs, hm⟩ := ihn (ta.length + (y :: tb).length)
            (by simp only [List.length_cons] at hn ⊢; omega) ta (y :: tb) ha.of_cons hb rfl
          refine ⟨r, ?_, hs, ?_⟩
          · rw [set_intersection]
            have hg : list_geElement x y = false := by simp [list_geElement]; omega
            simp [set_is_empty, list_isEmpty, hg, hr]
          · intro z
            rw [hm]
            constructor
            · rintro ⟨h1, h2⟩; exact ⟨List.mem_cons_of_mem _ h1, h2⟩
            · rintro ⟨h1, h2⟩
              refine ⟨?_, h2⟩
              rcases List.mem_cons.mp h1 with rfl | h1'
              · rcases List.mem_cons.mp h2 with rfl | h2'
                · omega
                · have := hby z h2'; omega
              · exact h1'
        · subst heq
          obtain ⟨r, hr, hs, hm⟩ := ihn (ta.length + tb.length)
            (by simp only [List.length_cons] at hn ⊢; omega) ta tb ha.of_cons hb.of_cons rfl
          refine ⟨x :: r, ?_, ?_, ?_⟩
          · rw [set_intersection]
            have hg : list_geElement x x = true := by simp [list_geElement]
            have he : list_eqElement x x = true := by simp [list_eqElement]
            simp [set_is_empty, list_isEmpty, hg, he, hr, list_cons]
          · refine List.sorted_cons.mpr ⟨?_, hs⟩
            intro z hz
            exact hax z ((hm z).mp hz).1
          · intro z
            simp only [List.mem_cons, hm]
            constructor
            · rintro (h | ⟨h1, h2⟩)
              · exact ⟨Or.inl h, Or.inl h⟩
              · exact ⟨Or.inr h1, Or.inr h2⟩
            · rintro ⟨h1 | h1, h2 | h2⟩
              · exact Or.inl h1
              · exact Or.inl h1
              · exact Or.inl h2
              · exact Or.inr ⟨h1, h2⟩
        · obtain ⟨r, hr, hs, hm⟩ := ihn ((x :: ta).length + tb.length)
            (by simp only [List.length_cons] at hn ⊢; omega) (x :: ta) tb ha hb.of_cons rfl
          refine ⟨r, ?_, hs, ?_⟩
          · rw [set_intersection]
            have hg : list_geElement x y = true := by simp [list_geElement]; omega
            have he : list_eqElement x y = false := by simp [list_eqElement]; omega
            simp [set_is_empty, list_isEmpty, hg, he, hr]
          · intro z
            rw [hm]
            constructor
            · rintro ⟨h1, h2⟩; exact ⟨h1, List.mem_cons_of_mem _ h2⟩
            · rintro ⟨h1, h2⟩
              refine ⟨h1, ?_⟩
              rcases List.mem_cons.mp h2 with rfl | h2'
              · rcases List.mem_cons.mp h1 with rfl | h1'
                · omega
                · have := hax z h1'; omega
              · exact h2'

/-- `set_is_subset` returns, and decides inclusion of strictly ascending lists. -/
theorem set_is_subset_spec (a b : List Nat) (ha : a.Sorted (· < ·)) (hb : b.Sorted (· < ·)) :
    set_is_subset a b = some (decide (∀ x, x ∈ a → x ∈ b)) := by
  induction a generalizing b with
  | nil => simp [set_is_subset]
  | cons x ta ih =>
    have hax := List.rel_of_sorted_cons ha
    rw [set_is_subset]
    by_cases hx : x ∈ b
    · cases b with
      | nil => simp at hx
      | cons y tb =>
        have hby := List.rel_of_sorted_cons hb
        have hc : set_contains (y :: tb) x = true := (set_contains_iff _ _).mpr hx
        simp only [hc, if_true, list_tail, Option.bind_eq_bind, Option.some_bind,
          ih tb ha.of_cons hb.of_cons]
        congr 1
        rw [decide_eq_decide]
        have hyx : y ≤ x := by
          rcases List.mem_cons.mp hx with rfl | h
          · exact le_rfl
          · exact (hby x h).le
        constructor
        · intro h z hz
          rcases List.mem_cons.mp hz with rfl | hz'
          · exact hx
          · exact List.mem_cons_of_mem _ (h z hz')
        · intro h z hz
          rcases List.mem_cons.mp (h z (List.mem_cons_of_mem _ hz)) with rfl | h'
          · have := hax z hz; omega
          · exact h'
    · have hc : set_contains b x = false := by
        rw [← Bool.not_eq_true, set_contains_iff]; exact hx
      simp only [hc, Bool.false_eq_true, if_false]
      congr 1
      symm
      rw [decide_eq_false_iff_not]
      intro h
      exact hx (h x (List.mem_cons_self _ _))

theorem set_sum_eq (l : List Nat) (h : l.sum < ULONG_RANGE) : set_sum l = l.sum := by
  induction l with
  | nil => rfl
  | cons x t ih =>
    rw [List.sum_cons] at h
    rw [set_sum, ih (by omega), List.sum_cons, Nat.mod_eq_of_lt h]

theorem list_removeAllElems_eq (l : List Nat) : list_removeAllElems l = [] := by
  induction l with
  | nil => rfl
  | cons x t ih => rw [list_removeAllElems, ih]

theorem set_remove_all_elems_eq (l : List Nat) : set_remove_all_elems l = some [] := by
  simp [set_remove_all_elems, list_removeAllElems_eq, set_is_empty, list_isEmpty]

/-- `partition` moves the shortest prefix of `s` to `res1` that makes the sum of `res1` at
least the sum of the rest, which becomes `res2`. -/
theorem partition_spec (s : List Nat) :
    ∀ res1 : List Nat, (res1 ++ s).Sorted (· < ·) → (res1 ++ s).sum < ULONG_RANGE →
      ∃ p q, s = p ++ q ∧ partition res1 [] s = some (res1 ++ p, q)
        ∧ q.sum ≤ (res1 ++ p).sum
        ∧ ∀ p' q', s = p' ++ q' → q'.sum ≤ (res1 ++ p').sum →
            (res1 ++ p).sum - q.sum ≤ (res1 ++ p').sum - q'.sum := by
  induction s with
  | nil =>
    intro res1 _ _
    refine ⟨[], [], rfl, by simp [partition], by simp, ?_⟩
    intro p' q' h _
    obtain ⟨rfl, rfl⟩ := List.append_eq_nil.mp h.symm
    exact le_rfl
  | cons x t ih =>
    intro res1 hs hsum
    have hsum' := hsum
    rw [List.sum_append] at hsum'
    have e1 : set_sum res1 = res1.sum := set_sum_eq _ (by omega)
    have e2 : set_sum (x :: t) = (x :: t).sum := set_sum_eq _ (by omega)
    rw [partition, e1, e2]
    by_cases hlt : res1.sum < (x :: t).sum
    · have hsplit := List.pairwise_append.mp hs
      have hx : ∀ z, z ∈ res1 → z < x := fun z hz => hsplit.2.2 z hz x (List.mem_cons_self _ _)
      have hins : set_insert res1 x = some (res1 ++ [x]) := by
        simp [set_insert, list_insertElem_append x res1 hx, set_contains_iff]
      have hs2 : ((res1 ++ [x]) ++ t).Sorted (· < ·) := by simpa using hs
      have hsum2 : ((res1 ++ [x]) ++ t).sum < ULONG_RANGE := by simpa using hsum
      obtain ⟨p, q, ht, hp, hle, hmin⟩ := ih (res1 ++ [x]) hs2 hsum2
      refine ⟨x :: p, q, by rw [ht]; rfl, ?_, by simpa using hle, ?_⟩
      · simp only [if_pos hlt, hins, Option.bind_eq_bind, Option.some_bind, hp]
        simp
      · intro p' q' hpq hv
        cases p' with
        | nil =>
          simp only [List.nil_append] at hpq
          subst hpq
          simp only [List.append_nil] at hv
          omega
        | cons y p'' =>
          simp only [List.cons_append, List.cons.injEq] at hpq
          obtain ⟨rfl, hpq'⟩ := hpq
          have := hmin p'' q' hpq' (by simpa using hv)
          simpa using this
    · refine ⟨[], x :: t, rfl, ?_, by rw [List.append_nil]; omega, ?_⟩
      · rw [if_neg hlt]
        simp [set_copy_eq]
      · intro p' q' hpq hv
        have h1 : (x :: t).sum = p'.sum + q'.sum := by rw [hpq, List.sum_append]
        simp only [List.append_nil, List.sum_append] at hv ⊢
        omega

/-- `set_partition` on empty result sets returns, with none of its assertions failing. -/
theorem set_partition_spec (s : List Nat) (hs : s.Sorted (· < ·))
    (hsum : s.sum < ULONG_RANGE) :
    ∃ p q, s = p ++ q ∧ set_partition [] [] s = some (p, q) ∧ q.sum ≤ p.sum
      ∧ ∀ p' q', s = p' ++ q' → q'.sum ≤ p'.sum → p.sum - q.sum ≤ p'.sum - q'.sum := by
  obtain ⟨p, q, hpq, hp, hle, hmin⟩ := partition_spec s [] (by simpa using hs)
    (by simpa using hsum)
  simp only [List.nil_append] at hp hle hmin
  refine ⟨p, q, hpq, ?_, hle, hmin⟩
  subst hpq
  have hsplit := List.pairwise_append.mp hs
  obtain ⟨ri, hri, _, hmi⟩ := set_intersection_spec p q hsplit.1 hsplit.2.1
  obtain ⟨ru, hru, hsu, hmu⟩ := set_union_spec p q hsplit.1 hsplit.2.1
  have hri0 : ri = [] := by
    apply List.eq_nil_iff_forall_not_mem.mpr
    intro z hz
    have := (hmi z).mp hz
    exact lt_irrefl _ (hsplit.2.2 z this.1 z this.2)
  have hru0 : ru = p ++ q := sorted_ext hsu hs fun z => by rw [hmu, List.mem_append]
  subst hri0
  simp only [set_partition, list_mkEmpty, set_is_empty, list_isEmpty, Bool.not_true,
    Bool.false_eq_true, if_false, hp, Option.bind_eq_bind, Option.some_bind, hri, hru, hru0,
    (set_equals_iff _ _).mpr rfl, set_remove_all_elems_eq, Option.pure_def]

theorem set_get_first_cons (x : Nat) (t : List Nat) : set_get_first (x :: t) = some x := rfl

/-- `set_get_first` returns the least element of a strictly ascending list. -/
theorem set_get_first_spec (s : List Nat) (hs : s.Sorted (· < ·)) (x : Nat)
    (h : set_get_first s = some x) : x ∈ s ∧ ∀ y, y ∈ s → x ≤ y := by
  cases s with
  | nil => simp [set_get_first, set_is_empty, list_isEmpty] at h
  | cons a t =>
    rw [set_get_first_cons] at h
    cases h
    refine ⟨List.mem_cons_self _ _, ?_⟩
    intro y hy
    rcases List.mem_cons.mp hy with rfl | hy'
    · exact le_rfl
    · exact (List.rel_of_sorted_cons hs y hy').le

/-- `set_get_last` returns the greatest element of a strictly ascending list. -/
theorem set_get_last_spec (s : List Nat) (hs : s.Sorted (· < ·)) (x : Nat)
    (h : set_get_last s = some x) : x ∈ s ∧ ∀ y, y ∈ s → y ≤ x := by
  induction s with
  | nil => simp [set_get_last] at h
  | cons a t ih =>
    rw [set_get_last] at h
    cases t with
    | nil =>
      simp only [set_is_empty, list_isEmpty, if_true, set_get_first_cons] at h
      cases h
      simp
    | cons b t' =>
      simp only [set_is_empty, list_isEmpty, Bool.false_eq_true, if_false] at h
      obtain ⟨hm, hmax⟩ := ih hs.of_cons h
      refine ⟨List.mem_cons_of_mem _ hm, ?_⟩
      intro y hy
      rcases List.mem_cons.mp hy with rfl | hy'
      · exact (List.rel_of_sorted_cons hs x hm).le
      · exact hmax y hy'

theorem set_get_last_isSome (s : List Nat) (hs : s ≠ []) : ∃ x, set_get_last s = some x := by
  induction s with
  | nil => exact absurd rfl hs
  | cons a t ih =>
    rw [set_get_last]
    cases t with
    | nil => exact ⟨a, rfl⟩
    | cons b t' =>
      simp only [set_is_empty, list_isEmpty, Bool.false_eq_true, if_false]
      exact ih (by simp)

end SetLemmas

/-! # The claims -/

section Claims

variable {R : Type} [LinearOrderedField R]

/-- C1 (ring invariant): on a well-formed ring, `neuralNetTrain` (with the growth step it may
trigger), `neuralNetGrow` with a positive threshold and `neuralNetRemoveDoubleNeurons` all
return, and the ring they return is again well-formed: `size ≥ 1`, following `next` from the
entry `size` times returns to the entry and not earlier, every neuron on the cycle has
symmetric links, and the `size` neurons on the cycle are distinct. -/
theorem ring_invariant_preserved (m : Libm R) (h : Heap R) (nn : NeuralNet)
    (samples : SampleMap R) (rnd : Nat) (time thr : R) (fuel : Nat)
    (hw : WellFormed h nn) (hitems : samples.items ≠ 0)
    (hidx : rnd % samples.items < samples.samples.length) (hthr : 0 < thr)
    (hfuel : nn.size * nn.size + 2 * nn.size + 1 ≤ fuel) :
    (∃ h' nn', neuralNetTrain m fuel rnd h nn samples time = some (h', nn')
        ∧ WellFormed h' nn' ∧ 1 ≤ nn'.size ∧ (ringAddrs h' nn').Nodup)
    ∧ (∃ h' nn', neuralNetGrow fuel h nn thr = some (h', nn')
        ∧ WellFormed h' nn' ∧ 1 ≤ nn'.size ∧ (ringAddrs h' nn').Nodup)
    ∧ (∃ h' nn', neuralNetRemoveDoubleNeurons m fuel h nn = some (h', nn')
        ∧ WellFormed h' nn' ∧ 1 ≤ nn'.size ∧ (ringAddrs h' nn').Nodup) := by
  have hr := hw.repr
  have he : nn.neurons = headAddr (ringCells h nn) 0 := hw.headAddr_ringCells.symm
  have hs : nn.size = (ringCells h nn).length := (ringCells_length h nn).symm
  obtain ⟨sample, hsample⟩ : ∃ s, samples.samples[rnd % samples.items]? = some s :=
    ⟨_, List.getElem?_eq_getElem hidx⟩
  refine ⟨?_, ?_, ?_⟩
  · obtain ⟨h', e', hr'⟩ := neuralNetTrain_repr m hr nn he hs samples rnd sample hitems
      hsample time fuel (by omega)
    refine ⟨h', _, e', ?_⟩
    by_cases hc : (nn.size : R) < m.log (samples.items : R) * (samples.items : R)
        ∧ samples.items ≤ (nn.learned + 1) % ULONG_RANGE
    · rw [if_pos hc] at hr' ⊢
      refine hr'.wellFormed_nodup _ ?_ ?_
      · rw [headAddr_growCells, headAddr_eq_of_map (map_addr_learnCells m sample time _)]
        exact he
      · rw [growCells_length, learnCells_length, ← hs]
    · rw [if_neg hc] at hr' ⊢
      refine hr'.wellFormed_nodup _ ?_ ?_
      · rw [headAddr_eq_of_map (map_addr_learnCells m sample time _)]
        exact he
      · rw [learnCells_length, ← hs]
  · obtain ⟨h', e', hr', _⟩ := neuralNetGrow_repr_list thr hthr hr nn he hs fuel
      (by omega)
    refine ⟨h', _, e', hr'.wellFormed_nodup _ ?_ ?_⟩
    · rw [headAddr_growCells]; exact he
    · rw [growCells_length, ← hs]
  · obtain ⟨h', e', hr', _⟩ := neuralNetRemoveDoubleNeurons_repr m hr nn he hs fuel
      (by omega)
    exact ⟨h', _, e', hr'.wellFormed_nodup _ rfl rfl⟩

/-- Witness for C1: the theorem applied to a ring of three neurons. -/
theorem ring_invariant_preserved_witness :
    WellFormed ring3 net3 ∧ samples2.items ≠ 0
    ∧ 0 % samples2.items < samples2.samples.length ∧ (0 : ℚ) < 1 / 2
    ∧ net3.size * net3.size + 2 * net3.size + 1 ≤ 16
    ∧ ((∃ h' nn', neuralNetTrain libmQ 16 0 ring3 net3 samples2 1 = some (h', nn')
        ∧ WellFormed h' nn' ∧ 1 ≤ nn'.size ∧ (ringAddrs h' nn').Nodup)
      ∧ (∃ h' nn', neuralNetGrow 16 ring3 net3 (1 / 2 : ℚ) = some (h', nn')
        ∧ WellFormed h' nn' ∧ 1 ≤ nn'.size ∧ (ringAddrs h' nn').Nodup)
      ∧ (∃ h' nn', neuralNetRemoveDoubleNeurons libmQ 16 ring3 net3 = some (h', nn')
        ∧ WellFormed h' nn' ∧ 1 ≤ nn'.size ∧ (ringAddrs h' nn').Nodup)) :=
  ⟨by decide, by decide, by decide, by norm_num, by decide,
    ring_invariant_preserved libmQ ring3 net3 samples2 0 1 (1 / 2) 16 (by decide) (by decide)
      (by decide) (by norm_num) (by decide)⟩

/-- C2 (nearest-neuron search): on a well-formed ring the scan of `neuralNetTrain` returns a
neuron of the ring, the `k`-th along `next` from the entry, together with its distance to
the sample; that distance is minimal over all neurons of the ring, and every neuron met
before the `k`-th is strictly farther from the sample. -/
theorem nearest_neuron_minimal (m : Libm R) (h : Heap R) (nn : NeuralNet) (sample : Vector R)
    (hw : WellFormed h nn) :
    ∃ w d k, neuralNetTrainNearest m h nn sample = some (w, d)
      ∧ k < nn.size ∧ w = ringAddr h nn.neurons k
      ∧ d = vectorLength m (vectorSub sample (posOf h w))
      ∧ (∀ j, j < nn.size →
          vectorLength m (vectorSub sample (posOf h w))
            ≤ vectorLength m (vectorSub sample (posOf h (ringAddr h nn.neurons j))))
      ∧ (∀ j, j < k →
          vectorLength m (vectorSub sample (posOf h w))
            < vectorLength m (vectorSub sample (posOf h (ringAddr h nn.neurons j)))) := by
  have hr := hw.repr
  have he : nn.neurons = headAddr (ringCells h nn) 0 := hw.headAddr_ringCells.symm
  have hlen := ringCells_length h nn
  obtain ⟨hk, hd, hmin, hfirst⟩ := nearestIdx_spec m sample hr.1
  have hk' : nearestIdx m sample (ringCells h nn) < nn.size := by rw [← hlen]; exact hk
  have hp : ∀ j (hj : j < (ringCells h nn).length),
      (ringCells h nn)[j].p = posOf h (ringAddr h nn.neurons j) := by
    intro j hj
    rw [ringCells_getElem]
  refine ⟨_, _, nearestIdx m sample (ringCells h nn),
    neuralNetTrainNearest_repr m sample hr nn he hlen.symm, hk', ?_, ?_, ?_, ?_⟩
  · exact addrAt_ringCells h nn hk'
  · rw [hd, hp _ hk, addrAt_ringCells h nn hk']; rfl
  · intro j hj
    have := hmin j (by rw [hlen]; exact hj)
    rw [hp _ hk, hp] at this
    rw [addrAt_ringCells h nn hk']
    exact this
  · intro j hj
    have := hfirst j (by rw [hlen]; omega) hj
    rw [hp _ hk, hp] at this
    rw [addrAt_ringCells h nn hk']
    exact this

/-- Witness for C2: the scan on a ring of three neurons. -/
theorem nearest_neuron_minimal_witness :
    WellFormed ring3 net3
    ∧ ∃ w d k, neuralNetTrainNearest libmQ ring3 net3 ⟨3, 3⟩ = some (w, d)
      ∧ k < net3.size ∧ w = ringAddr ring3 net3.neurons k
      ∧ d = vectorLength libmQ (vectorSub ⟨3, 3⟩ (posOf ring3 w))
      ∧ (∀ j, j < net3.size →
          vectorLength libmQ (vectorSub ⟨3, 3⟩ (posOf ring3 w))
            ≤ vectorLength libmQ (vectorSub ⟨3, 3⟩ (posOf ring3 (ringAddr ring3 net3.neurons j))))
      ∧ (∀ j, j < k →
          vectorLength libmQ (vectorSub ⟨3, 3⟩ (posOf ring3 w))
            < vectorLength libmQ
                (vectorSub ⟨3, 3⟩ (posOf ring3 (ringAddr ring3 net3.neurons j)))) :=
  ⟨by decide, nearest_neuron_minimal libmQ ring3 net3 ⟨3, 3⟩ (by decide)⟩

/-- C9 (growth monotonicity): for a positive threshold `neuralNetGrow` returns a well-formed
ring whose size is the input size plus the number of neurons of the input ring with
`hits ≥ growThreshold`; in particular the size does not decrease. -/
theorem grow_size (thr : R) (h : Heap R) (nn : NeuralNet) (fuel : Nat)
    (hw : WellFormed h nn) (hthr : 0 < thr) (hf : 2 * nn.size + 1 ≤ fuel) :
    ∃ h' nn', neuralNetGrow fuel h nn thr = some (h', nn')
      ∧ WellFormed h' nn'
      ∧ nn'.size
          = nn.size + (ringAddrs h nn).countP (fun a => decide (thr ≤ (hitsOf h a : R)))
      ∧ nn.size ≤ nn'.size := by
  obtain ⟨h', nn', e, hw', hnn, _, _⟩ := neuralNetGrow_cells thr hthr h nn hw fuel hf
  refine ⟨h', nn', e, hw', ?_, ?_⟩
  · rw [hnn, growCount_ringCells]
  · rw [hnn]; exact Nat.le_add_right _ _

/-- Witness for C9: growth of a ring of three neurons, two of which reach the threshold. -/
theorem grow_size_witness :
    WellFormed ring3 net3 ∧ (0 : ℚ) < 1 / 2 ∧ 2 * net3.size + 1 ≤ 7
    ∧ ∃ h' nn', neuralNetGrow 7 ring3 net3 (1 / 2 : ℚ) = some (h', nn')
      ∧ WellFormed h' nn'
      ∧ nn'.size = net3.size
          + (ringAddrs ring3 net3).countP (fun a => decide ((1 / 2 : ℚ) ≤ (hitsOf ring3 a : ℚ)))
      ∧ net3.size ≤ nn'.size :=
  ⟨by decide, by norm_num, by decide,
    grow_size (1 / 2) ring3 net3 7 (by decide) (by norm_num) (by decide)⟩

theorem midpoint_eq (a b : Vector R) :
    vectorAdd a (vectorScale (vectorSub b a) 0.5) = ⟨(a.x + b.x) / 2, (a.y + b.y) / 2⟩ := by
  simp only [vectorAdd, vectorScale, vectorSub, vectorMake, half_eq]
  congr 1 <;> ring

/-- C10 (growth placement): for a positive threshold `neuralNetGrow` returns a well-formed
ring with the same entry in which every neuron of the input ring keeps its position; the
successor of an input neuron with `hits ≥ growThreshold` is a newly allocated neuron, placed
at the midpoint of that neuron and its input successor and followed by that input successor;
the successor of any other input neuron is its input successor. -/
theorem grow_placement (thr : R) (h : Heap R) (nn : NeuralNet) (fuel : Nat)
    (hw : WellFormed h nn) (hthr : 0 < thr) (hf : 2 * nn.size + 1 ≤ fuel) :
    ∃ h' nn', neuralNetGrow fuel h nn thr = some (h', nn')
      ∧ WellFormed h' nn' ∧ nn'.neurons = nn.neurons
      ∧ ∀ x, x < nn.size →
          posOf h' (ringAddr h nn.neurons x) = posOf h (ringAddr h nn.neurons x)
          ∧ (thr ≤ (hitsOf h (ringAddr h nn.neurons x) : R) →
              ∃ c, h.get? c = none
                ∧ nextN h' 1 (ringAddr h nn.neurons x) = some c
                ∧ nextN h' 1 c = some (ringAddr h nn.neurons ((x + 1) % nn.size))
                ∧ posOf h' c
                    = ⟨((posOf h (ringAddr h nn.neurons x)).x
                          + (posOf h (ringAddr h nn.neurons ((x + 1) % nn.size))).x) / 2,
                       ((posOf h (ringAddr h nn.neurons x)).y
                          + (posOf h (ringAddr h nn.neurons ((x + 1) % nn.size))).y) / 2⟩)
          ∧ (¬ thr ≤ (hitsOf h (ringAddr h nn.neurons x) : R) →
              nextN h' 1 (ringAddr h nn.neurons x)
                = some (ringAddr h nn.neurons ((x + 1) % nn.size))) := by
  obtain ⟨h', nn', e, hw', hnn, _, hcells⟩ := neuralNetGrow_cells thr hthr h nn hw fuel hf
  refine ⟨h', nn', e, hw', by rw [hnn], ?_⟩
  intro x hx
  obtain ⟨d, hd, hp, hA, hB⟩ := hcells x hx
  refine ⟨by simp only [posOf, hd, hp], ?_, ?_⟩
  · intro hh
    obtain ⟨_, hfresh, dn, hdn, hdp, _, hnext, _⟩ := hA hh
    refine ⟨d.next, hfresh, by simp [nextN, hd], by simp [nextN, hdn, hnext], ?_⟩
    simp only [posOf, hdn, hdp]
    exact midpoint_eq _ _
  · intro hh
    simp [nextN, hd, (hB hh).2]

/-- Witness for C10: growth of a ring of three neurons. -/
theorem grow_placement_witness :
    WellFormed ring3 net3 ∧ (0 : ℚ) < 1 / 2 ∧ 2 * net3.size + 1 ≤ 7
    ∧ ∃ h' nn', neuralNetGrow 7 ring3 net3 (1 / 2 : ℚ) = some (h', nn')
      ∧ WellFormed h' nn' ∧ nn'.neurons = net3.neurons
      ∧ ∀ x, x < net3.size →
          posOf h' (ringAddr ring3 net3.neurons x) = posOf ring3 (ringAddr ring3 net3.neurons x)
          ∧ ((1 / 2 : ℚ) ≤ (hitsOf ring3 (ringAddr ring3 net3.neurons x) : ℚ) →
              ∃ c, ring3.get? c = none
                ∧ nextN h' 1 (ringAddr ring3 net3.neurons x) = some c
                ∧ nextN h' 1 c = some (ringAddr ring3 net3.neurons ((x + 1) % net3.size))
                ∧ posOf h' c
                    = ⟨((posOf ring3 (ringAddr ring3 net3.neurons x)).x
                          + (posOf ring3
                              (ringAddr ring3 net3.neurons ((x + 1) % net3.size))).x) / 2,
                       ((posOf ring3 (ringAddr ring3 net3.neurons x)).y
                          + (posOf ring3
                              (ringAddr ring3 net3.neurons ((x + 1) % net3.size))).y) / 2⟩)
          ∧ (¬ (1 / 2 : ℚ) ≤ (hitsOf ring3 (ringAddr ring3 net3.neurons x) : ℚ) →
              nextN h' 1 (ringAddr ring3 net3.neurons x)
                = some (ringAddr ring3 net3.neurons ((x + 1) % net3.size))) :=
  ⟨by decide, by norm_num, by decide,
    grow_placement (1 / 2) ring3 net3 7 (by decide) (by norm_num) (by decide)⟩

/-- C3 (learning rule): on a well-formed ring of at least 7 neurons `neuralNetTrain` returns,
and there are 7 consecutive neurons (the `s`-th to the `(s+6)`-th along `next`, all distinct)
such that the `t`-th of them (`t = 0..6`, `i = t - 3`) has moved from `p` to
`p + (sample - p) * exp (-(1 + |i|) / (2 * time))`, while every other neuron that was in the
ring keeps its position. -/
theorem learning_rule (m : Libm R) (h : Heap R) (nn : NeuralNet) (samples : SampleMap R)
    (rnd : Nat) (sample : Vector R) (time : R) (fuel : Nat)
    (hw : WellFormed h nn) (h7 : 7 ≤ nn.size) (hitems : samples.items ≠ 0)
    (hsample : samples.samples[rnd % samples.items]? = some sample)
    (hf : 2 * nn.size + 1 ≤ fuel) :
    ∃ h' nn' s, neuralNetTrain m fuel rnd h nn samples time = some (h', nn')
      ∧ s < nn.size
      ∧ (∀ t, t < 7 →
          posOf h' (ringAddr h nn.neurons ((s + t) % nn.size))
            = ⟨(posOf h (ringAddr h nn.neurons ((s + t) % nn.size))).x
                + (sample.x - (posOf h (ringAddr h nn.neurons ((s + t) % nn.size))).x)
                  * m.exp (-((1 + |(t : R) - 3|) / (2 * time))),
               (posOf h (ringAddr h nn.neurons ((s + t) % nn.size))).y
                + (sample.y - (posOf h (ringAddr h nn.neurons ((s + t) % nn.size))).y)
                  * m.exp (-((1 + |(t : R) - 3|) / (2 * time)))⟩)
      ∧ (∀ t t', t < 7 → t' < 7 → (s + t) % nn.size = (s + t') % nn.size → t = t')
      ∧ (∀ x, x < nn.size → (∀ t, t < 7 → (s + t) % nn.size ≠ x) →
          posOf h' (ringAddr h nn.neurons x) = posOf h (ringAddr h nn.neurons x)) := by
  obtain ⟨h', nn', e, _, _, _, _, hcells⟩ := neuralNetTrain_cells m h nn samples rnd sample
    time fuel hw hitems hsample hf
  have hn : 0 < nn.size := hw.1
  refine ⟨h', nn', windowStart m sample h nn, e, windowStart_lt m sample hw, ?_, ?_, ?_⟩
  · intro t ht
    obtain ⟨d, hd, hp, _⟩ := hcells _ (Nat.mod_lt (windowStart m sample h nn + t) hn)
    rw [learnedCell_p_of_visited_once m sample time h nn h7 t ht, movePos_eq] at hp
    simp only [posOf, hd, hp]
    rfl
  · intro t t' ht ht' e'
    exact mod_add_inj (by omega) (by omega) e'
  · intro x hx hv
    obtain ⟨d, hd, hp, _⟩ := hcells x hx
    rw [learnedCell_p_of_not_visited m sample time h nn x hv] at hp
    simp only [posOf, hd, hp]

/-- Witness for C3: one training step on a ring of eight neurons. -/
theorem learning_rule_witness :
    WellFormed ring8 net8 ∧ 7 ≤ net8.size ∧ samples2.items ≠ 0
    ∧ samples2.samples[1 % samples2.items]? = some ⟨3, 3⟩ ∧ 2 * net8.size + 1 ≤ 17
    ∧ ∃ h' nn' s, neuralNetTrain libmQ 17 1 ring8 net8 samples2 1 = some (h', nn')
      ∧ s < net8.size
      ∧ (∀ t, t < 7 →
          posOf h' (ringAddr ring8 net8.neurons ((s + t) % net8.size))
            = ⟨(posOf ring8 (ringAddr ring8 net8.neurons ((s + t) % net8.size))).x
                + ((⟨3, 3⟩ : Vector ℚ).x
                    - (posOf ring8 (ringAddr ring8 net8.neurons ((s + t) % net8.size))).x)
                  * libmQ.exp (-((1 + |(t : ℚ) - 3|) / (2 * 1))),
               (posOf ring8 (ringAddr ring8 net8.neurons ((s + t) % net8.size))).y
                + ((⟨3, 3⟩ : Vector ℚ).y
                    - (posOf ring8 (ringAddr ring8 net8.neurons ((s + t) % net8.size))).y)
                  * libmQ.exp (-((1 + |(t : ℚ) - 3|) / (2 * 1)))⟩)
      ∧ (∀ t t', t < 7 → t' < 7 → (s + t) % net8.size = (s + t') % net8.size → t = t')
      ∧ (∀ x, x < net8.size → (∀ t, t < 7 → (s + t) % net8.size ≠ x) →
          posOf h' (ringAddr ring8 net8.neurons x)
            = posOf ring8 (ringAddr ring8 net8.neurons x)) :=
  ⟨by decide, by decide, by decide, by decide, by decide,
    learning_rule libmQ ring8 net8 samples2 1 ⟨3, 3⟩ 1 17 (by decide) (by decide) (by decide)
      (by decide) (by decide)⟩

/-- C8 (learning locality): after one call of `neuralNetTrain` (also when it triggers growth)
at most `min size 7` of the neurons that were in the ring have a changed position; the
changed ones are among the 7 neurons from the `s`-th on, and every other neuron that was in
the ring has exactly its old position. -/
theorem learning_locality (m : Libm R) (h : Heap R) (nn : NeuralNet) (samples : SampleMap R)
    (rnd : Nat) (sample : Vector R) (time : R) (fuel : Nat)
    (hw : WellFormed h nn) (hitems : samples.items ≠ 0)
    (hsample : samples.samples[rnd % samples.items]? = some sample)
    (hf : 2 * nn.size + 1 ≤ fuel) :
    ∃ h' nn' s, neuralNetTrain m fuel rnd h nn samples time = some (h', nn')
      ∧ (ringAddrs h nn).countP (fun a => decide (posOf h' a ≠ posOf h a)) ≤ min nn.size 7
      ∧ (∀ x, x < nn.size → (∀ t, t < 7 → (s + t) % nn.size ≠ x) →
          posOf h' (ringAddr h nn.neurons x) = posOf h (ringAddr h nn.neurons x)) := by
  obtain ⟨h', nn', e, _, _, _, _, hcells⟩ := neuralNetTrain_cells m h nn samples rnd sample
    time fuel hw hitems hsample hf
  have hkeep : ∀ x, x < nn.size →
      (∀ t, t < 7 → (windowStart m sample h nn + t) % nn.size ≠ x) →
      posOf h' (ringAddr h nn.neurons x) = posOf h (ringAddr h nn.neurons x) := by
    intro x hx hv
    obtain ⟨d, hd, hp, _⟩ := hcells x hx
    rw [learnedCell_p_of_not_visited m sample time h nn x hv] at hp
    simp only [posOf, hd, hp]
  refine ⟨h', nn', windowStart m sample h nn, e, ?_, hkeep⟩
  apply le_min
  · calc (ringAddrs h nn).countP (fun a => decide (posOf h' a ≠ posOf h a))
        ≤ (ringAddrs h nn).length := List.countP_le_length _
      _ = nn.size := by simp [ringAddrs]
  · unfold ringAddrs
    rw [List.countP_map]
    calc (List.range nn.size).countP
          ((fun a => decide (posOf h' a ≠ posOf h a)) ∘ ringAddr h nn.neurons)
        ≤ (List.range nn.size).countP (fun x => decide (x ∈ (List.range 7).map
            fun t => (windowStart m sample h nn + t) % nn.size)) := by
          apply List.countP_mono_left
          intro x hx hch
          simp only [Function.comp_apply, decide_eq_true_eq] at hch
          simp only [decide_eq_true_eq, List.mem_map, List.mem_range]
          by_contra hnot
          apply hch
          apply hkeep x (List.mem_range.mp hx)
          intro t ht e'
          exact hnot ⟨t, ht, e'⟩
      _ ≤ ((List.range 7).map fun t => (windowStart m sample h nn + t) % nn.size).length :=
          countP_mem_le (List.nodup_range _)
      _ = 7 := by simp

/-- Witness for C8: one training step on a ring of three neurons. -/
theorem learning_locality_witness :
    WellFormed ring3 net3 ∧ samples2.items ≠ 0
    ∧ samples2.samples[1 % samples2.items]? = some ⟨3, 3⟩ ∧ 2 * net3.size + 1 ≤ 7
    ∧ ∃ h' nn' s, neuralNetTrain libmQ 7 1 ring3 net3 samples2 1 = some (h', nn')
      ∧ (ringAddrs ring3 net3).countP (fun a => decide (posOf h' a ≠ posOf ring3 a))
          ≤ min net3.size 7
      ∧ (∀ x, x < net3.size → (∀ t, t < 7 → (s + t) % net3.size ≠ x) →
          posOf h' (ringAddr ring3 net3.neurons x)
            = posOf ring3 (ringAddr ring3 net3.neurons x)) :=
  ⟨by decide, by decide, by decide, by decide,
    learning_locality libmQ ring3 net3 samples2 1 ⟨3, 3⟩ 1 7 (by decide) (by decide)
      (by decide) (by decide)⟩

/-- C6 (counters in a learning step): on a well-formed ring, when the growth condition does
not hold, `neuralNetTrain` returns (whatever the fuel); the hits of the winning neuron `w`
are incremented by one (as an `unsigned`: `(hits + 1) % 2^32`, that is `hits + 1` unless the
counter is at its maximum), the hits of every other neuron of the ring are unchanged,
`learned` is incremented by one (as an `unsigned long`), and `size`, the entry and the
`next` and `prev` links of every neuron of the ring are unchanged. -/
theorem learning_counters (m : Libm R) (h : Heap R) (nn : NeuralNet) (samples : SampleMap R)
    (rnd : Nat) (sample : Vector R) (time : R) (fuel : Nat)
    (hw : WellFormed h nn) (hitems : samples.items ≠ 0)
    (hsample : samples.samples[rnd % samples.items]? = some sample)
    (hnc : ¬ ((nn.size : R) < m.log (samples.items : R) * (samples.items : R)
      ∧ neuralNetLearnAfter samples.items ≤ (nn.learned + 1) % ULONG_RANGE)) :
    ∃ h' nn' w, neuralNetTrain m fuel rnd h nn samples time = some (h', nn')
      ∧ (neuralNetTrainNearest m h nn sample).map Prod.fst = some w
      ∧ w ∈ ringAddrs h nn
      ∧ hitsOf h' w = (hitsOf h w + 1) % UINT_RANGE
      ∧ (hitsOf h w + 1 < UINT_RANGE → hitsOf h' w = hitsOf h w + 1)
      ∧ (∀ a, a ∈ ringAddrs h nn → a ≠ w → hitsOf h' a = hitsOf h a)
      ∧ nn'.learned = (nn.learned + 1) % ULONG_RANGE
      ∧ (nn.learned + 1 < ULONG_RANGE → nn'.learned = nn.learned + 1)
      ∧ nn'.size = nn.size ∧ nn'.neurons = nn.neurons
      ∧ (∀ a, a ∈ ringAddrs h nn →
          (h'.get? a).map NeuronData.next = (h.get? a).map NeuronData.next
          ∧ (h'.get? a).map NeuronData.prev = (h.get? a).map NeuronData.prev) := by
  have hnc' : ¬ growthCondition m nn samples.items := hnc
  have hr := hw.repr
  have hn : 0 < nn.size := hw.1
  have hlen := ringCells_length h nn
  obtain ⟨h', nn', e, _, hentry, _, hB, hcells⟩ := neuralNetTrain_cells m h nn samples rnd
    sample time (2 * nn.size + 1) hw hitems hsample (Nat.le_refl _)
  obtain ⟨hlearned, hsize⟩ := hB hnc'
  obtain ⟨h1, e1, _, _⟩ := neuralNetTrainLearn_repr m hr nn hw.headAddr_ringCells.symm
    hlen.symm samples rnd sample hitems hsample time
  have heq := neuralNetTrain_eq m
  have e2 := (heq (2 * nn.size + 1) rnd h nn samples time h1 _ e1 rfl rfl).2 hnc'
  have e3 := (heq fuel rnd h nn samples time h1 _ e1 rfl rfl).2 hnc'
  rw [e] at e2
  have hwlt := winnerIdx_lt m sample hw
  have hinj : ∀ x, x < nn.size →
      ringAddr h nn.neurons x = ringAddr h nn.neurons (winnerIdx m sample h nn) →
      winnerIdx m sample h nn = x := by
    intro x hx e'
    rcases Nat.lt_trichotomy x (winnerIdx m sample h nn) with hlt | heq' | hgt
    · exact (hw.ringAddr_inj hlt hwlt e').elim
    · exact heq'.symm
    · exact (hw.ringAddr_inj hgt hx e'.symm).elim
  have hmem : ∀ a, a ∈ ringAddrs h nn → ∃ x, x < nn.size ∧ ringAddr h nn.neurons x = a := by
    intro a ha
    obtain ⟨x, hx, rfl⟩ := List.mem_map.mp ha
    exact ⟨x, List.mem_range.mp hx, rfl⟩
  have hhit : hitsOf h' (ringAddr h nn.neurons (winnerIdx m sample h nn))
      = (hitsOf h (ringAddr h nn.neurons (winnerIdx m sample h nn)) + 1) % UINT_RANGE := by
    obtain ⟨d, hd, _, hC⟩ := hcells _ hwlt
    rw [learnedCell_hits, if_pos rfl] at hC
    simp only [hitsOf, hd, (hC hnc').1]
  refine ⟨h', nn', ringAddr h nn.neurons (winnerIdx m sample h nn), ?_,
    neuralNetTrainNearest_winner m sample hw, ?_, hhit, ?_, ?_, hlearned, ?_, hsize, hentry,
    ?_⟩
  · rw [e3, e2]
  · exact List.mem_map.mpr ⟨_, List.mem_range.mpr hwlt, rfl⟩
  · intro hlt
    rw [hhit, Nat.mod_eq_of_lt hlt]
  · intro a ha hne
    obtain ⟨x, hx, rfl⟩ := hmem a ha
    obtain ⟨d, hd, _, hC⟩ := hcells x hx
    rw [learnedCell_hits, if_neg (fun e' => hne (by rw [e']))] at hC
    simp only [hitsOf, hd, (hC hnc').1]
  · intro hlt
    rw [hlearned, Nat.mod_eq_of_lt hlt]
  · intro a ha
    obtain ⟨x, hx, rfl⟩ := hmem a ha
    obtain ⟨d, hd, _, hC⟩ := hcells x hx
    obtain ⟨_, hnext, hprev⟩ := hC hnc'
    have hx' : x < (ringCells h nn).length := by rw [hlen]; exact hx
    have hold := hr.get_addrAt hx'
    rw [hlen, addrAt_ringCells h nn hx, addrAt_ringCells h nn (Nat.mod_lt _ hn),
      addrAt_ringCells h nn (Nat.mod_lt _ hn)] at hold
    rw [hd, hold]
    simp [hnext, hprev]

/-- Witness for C6: one training step without growth on a ring of three neurons. -/
theorem learning_counters_witness :
    WellFormed ring3 net3 ∧ samples2.items ≠ 0
    ∧ samples2.samples[1 % samples2.items]? = some ⟨3, 3⟩
    ∧ ¬ ((net3.size : ℚ) < libmQ.log (samples2.items : ℚ) * (samples2.items : ℚ)
      ∧ neuralNetLearnAfter samples2.items ≤ (net3.learned + 1) % ULONG_RANGE)
    ∧ ∃ h' nn' w, neuralNetTrain libmQ 0 1 ring3 net3 samples2 1 = some (h', nn')
      ∧ (neuralNetTrainNearest libmQ ring3 net3 ⟨3, 3⟩).map Prod.fst = some w
      ∧ w ∈ ringAddrs ring3 net3
      ∧ hitsOf h' w = (hitsOf ring3 w + 1) % UINT_RANGE
      ∧ (hitsOf ring3 w + 1 < UINT_RANGE → hitsOf h' w = hitsOf ring3 w + 1)
      ∧ (∀ a, a ∈ ringAddrs ring3 net3 → a ≠ w → hitsOf h' a = hitsOf ring3 a)
      ∧ nn'.learned = (net3.learned + 1) % ULONG_RANGE
      ∧ (net3.learned + 1 < ULONG_RANGE → nn'.learned = net3.learned + 1)
      ∧ nn'.size = net3.size ∧ nn'.neurons = net3.neurons
      ∧ (∀ a, a ∈ ringAddrs ring3 net3 →
          (h'.get? a).map NeuronData.next = (ring3.get? a).map NeuronData.next
          ∧ (h'.get? a).map NeuronData.prev = (ring3.get? a).map NeuronData.prev) :=
  ⟨by decide, by decide, by decide, by simp [libmQ, samples2, net3]; norm_num,
    learning_counters libmQ ring3 net3 samples2 1 ⟨3, 3⟩ 1 0 (by decide) (by decide)
      (by decide) (by simp [libmQ, samples2, net3]; norm_num)⟩

/-- C7 (growth trigger): with `n ≥ 1` samples, after its learning step `neuralNetTrain`
calls `neuralNetGrow` with threshold `1 / log n` exactly when `size < log n * n` and
`learned + 1 ≥ n` (`size` and `learned` as on entry, `learned + 1` as an `unsigned long`);
if it does, the returned `learned` is `0`, otherwise the result is that of the learning step,
with `learned + 1`. -/
theorem growth_trigger (m : Libm R) (h : Heap R) (nn : NeuralNet) (samples : SampleMap R)
    (rnd : Nat) (time : R) (fuel : Nat)
    (hw : WellFormed h nn) (hitems : 1 ≤ samples.items)
    (hidx : rnd % samples.items < samples.samples.length)
    (hf : 2 * nn.size + 1 ≤ fuel) :
    ∃ h1 nn1, neuralNetTrainLearn m rnd h nn samples time = some (h1, nn1)
      ∧ nn1.size = nn.size ∧ nn1.learned = (nn.learned + 1) % ULONG_RANGE
      ∧ (nn.learned + 1 < ULONG_RANGE → nn1.learned = nn.learned + 1)
      ∧ (((nn.size : R) < m.log (samples.items : R) * (samples.items : R)
            ∧ samples.items ≤ (nn.learned + 1) % ULONG_RANGE) →
          neuralNetTrain m fuel rnd h nn samples time
            = neuralNetGrow fuel h1 nn1 (1 / m.log (samples.items : R))
          ∧ ∃ h' nn', neuralNetTrain m fuel rnd h nn samples time = some (h', nn')
            ∧ nn'.learned = 0)
      ∧ (¬ ((nn.size : R) < m.log (samples.items : R) * (samples.items : R)
            ∧ samples.items ≤ (nn.learned + 1) % ULONG_RANGE) →
          neuralNetTrain m fuel rnd h nn samples time = some (h1, nn1)) := by
  have hitems' : samples.items ≠ 0 := by omega
  obtain ⟨sample, hsample⟩ : ∃ s, samples.samples[rnd % samples.items]? = some s :=
    ⟨_, List.getElem?_eq_getElem hidx⟩
  obtain ⟨h1, e1, _, _⟩ := neuralNetTrainLearn_repr m hw.repr nn
    hw.headAddr_ringCells.symm (ringCells_length h nn).symm samples rnd sample hitems'
    hsample time
  obtain ⟨hA, hB⟩ := neuralNetTrain_eq m fuel rnd h nn samples time h1 _ e1 rfl rfl
  obtain ⟨h', nn', e, _, _, hl0, _, _⟩ := neuralNetTrain_cells m h nn samples rnd sample
    time fuel hw hitems' hsample hf
  refine ⟨h1, _, e1, rfl, rfl, fun hlt => Nat.mod_eq_of_lt hlt, ?_, hB⟩
  intro hc
  exact ⟨hA hc, h', nn', e, hl0 hc⟩

/-- Witness for C7: one training step on a ring of three neurons. -/
theorem growth_trigger_witness :
    WellFormed ring3 net3 ∧ 1 ≤ samples2.items
    ∧ 1 % samples2.items < samples2.samples.length ∧ 2 * net3.size + 1 ≤ 7
    ∧ ∃ h1 nn1, neuralNetTrainLearn libmQ 1 ring3 net3 samples2 1 = some (h1, nn1)
      ∧ nn1.size = net3.size ∧ nn1.learned = (net3.learned + 1) % ULONG_RANGE
      ∧ (net3.learned + 1 < ULONG_RANGE → nn1.learned = net3.learned + 1)
      ∧ (((net3.size : ℚ) < libmQ.log (samples2.items : ℚ) * (samples2.items : ℚ)
            ∧ samples2.items ≤ (net3.learned + 1) % ULONG_RANGE) →
          neuralNetTrain libmQ 7 1 ring3 net3 samples2 1
            = neuralNetGrow 7 h1 nn1 (1 / libmQ.log (samples2.items : ℚ))
          ∧ ∃ h' nn', neuralNetTrain libmQ 7 1 ring3 net3 samples2 1 = some (h', nn')
            ∧ nn'.learned = 0)
      ∧ (¬ ((net3.size : ℚ) < libmQ.log (samples2.items : ℚ) * (samples2.items : ℚ)
            ∧ samples2.items ≤ (net3.learned + 1) % ULONG_RANGE) →
          neuralNetTrain libmQ 7 1 ring3 net3 samples2 1 = some (h1, nn1)) :=
  ⟨by decide, by decide, by decide, by decide,
    growth_trigger libmQ ring3 net3 samples2 1 1 7 (by decide) (by decide) (by decide)
      (by decide)⟩

/-- C4 (the update window is not centred on the winner): on the ring of nine neurons at the
origin, with the sample `(1, 0)` and `time = 1`, every neuron is equally near, so the winner
is the entry (address 1). `neuralNetTrain` moves the winner with `|i| = 1` (to `exp (-1)`),
its predecessor (address 9) with `i = 0` (to `exp (-1/2)`), the neuron four steps before the
winner (address 6) with `|i| = 3` (to `exp (-2)`), and leaves the neuron three steps after
the winner (address 4) where it was; so the winner moves less than its predecessor. -/
theorem update_window_not_centred :
    ∃ h' nn', neuralNetTrain (⟨Real.sqrt, Real.exp, Real.log⟩ : Libm ℝ) 19 0 (ring9 ℝ) net9
        (samples1 ℝ) 1 = some (h', nn')
      ∧ (neuralNetTrainNearest (⟨Real.sqrt, Real.exp, Real.log⟩ : Libm ℝ) (ring9 ℝ) net9
          ⟨1, 0⟩).map Prod.fst = some 1
      ∧ posOf h' 1 = ⟨Real.exp (-1), 0⟩
      ∧ posOf h' 9 = ⟨Real.exp (-(1 / 2)), 0⟩
      ∧ posOf h' 6 = ⟨Real.exp (-2), 0⟩
      ∧ posOf h' 4 = ⟨0, 0⟩
      ∧ (posOf h' 1).x < (posOf h' 9).x := by
  have hw : WellFormed (ring9 ℝ) net9 := by decide
  have hcells : ringCells (ring9 ℝ) net9
      = [⟨1, ⟨0, 0⟩, 0⟩, ⟨2, ⟨0, 0⟩, 0⟩, ⟨3, ⟨0, 0⟩, 0⟩, ⟨4, ⟨0, 0⟩, 0⟩, ⟨5, ⟨0, 0⟩, 0⟩,
          ⟨6, ⟨0, 0⟩, 0⟩, ⟨7, ⟨0, 0⟩, 0⟩, ⟨8, ⟨0, 0⟩, 0⟩, ⟨9, ⟨0, 0⟩, 0⟩] := rfl
  have hwin : winnerIdx (⟨Real.sqrt, Real.exp, Real.log⟩ : Libm ℝ) ⟨1, 0⟩ (ring9 ℝ) net9
      = 0 := by
    unfold winnerIdx
    rw [hcells]
    simp [nearestIdx, nearestFrom, sampleDist, vectorLength, vectorSub, vectorMake, headP]
  obtain ⟨h', nn', e, h1, h2, h3, h4⟩ := window_off_centre
    (⟨Real.sqrt, Real.exp, Real.log⟩ : Libm ℝ) (ring9 ℝ) net9 (samples1 ℝ) 0 ⟨1, 0⟩ 1 19 hw
    (by decide) (by decide) rfl (by decide)
  have hnear := neuralNetTrainNearest_winner (⟨Real.sqrt, Real.exp, Real.log⟩ : Libm ℝ)
    ⟨1, 0⟩ hw
  rw [hwin] at h1 h2 h3 h4 hnear
  have a0 : ringAddr (ring9 ℝ) net9.neurons 0 = 1 := rfl
  have a8 : ringAddr (ring9 ℝ) net9.neurons ((0 + (net9.size - 1)) % net9.size) = 9 := rfl
  have a5 : ringAddr (ring9 ℝ) net9.neurons ((0 + (net9.size - 4)) % net9.size) = 6 := rfl
  have a3 : ringAddr (ring9 ℝ) net9.neurons ((0 + 3) % net9.size) = 4 := rfl
  have p1 : posOf (ring9 ℝ) 1 = ⟨0, 0⟩ := rfl
  have p9 : posOf (ring9 ℝ) 9 = ⟨0, 0⟩ := rfl
  have p6 : posOf (ring9 ℝ) 6 = ⟨0, 0⟩ := rfl
  have p4 : posOf (ring9 ℝ) 4 = ⟨0, 0⟩ := rfl
  rw [a0] at h1 hnear
  rw [a8] at h2
  rw [a5] at h3
  rw [a3] at h4
  rw [p1] at h1
  rw [p9] at h2
  rw [p6] at h3
  rw [p4] at h4
  have q1 : posOf h' 1 = ⟨Real.exp (-1), 0⟩ := by
    rw [h1]
    simp only [vectorAdd, vectorScale, vectorSub, vectorMake]
    norm_num
  have q9 : posOf h' 9 = ⟨Real.exp (-(1 / 2)), 0⟩ := by
    rw [h2]
    simp only [vectorAdd, vectorScale, vectorSub, vectorMake]
    norm_num
  have q6 : posOf h' 6 = ⟨Real.exp (-2), 0⟩ := by
    rw [h3]
    simp only [vectorAdd, vectorScale, vectorSub, vectorMake]
    norm_num
  refine ⟨h', nn', e, hnear, q1, q9, q6, h4, ?_⟩
  rw [q1, q9]
  exact Real.exp_lt_exp.mpr (by norm_num)

/-- C14 (`neuralNetLength` is the closed-tour perimeter): on a well-formed ring
`neuralNetLength` returns the sum, over the `size` distinct neurons of the ring, of the
distance between the neuron and its successor; on a ring of two neurons that is twice the
distance between them. -/
theorem length_is_perimeter (m : Libm R) (h : Heap R) (nn : NeuralNet) (fuel : Nat)
    (hw : WellFormed h nn) (hf : nn.size ≤ fuel) :
    neuralNetLength m fuel h nn = some (ringLength m h nn)
    ∧ ringLength m h nn
        = ((ringAddrs h nn).map fun a =>
            vectorLength m (vectorSub (posOf h a) (posOf h (nextOf h a)))).sum
    ∧ (ringAddrs h nn).Nodup ∧ (ringAddrs h nn).length = nn.size
    ∧ (nn.size = 2 →
        neuralNetLength m fuel h nn
          = some (2 * vectorLength m
              (vectorSub (posOf h nn.neurons) (posOf h (nextOf h nn.neurons))))) := by
  have hl := neuralNetLength_wf m hw fuel hf
  refine ⟨hl, rfl, ?_, by simp [ringAddrs], ?_⟩
  · exact (hw.repr.wellFormed_nodup nn hw.headAddr_ringCells.symm
      (ringCells_length h nn).symm).2.2
  · intro h2
    rw [hl, ringLength_two m hw h2]
    rfl

/-- Witness for C14: the length of a ring of three neurons. -/
theorem length_is_perimeter_witness :
    WellFormed ring3 net3 ∧ net3.size ≤ 3
    ∧ neuralNetLength libmQ 3 ring3 net3 = some (ringLength libmQ ring3 net3)
    ∧ ringLength libmQ ring3 net3
        = ((ringAddrs ring3 net3).map fun a =>
            vectorLength libmQ (vectorSub (posOf ring3 a) (posOf ring3 (nextOf ring3 a)))).sum
    ∧ (ringAddrs ring3 net3).Nodup ∧ (ringAddrs ring3 net3).length = net3.size
    ∧ (net3.size = 2 →
        neuralNetLength libmQ 3 ring3 net3
          = some (2 * vectorLength libmQ
              (vectorSub (posOf ring3 net3.neurons) (posOf ring3 (nextOf ring3 net3.neurons))))) :=
  ⟨by decide, by decide, length_is_perimeter libmQ ring3 net3 3 (by decide) (by decide)⟩

/-- C15 (`neuralNetMake`): `neuralNetMake` returns a well-formed ring with `size = 1` and
`learned = 0`; its single neuron is newly allocated, is its own `next` and `prev`, has
`hits = 0` and lies at the centre of the bounding box; the rest of the memory is unchanged. -/
theorem make_single_neuron (h : Heap R) (bounds : PositionBounds R) :
    ∃ h' nn, neuralNetMake h bounds = some (h', nn)
      ∧ WellFormed h' nn ∧ nn.size = 1 ∧ nn.learned = 0
      ∧ h.get? nn.neurons = none
      ∧ h'.get? nn.neurons
          = some ⟨⟨(bounds.topleft.x + bounds.bottomright.x) / 2,
                   (bounds.topleft.y + bounds.bottomright.y) / 2⟩, 0, nn.neurons, nn.neurons⟩
      ∧ ∀ b, b ≠ nn.neurons → h'.get? b = h.get? b := by
  obtain ⟨h', e, _, g⟩ := neuralNetMake_run h bounds
  obtain ⟨h'', e', hr⟩ := neuralNetMake_repr h bounds
  have : h'' = h' := by rw [e] at e'; cases e'; rfl
  subst this
  refine ⟨h'', _, e, hr.wellFormed _ rfl rfl, rfl, rfl,
    Heap.get?_eq_none_of_lt (Nat.lt_succ_self _), ?_, ?_⟩
  · rw [g, if_pos rfl, midpoint_eq]
  · intro b hb
    rw [g, if_neg hb]

/-- C18 (length non-negativity): with `sqrt` non-negative on non-negative arguments and
`sqrt 0 = 0`, `neuralNetLength` of a well-formed ring is non-negative, and it is exactly `0`
on a ring of one neuron, in particular on the ring that `neuralNetMake` returns. -/
theorem length_nonneg (m : Libm R) (h : Heap R) (nn : NeuralNet) (fuel : Nat) (h₀ : Heap R)
    (bounds : PositionBounds R) (hw : WellFormed h nn) (hf : nn.size ≤ fuel)
    (hsqrt : ∀ a, 0 ≤ a → 0 ≤ m.sqrt a) (hsqrt0 : m.sqrt 0 = 0) :
    (∃ r, neuralNetLength m fuel h nn = some r ∧ 0 ≤ r ∧ (nn.size = 1 → r = 0))
    ∧ ∃ h' nn', neuralNetMake h₀ bounds = some (h', nn') ∧ nn'.size = 1
        ∧ neuralNetLength m (fuel + 1) h' nn' = some 0 := by
  refine ⟨⟨_, neuralNetLength_wf m hw fuel hf, ringLength_nonneg m hsqrt h nn,
    ringLength_one m hsqrt0 hw⟩, ?_⟩
  obtain ⟨h', e, hr⟩ := neuralNetMake_repr h₀ bounds
  have hw' : WellFormed h' ⟨1, 0, h₀.cells.length + 1⟩ := hr.wellFormed _ rfl rfl
  refine ⟨h', _, e, rfl, ?_⟩
  rw [neuralNetLength_wf m hw' (fuel + 1) (by simp), ringLength_one m hsqrt0 hw' rfl]

/-- Witness for C18: the length of a ring of three neurons. -/
theorem length_nonneg_witness :
    WellFormed ring3 net3 ∧ net3.size ≤ 3
    ∧ (∀ a : ℚ, 0 ≤ a → 0 ≤ libmQ.sqrt a) ∧ libmQ.sqrt 0 = 0
    ∧ (∃ r, neuralNetLength libmQ 3 ring3 net3 = some r ∧ 0 ≤ r ∧ (net3.size = 1 → r = 0))
    ∧ ∃ h' nn', neuralNetMake ring3 ⟨⟨0, 0⟩, ⟨10, 10⟩⟩ = some (h', nn') ∧ nn'.size = 1
        ∧ neuralNetLength libmQ (3 + 1) h' nn' = some 0 :=
  ⟨by decide, by decide, fun _ ha => ha, rfl,
    length_nonneg libmQ ring3 net3 3 ring3 ⟨⟨0, 0⟩, ⟨10, 10⟩⟩ (by decide) (by decide)
      (fun _ ha => ha) rfl⟩

/-- C16 (insertion postcondition): for the `x`-th neuron `n` of a well-formed ring, with
successor `s`, `neuronInsert` returns a newly allocated neuron `mm` with `hits = 0`, at the
midpoint of `n` and `s`, linked as `n.next = mm`, `mm.prev = n`, `mm.next = s`,
`s.prev = mm`; every other link, every position and every other hit count but that of `n`
(which is reset) is unchanged; the ring, with `size + 1`, is well-formed and is the old ring
with `mm` right after `n`. On a one-neuron ring the new neuron lies where the old one does
and the ring has two neurons. -/
theorem insert_postcondition (h : Heap R) (nn : NeuralNet) (x : Nat) (hw : WellFormed h nn)
    (hx : x < nn.size) :
    ∃ h' mm, neuronInsert h (ringAddr h nn.neurons x) = some (h', mm)
      ∧ h.get? mm = none
      ∧ h'.get? mm
          = some ⟨⟨((posOf h (ringAddr h nn.neurons x)).x
                      + (posOf h (ringAddr h nn.neurons ((x + 1) % nn.size))).x) / 2,
                   ((posOf h (ringAddr h nn.neurons x)).y
                      + (posOf h (ringAddr h nn.neurons ((x + 1) % nn.size))).y) / 2⟩,
                  0, ringAddr h nn.neurons ((x + 1) % nn.size), ringAddr h nn.neurons x⟩
      ∧ nextOf h (ringAddr h nn.neurons x) = ringAddr h nn.neurons ((x + 1) % nn.size)
      ∧ nextOf h' (ringAddr h nn.neurons x) = mm
      ∧ prevOf h' (ringAddr h nn.neurons ((x + 1) % nn.size)) = mm
      ∧ (∀ b, b ≠ mm → b ≠ ringAddr h nn.neurons x →
          (h'.get? b).map NeuronData.next = (h.get? b).map NeuronData.next)
      ∧ (∀ b, b ≠ mm → b ≠ ringAddr h nn.neurons ((x + 1) % nn.size) →
          (h'.get? b).map NeuronData.prev = (h.get? b).map NeuronData.prev)
      ∧ (∀ b, b ≠ mm → (h'.get? b).map NeuronData.p = (h.get? b).map NeuronData.p)
      ∧ (∀ b, b ≠ mm → b ≠ ringAddr h nn.neurons x →
          (h'.get? b).map NeuronData.hits = (h.get? b).map NeuronData.hits)
      ∧ hitsOf h' (ringAddr h nn.neurons x) = 0
      ∧ WellFormed h' ⟨nn.size + 1, nn.learned, nn.neurons⟩
      ∧ ringAddrs h' ⟨nn.size + 1, nn.learned, nn.neurons⟩
          = (ringAddrs h nn).take (x + 1) ++ mm :: (ringAddrs h nn).drop (x + 1)
      ∧ (nn.size = 1 →
          posOf h' mm = posOf h (ringAddr h nn.neurons x) ∧ nn.size + 1 = 2) := by
  obtain ⟨h', d, dn, hd, hnx, hn, e, g, hw', hra⟩ := neuronInsert_wf hw hx
  have hne1 : ringAddr h nn.neurons x ≠ h.cells.length + 1 := by
    have := (Heap.pos_of_get? hd).2; omega
  have hne2 : d.next ≠ h.cells.length + 1 := by
    have := (Heap.pos_of_get? hn).2; omega
  have hpn : posOf h (ringAddr h nn.neurons x) = d.p := by simp [posOf, hd]
  have hps : posOf h (ringAddr h nn.neurons ((x + 1) % nn.size)) = dn.p := by
    rw [← hnx]; simp [posOf, hn]
  have hmm : h'.get? (h.cells.length + 1)
      = some ⟨vectorAdd d.p (vectorScale (vectorSub dn.p d.p) 0.5), 0, d.next,
          ringAddr h nn.neurons x⟩ := by rw [g, if_pos rfl]
  refine ⟨h', _, e, Heap.get?_eq_none_of_lt (Nat.lt_succ_self _), ?_, ?_, ?_, ?_, ?_, ?_, ?_,
    ?_, ?_, hw', hra, ?_⟩
  · rw [hmm, midpoint_eq, hpn, hps, hnx]
  · simp [nextOf, hd, hnx]
  · simp [nextOf, g, hne1]
  · rw [← hnx]
    by_cases hs : d.next = ringAddr h nn.neurons x
    · simp [prevOf, g, hs, hne1]
    · simp [prevOf, g, hne2, hs]
  · intro b hb1 hb2
    rw [g, if_neg hb1, if_neg hb2]
    by_cases hb3 : b = d.next
    · simp [hb3, hn]
    · rw [if_neg hb3]
  · intro b hb1 hb2
    rw [← hnx] at hb2
    rw [g, if_neg hb1, if_neg hb2]
    by_cases hb3 : b = ringAddr h nn.neurons x
    · have hs : ¬ d.next = ringAddr h nn.neurons x := fun e => hb2 (hb3.trans e.symm)
      simp [hb3, hd, hs]
    · rw [if_neg hb3]
  · intro b hb1
    rw [g, if_neg hb1]
    by_cases hb2 : b = ringAddr h nn.neurons x
    · simp [hb2, hd]
    · rw [if_neg hb2]
      by_cases hb3 : b = d.next
      · simp [hb3, hn]
      · rw [if_neg hb3]
  · intro b hb1 hb2
    rw [g, if_neg hb1, if_neg hb2]
    by_cases hb3 : b = d.next
    · simp [hb3, hn]
    · rw [if_neg hb3]
  · simp [hitsOf, g, hne1]
  · intro h1
    refine ⟨?_, by omega⟩
    have hx0 : x = 0 := by omega
    have hs : d.next = ringAddr h nn.neurons x := by
      rw [hnx, hx0, h1]
    have hdn : dn = d := by
      rw [hs, hd] at hn; cases hn; rfl
    simp only [posOf, hmm, hd, hdn]
    simp [vectorAdd, vectorScale, vectorSub, vectorMake]

/-- Witness for C16: insertion on a ring of one neuron. -/
theorem insert_postcondition_witness :
    WellFormed ring1 net1 ∧ 0 < net1.size
    ∧ ∃ h' mm, neuronInsert ring1 (ringAddr ring1 net1.neurons 0) = some (h', mm)
      ∧ ring1.get? mm = none
      ∧ h'.get? mm
          = some ⟨⟨((posOf ring1 (ringAddr ring1 net1.neurons 0)).x
                      + (posOf ring1 (ringAddr ring1 net1.neurons ((0 + 1) % net1.size))).x) / 2,
                   ((posOf ring1 (ringAddr ring1 net1.neurons 0)).y
                      + (posOf ring1 (ringAddr ring1 net1.neurons ((0 + 1) % net1.size))).y) / 2⟩,
                  0, ringAddr ring1 net1.neurons ((0 + 1) % net1.size),
                  ringAddr ring1 net1.neurons 0⟩
      ∧ nextOf ring1 (ringAddr ring1 net1.neurons 0)
          = ringAddr ring1 net1.neurons ((0 + 1) % net1.size)
      ∧ nextOf h' (ringAddr ring1 net1.neurons 0) = mm
      ∧ prevOf h' (ringAddr ring1 net1.neurons ((0 + 1) % net1.size)) = mm
      ∧ (∀ b, b ≠ mm → b ≠ ringAddr ring1 net1.neurons 0 →
          (h'.get? b).map NeuronData.next = (ring1.get? b).map NeuronData.next)
      ∧ (∀ b, b ≠ mm → b ≠ ringAddr ring1 net1.neurons ((0 + 1) % net1.size) →
          (h'.get? b).map NeuronData.prev = (ring1.get? b).map NeuronData.prev)
      ∧ (∀ b, b ≠ mm → (h'.get? b).map NeuronData.p = (ring1.get? b).map NeuronData.p)
      ∧ (∀ b, b ≠ mm → b ≠ ringAddr ring1 net1.neurons 0 →
          (h'.get? b).map NeuronData.hits = (ring1.get? b).map NeuronData.hits)
      ∧ hitsOf h' (ringAddr ring1 net1.neurons 0) = 0
      ∧ WellFormed h' ⟨net1.size + 1, net1.learned, net1.neurons⟩
      ∧ ringAddrs h' ⟨net1.size + 1, net1.learned, net1.neurons⟩
          = (ringAddrs ring1 net1).take (0 + 1) ++ mm :: (ringAddrs ring1 net1).drop (0 + 1)
      ∧ (net1.size = 1 →
          posOf h' mm = posOf ring1 (ringAddr ring1 net1.neurons 0) ∧ net1.size + 1 = 2) :=
  ⟨by decide, by decide, insert_postcondition ring1 net1 0 (by decide) (by decide)⟩

/-- C17 (removal postcondition): for the `x`-th neuron `n` of a well-formed ring of at least
two neurons, `neuronRemoveNext` frees exactly the old `n.next`; afterwards `n.next` is the
old `n.next.next`, whose `prev` is `n`; every other neuron keeps its links, position and
hits, and the ring entered at `n`, with `size - 1`, is well-formed: it is the old ring read
from `n` without its second neuron. The removal loop of `neuralNetRemoveDoubleNeurons` does
not call `neuronRemoveNext` when `size ≤ 1`: it leaves the state as it is. -/
theorem remove_postcondition (m : Libm R) (h : Heap R) (nn : NeuralNet) (x : Nat)
    (hw : WellFormed h nn) (h2 : 2 ≤ nn.size) (hx : x < nn.size) :
    (∃ h', neuronRemoveNext h (ringAddr h nn.neurons x) = some (h', ringAddr h nn.neurons x)
      ∧ nextOf h (ringAddr h nn.neurons x) = ringAddr h nn.neurons ((x + 1) % nn.size)
      ∧ h'.get? (nextOf h (ringAddr h nn.neurons x)) = none
      ∧ nextOf h' (ringAddr h nn.neurons x)
          = nextOf h (nextOf h (ringAddr h nn.neurons x))
      ∧ prevOf h' (nextOf h (nextOf h (ringAddr h nn.neurons x))) = ringAddr h nn.neurons x
      ∧ (∀ b, b ≠ nextOf h (ringAddr h nn.neurons x) → b ≠ ringAddr h nn.neurons x →
          (h'.get? b).map NeuronData.next = (h.get? b).map NeuronData.next)
      ∧ (∀ b, b ≠ nextOf h (ringAddr h nn.neurons x) →
          b ≠ nextOf h (nextOf h (ringAddr h nn.neurons x)) →
          (h'.get? b).map NeuronData.prev = (h.get? b).map NeuronData.prev)
      ∧ (∀ b, b ≠ nextOf h (ringAddr h nn.neurons x) →
          (h'.get? b).map NeuronData.p = (h.get? b).map NeuronData.p
          ∧ (h'.get? b).map NeuronData.hits = (h.get? b).map NeuronData.hits)
      ∧ WellFormed h' ⟨nn.size - 1, nn.learned, ringAddr h nn.neurons x⟩
      ∧ ringAddrs h' ⟨nn.size - 1, nn.learned, ringAddr h nn.neurons x⟩
          = ((ringAddrs h nn).rotate x).eraseIdx 1)
    ∧ ∀ (fuel : Nat) (h₀ : Heap R) (nn₀ : NeuralNet) (a : Nat), nn₀.size ≤ 1 →
        neuralNetRemoveDoubleNeuronsInner m (fuel + 1) h₀ nn₀ a = some (h₀, nn₀, a) := by
  constructor
  · obtain ⟨h', d, dn, dnn, hd, hn, hnn, hne1, hne2, e, g, hw', hra⟩ :=
      neuronRemoveNext_wf hw h2 hx
    have hr : nextOf h (ringAddr h nn.neurons x) = d.next := by simp [nextOf, hd]
    have ht : nextOf h d.next = dn.next := by simp [nextOf, hn]
    rw [hr, ht]
    refine ⟨h', e, ?_, ?_, ?_, ?_, ?_, ?_, ?_, hw', hra⟩
    · obtain ⟨d', _, hd', hnx, _, _⟩ := hw.cell hx
      rw [hd] at hd'; cases hd'
      rw [hnx]; exact (hw.ringAddr_mod (by omega)).symm
    · rw [g, if_pos rfl]
    · simp [nextOf, g, Ne.symm hne1]
    · by_cases hs : dn.next = ringAddr h nn.neurons x
      · simp [prevOf, g, hs, Ne.symm hne1]
      · simp [prevOf, g, hs, hne2]
    · intro b hb1 hb2
      rw [g, if_neg hb1, if_neg hb2]
      by_cases hb3 : b = dn.next
      · simp [hb3, hnn]
      · rw [if_neg hb3]
    · intro b hb1 hb2
      rw [g, if_neg hb1]
      by_cases hb3 : b = ringAddr h nn.neurons x
      · have hs : ¬ dn.next = ringAddr h nn.neurons x := fun e => hb2 (hb3.trans e.symm)
        simp [hb3, hd, hs]
      · rw [if_neg hb3, if_neg hb2]
    · intro b hb1
      rw [g, if_neg hb1]
      by_cases hb2 : b = ringAddr h nn.neurons x
      · simp [hb2, hd]
      · rw [if_neg hb2]
        by_cases hb3 : b = dn.next
        · simp [hb3, hnn]
        · rw [if_neg hb3]
          exact ⟨rfl, rfl⟩
  · intro fuel h₀ nn₀ a hs
    rw [neuralNetRemoveDoubleNeuronsInner, if_neg (by omega)]

/-- Witness for C17: removal after the third neuron of a ring of three neurons. -/
theorem remove_postcondition_witness :
    WellFormed ring3 net3 ∧ 2 ≤ net3.size ∧ 2 < net3.size
    ∧ (∃ h', neuronRemoveNext ring3 (ringAddr ring3 net3.neurons 2)
          = some (h', ringAddr ring3 net3.neurons 2)
      ∧ nextOf ring3 (ringAddr ring3 net3.neurons 2)
          = ringAddr ring3 net3.neurons ((2 + 1) % net3.size)
      ∧ h'.get? (nextOf ring3 (ringAddr ring3 net3.neurons 2)) = none
      ∧ nextOf h' (ringAddr ring3 net3.neurons 2)
          = nextOf ring3 (nextOf ring3 (ringAddr ring3 net3.neurons 2))
      ∧ prevOf h' (nextOf ring3 (nextOf ring3 (ringAddr ring3 net3.neurons 2)))
          = ringAddr ring3 net3.neurons 2
      ∧ (∀ b, b ≠ nextOf ring3 (ringAddr ring3 net3.neurons 2) →
          b ≠ ringAddr ring3 net3.neurons 2 →
          (h'.get? b).map NeuronData.next = (ring3.get? b).map NeuronData.next)
      ∧ (∀ b, b ≠ nextOf ring3 (ringAddr ring3 net3.neurons 2) →
          b ≠ nextOf ring3 (nextOf ring3 (ringAddr ring3 net3.neurons 2)) →
          (h'.get? b).map NeuronData.prev = (ring3.get? b).map NeuronData.prev)
      ∧ (∀ b, b ≠ nextOf ring3 (ringAddr ring3 net3.neurons 2) →
          (h'.get? b).map NeuronData.p = (ring3.get? b).map NeuronData.p
          ∧ (h'.get? b).map NeuronData.hits = (ring3.get? b).map NeuronData.hits)
      ∧ WellFormed h' ⟨net3.size - 1, net3.learned, ringAddr ring3 net3.neurons 2⟩
      ∧ ringAddrs h' ⟨net3.size - 1, net3.learned, ringAddr ring3 net3.neurons 2⟩
          = ((ringAddrs ring3 net3).rotate 2).eraseIdx 1)
    ∧ ∀ (fuel : Nat) (h₀ : Heap ℚ) (nn₀ : NeuralNet) (a : Nat), nn₀.size ≤ 1 →
        neuralNetRemoveDoubleNeuronsInner libmQ (fuel + 1) h₀ nn₀ a = some (h₀, nn₀, a) :=
  ⟨by decide, by decide, by decide,
    remove_postcondition libmQ ring3 net3 2 (by decide) (by decide) (by decide)⟩

/-- C19 (a winner located at the sample is not moved): if the winning neuron `w` lies exactly
at the drawn sample, `neuralNetTrain` returns, for every `time`, with `w` where it was. -/
theorem winner_at_sample_not_moved (m : Libm R) (h : Heap R) (nn : NeuralNet)
    (samples : SampleMap R) (rnd : Nat) (sample : Vector R) (time : R) (fuel : Nat) (w : Nat)
    (hw : WellFormed h nn) (hitems : samples.items ≠ 0)
    (hsample : samples.samples[rnd % samples.items]? = some sample)
    (hf : 2 * nn.size + 1 ≤ fuel)
    (hwin : (neuralNetTrainNearest m h nn sample).map Prod.fst = some w)
    (hat : posOf h w = sample) :
    ∃ h' nn', neuralNetTrain m fuel rnd h nn samples time = some (h', nn')
      ∧ posOf h' w = posOf h w := by
  obtain ⟨h', nn', e, _, _, _, _, hcells⟩ := neuralNetTrain_cells m h nn samples rnd sample
    time fuel hw hitems hsample hf
  have hwe : w = ringAddr h nn.neurons (winnerIdx m sample h nn) := by
    have := neuralNetTrainNearest_winner m sample hw
    rw [hwin] at this
    exact Option.some.inj this
  obtain ⟨d, hd, hp, _⟩ := hcells _ (winnerIdx_lt m sample hw)
  refine ⟨h', nn', e, ?_⟩
  rw [hat, hwe]
  rw [hwe] at hat
  simp only [posOf, hd, hp, learnedCell_p]
  exact movedCell_p_at_sample m sample time _ _ _ _ _ _ hat

/-- Witness for C19: the second neuron of `ring3` lies at the sample; `time = 1`. -/
theorem winner_at_sample_not_moved_witness :
    WellFormed ring3 net3 ∧ samples3.items ≠ 0
    ∧ samples3.samples[0 % samples3.items]? = some ⟨2, 0⟩ ∧ 2 * net3.size + 1 ≤ 7
    ∧ (neuralNetTrainNearest libmQ ring3 net3 ⟨2, 0⟩).map Prod.fst = some 2
    ∧ posOf ring3 2 = ⟨2, 0⟩
    ∧ ∃ h' nn', neuralNetTrain libmQ 7 0 ring3 net3 samples3 1 = some (h', nn')
      ∧ posOf h' 2 = posOf ring3 2 :=
  ⟨by decide, by decide, by decide, by decide, ring3_winner_at_sample, rfl,
    winner_at_sample_not_moved libmQ ring3 net3 samples3 0 ⟨2, 0⟩ 1 7 2 (by decide) (by decide)
      (by decide) (by decide) ring3_winner_at_sample rfl⟩

/-- C20, the claim fails on the code: called with `time = 0` on `ring3`, `neuralNetTrain` is
not rejected; it returns a ring, after the learning step: `learned` went from 5 to 6 and the
hits of the winning neuron (address 3) from 2 to 3. -/
theorem train_time_zero_not_rejected :
    ∃ h' nn', neuralNetTrain libmQ 7 1 ring3 net3 samples2 0 = some (h', nn')
      ∧ net3.learned = 5 ∧ nn'.learned = 6
      ∧ (neuralNetTrainNearest libmQ ring3 net3 ⟨3, 3⟩).map Prod.fst = some 3
      ∧ hitsOf ring3 3 = 2 ∧ hitsOf h' 3 = 3 := by
  have hw : WellFormed ring3 net3 := by decide
  obtain ⟨h1, e1, hh⟩ := neuralNetTrainLearn_wf libmQ hw samples2 1 ⟨3, 3⟩ (by decide)
    (by decide) 0
  have hnc : ¬ growthCondition libmQ net3 samples2.items := by
    simp [growthCondition, libmQ, samples2, net3]
    norm_num
  have e := (neuralNetTrain_eq libmQ 7 1 ring3 net3 samples2 0 h1 _ e1 rfl rfl).2 hnc
  have hwin := neuralNetTrainNearest_winner libmQ ⟨3, 3⟩ hw
  rw [ring3_winner] at hwin
  rw [← Option.some.inj hwin] at hh
  exact ⟨h1, _, e, rfl, rfl, ring3_winner, rfl, hh⟩

/-- C20, as the code behaves: `neuralNetTrain` does not validate its arguments. On a
well-formed ring and a non-empty sample map, a call with `time = 0` performs the learning
step as for any other `time` (the hits of the winning neuron and `learned` are incremented)
and returns a ring; with a sample map of zero samples the call returns no ring, whatever the
`time`: `random() % samples.items` is a division by zero. -/
theorem train_does_not_validate (m : Libm R) (h : Heap R) (nn : NeuralNet)
    (samples : SampleMap R) (rnd : Nat) (sample : Vector R) (time : R) (fuel : Nat)
    (hw : WellFormed h nn) (hitems : samples.items ≠ 0)
    (hsample : samples.samples[rnd % samples.items]? = some sample)
    (hf : 2 * nn.size + 1 ≤ fuel) :
    (∃ h1 nn1 w, neuralNetTrainLearn m rnd h nn samples 0 = some (h1, nn1)
      ∧ (neuralNetTrainNearest m h nn sample).map Prod.fst = some w
      ∧ hitsOf h1 w = (hitsOf h w + 1) % UINT_RANGE
      ∧ nn1.learned = (nn.learned + 1) % ULONG_RANGE
      ∧ (growthCondition m nn samples.items →
          neuralNetTrain m fuel rnd h nn samples 0
            = neuralNetGrow fuel h1 nn1 (neuralNetGrowThres m samples.items))
      ∧ (¬ growthCondition m nn samples.items →
          neuralNetTrain m fuel rnd h nn samples 0 = some (h1, nn1))
      ∧ ∃ h' nn', neuralNetTrain m fuel rnd h nn samples 0 = some (h', nn'))
    ∧ ∀ (samples₀ : SampleMap R), samples₀.items = 0 →
        neuralNetTrain m fuel rnd h nn samples₀ time = none := by
  constructor
  · obtain ⟨h1, e1, hh⟩ := neuralNetTrainLearn_wf m hw samples rnd sample hitems hsample 0
    obtain ⟨h', nn', e, _⟩ := neuralNetTrain_cells m h nn samples rnd sample 0 fuel hw hitems
      hsample hf
    have heq := neuralNetTrain_eq m fuel rnd h nn samples 0 h1 _ e1 rfl rfl
    exact ⟨h1, _, _, e1, neuralNetTrainNearest_winner m sample hw, hh, rfl, heq.1, heq.2,
      h', nn', e⟩
  · intro samples₀ h0
    simp [neuralNetTrain, neuralNetTrainLearn, h0]

/-- Witness for C20: `ring3` with the two samples of `samples2`. -/
theorem train_does_not_validate_witness :
    WellFormed ring3 net3 ∧ samples2.items ≠ 0
    ∧ samples2.samples[1 % samples2.items]? = some ⟨3, 3⟩ ∧ 2 * net3.size + 1 ≤ 7
    ∧ (∃ h1 nn1 w, neuralNetTrainLearn libmQ 1 ring3 net3 samples2 0 = some (h1, nn1)
      ∧ (neuralNetTrainNearest libmQ ring3 net3 ⟨3, 3⟩).map Prod.fst = some w
      ∧ hitsOf h1 w = (hitsOf ring3 w + 1) % UINT_RANGE
      ∧ nn1.learned = (net3.learned + 1) % ULONG_RANGE
      ∧ (growthCondition libmQ net3 samples2.items →
          neuralNetTrain libmQ 7 1 ring3 net3 samples2 0
            = neuralNetGrow 7 h1 nn1 (neuralNetGrowThres libmQ samples2.items))
      ∧ (¬ growthCondition libmQ net3 samples2.items →
          neuralNetTrain libmQ 7 1 ring3 net3 samples2 0 = some (h1, nn1))
      ∧ ∃ h' nn', neuralNetTrain libmQ 7 1 ring3 net3 samples2 0 = some (h', nn'))
    ∧ ∀ (samples₀ : SampleMap ℚ), samples₀.items = 0 →
        neuralNetTrain libmQ 7 1 ring3 net3 samples₀ 1 = none :=
  ⟨by decide, by decide, by decide, by decide,
    train_does_not_validate libmQ ring3 net3 samples2 1 ⟨3, 3⟩ 1 7 (by decide) (by decide)
      (by decide) (by decide)⟩

/-- C12 (pruning postcondition): on a well-formed ring `neuralNetRemoveDoubleNeurons`
returns a well-formed ring in which either `size = 1` or every neuron is farther than
`NEURON_REMOVE_DISTANCE = 1` from its successor; the ring of two neurons at `(0, 0)` and
`(0.5, 0)` collapses to `size = 1`. -/
theorem prune_postcondition (m : Libm R) (h : Heap R) (nn : NeuralNet) (fuel : Nat)
    (hw : WellFormed h nn) (hf : nn.size * nn.size + nn.size + 1 ≤ fuel) :
    (∃ h' nn', neuralNetRemoveDoubleNeurons m fuel h nn = some (h', nn')
      ∧ WellFormed h' nn'
      ∧ (nn'.size = 1
        ∨ ∀ a, a ∈ ringAddrs h' nn' →
            (1 : R) < vectorLength m (vectorSub (posOf h' a) (posOf h' (nextOf h' a)))))
    ∧ ∃ h' nn', neuralNetRemoveDoubleNeurons (⟨Real.sqrt, Real.exp, Real.log⟩ : Libm ℝ) 7
        (ring2 ℝ) net2 = some (h', nn') ∧ nn'.size = 1 := by
  refine ⟨?_, prune_ring2⟩
  obtain ⟨h', nn', e, hw', hfar⟩ := neuralNetRemoveDoubleNeurons_far m h nn fuel hw hf
  refine ⟨h', nn', e, hw', ?_⟩
  rcases hfar with h1 | hall
  · exact Or.inl h1
  · right
    intro a ha
    have := hall a ha
    simpa [NEURON_REMOVE_DISTANCE, edgeLength] using this

/-- Witness for C12: pruning a ring of three neurons. -/
theorem prune_postcondition_witness :
    WellFormed ring3 net3 ∧ net3.size * net3.size + net3.size + 1 ≤ 13
    ∧ (∃ h' nn', neuralNetRemoveDoubleNeurons libmQ 13 ring3 net3 = some (h', nn')
      ∧ WellFormed h' nn'
      ∧ (nn'.size = 1
        ∨ ∀ a, a ∈ ringAddrs h' nn' →
            (1 : ℚ) < vectorLength libmQ (vectorSub (posOf h' a) (posOf h' (nextOf h' a)))))
    ∧ ∃ h' nn', neuralNetRemoveDoubleNeurons (⟨Real.sqrt, Real.exp, Real.log⟩ : Libm ℝ) 7
        (ring2 ℝ) net2 = some (h', nn') ∧ nn'.size = 1 :=
  ⟨by decide, by decide, prune_postcondition libmQ ring3 net3 13 (by decide) (by decide)⟩

/-- C13 (pruning only removes): on a well-formed ring `neuralNetRemoveDoubleNeurons` returns
a well-formed ring whose neurons, listed from the returned entry with their positions and
hits, are a sublist of a rotation of the input ring; each of them is a neuron of the input
ring with its position and hits, the returned entry among them; the returned size is the
input size minus the number of input neurons that are no longer in the ring, so it does not
exceed the input size. -/
theorem prune_only_removes (m : Libm R) (h : Heap R) (nn : NeuralNet) (fuel : Nat)
    (hw : WellFormed h nn) (hf : nn.size * nn.size + nn.size + 1 ≤ fuel) :
    ∃ h' nn', neuralNetRemoveDoubleNeurons m fuel h nn = some (h', nn')
      ∧ WellFormed h' nn'
      ∧ (∃ r, List.IsRotated r (ringCells h nn) ∧ (ringCells h' nn').Sublist r)
      ∧ (∀ a, a ∈ ringAddrs h' nn' →
          a ∈ ringAddrs h nn ∧ posOf h' a = posOf h a ∧ hitsOf h' a = hitsOf h a)
      ∧ nn'.neurons ∈ ringAddrs h' nn' ∧ nn'.neurons ∈ ringAddrs h nn
      ∧ nn'.size + (ringAddrs h nn).countP (fun a => decide (a ∉ ringAddrs h' nn')) = nn.size
      ∧ nn'.size ≤ nn.size := by
  obtain ⟨h', nn', e, hw', hnd', hentry, r, hrot, hsub⟩ :=
    neuralNetRemoveDoubleNeurons_cyc m h nn fuel hw hf
  have hnd := (hw.repr.wellFormed_nodup nn hw.headAddr_ringCells.symm
    (ringCells_length h nn).symm).2.2
  have hold : ∀ a, a ∈ ringAddrs h' nn' →
      a ∈ ringAddrs h nn ∧ posOf h' a = posOf h a ∧ hitsOf h' a = hitsOf h a := by
    intro a ha
    have hc : (⟨a, posOf h' a, hitsOf h' a⟩ : Cell R) ∈ ringCells h' nn' :=
      List.mem_map.mpr ⟨a, ha, rfl⟩
    have hc' := hrot.mem_iff.mp (hsub.subset hc)
    obtain ⟨a0, ha0, hc0⟩ := List.mem_map.mp hc'
    injection hc0 with h1 h2 h3
    subst h1
    exact ⟨ha0, h2.symm, h3.symm⟩
  have hcount := length_add_countP_not_mem hnd hnd' fun a ha => (hold a ha).1
  have hl' : (ringAddrs h' nn').length = nn'.size := by simp [ringAddrs]
  have hl : (ringAddrs h nn).length = nn.size := by simp [ringAddrs]
  rw [hl', hl] at hcount
  exact ⟨h', nn', e, hw', ⟨r, hrot, hsub⟩, hold, hentry, (hold _ hentry).1, hcount,
    by omega⟩

/-- Witness for C13: pruning a ring of three neurons. -/
theorem prune_only_removes_witness :
    WellFormed ring3 net3 ∧ net3.size * net3.size + net3.size + 1 ≤ 13
    ∧ ∃ h' nn', neuralNetRemoveDoubleNeurons libmQ 13 ring3 net3 = some (h', nn')
      ∧ WellFormed h' nn'
      ∧ (∃ r, List.IsRotated r (ringCells ring3 net3) ∧ (ringCells h' nn').Sublist r)
      ∧ (∀ a, a ∈ ringAddrs h' nn' →
          a ∈ ringAddrs ring3 net3 ∧ posOf h' a = posOf ring3 a
          ∧ hitsOf h' a = hitsOf ring3 a)
      ∧ nn'.neurons ∈ ringAddrs h' nn' ∧ nn'.neurons ∈ ringAddrs ring3 net3
      ∧ nn'.size + (ringAddrs ring3 net3).countP (fun a => decide (a ∉ ringAddrs h' nn'))
          = net3.size
      ∧ nn'.size ≤ net3.size :=
  ⟨by decide, by decide, prune_only_removes libmQ ring3 net3 13 (by decide) (by decide)⟩

/-- C11, the claim fails on the code: `neuralNetGrow` with threshold 2 on `ring3` returns a
ring in which the entry neuron (address 1), whose single hit is below the threshold, still
has `hits = 1`. -/
theorem grow_keeps_hits_below_threshold :
    WellFormed ring3 net3
    ∧ ∃ h' nn', neuralNetGrow 7 ring3 net3 (2 : ℚ) = some (h', nn')
      ∧ 1 ∈ ringAddrs h' nn' ∧ hitsOf h' 1 = 1 := by
  have hw : WellFormed ring3 net3 := by decide
  obtain ⟨h', nn', e, _⟩ := neuralNetGrow_total (2 : ℚ) hw (Or.inl (by norm_num)) 7
    (by decide)
  obtain ⟨_, hold, _⟩ := neuralNetGrow_counters (2 : ℚ) hw 7 h' nn' e
  have h1 := hold 1 (by decide)
  have hh : hitsOf ring3 1 = 1 := rfl
  rw [hh] at h1
  refine ⟨hw, h', nn', e, h1.1, ?_⟩
  rw [h1.2, if_neg (by norm_num)]

/-- C11, as the code behaves: whenever `neuralNetGrow` returns on a well-formed ring,
`learned` is `0`, every neuron that had `hits ≥ growThreshold` and every new neuron has
`hits = 0`, and every other neuron of the ring keeps its hits; for a positive threshold it
does return. -/
theorem grow_resets_counters (thr : R) (h : Heap R) (nn : NeuralNet) (hw : WellFormed h nn) :
    (∀ (fuel : Nat) (h' : Heap R) (nn' : NeuralNet),
      neuralNetGrow fuel h nn thr = some (h', nn') →
        nn'.learned = 0
        ∧ (∀ a, a ∈ ringAddrs h nn →
            a ∈ ringAddrs h' nn'
            ∧ (thr ≤ (hitsOf h a : R) → hitsOf h' a = 0)
            ∧ (¬ thr ≤ (hitsOf h a : R) → hitsOf h' a = hitsOf h a))
        ∧ (∀ a, a ∈ ringAddrs h' nn' → a ∉ ringAddrs h nn → hitsOf h' a = 0))
    ∧ (0 < thr → ∀ fuel, 2 * nn.size + 1 ≤ fuel →
        ∃ h' nn', neuralNetGrow fuel h nn thr = some (h', nn')) := by
  constructor
  · intro fuel h' nn' hret
    obtain ⟨hl, hold, hnew⟩ := neuralNetGrow_counters thr hw fuel h' nn' hret
    refine ⟨hl, ?_, hnew⟩
    intro a ha
    obtain ⟨hm, hh⟩ := hold a ha
    refine ⟨hm, ?_, ?_⟩
    · intro hhit; rw [hh, if_pos hhit]
    · intro hhit; rw [hh, if_neg hhit]
  · intro hthr fuel hf
    obtain ⟨h', nn', e, _⟩ := neuralNetGrow_total thr hw (Or.inl hthr) fuel hf
    exact ⟨h', nn', e⟩

/-- Witness for C11: growth of `ring3` with threshold 2. -/
theorem grow_resets_counters_witness :
    WellFormed ring3 net3
    ∧ (∀ (fuel : Nat) (h' : Heap ℚ) (nn' : NeuralNet),
      neuralNetGrow fuel ring3 net3 (2 : ℚ) = some (h', nn') →
        nn'.learned = 0
        ∧ (∀ a, a ∈ ringAddrs ring3 net3 →
            a ∈ ringAddrs h' nn'
            ∧ ((2 : ℚ) ≤ (hitsOf ring3 a : ℚ) → hitsOf h' a = 0)
            ∧ (¬ (2 : ℚ) ≤ (hitsOf ring3 a : ℚ) → hitsOf h' a = hitsOf ring3 a))
        ∧ (∀ a, a ∈ ringAddrs h' nn' → a ∉ ringAddrs ring3 net3 → hitsOf h' a = 0))
    ∧ ((0 : ℚ) < 2 → ∀ fuel, 2 * net3.size + 1 ≤ fuel →
        ∃ h' nn', neuralNetGrow fuel ring3 net3 (2 : ℚ) = some (h', nn')) :=
  ⟨by decide, grow_resets_counters 2 ring3 net3 (by decide)⟩

/-- C22 (`list_insertElem` keeps the list a sorted set): for a strictly ascending list `l`,
`list_insertElem e l` is strictly ascending, contains `e`, and has exactly the elements of
`l` and `e`; when `e` is in `l` the result is `l`; the assertion of `set_insert` holds. -/
theorem insert_keeps_sorted_set (e : Nat) (l : List Nat) (hl : l.Sorted (· < ·)) :
    (list_insertElem e l).Sorted (· < ·) ∧ e ∈ list_insertElem e l
      ∧ (∀ x, x ∈ list_insertElem e l ↔ x = e ∨ x ∈ l)
      ∧ (e ∈ l → list_insertElem e l = l)
      ∧ set_insert l e = some (list_insertElem e l) := by
  have hm : e ∈ list_insertElem e l := (mem_list_insertElem e e l).mpr (Or.inl rfl)
  refine ⟨sorted_list_insertElem e l hl, hm, fun x => mem_list_insertElem e x l,
    list_insertElem_of_mem e l hl, ?_⟩
  simp [set_insert, (set_contains_iff _ _).mpr hm]

/-- Witness for C22: insertion of 4 into `[1, 3, 5]`. -/
theorem insert_keeps_sorted_set_witness :
    [1, 3, 5].Sorted (· < ·)
    ∧ (list_insertElem 4 [1, 3, 5]).Sorted (· < ·) ∧ 4 ∈ list_insertElem 4 [1, 3, 5]
      ∧ (∀ x, x ∈ list_insertElem 4 [1, 3, 5] ↔ x = 4 ∨ x ∈ [1, 3, 5])
      ∧ (4 ∈ [1, 3, 5] → list_insertElem 4 [1, 3, 5] = [1, 3, 5])
      ∧ set_insert [1, 3, 5] 4 = some (list_insertElem 4 [1, 3, 5]) :=
  ⟨by decide, insert_keeps_sorted_set 4 [1, 3, 5] (by decide)⟩

/-- C23 (`list_removeElem` removes exactly the element): for a strictly ascending list `l`,
`list_removeElem e l` is strictly ascending, does not contain `e`, and has exactly the
elements of `l` other than `e`; the assertion of `set_remove` holds. -/
theorem remove_removes_exactly (e : Nat) (l : List Nat) (hl : l.Sorted (· < ·)) :
    (list_removeElem e l).Sorted (· < ·) ∧ e ∉ list_removeElem e l
      ∧ (∀ x, x ∈ list_removeElem e l ↔ x ∈ l ∧ x ≠ e)
      ∧ set_remove l e = some (list_removeElem e l) := by
  have hm : e ∉ list_removeElem e l := fun h => ((mem_list_removeElem e e l hl).mp h).2 rfl
  refine ⟨sorted_list_removeElem e l hl, hm, fun x => mem_list_removeElem e x l hl, ?_⟩
  have hc : set_contains (list_removeElem e l) e = false := by
    rw [← Bool.not_eq_true, set_contains_iff]; exact hm
  simp [set_remove, hc]

/-- Witness for C23: removal of 3 from `[1, 3, 5]`. -/
theorem remove_removes_exactly_witness :
    [1, 3, 5].Sorted (· < ·)
    ∧ (list_removeElem 3 [1, 3, 5]).Sorted (· < ·) ∧ 3 ∉ list_removeElem 3 [1, 3, 5]
      ∧ (∀ x, x ∈ list_removeElem 3 [1, 3, 5] ↔ x ∈ [1, 3, 5] ∧ x ≠ 3)
      ∧ set_remove [1, 3, 5] 3 = some (list_removeElem 3 [1, 3, 5]) :=
  ⟨by decide, remove_removes_exactly 3 [1, 3, 5] (by decide)⟩

/-- C24 (`set_union` computes the union): for strictly ascending `a` and `b` and an empty
result set, `set_union` returns (the definition is total, and no assertion fails) a strictly
ascending list whose elements are those of `a` and those of `b`. -/
theorem union_is_union (a b : List Nat) (ha : a.Sorted (· < ·)) (hb : b.Sorted (· < ·)) :
    ∃ r, set_union set_make_empty a b = some r ∧ r.Sorted (· < ·)
      ∧ ∀ x, x ∈ r ↔ x ∈ a ∨ x ∈ b :=
  set_union_spec a b ha hb

/-- Witness for C24: the union of `[2, 4]` and `[1, 2, 7]`. -/
theorem union_is_union_witness :
    [2, 4].Sorted (· < ·) ∧ [1, 2, 7].Sorted (· < ·)
    ∧ ∃ r, set_union set_make_empty [2, 4] [1, 2, 7] = some r ∧ r.Sorted (· < ·)
      ∧ ∀ x, x ∈ r ↔ x ∈ [2, 4] ∨ x ∈ [1, 2, 7] :=
  ⟨by decide, by decide, union_is_union [2, 4] [1, 2, 7] (by decide) (by decide)⟩

/-- C25 (`set_intersection` computes the intersection): for strictly ascending `a` and `b`
and an empty result set, `set_intersection` returns a strictly ascending list whose elements
are those that are in both `a` and `b`. -/
theorem intersection_is_intersection (a b : List Nat) (ha : a.Sorted (· < ·))
    (hb : b.Sorted (· < ·)) :
    ∃ r, set_intersection set_make_empty a b = some r ∧ r.Sorted (· < ·)
      ∧ ∀ x, x ∈ r ↔ x ∈ a ∧ x ∈ b :=
  set_intersection_spec a b ha hb

/-- Witness for C25: the intersection of `[2, 4]` and `[1, 2, 7]`. -/
theorem intersection_is_intersection_witness :
    [2, 4].Sorted (· < ·) ∧ [1, 2, 7].Sorted (· < ·)
    ∧ ∃ r, set_intersection set_make_empty [2, 4] [1, 2, 7] = some r ∧ r.Sorted (· < ·)
      ∧ ∀ x, x ∈ r ↔ x ∈ [2, 4] ∧ x ∈ [1, 2, 7] :=
  ⟨by decide, by decide,
    intersection_is_intersection [2, 4] [1, 2, 7] (by decide) (by decide)⟩

/-- C26 (`set_is_subset` decides inclusion): for strictly ascending `a` and `b`,
`set_is_subset a b` returns, and returns 1 exactly when every element of `a` is an element
of `b`. -/
theorem subset_decides_inclusion (a b : List Nat) (ha : a.Sorted (· < ·))
    (hb : b.Sorted (· < ·)) :
    ∃ r, set_is_subset a b = some r ∧ (r = true ↔ ∀ x, x ∈ a → x ∈ b)
      ∧ (r = false ↔ ¬ ∀ x, x ∈ a → x ∈ b) := by
  refine ⟨_, set_is_subset_spec a b ha hb, by simp, by simp⟩

/-- Witness for C26: `[2, 7]` and `[1, 2, 7]`. -/
theorem subset_decides_inclusion_witness :
    [2, 7].Sorted (· < ·) ∧ [1, 2, 7].Sorted (· < ·)
    ∧ ∃ r, set_is_subset [2, 7] [1, 2, 7] = some r
      ∧ (r = true ↔ ∀ x, x ∈ [2, 7] → x ∈ [1, 2, 7])
      ∧ (r = false ↔ ¬ ∀ x, x ∈ [2, 7] → x ∈ [1, 2, 7]) :=
  ⟨by decide, by decide, subset_decides_inclusion [2, 7] [1, 2, 7] (by decide) (by decide)⟩

/-- C27 (`set_partition` postcondition): for a strictly ascending `s` whose element sum fits
an `unsigned long`, `set_partition` on empty result sets returns, none of its assertions
failing; the two sets are strictly ascending and disjoint, their elements together are those
of `s`, the sum of the first is at least the sum of the second, and every element of the
first is smaller than every element of the second. -/
theorem partition_postcondition (s : List Nat) (hs : s.Sorted (· < ·))
    (hsum : s.sum < ULONG_RANGE) :
    ∃ r1 r2, set_partition set_make_empty set_make_empty s = some (r1, r2)
      ∧ r1.Sorted (· < ·) ∧ r2.Sorted (· < ·)
      ∧ (∀ x, x ∈ r1 → x ∉ r2)
      ∧ (∀ x, x ∈ s ↔ x ∈ r1 ∨ x ∈ r2)
      ∧ r2.sum ≤ r1.sum
      ∧ (∀ x, x ∈ r1 → ∀ y, y ∈ r2 → x < y)
      ∧ set_sum r1 = r1.sum ∧ set_sum r2 = r2.sum := by
  obtain ⟨p, q, hpq, hp, hle, _⟩ := set_partition_spec s hs hsum
  subst hpq
  have hsplit := List.pairwise_append.mp hs
  rw [List.sum_append] at hsum
  refine ⟨p, q, hp, hsplit.1, hsplit.2.1, ?_, fun x => List.mem_append, hle, hsplit.2.2,
    set_sum_eq p (by omega), set_sum_eq q (by omega)⟩
  intro x h1 h2
  exact lt_irrefl _ (hsplit.2.2 x h1 x h2)

/-- Witness for C27: the partition of `[1, 2, 3, 4]`. -/
theorem partition_postcondition_witness :
    [1, 2, 3, 4].Sorted (· < ·) ∧ [1, 2, 3, 4].sum < ULONG_RANGE
    ∧ ∃ r1 r2, set_partition set_make_empty set_make_empty [1, 2, 3, 4] = some (r1, r2)
      ∧ r1.Sorted (· < ·) ∧ r2.Sorted (· < ·)
      ∧ (∀ x, x ∈ r1 → x ∉ r2)
      ∧ (∀ x, x ∈ [1, 2, 3, 4] ↔ x ∈ r1 ∨ x ∈ r2)
      ∧ r2.sum ≤ r1.sum
      ∧ (∀ x, x ∈ r1 → ∀ y, y ∈ r2 → x < y)
      ∧ set_sum r1 = r1.sum ∧ set_sum r2 = r2.sum :=
  ⟨by decide, by decide, partition_postcondition [1, 2, 3, 4] (by decide) (by decide)⟩

/-- C28 (`set_partition` is as balanced as possible): for a strictly ascending `s` whose
element sum fits an `unsigned long`, the pair that `set_partition` returns has the least
difference of sums among all splits of `s` into a lower set `b` and an upper set `c` with
`sum b ≥ sum c`. -/
theorem partition_balanced (s : List Nat) (hs : s.Sorted (· < ·))
    (hsum : s.sum < ULONG_RANGE) :
    ∃ r1 r2, set_partition set_make_empty set_make_empty s = some (r1, r2)
      ∧ r2.sum ≤ r1.sum
      ∧ ∀ b c : List Nat, b.Sorted (· < ·) → c.Sorted (· < ·) →
          (∀ x, x ∈ b → ∀ y, y ∈ c → x < y) → (∀ x, x ∈ s ↔ x ∈ b ∨ x ∈ c) →
          c.sum ≤ b.sum → r1.sum - r2.sum ≤ b.sum - c.sum := by
  obtain ⟨p, q, _, hp, hle, hmin⟩ := set_partition_spec s hs hsum
  refine ⟨p, q, hp, hle, ?_⟩
  intro b c hb hc hbc hmem hv
  have hs' : (b ++ c).Sorted (· < ·) := List.pairwise_append.mpr ⟨hb, hc, hbc⟩
  have e : s = b ++ c := sorted_ext hs hs' fun x => by rw [hmem, List.mem_append]
  exact hmin b c e hv

/-- Witness for C28: the partition of `[1, 2, 3, 4]`. -/
theorem partition_balanced_witness :
    [1, 2, 3, 4].Sorted (· < ·) ∧ [1, 2, 3, 4].sum < ULONG_RANGE
    ∧ ∃ r1 r2, set_partition set_make_empty set_make_empty [1, 2, 3, 4] = some (r1, r2)
      ∧ r2.sum ≤ r1.sum
      ∧ ∀ b c : List Nat, b.Sorted (· < ·) → c.Sorted (· < ·) →
          (∀ x, x ∈ b → ∀ y, y ∈ c → x < y) → (∀ x, x ∈ [1, 2, 3, 4] ↔ x ∈ b ∨ x ∈ c) →
          c.sum ≤ b.sum → r1.sum - r2.sum ≤ b.sum - c.sum :=
  ⟨by decide, by decide, partition_balanced [1, 2, 3, 4] (by decide) (by decide)⟩

/-- C29 (the extremal accessors are not as documented): on the set `{1, 2}`, stored as the
ascending list `[1, 2]`, `set_get_first` returns 1, the smallest element, and
`set_get_last` returns 2, the greatest; on every strictly ascending list `set_get_first`
returns the least and `set_get_last` the greatest element. -/
theorem accessors_not_as_documented :
    [1, 2].Sorted (· < ·) ∧ set_insert [2] 1 = some [1, 2]
    ∧ set_get_first [1, 2] = some 1 ∧ set_get_last [1, 2] = some 2
    ∧ (∀ (s : List Nat) (x : Nat), s.Sorted (· < ·) → set_get_first s = some x →
        x ∈ s ∧ ∀ y, y ∈ s → x ≤ y)
    ∧ (∀ (s : List Nat) (x : Nat), s.Sorted (· < ·) → set_get_last s = some x →
        x ∈ s ∧ ∀ y, y ∈ s → y ≤ x) :=
  ⟨by decide, by decide, by decide, by decide, fun s x hs h => set_get_first_spec s hs x h,
    fun s x hs h => set_get_last_spec s hs x h⟩

/-- C30 (pruning terminates): on every well-formed ring `neuralNetRemoveDoubleNeurons`
returns once the loop budget is at least `size² + size + 1`; on `ringE` the walk removes the
entry and returns with the third neuron as the entry. -/
theorem pruning_terminates (m : Libm R) (h : Heap R) (nn : NeuralNet) (fuel : Nat)
    (hw : WellFormed h nn) (hf : nn.size * nn.size + nn.size + 1 ≤ fuel) :
    (∃ h' nn', neuralNetRemoveDoubleNeurons m fuel h nn = some (h', nn'))
    ∧ ∃ h', neuralNetRemoveDoubleNeurons (⟨Real.sqrt, Real.exp, Real.log⟩ : Libm ℝ) 13
        (ringE ℝ) netE = some (h', ⟨2, 0, 3⟩)
      ∧ netE.neurons = 1 ∧ ringAddrs h' ⟨2, 0, 3⟩ = [3, 2] := by
  obtain ⟨h', e, _⟩ := neuralNetRemoveDoubleNeurons_repr m hw.repr nn
    hw.headAddr_ringCells.symm (ringCells_length h nn).symm fuel hf
  obtain ⟨h2, e2, hra⟩ := prune_ringE
  exact ⟨⟨h', _, e⟩, h2, e2, rfl, hra⟩

/-- Witness for C30: pruning a ring of three neurons. -/
theorem pruning_terminates_witness :
    WellFormed ring3 net3 ∧ net3.size * net3.size + net3.size + 1 ≤ 13
    ∧ (∃ h' nn', neuralNetRemoveDoubleNeurons libmQ 13 ring3 net3 = some (h', nn'))
    ∧ ∃ h', neuralNetRemoveDoubleNeurons (⟨Real.sqrt, Real.exp, Real.log⟩ : Libm ℝ) 13
        (ringE ℝ) netE = some (h', ⟨2, 0, 3⟩)
      ∧ netE.neurons = 1 ∧ ringAddrs h' ⟨2, 0, 3⟩ = [3, 2] :=
  ⟨by decide, by decide, pruning_terminates libmQ ring3 net3 13 (by decide) (by decide)⟩

/-- C32 (the training loop reaches time progress zero): in the last iteration
`time = maxLearn` of the loop `for (time = 1; time <= maxLearn; ++time)` the value
`(maxLearn - time) / maxLearn` that `main` passes is 0, so that the divisor `2 * time` of the
displacement factor is zero (shown for `maxLearn = 1` and for every `maxLearn ≥ 1`); in the
iterations before the last the value lies strictly between 0 and 1, and it is never 1. -/
theorem train_time_reaches_zero :
    (mainTrainTime 1 1 : ℚ) = 0 ∧ 2 * (mainTrainTime 1 1 : ℚ) = 0
    ∧ (∀ maxLearn : Nat, 1 ≤ maxLearn → maxLearn < UINT_RANGE →
        (mainTrainTime maxLearn maxLearn : ℚ) = 0)
    ∧ (∀ maxLearn time : Nat, 1 ≤ time → time < maxLearn → maxLearn < UINT_RANGE →
        0 < (mainTrainTime maxLearn time : ℚ) ∧ (mainTrainTime maxLearn time : ℚ) < 1) := by
  have e : ∀ a b : Nat, b ≤ a → a < UINT_RANGE →
      (a + UINT_RANGE - b) % UINT_RANGE = a - b := by
    intro a b hb ha
    have : a + UINT_RANGE - b = (a - b) + UINT_RANGE := by omega
    rw [this, Nat.add_mod_right, Nat.mod_eq_of_lt (by omega)]
  refine ⟨?_, ?_, ?_, ?_⟩
  · simp [mainTrainTime, UINT_RANGE]
  · simp [mainTrainTime, UINT_RANGE]
  · intro n _ hn
    simp [mainTrainTime, e n n (le_refl _) hn]
  · intro n t h1 h2 hn
    have hn0 : (0 : ℚ) < (n : ℚ) := by exact_mod_cast (by omega : 0 < n)
    unfold mainTrainTime
    rw [e n t (by omega) hn, Nat.cast_sub (by omega)]
    have ht : (0 : ℚ) < (t : ℚ) := by exact_mod_cast (by omega : 0 < t)
    have htn : (t : ℚ) < (n : ℚ) := by exact_mod_cast h2
    constructor
    · apply div_pos <;> linarith
    · rw [div_lt_one hn0]; linarith

/-- C34 (the entry's links are not tested): `neuralNetInv` returns 1 on the one-neuron ring
`heapAskew1`, whose neuron has `next` itself and `prev` another neuron, and on the ring
`heapAskew2` of two neurons, where the `prev` of the entry's successor is not the entry;
on both the `next`-chain returns to the entry, and the entry does not satisfy
`n.next.prev = n`. -/
theorem inv_skips_entry :
    nextN heapAskew1 1 1 = some 1 ∧ neuralNetInv 1 heapAskew1 netAskew1 = some true
    ∧ linksOk heapAskew1 1 = false
    ∧ nextN heapAskew2 2 1 = some 1 ∧ neuralNetInv 2 heapAskew2 netAskew2 = some true
    ∧ linksOk heapAskew2 1 = false ∧ linksOk heapAskew2 2 = true := by
  decide

/-- C33 (wrap-around on a one-neuron ring): on a well-formed ring of one neuron at `p` the
learning step of `neuralNetTrain` returns; it applies the position update to the single
neuron 7 times, for `i = -3, …, 3` in this order, so that the neuron ends at
`s + (p - s) * ∏ (1 - exp (-(1 + |i|) / (2 t)))`, and it increments the neuron's hits by one
(as an `unsigned`). `neuralNetTrain` returns as well, with the neuron at the same position,
and with the same hits when the growth condition does not hold. -/
theorem one_neuron_wraparound (m : Libm R) (h : Heap R) (nn : NeuralNet)
    (samples : SampleMap R) (rnd : Nat) (sample : Vector R) (time : R) (fuel : Nat)
    (hw : WellFormed h nn) (h1 : nn.size = 1) (hitems : samples.items ≠ 0)
    (hsample : samples.samples[rnd % samples.items]? = some sample) (hf : 3 ≤ fuel) :
    ∃ h₁ h' nn',
      neuralNetTrainLearn m rnd h nn samples time
        = some (h₁, { nn with learned := (nn.learned + 1) % ULONG_RANGE })
      ∧ neuralNetTrain m fuel rnd h nn samples time = some (h', nn')
      ∧ posOf h₁ nn.neurons
        = movePos m sample time 3 (movePos m sample time 2 (movePos m sample time 1
            (movePos m sample time 0 (movePos m sample time (-1) (movePos m sample time (-2)
              (movePos m sample time (-3) (posOf h nn.neurons)))))))
      ∧ posOf h₁ nn.neurons
        = ⟨sample.x + ((posOf h nn.neurons).x - sample.x)
              * ((List.range 7).map fun (k : Nat) =>
                  1 - m.exp (-((1 + |(k : R) - 3|) / (2 * time)))).prod,
           sample.y + ((posOf h nn.neurons).y - sample.y)
              * ((List.range 7).map fun (k : Nat) =>
                  1 - m.exp (-((1 + |(k : R) - 3|) / (2 * time)))).prod⟩
      ∧ hitsOf h₁ nn.neurons = (hitsOf h nn.neurons + 1) % UINT_RANGE
      ∧ (hitsOf h nn.neurons + 1 < UINT_RANGE → hitsOf h₁ nn.neurons = hitsOf h nn.neurons + 1)
      ∧ posOf h' nn.neurons = posOf h₁ nn.neurons
      ∧ (¬ growthCondition m nn samples.items → hitsOf h' nn.neurons = hitsOf h₁ nn.neurons) := by
  have hr := hw.repr
  have hw0 : winnerIdx m sample h nn = 0 := by
    have := winnerIdx_lt m sample hw
    omega
  have ha : ringAddr h nn.neurons 0 = nn.neurons := rfl
  obtain ⟨h₁, e₁, hr₁, _⟩ := neuralNetTrainLearn_repr m hr nn hw.headAddr_ringCells.symm
    (ringCells_length h nn).symm samples rnd sample hitems hsample time
  obtain ⟨h', nn', e, _, _, _, _, hcells⟩ := neuralNetTrain_cells m h nn samples rnd sample
    time fuel hw hitems hsample (by omega)
  have hg := learnCells_ringCells_getElem? m sample time h nn (show 0 < nn.size by omega)
  obtain ⟨hlt, hc⟩ := List.getElem?_eq_some.mp hg
  have hp := hr₁.posOf hlt
  have hh := hr₁.hitsOf hlt
  rw [hc, learnedCell_addr, ha] at hp hh
  rw [learnedCell_hits, if_pos hw0, ha] at hh
  obtain ⟨d, hd, hdp, hdh⟩ := hcells 0 (by omega)
  rw [ha] at hd
  have hu : (-(SPREAD : Int)) = -(SPREAD : Int) + ((0 : Nat) : Int) := by simp
  refine ⟨h₁, h', nn', e₁, e, ?_, ?_, hh, ?_, ?_, ?_⟩
  · rw [hp, learnedCell_p, h1, movedCell_single_steps, ha]
  · rw [hp, learnedCell_p, h1, hu, movedCell_single, ha]
    simp only [Nat.zero_add]
    rfl
  · intro hlt'
    rw [hh, Nat.mod_eq_of_lt hlt']
  · rw [hp]
    simp only [posOf, hd, hdp]
  · intro hnc
    rw [hh]
    simp only [hitsOf, hd, (hdh hnc).1, learnedCell_hits, if_pos hw0, ha]

/-- Witness for C33: one training step on the one-neuron ring `ring1`. -/
theorem one_neuron_wraparound_witness :
    WellFormed ring1 net1 ∧ net1.size = 1 ∧ samples2.items ≠ 0
    ∧ samples2.samples[1 % samples2.items]? = some ⟨3, 3⟩ ∧ 3 ≤ 3
    ∧ ∃ h₁ h' nn',
      neuralNetTrainLearn libmQ 1 ring1 net1 samples2 1
        = some (h₁, { net1 with learned := (net1.learned + 1) % ULONG_RANGE })
      ∧ neuralNetTrain libmQ 3 1 ring1 net1 samples2 1 = some (h', nn')
      ∧ posOf h₁ net1.neurons
        = movePos libmQ ⟨3, 3⟩ 1 3 (movePos libmQ ⟨3, 3⟩ 1 2 (movePos libmQ ⟨3, 3⟩ 1 1
            (movePos libmQ ⟨3, 3⟩ 1 0 (movePos libmQ ⟨3, 3⟩ 1 (-1) (movePos libmQ ⟨3, 3⟩ 1 (-2)
              (movePos libmQ ⟨3, 3⟩ 1 (-3) (posOf ring1 net1.neurons)))))))
      ∧ posOf h₁ net1.neurons
        = ⟨(⟨3, 3⟩ : Vector ℚ).x + ((posOf ring1 net1.neurons).x - (⟨3, 3⟩ : Vector ℚ).x)
              * ((List.range 7).map fun (k : Nat) =>
                  1 - libmQ.exp (-((1 + |(k : ℚ) - 3|) / (2 * 1)))).prod,
           (⟨3, 3⟩ : Vector ℚ).y + ((posOf ring1 net1.neurons).y - (⟨3, 3⟩ : Vector ℚ).y)
              * ((List.range 7).map fun (k : Nat) =>
                  1 - libmQ.exp (-((1 + |(k : ℚ) - 3|) / (2 * 1)))).prod⟩
      ∧ hitsOf h₁ net1.neurons = (hitsOf ring1 net1.neurons + 1) % UINT_RANGE
      ∧ (hitsOf ring1 net1.neurons + 1 < UINT_RANGE →
          hitsOf h₁ net1.neurons = hitsOf ring1 net1.neurons + 1)
      ∧ posOf h' net1.neurons = posOf h₁ net1.neurons
      ∧ (¬ growthCondition libmQ net1 samples2.items →
          hitsOf h' net1.neurons = hitsOf h₁ net1.neurons) :=
  ⟨by decide, by decide, by decide, by decide, by decide,
    one_neuron_wraparound libmQ ring1 net1 samples2 1 ⟨3, 3⟩ 1 3 (by decide) (by decide)
      (by decide) (by decide) (by decide)⟩

/-- C36 (growth does not change the tour length): with the real square root, on a
well-formed ring and for a positive threshold, `neuralNetGrow` returns, `neuralNetLength`
returns on the ring before and on the ring after it, and the two lengths are equal. -/
theorem grow_keeps_length (h : Heap ℝ) (nn : NeuralNet) (growThreshold : ℝ) (fuel : Nat)
    (hw : WellFormed h nn) (hthr : 0 < growThreshold) (hf : 2 * nn.size + 1 ≤ fuel) :
    ∃ h' nn' len, neuralNetGrow fuel h nn growThreshold = some (h', nn')
      ∧ neuralNetLength (⟨Real.sqrt, Real.exp, Real.log⟩ : Libm ℝ) fuel h nn = some len
      ∧ neuralNetLength (⟨Real.sqrt, Real.exp, Real.log⟩ : Libm ℝ) fuel h' nn' = some len := by
  obtain ⟨h', nn', e, hw', hle, hlen⟩ := ringLength_grow h nn growThreshold fuel hw hthr hf
  refine ⟨h', nn', _, e, neuralNetLength_wf _ hw fuel (by omega), ?_⟩
  rw [neuralNetLength_wf _ hw' fuel hle, hlen]

/-- Witness for C36: growth on `ringH`, where the first and the third neuron have reached
the threshold 1. -/
theorem grow_keeps_length_witness :
    WellFormed (ringH ℝ) netH ∧ (0 : ℝ) < 1 ∧ 2 * netH.size + 1 ≤ 7
    ∧ ∃ h' nn' len, neuralNetGrow 7 (ringH ℝ) netH (1 : ℝ) = some (h', nn')
      ∧ neuralNetLength (⟨Real.sqrt, Real.exp, Real.log⟩ : Libm ℝ) 7 (ringH ℝ) netH
        = some len
      ∧ neuralNetLength (⟨Real.sqrt, Real.exp, Real.log⟩ : Libm ℝ) 7 h' nn' = some len :=
  ⟨by decide, by norm_num, by decide,
    grow_keeps_length (ringH ℝ) netH 1 7 (by decide) (by norm_num) (by decide)⟩

/-- C37 (pruning never lengthens the tour): with the real square root, on a well-formed
ring `neuralNetRemoveDoubleNeurons` returns, `neuralNetLength` returns on the ring before and
on the ring after it, and the length after is at most the length before. -/
theorem prune_never_lengthens (h : Heap ℝ) (nn : NeuralNet) (fuel : Nat)
    (hw : WellFormed h nn) (hf : nn.size * nn.size + nn.size + 1 ≤ fuel) :
    ∃ h' nn' len len',
      neuralNetRemoveDoubleNeurons (⟨Real.sqrt, Real.exp, Real.log⟩ : Libm ℝ) fuel h nn
        = some (h', nn')
      ∧ neuralNetLength (⟨Real.sqrt, Real.exp, Real.log⟩ : Libm ℝ) fuel h nn = some len
      ∧ neuralNetLength (⟨Real.sqrt, Real.exp, Real.log⟩ : Libm ℝ) fuel h' nn' = some len'
      ∧ len' ≤ len := by
  obtain ⟨h', nn', e, hw', hle, hlen⟩ := ringLength_prune h nn fuel hw hf
  have h1 : nn.size ≤ fuel := by omega
  exact ⟨h', nn', _, _, e, neuralNetLength_wf _ hw fuel h1,
    neuralNetLength_wf _ hw' fuel (by omega), hlen⟩

/-- Witness for C37: pruning `ringE`, which removes the entry. -/
theorem prune_never_lengthens_witness :
    WellFormed (ringE ℝ) netE ∧ netE.size * netE.size + netE.size + 1 ≤ 13
    ∧ ∃ h' nn' len len',
      neuralNetRemoveDoubleNeurons (⟨Real.sqrt, Real.exp, Real.log⟩ : Libm ℝ) 13 (ringE ℝ)
        netE = some (h', nn')
      ∧ neuralNetLength (⟨Real.sqrt, Real.exp, Real.log⟩ : Libm ℝ) 13 (ringE ℝ) netE
        = some len
      ∧ neuralNetLength (⟨Real.sqrt, Real.exp, Real.log⟩ : Libm ℝ) 13 h' nn' = some len'
      ∧ len' ≤ len :=
  ⟨by decide, by decide, prune_never_lengthens (ringE ℝ) netE 13 (by decide) (by decide)⟩

/-- C38 (pruning is idempotent): on a well-formed ring `neuralNetRemoveDoubleNeurons`
returns, and called again on its result it returns the same `NeuralNet` value (size, entry,
`learned`) and a ring with the same neurons in the same order, in which every neuron has
the position, hits, `next` and `prev` that it had after the first call. -/
theorem prune_idempotent (m : Libm R) (h : Heap R) (nn : NeuralNet) (fuel : Nat)
    (hw : WellFormed h nn) (hf : nn.size * nn.size + nn.size + 1 ≤ fuel) :
    ∃ h' nn' h'', neuralNetRemoveDoubleNeurons m fuel h nn = some (h', nn')
      ∧ neuralNetRemoveDoubleNeurons m fuel h' nn' = some (h'', nn')
      ∧ WellFormed h'' nn'
      ∧ ringAddrs h'' nn' = ringAddrs h' nn'
      ∧ ∀ a, a ∈ ringAddrs h' nn' → h''.get? a = h'.get? a := by
  obtain ⟨h', nn', h'', l', e, e', hr', hr'', he, hs⟩ :=
    neuralNetRemoveDoubleNeurons_twice m hw fuel hf
  refine ⟨h', nn', h'', e, e', hr''.wellFormed nn' he hs, ?_, ?_⟩
  · rw [hr''.ringAddrs_eq nn' he hs, hr'.ringAddrs_eq nn' he hs]
  · intro a ha
    rw [hr'.ringAddrs_eq nn' he hs] at ha
    obtain ⟨c, hc, rfl⟩ := List.mem_map.mp ha
    obtain ⟨i, hi, rfl⟩ := List.getElem_of_mem hc
    rw [hr''.get hi, hr'.get hi]

/-- Witness for C38: pruning `ring3` twice. -/
theorem prune_idempotent_witness :
    WellFormed ring3 net3 ∧ net3.size * net3.size + net3.size + 1 ≤ 13
    ∧ ∃ h' nn' h'', neuralNetRemoveDoubleNeurons libmQ 13 ring3 net3 = some (h', nn')
      ∧ neuralNetRemoveDoubleNeurons libmQ 13 h' nn' = some (h'', nn')
      ∧ WellFormed h'' nn'
      ∧ ringAddrs h'' nn' = ringAddrs h' nn'
      ∧ ∀ a, a ∈ ringAddrs h' nn' → h''.get? a = h'.get? a :=
  ⟨by decide, by decide, prune_idempotent libmQ ring3 net3 13 (by decide) (by decide)⟩

/-- C31 (growth terminates and examines each original neuron once): on a well-formed ring
and for a positive threshold `neuralNetGrow` returns; in its record (`neuralNetGrowLog`,
which returns the same ring) every neuron that was in the ring on entry is among the neurons
tested exactly once, and every neuron after which a neuron was inserted was in the ring on
entry, so none of them was inserted during the call; after each of them one neuron was
inserted, and they are the neurons whose hits had reached the threshold. -/
theorem grow_examines_each_once (growThreshold : R) (h : Heap R) (nn : NeuralNet)
    (fuel : Nat) (hw : WellFormed h nn) (hthr : 0 < growThreshold)
    (hf : 2 * nn.size + 1 ≤ fuel) :
    ∃ h' nn' tested grown,
      neuralNetGrowLog fuel h nn growThreshold = some (h', nn', tested, grown)
      ∧ neuralNetGrow fuel h nn growThreshold = some (h', nn')
      ∧ (∀ a, a ∈ ringAddrs h nn → tested.count a = 1)
      ∧ (∀ a, a ∈ grown → a ∈ ringAddrs h nn ∧ grown.count a = 1)
      ∧ (∀ a, a ∈ ringAddrs h nn → (a ∈ grown ↔ growThreshold ≤ (hitsOf h a : R))) := by
  obtain ⟨h', nn', tested, grown, e, eg, hT, hmem, hG, hiff⟩ :=
    neuralNetGrowLog_wf growThreshold hthr hw fuel hf
  refine ⟨h', nn', tested, grown, e, eg, ?_, ?_, ?_⟩
  · intro a ha
    exact List.count_eq_one_of_mem hT (hmem a ha)
  · intro a ha
    exact ⟨((hiff a).mp ha).1, List.count_eq_one_of_mem hG ha⟩
  · intro a ha
    rw [hiff]
    exact ⟨fun h2 => h2.2, fun h2 => ⟨ha, h2⟩⟩

/-- Witness for C31: growth on `ring3` with threshold 1, which the first and the third
neuron have reached. -/
theorem grow_examines_each_once_witness :
    WellFormed ring3 net3 ∧ (0 : ℚ) < 1 ∧ 2 * net3.size + 1 ≤ 7
    ∧ ∃ h' nn' tested grown,
      neuralNetGrowLog 7 ring3 net3 (1 : ℚ) = some (h', nn', tested, grown)
      ∧ neuralNetGrow 7 ring3 net3 (1 : ℚ) = some (h', nn')
      ∧ (∀ a, a ∈ ringAddrs ring3 net3 → tested.count a = 1)
      ∧ (∀ a, a ∈ grown → a ∈ ringAddrs ring3 net3 ∧ grown.count a = 1)
      ∧ (∀ a, a ∈ ringAddrs ring3 net3 → (a ∈ grown ↔ (1 : ℚ) ≤ (hitsOf ring3 a : ℚ))) :=
  ⟨by decide, by norm_num, by decide,
    grow_examines_each_once 1 ring3 net3 7 (by decide) (by norm_num) (by decide)⟩

/-- C21 (the displacement factor in the program is not strictly positive and not strictly
monotone): with an `exp` that underflows as in `double` (0 below -746, the real exponential
elsewhere), at `t = 1/2000`, a value that `main` passes in its last iterations,
`NEURONMOVE 0 t = exp (-1000)` is 0; the factor for `d = 1` is not smaller than the factor
for `d = 0`, and the factor at the smaller time `1/4000` is not smaller than at `1/2000`. -/
theorem displacement_factor_underflow :
    (0 : ℝ) < 1 / 2000
    ∧ NEURONMOVE (libmUnderflow (⟨Real.sqrt, Real.exp, Real.log⟩ : Libm ℝ)) 0 (1 / 2000) = 0
    ∧ NEURONMOVE (libmUnderflow (⟨Real.sqrt, Real.exp, Real.log⟩ : Libm ℝ)) 1 (1 / 2000)
        = NEURONMOVE (libmUnderflow (⟨Real.sqrt, Real.exp, Real.log⟩ : Libm ℝ)) 0 (1 / 2000)
    ∧ NEURONMOVE (libmUnderflow (⟨Real.sqrt, Real.exp, Real.log⟩ : Libm ℝ)) 0 (1 / 4000)
        = NEURONMOVE (libmUnderflow (⟨Real.sqrt, Real.exp, Real.log⟩ : Libm ℝ)) 0 (1 / 2000) := by
  have key : ∀ d t : ℝ, 0 ≤ d → 0 < t → t ≤ 1 / 2000 →
      NEURONMOVE (libmUnderflow (⟨Real.sqrt, Real.exp, Real.log⟩ : Libm ℝ)) d t = 0 := by
    intro d t hd ht ht'
    have h1 : (1000 : ℝ) ≤ (1 + d) / (2 * t) := by
      rw [le_div_iff₀ (by linarith)]
      nlinarith
    simp only [NEURONMOVE, libmUnderflow]
    rw [if_pos (by linarith)]
  refine ⟨by norm_num, key 0 _ (le_refl _) (by norm_num) (le_refl _), ?_, ?_⟩
  · rw [key 1 _ (by norm_num) (by norm_num) (le_refl _),
      key 0 _ (le_refl _) (by norm_num) (le_refl _)]
  · rw [key 0 (1 / 4000) (le_refl _) (by norm_num) (by norm_num),
      key 0 _ (le_refl _) (by norm_num) (le_refl _)]

/-- C21, amended (displacement factor): `NEURONMOVE d t` is `exp (-(1 + d) / (2 t))` as the
library computes it. For `t > 0` and `d ≥ 0`, with an `exp` that is nondecreasing and takes
values in `[0, 1]` on negative arguments, the factor lies in `[0, 1]`, does not increase with
`d`, hence is greatest at `d = 0`, and does not decrease with `t`. With an `exp` that is
strictly increasing and takes values strictly between 0 and 1 on negative arguments, as the
real exponential, the bounds and both monotonicities are strict. -/
theorem displacement_factor (m : Libm R) (d t : R) (ht : 0 < t) (hd : 0 ≤ d)
    (hmono : ∀ a b, a ≤ b → m.exp a ≤ m.exp b)
    (hunit : ∀ y, y < 0 → 0 ≤ m.exp y ∧ m.exp y ≤ 1) :
    0 ≤ NEURONMOVE m d t ∧ NEURONMOVE m d t ≤ 1
    ∧ NEURONMOVE m d t = m.exp (-(1 + d) / (2 * t))
    ∧ (∀ d', d < d' → NEURONMOVE m d' t ≤ NEURONMOVE m d t)
    ∧ NEURONMOVE m d t ≤ NEURONMOVE m 0 t
    ∧ (∀ t', t < t' → NEURONMOVE m d t ≤ NEURONMOVE m d t')
    ∧ ((∀ a b, a < b → m.exp a < m.exp b) → (∀ y, y < 0 → 0 < m.exp y ∧ m.exp y < 1) →
        0 < NEURONMOVE m d t ∧ NEURONMOVE m d t < 1
        ∧ (∀ d', d < d' → NEURONMOVE m d' t < NEURONMOVE m d t)
        ∧ (∀ t', t < t' → NEURONMOVE m d t < NEURONMOVE m d t')) := by
  have h2t : 0 < 2 * t := by linarith
  have hq : 0 < (1 + d) / (2 * t) := div_pos (by linarith) h2t
  have hd' : ∀ d', d < d' → -((1 + d') / (2 * t)) < -((1 + d) / (2 * t)) := by
    intro d' hdd
    rw [neg_lt_neg_iff]
    exact div_lt_div_of_pos_right (by linarith) h2t
  have h0 : -((1 + d) / (2 * t)) ≤ -((1 + 0) / (2 * t)) := by
    rw [neg_le_neg_iff]
    exact div_le_div_of_nonneg_right (by linarith) h2t.le
  have ht' : ∀ t', t < t' → -((1 + d) / (2 * t)) < -((1 + d) / (2 * t')) := by
    intro t' htt
    rw [neg_lt_neg_iff]
    exact div_lt_div_of_pos_left (by linarith) h2t (by linarith)
  simp only [NEURONMOVE]
  refine ⟨(hunit _ (by linarith)).1, (hunit _ (by linarith)).2, by rw [neg_div],
    fun d' hdd => hmono _ _ (hd' d' hdd).le, hmono _ _ h0,
    fun t' htt => hmono _ _ (ht' t' htt).le, ?_⟩
  intro hstrict hopen
  exact ⟨(hopen _ (by linarith)).1, (hopen _ (by linarith)).2,
    fun d' hdd => hstrict _ _ (hd' d' hdd), fun t' htt => hstrict _ _ (ht' t' htt)⟩

/-- Witness for C21: `d = 0`, `t = 1` with the real exponential function, for which the
strict statements hold. -/
theorem displacement_factor_witness :
    (0 : ℝ) < 1 ∧ (0 : ℝ) ≤ 0
    ∧ (∀ a b : ℝ, a ≤ b → Real.exp a ≤ Real.exp b)
    ∧ (∀ y : ℝ, y < 0 → 0 ≤ Real.exp y ∧ Real.exp y ≤ 1)
    ∧ 0 < NEURONMOVE (⟨Real.sqrt, Real.exp, Real.log⟩ : Libm ℝ) 0 1
    ∧ NEURONMOVE (⟨Real.sqrt, Real.exp, Real.log⟩ : Libm ℝ) 0 1 < 1
    ∧ NEURONMOVE (⟨Real.sqrt, Real.exp, Real.log⟩ : Libm ℝ) 0 1
        = Real.exp (-(1 + 0) / (2 * 1))
    ∧ (∀ d', 0 < d' →
        NEURONMOVE (⟨Real.sqrt, Real.exp, Real.log⟩ : Libm ℝ) d' 1
          < NEURONMOVE (⟨Real.sqrt, Real.exp, Real.log⟩ : Libm ℝ) 0 1)
    ∧ (∀ t', 1 < t' →
        NEURONMOVE (⟨Real.sqrt, Real.exp, Real.log⟩ : Libm ℝ) 0 1
          < NEURONMOVE (⟨Real.sqrt, Real.exp, Real.log⟩ : Libm ℝ) 0 t') := by
  have hmono : ∀ a b : ℝ, a ≤ b → Real.exp a ≤ Real.exp b :=
    fun a b hab => Real.exp_le_exp.mpr hab
  have hunit : ∀ y : ℝ, y < 0 → 0 ≤ Real.exp y ∧ Real.exp y ≤ 1 :=
    fun y hy => ⟨(Real.exp_pos y).le, (Real.exp_lt_one_iff.mpr hy).le⟩
  obtain ⟨_, _, he, _, _, _, hs⟩ := displacement_factor
    (⟨Real.sqrt, Real.exp, Real.log⟩ : Libm ℝ) 0 1 (by norm_num) (le_refl _) hmono hunit
  obtain ⟨s1, s2, s3, s4⟩ := hs (fun a b hab => Real.exp_lt_exp.mpr hab)
    (fun y hy => ⟨Real.exp_pos y, Real.exp_lt_one_iff.mpr hy⟩)
  exact ⟨by norm_num, le_refl _, hmono, hunit, s1, s2, he, s3, s4⟩

/-- C5 (in the program a neuron of the update window need not come closer): with an `exp`
that underflows as in `double` (0 below -746, the real exponential elsewhere) and the real
square root, `neuralNetTrain` at `time = 1/2000`, a value that `main` passes in its last
iterations, on the ring of three neurons `ringH` with the sample `(1, 0)` leaves every
neuron where it was. Every neuron of the ring is visited by the update loop and none lies at
the sample, and none is strictly closer to the sample afterwards. -/
theorem learning_step_underflow :
    WellFormed (ringH ℝ) netH ∧ (0 : ℝ) < 1 / 2000
    ∧ ∃ h' nn', neuralNetTrain (libmUnderflow (⟨Real.sqrt, Real.exp, Real.log⟩ : Libm ℝ)) 7 0
          (ringH ℝ) netH (samples1 ℝ) (1 / 2000) = some (h', nn')
      ∧ ∀ x, x < netH.size →
          (∃ t, t < 7 ∧ (windowStart (libmUnderflow (⟨Real.sqrt, Real.exp, Real.log⟩ : Libm ℝ))
              ⟨1, 0⟩ (ringH ℝ) netH + t) % netH.size = x)
          ∧ posOf (ringH ℝ) (ringAddr (ringH ℝ) netH.neurons x) ≠ ⟨1, 0⟩
          ∧ posOf h' (ringAddr (ringH ℝ) netH.neurons x)
              = posOf (ringH ℝ) (ringAddr (ringH ℝ) netH.neurons x)
          ∧ ¬ vectorLength (libmUnderflow (⟨Real.sqrt, Real.exp, Real.log⟩ : Libm ℝ))
                (vectorSub ⟨1, 0⟩ (posOf h' (ringAddr (ringH ℝ) netH.neurons x)))
              < vectorLength (libmUnderflow (⟨Real.sqrt, Real.exp, Real.log⟩ : Libm ℝ))
                (vectorSub ⟨1, 0⟩ (posOf (ringH ℝ) (ringAddr (ringH ℝ) netH.neurons x))) := by
  have hw : WellFormed (ringH ℝ) netH := by decide
  obtain ⟨h', nn', e, _, _, _, _, hcells⟩ := neuralNetTrain_cells
    (libmUnderflow (⟨Real.sqrt, Real.exp, Real.log⟩ : Libm ℝ)) (ringH ℝ) netH (samples1 ℝ) 0
    ⟨1, 0⟩ (1 / 2000) 7 hw (by decide) rfl (by decide)
  refine ⟨hw, by norm_num, h', nn', e, ?_⟩
  intro x hx
  have hsame : posOf h' (ringAddr (ringH ℝ) netH.neurons x)
      = posOf (ringH ℝ) (ringAddr (ringH ℝ) netH.neurons x) := by
    obtain ⟨d, hd, hp, _⟩ := hcells x hx
    rw [learnedCell_p, movedCell_p_of_zero] at hp
    · simp only [posOf, hd, hp]
    · intro i
      exact NEURONMOVE_underflow _ (abs_nonneg _) (by norm_num) (le_refl _)
  have hs := windowStart_lt (libmUnderflow (⟨Real.sqrt, Real.exp, Real.log⟩ : Libm ℝ))
    ⟨1, 0⟩ hw
  have h3 : netH.size = 3 := rfl
  refine ⟨?_, ?_, hsame, ?_⟩
  · rw [h3] at hs hx ⊢
    exact ⟨(x + 3 - windowStart (libmUnderflow (⟨Real.sqrt, Real.exp, Real.log⟩ : Libm ℝ))
      ⟨1, 0⟩ (ringH ℝ) netH) % 3, by omega, by omega⟩
  · rw [h3] at hx
    have hne : ∀ a b : ℝ, a ≠ 1 → (⟨a, b⟩ : Vector ℝ) ≠ ⟨1, 0⟩ := by
      intro a b ha hv
      exact ha (congrArg Vector.x hv)
    interval_cases x
    · exact hne 0 0 (by norm_num)
    · exact hne 2 0 (by norm_num)
    · exact hne 4 4 (by norm_num)
  · rw [hsame]
    exact lt_irrefl _

/-- C5, amended (learning does not move neurons away from the sample): for `time > 0`, with
an `exp` that takes values in `[0, 1]` on negative arguments and a `sqrt` that is
nondecreasing on non-negative ones, after `neuralNetTrain` (also when it triggers growth)
every neuron that was in the ring is at most as far from the drawn sample as before. When
moreover `exp` is strictly between 0 and 1 on negative arguments and `sqrt` is strictly
increasing, each of the 7 neurons of the update window (the `s`-th to `(s+6)`-th along
`next`, the winner being the `(s+4)`-th) that was not located at the sample is strictly
closer. -/
theorem learning_moves_toward_sample (m : Libm R) (h : Heap R) (nn : NeuralNet)
    (samples : SampleMap R) (rnd : Nat) (sample : Vector R) (time : R) (fuel : Nat)
    (hw : WellFormed h nn) (hitems : samples.items ≠ 0)
    (hsample : samples.samples[rnd % samples.items]? = some sample)
    (hf : 2 * nn.size + 1 ≤ fuel) (htime : 0 < time)
    (hexp : ∀ y, y < 0 → 0 ≤ m.exp y ∧ m.exp y ≤ 1)
    (hsqrt : ∀ a b, 0 ≤ a → a ≤ b → m.sqrt a ≤ m.sqrt b) :
    ∃ h' nn' s, neuralNetTrain m fuel rnd h nn samples time = some (h', nn')
      ∧ (neuralNetTrainNearest m h nn sample).map Prod.fst
          = some (ringAddr h nn.neurons ((s + 4) % nn.size))
      ∧ (∀ x, x < nn.size →
          vectorLength m (vectorSub sample (posOf h' (ringAddr h nn.neurons x)))
            ≤ vectorLength m (vectorSub sample (posOf h (ringAddr h nn.neurons x))))
      ∧ ((∀ y, y < 0 → 0 < m.exp y ∧ m.exp y < 1) →
          (∀ a b, 0 ≤ a → a < b → m.sqrt a < m.sqrt b) →
          ∀ t, t < 7 → posOf h (ringAddr h nn.neurons ((s + t) % nn.size)) ≠ sample →
            vectorLength m
                (vectorSub sample (posOf h' (ringAddr h nn.neurons ((s + t) % nn.size))))
              < vectorLength m
                  (vectorSub sample (posOf h (ringAddr h nn.neurons ((s + t) % nn.size))))) := by
  obtain ⟨h', nn', e, _, _, _, _, hcells⟩ := neuralNetTrain_cells m h nn samples rnd sample
    time fuel hw hitems hsample hf
  have hn : 0 < nn.size := hw.1
  refine ⟨h', nn', windowStart m sample h nn, e, ?_, ?_, ?_⟩
  · rw [window_winner m sample hw]
    exact neuralNetTrainNearest_winner m sample hw
  · intro x hx
    obtain ⟨d, hd, hp, _⟩ := hcells x hx
    have hpos : posOf h' (ringAddr h nn.neurons x) = d.p := by simp only [posOf, hd]
    rw [hpos, hp, learnedCell_p, vectorLength_sub, vectorLength_sub]
    exact hsqrt _ _ (sqDist_nonneg _ _) (sqDist_movedCell_le m sample htime hexp _ _ _ _ _ _)
  · intro hopen hstrict t ht hne
    obtain ⟨d, hd, hp, _⟩ := hcells _ (Nat.mod_lt (windowStart m sample h nn + t) hn)
    have hpos : posOf h' (ringAddr h nn.neurons ((windowStart m sample h nn + t) % nn.size))
        = d.p := by simp only [posOf, hd]
    rw [hpos, hp, learnedCell_p, vectorLength_sub, vectorLength_sub]
    apply hstrict _ _ (sqDist_nonneg _ _)
    exact (sqDist_movedCell m sample htime hopen _ _ _ _ _ _).2
      ⟨t, ht, window_idx m sample h nn t⟩ (sqDist_pos_of_ne hne)

/-- Witness for C5: one training step on a ring of three neurons, with a displacement
factor of 1/2, for which the strict statement holds as well. -/
theorem learning_moves_toward_sample_witness :
    WellFormed ring3 net3 ∧ samples2.items ≠ 0
    ∧ samples2.samples[1 % samples2.items]? = some ⟨3, 3⟩ ∧ 2 * net3.size + 1 ≤ 7
    ∧ (0 : ℚ) < 1 ∧ (∀ y : ℚ, y < 0 → 0 ≤ libmQ.exp y ∧ libmQ.exp y ≤ 1)
    ∧ (∀ a b : ℚ, 0 ≤ a → a ≤ b → libmQ.sqrt a ≤ libmQ.sqrt b)
    ∧ ∃ h' nn' s, neuralNetTrain libmQ 7 1 ring3 net3 samples2 1 = some (h', nn')
      ∧ (neuralNetTrainNearest libmQ ring3 net3 ⟨3, 3⟩).map Prod.fst
          = some (ringAddr ring3 net3.neurons ((s + 4) % net3.size))
      ∧ (∀ x, x < net3.size →
          vectorLength libmQ (vectorSub ⟨3, 3⟩ (posOf h' (ringAddr ring3 net3.neurons x)))
            ≤ vectorLength libmQ
                (vectorSub ⟨3, 3⟩ (posOf ring3 (ringAddr ring3 net3.neurons x))))
      ∧ (∀ t, t < 7 →
          posOf ring3 (ringAddr ring3 net3.neurons ((s + t) % net3.size)) ≠ ⟨3, 3⟩ →
          vectorLength libmQ
              (vectorSub ⟨3, 3⟩
                (posOf h' (ringAddr ring3 net3.neurons ((s + t) % net3.size))))
            < vectorLength libmQ
                (vectorSub ⟨3, 3⟩
                  (posOf ring3 (ringAddr ring3 net3.neurons ((s + t) % net3.size))))) := by
  have hexp : ∀ y : ℚ, y < 0 → 0 ≤ libmQ.exp y ∧ libmQ.exp y ≤ 1 :=
    fun _ _ => by norm_num [libmQ]
  have hsqrt : ∀ a b : ℚ, 0 ≤ a → a ≤ b → libmQ.sqrt a ≤ libmQ.sqrt b := fun _ _ _ hab => hab
  obtain ⟨h', nn', s, e, hwin, hle, hlt⟩ := learning_moves_toward_sample libmQ ring3 net3
    samples2 1 ⟨3, 3⟩ 1 7 (by decide) (by decide) (by decide) (by decide) (by norm_num) hexp
    hsqrt
  exact ⟨by decide, by decide, by decide, by decide, by norm_num, hexp, hsqrt, h', nn', s, e,
    hwin, hle, hlt (fun _ _ => by norm_num [libmQ]) (fun _ _ _ hab => hab)⟩

/-- C35 (neurons never leave the bounding box): let `topleft ≤ bottomright` componentwise,
let every sample lie in the box, and let `exp` take values in `[0, 1]` on negative
arguments. Then every neuron of a ring obtained from `neuralNetMake bounds` by calls of
`neuralNetTrain` with positive time (growth included) and of `neuralNetRemoveDoubleNeurons`
lies in the box. -/
theorem neurons_stay_in_box (m : Libm R) (bounds : PositionBounds R) (samples : SampleMap R)
    (h : Heap R) (nn : NeuralNet)
    (hexp : ∀ y, y < 0 → 0 ≤ m.exp y ∧ m.exp y ≤ 1)
    (hx : bounds.topleft.x ≤ bounds.bottomright.x)
    (hy : bounds.topleft.y ≤ bounds.bottomright.y)
    (hsamples : ∀ s, s ∈ samples.samples → inBox bounds s)
    (hreach : Reachable m bounds samples h nn) :
    ∀ a, a ∈ ringAddrs h nn → inBox bounds (posOf h a) := by
  intro a ha
  have := (reachable_inBox m bounds samples hexp hx hy hsamples hreach).2
    ⟨a, posOf h a, hitsOf h a⟩ (by
      rw [ringCells]
      exact List.mem_map.mpr ⟨a, ha, rfl⟩)
  exact this

/-- Witness for C35: in the box from `(0, 0)` to `(4, 4)`, with the samples `(1, 0)` and
`(3, 3)` and a displacement factor of 1/2, `neuralNetMake` puts a neuron at `(2, 2)`; a
training step with the sample `(3, 3)` moves it to `(383/128, 383/128)`; a second training
step, with the sample `(1, 0)`, moves it to `(16639/16384, 383/16384)` and triggers growth,
which inserts a second neuron; pruning removes that neuron again. The theorem is applied to
the ring of two neurons and to the pruned ring. -/
theorem neurons_stay_in_box_witness :
    (∀ y : ℚ, y < 0 → 0 ≤ libmQ.exp y ∧ libmQ.exp y ≤ 1)
    ∧ boxQ.topleft.x ≤ boxQ.bottomright.x ∧ boxQ.topleft.y ≤ boxQ.bottomright.y
    ∧ (∀ s, s ∈ samples2.samples → inBox boxQ s)
    ∧ neuralNetMake (⟨[]⟩ : Heap ℚ) boxQ = some (heapOne ⟨2, 2⟩ 0, ⟨1, 0, 1⟩)
    ∧ neuralNetTrain libmQ 7 1 (heapOne ⟨2, 2⟩ 0) ⟨1, 0, 1⟩ samples2 1
        = some (heapOne ⟨383 / 128, 383 / 128⟩ 1, ⟨1, 1, 1⟩)
    ∧ neuralNetTrain libmQ 7 0 (heapOne ⟨383 / 128, 383 / 128⟩ 1) ⟨1, 1, 1⟩ samples2 (1 / 2)
        = some (heapTwo ⟨16639 / 16384, 383 / 16384⟩, ⟨2, 0, 1⟩)
    ∧ neuralNetRemoveDoubleNeurons libmQ 7 (heapTwo ⟨16639 / 16384, 383 / 16384⟩) ⟨2, 0, 1⟩
        = some (heapTwoPruned ⟨16639 / 16384, 383 / 16384⟩, ⟨1, 0, 1⟩)
    ∧ Reachable libmQ boxQ samples2 (heapTwo ⟨16639 / 16384, 383 / 16384⟩) ⟨2, 0, 1⟩
    ∧ (∀ a, a ∈ ringAddrs (heapTwo ⟨16639 / 16384, 383 / 16384⟩) ⟨2, 0, 1⟩ →
        inBox boxQ (posOf (heapTwo ⟨16639 / 16384, 383 / 16384⟩) a))
    ∧ Reachable libmQ boxQ samples2 (heapTwoPruned ⟨16639 / 16384, 383 / 16384⟩) ⟨1, 0, 1⟩
    ∧ (∀ a, a ∈ ringAddrs (heapTwoPruned ⟨16639 / 16384, 383 / 16384⟩) ⟨1, 0, 1⟩ →
        inBox boxQ (posOf (heapTwoPruned ⟨16639 / 16384, 383 / 16384⟩) a)) := by
  have hexp : ∀ y : ℚ, y < 0 → 0 ≤ libmQ.exp y ∧ libmQ.exp y ≤ 1 := by
    intro y _
    simp only [libmQ]
    norm_num
  have hx : boxQ.topleft.x ≤ boxQ.bottomright.x := by norm_num [boxQ]
  have hy : boxQ.topleft.y ≤ boxQ.bottomright.y := by norm_num [boxQ]
  have hs : ∀ s, s ∈ samples2.samples → inBox boxQ s := by
    intro s hs
    simp only [samples2, List.mem_cons, List.mem_singleton, List.not_mem_nil, or_false] at hs
    rcases hs with rfl | rfl <;> simp only [inBox, boxQ] <;> norm_num
  have hp1 : (halfway ⟨3, 3⟩)^[7] (⟨2, 2⟩ : Vector ℚ) = ⟨383 / 128, 383 / 128⟩ := by
    rw [halfway_seven]
    congr 1 <;> norm_num
  have hp2 : (halfway ⟨1, 0⟩)^[7] (⟨383 / 128, 383 / 128⟩ : Vector ℚ)
      = ⟨16639 / 16384, 383 / 16384⟩ := by
    rw [halfway_seven]
    congr 1 <;> norm_num
  have ht1 : neuralNetTrain libmQ 7 1 (heapOne ⟨2, 2⟩ 0) ⟨1, 0, 1⟩ samples2 1
      = some (heapOne ⟨383 / 128, 383 / 128⟩ 1, ⟨1, 1, 1⟩) := by
    rw [train_heapOne ⟨2, 2⟩ ⟨3, 3⟩ 0 1 7 1 (by decide), hp1]
    rfl
  have ht2 : neuralNetTrain libmQ 7 0 (heapOne ⟨383 / 128, 383 / 128⟩ 1) ⟨1, 1, 1⟩ samples2
      (1 / 2) = some (heapTwo ⟨16639 / 16384, 383 / 16384⟩, ⟨2, 0, 1⟩) := by
    rw [← hp2]
    exact train_grow_heapOne ⟨383 / 128, 383 / 128⟩ ⟨1, 0⟩ 0 5 (1 / 2) (by decide)
  have hpr : neuralNetRemoveDoubleNeurons libmQ 7 (heapTwo ⟨16639 / 16384, 383 / 16384⟩)
      ⟨2, 0, 1⟩ = some (heapTwoPruned ⟨16639 / 16384, 383 / 16384⟩, ⟨1, 0, 1⟩) :=
    prune_heapTwo _ 0 5
  have hr2 : Reachable libmQ boxQ samples2 (heapTwo ⟨16639 / 16384, 383 / 16384⟩) ⟨2, 0, 1⟩ :=
    Reachable.train _ _ _ _ 7 0 (1 / 2)
      (Reachable.train _ _ _ _ 7 1 1 (Reachable.make ⟨[]⟩ _ _ make_boxQ) (by norm_num) ht1)
      (by norm_num) ht2
  have hr3 : Reachable libmQ boxQ samples2 (heapTwoPruned ⟨16639 / 16384, 383 / 16384⟩)
      ⟨1, 0, 1⟩ := Reachable.prune _ _ _ _ 7 hr2 hpr
  exact ⟨hexp, hx, hy, hs, make_boxQ, ht1, ht2, hpr, hr2,
    neurons_stay_in_box libmQ boxQ samples2 _ _ hexp hx hy hs hr2, hr3,
    neurons_stay_in_box libmQ boxQ samples2 _ _ hexp hx hy hs hr3⟩

end Claims

end Tspsom
